import Mathlib

/-!
# Particle tracking with N cameras: stereo matching, camera model and tracker

A shallow embedding of `Camera.h`, `Position.h`, `Calibration.cpp`, `Track.h`,
`Track.cpp` and `Tracker.cpp`, and of what `main` in
`particle-tracker-ncams.cpp` does with the number of predicted frames.

Conventions of the embedding.

* C++ `double` values are elements of an arbitrary linearly ordered field `F`.
  The operations of the two pixel conversions `Camera::UnDistort` and
  `Camera::Distort`, whose results the program stores and writes beside its
  input data, are rounded by the function `Arith.fl` of the arithmetic; all
  other operations are exact.  A statement in a section that declares an
  arithmetic holds for every arithmetic; every other statement is about exact
  arithmetic (`Arith.exact`).  Evaluations use exact arithmetic over `ℚ`, or,
  where they say so, the rounding of binary64 (`ieee`).  Every definition is
  computable once `F` is instantiated with `ℚ`.
* In a field `x / 0 = 0`, while the program gets an infinity or a NaN.  The
  pair-list construction and `Camera::Distort` test their divisors and follow
  the program (`pairlistEntry`, `Arith.nan`); the other divisions are not
  guarded, and every concrete scene is regular (`okScene`): no divisor is zero
  on it.
* `sqrt` (used by `Position::Magnitude`) is an explicit parameter `sqrt : F → F`;
  general theorems hold for every such function, evaluations use `sqrtQ`
  on inputs whose magnitudes are squares of rationals, where it is exact.
* `Frame::const_iterator` values are where-indices (`Nat`) into the frame they
  point into; two iterators into one frame are equal iff their indices are.
* The parallel deques `matchedPos`, `frame_indices`, `raydists`, `PosTouse`
  are one list of `Match` records.
* Fields that a C++ constructor leaves uninitialised are `0` in the model; no
  theorem below depends on their value.
* In the tracker, C++ `float` values are elements of `F` too; the conversion of
  a `double` to `float` is the function `Machine.toFloat`, and the contents of
  a `Position` made by `Position()` are `Machine.uninit`.  General theorems
  hold for every machine; evaluations use the identity on inputs whose
  distances are small integers or dyadic fractions.
* The map `tracks` is a partial function from track ids to tracks (the map
  owns the tracks it points to).  A read outside a container ends a run with
  the error `TrackerError.undefined`.
-/

set_option linter.unusedSectionVars false

namespace PTV

/-! ## Position.h -/

/-- The class `Position` of `Position.h`: world or image coordinates, an
orientation, the four per-camera source detections, and the residual. -/
structure Position (F : Type) where
  x : F
  y : F
  z : F
  ori : F
  x1 : F
  y1 : F
  ori1 : F
  x2 : F
  y2 : F
  ori2 : F
  x3 : F
  y3 : F
  ori3 : F
  x4 : F
  y4 : F
  ori4 : F
  info : F
  fake : Bool
deriving DecidableEq

/-- The floating-point arithmetic of the machine, as far as the model follows
it: `fl x` is the `double` that an operation with the exact result `x` returns,
and `nan` stands for a result that is infinite or not a number (it is never
compared below).  The operations of `Camera::UnDistort` and `Camera::Distort`,
whose results the program writes back beside its input data, are rounded with
`fl`; the other operations are exact. -/
class Arith (F : Type) where
  fl : F → F
  nan : F

/-- Exact arithmetic: nothing is rounded.  It is the arithmetic of every
statement that does not name another one. -/
instance (priority := low) Arith.exact {F : Type} [Zero F] : Arith F := ⟨fun x => x, 0⟩

/-- The arithmetic rounds nothing. -/
def Arith.IsExact (F : Type) [Arith F] : Prop := ∀ x : F, Arith.fl x = x

section Geometry

variable {F : Type} [LinearOrderedField F] [Arith F]

/-- Constructor `Position(NewX, NewY, NewZ)`. -/
def Position.mk3 (x y z : F) : Position F :=
  { x := x, y := y, z := z, ori := 0, x1 := 0, y1 := 0, ori1 := 0, x2 := 0, y2 := 0,
    ori2 := 0, x3 := 0, y3 := 0, ori3 := 0, x4 := 0, y4 := 0, ori4 := 0, info := 0,
    fake := false }

/-- Constructor `Position(NewX, NewY, NewZ, NewOri)`. -/
def Position.mk4 (x y z ori : F) : Position F :=
  { x := x, y := y, z := z, ori := ori, x1 := 0, y1 := 0, ori1 := 0, x2 := 0, y2 := 0,
    ori2 := 0, x3 := 0, y3 := 0, ori3 := 0, x4 := 0, y4 := 0, ori4 := 0, info := 0,
    fake := false }

/-- Constructor `Position(NewX, NewY, NewZ, Newx1, ..., NewOri4, Newinfo)`. -/
def Position.mk16 (x y z x1 y1 ori1 x2 y2 ori2 x3 y3 ori3 x4 y4 ori4 info : F) :
    Position F :=
  { x := x, y := y, z := z, ori := 0, x1 := x1, y1 := y1, ori1 := ori1, x2 := x2,
    y2 := y2, ori2 := ori2, x3 := x3, y3 := y3, ori3 := ori3, x4 := x4, y4 := y4,
    ori4 := ori4, info := info, fake := false }

instance : Inhabited (Position F) := ⟨Position.mk3 0 0 0⟩

/-- Member `Position::Magnitude2`. -/
def Position.Magnitude2 (p : Position F) : F :=
  p.x * p.x + p.y * p.y + p.z * p.z

/-- Member `Position::Magnitude`: the square root of the squared magnitude. -/
def Position.Magnitude (sqrt : F → F) (p : Position F) : F :=
  sqrt (p.x * p.x + p.y * p.y + p.z * p.z)

/-- Member `operator*=(const Position&)`: element by element multiplication of
the three coordinates, each product rounded; the other fields are kept. -/
def Position.mulEq (p right : Position F) : Position F :=
  { p with x := Arith.fl (p.x * right.x), y := Arith.fl (p.y * right.y),
           z := Arith.fl (p.z * right.z) }

/-- Member `operator/=(double)`: the three coordinates are divided. -/
def Position.divEq (p : Position F) (right : F) : Position F :=
  { p with x := p.x / right, y := p.y / right, z := p.z / right }

/-- Member `operator+=(const Position&)`. -/
def Position.addEq (p right : Position F) : Position F :=
  { p with x := p.x + right.x, y := p.y + right.y, z := p.z + right.z }

/-- Modelled from the spec: the friend `Dot` of `Position.h` is declared but its
body (`Position.cpp`) is not among the sources; it is the scalar product of the
three coordinates. -/
def Dot (left right : Position F) : F :=
  left.x * right.x + left.y * right.y + left.z * right.z

/-- Modelled from the spec: the friend `Distance` (body in the absent
`Position.cpp`) is the squared Euclidean distance, as its declaration says. -/
def Distance (p1 p2 : Position F) : F :=
  (p1.x - p2.x) * (p1.x - p2.x) + (p1.y - p2.y) * (p1.y - p2.y)
    + (p1.z - p2.z) * (p1.z - p2.z)

/-- Modelled from the spec: friend `operator+` (body in the absent
`Position.cpp`), the vector sum of the three coordinates. -/
def Position.add (l r : Position F) : Position F :=
  Position.mk3 (l.x + r.x) (l.y + r.y) (l.z + r.z)

/-- Modelled from the spec: friend `operator-` (body in the absent
`Position.cpp`), the vector difference of the three coordinates. -/
def Position.sub (l r : Position F) : Position F :=
  Position.mk3 (l.x - r.x) (l.y - r.y) (l.z - r.z)

/-- Modelled from the spec: friend `operator*(const Position&, double)` (body in
the absent `Position.cpp`), scalar multiplication of the three coordinates. -/
def Position.smul (l : Position F) (r : F) : Position F :=
  Position.mk3 (l.x * r) (l.y * r) (l.z * r)

/-- Modelled from the spec: friend `operator/(const Position&, double)` (body in
the absent `Position.cpp`), scalar division of the three coordinates. -/
def Position.sdiv (l : Position F) (r : F) : Position F :=
  Position.mk3 (l.x / r) (l.y / r) (l.z / r)

/-- Newton iteration for the integer square root of `n` from the guess `g`,
at most `fuel` steps. -/
def natSqrtIter : Nat → Nat → Nat → Nat
  | 0, _, g => g
  | fuel + 1, n, g =>
    let next := (g + n / g) / 2
    if next < g then natSqrtIter fuel n next else g

/-- Integer square root by Newton iteration from `n / 2`, at most 512 steps. -/
def natSqrt (n : Nat) : Nat :=
  if n ≤ 1 then n else natSqrtIter 512 n (n / 2)

/-- The square root used when the model is evaluated over `ℚ`: the quotient of
the integer square roots of numerator and denominator.  The scenes below are
chosen so that every magnitude taken is the square of a rational. -/
def sqrtQ (q : ℚ) : ℚ :=
  (natSqrt q.num.toNat : ℚ) / (natSqrt q.den : ℚ)

/-! ## Matrix.h (absent from the sources) -/

/-- Modelled from the spec: the class `Matrix` of the absent `Matrix.h`, a 3×3
matrix of doubles stored row-major (`Camera::Camera` fills it from nine numbers
"for R row-major"). -/
structure Matrix (F : Type) where
  m00 : F
  m01 : F
  m02 : F
  m10 : F
  m11 : F
  m12 : F
  m20 : F
  m21 : F
  m22 : F
deriving DecidableEq

/-- Modelled from the spec: the default `Matrix` of the absent `Matrix.h`, the
zero matrix onto which `WorldPosition` accumulates with `+=`. -/
def Matrix.zero : Matrix F := ⟨0, 0, 0, 0, 0, 0, 0, 0, 0⟩

/-- Modelled from the spec: the identity matrix. -/
def Matrix.identity : Matrix F := ⟨1, 0, 0, 0, 1, 0, 0, 0, 1⟩

/-- Modelled from the spec: `Matrix::operator+=` of the absent `Matrix.h`,
entrywise sum. -/
def Matrix.add (a b : Matrix F) : Matrix F :=
  ⟨a.m00 + b.m00, a.m01 + b.m01, a.m02 + b.m02,
   a.m10 + b.m10, a.m11 + b.m11, a.m12 + b.m12,
   a.m20 + b.m20, a.m21 + b.m21, a.m22 + b.m22⟩

/-- Modelled from the spec: matrix product (used to state `Rinv * R = I`). -/
def Matrix.mul (a b : Matrix F) : Matrix F :=
  ⟨a.m00 * b.m00 + a.m01 * b.m10 + a.m02 * b.m20,
   a.m00 * b.m01 + a.m01 * b.m11 + a.m02 * b.m21,
   a.m00 * b.m02 + a.m01 * b.m12 + a.m02 * b.m22,
   a.m10 * b.m00 + a.m11 * b.m10 + a.m12 * b.m20,
   a.m10 * b.m01 + a.m11 * b.m11 + a.m12 * b.m21,
   a.m10 * b.m02 + a.m11 * b.m12 + a.m12 * b.m22,
   a.m20 * b.m00 + a.m21 * b.m10 + a.m22 * b.m20,
   a.m20 * b.m01 + a.m21 * b.m11 + a.m22 * b.m21,
   a.m20 * b.m02 + a.m21 * b.m12 + a.m22 * b.m22⟩

/-- Modelled from the spec: `Matrix * Position` of the absent `Matrix.h`, the
matrix-vector product on the three coordinates. -/
def Matrix.mulVec (a : Matrix F) (p : Position F) : Position F :=
  Position.mk3 (a.m00 * p.x + a.m01 * p.y + a.m02 * p.z)
    (a.m10 * p.x + a.m11 * p.y + a.m12 * p.z)
    (a.m20 * p.x + a.m21 * p.y + a.m22 * p.z)

/-- Modelled from the spec: the determinant of a 3×3 matrix. -/
def Matrix.det (a : Matrix F) : F :=
  a.m00 * (a.m11 * a.m22 - a.m12 * a.m21)
    - a.m01 * (a.m10 * a.m22 - a.m12 * a.m20)
    + a.m02 * (a.m10 * a.m21 - a.m11 * a.m20)

/-- Modelled from the spec: `Matrix::Invert` of the absent `Matrix.h`
("3×3 matrix algebra; inversion"): the adjugate divided by the determinant. -/
def Matrix.Invert (a : Matrix F) : Matrix F :=
  let d := a.det
  ⟨(a.m11 * a.m22 - a.m12 * a.m21) / d, (a.m02 * a.m21 - a.m01 * a.m22) / d,
   (a.m01 * a.m12 - a.m02 * a.m11) / d,
   (a.m12 * a.m20 - a.m10 * a.m22) / d, (a.m00 * a.m22 - a.m02 * a.m20) / d,
   (a.m02 * a.m10 - a.m00 * a.m12) / d,
   (a.m10 * a.m21 - a.m11 * a.m20) / d, (a.m01 * a.m20 - a.m00 * a.m21) / d,
   (a.m00 * a.m11 - a.m01 * a.m10) / d⟩

/-! ## Camera.h -/

/-- The class `Camera`: the model parameters read by `Camera::Camera`. -/
structure Camera (F : Type) where
  Npixw : Int
  Npixh : Int
  wpix : F
  hpix : F
  f_eff : F
  kr : F
  kx : F
  R : Matrix F
  T : Position F
  Rinv : Matrix F
  Tinv : Position F

instance : Inhabited (Camera F) :=
  ⟨⟨0, 0, 0, 0, 0, 0, 0, Matrix.zero, default, Matrix.zero, default⟩⟩

/-- Member `Camera::Center`: the projective centre is `Tinv`. -/
def Camera.Center (c : Camera F) : Position F := c.Tinv

/-- Member `Camera::UnDistort`.  `Npixw/2` and `Npixh/2` are C++ `int`
divisions (truncating) whose result is converted to `double`; the subtraction,
the addition and the products of `operator*=` are rounded. -/
def Camera.UnDistort (c : Camera F) (p : Position F) : Position F :=
  let centered : Position F :=
    Position.mk4 (Arith.fl (p.x - ((Int.tdiv c.Npixw 2 : Int) : F)))
      (Arith.fl (-p.y + ((Int.tdiv c.Npixh 2 : Int) : F))) p.z p.ori
  let centered := centered.mulEq (Position.mk4 c.wpix c.hpix 1 1)
  Position.mk4 centered.x centered.y centered.z p.ori

/-- Member `Camera::Distort`.  The quotients `1.0 / wpix` and `1.0 / hpix`, the
products of `operator*=`, the addition, the subtraction and the product with
`-1.0` are rounded.  With a zero pitch the quotient is infinite, and the
coordinate made from it is infinite or not a number: `Arith.nan`. -/
def Camera.Distort (c : Camera F) (p : Position F) : Position F :=
  let pixelcoords : Position F := p
  let pixelcoords := pixelcoords.mulEq
    (Position.mk4 (Arith.fl (1 / c.wpix)) (Arith.fl (1 / c.hpix)) 1 1)
  Position.mk4
    (if c.wpix = 0 then Arith.nan
      else Arith.fl (pixelcoords.x + ((Int.tdiv c.Npixw 2 : Int) : F)))
    (if c.hpix = 0 then Arith.nan
      else Arith.fl (-1 * Arith.fl (pixelcoords.y - ((Int.tdiv c.Npixh 2 : Int) : F))))
    p.z p.ori

/-- Member `Camera::ImageToWorld`. -/
def Camera.ImageToWorld (c : Camera F) (p : Position F) : Position F :=
  let pp : Position F := Position.mk3 p.x p.y p.z
  let tmp : Position F := (pp.smul c.T.z).sdiv c.f_eff
  let proj : Position F := Position.mk3 tmp.x tmp.y c.T.z
  let tmpi : Position F := c.Rinv.mulVec (proj.sub c.T)
  Position.mk4 tmpi.x tmpi.y tmpi.z p.ori

/-- Member `Camera::WorldToImage`. -/
def Camera.WorldToImage (c : Camera F) (p : Position F) : Position F :=
  let pp : Position F := Position.mk3 p.x p.y p.z
  let proj : Position F := (c.R.mulVec pp).add c.T
  let tmpi : Position F := proj.smul (c.f_eff / proj.z)
  Position.mk4 tmpi.x tmpi.y tmpi.z p.ori

/-- The depth `proj.Z()` by which `Camera::WorldToImage` divides. -/
def Camera.depth (c : Camera F) (p : Position F) : F :=
  ((c.R.mulVec (Position.mk3 p.x p.y p.z)).add c.T).z

end Geometry

/-! ## Frame.h (absent from the sources) and Calibration.h -/

/-- Modelled from the spec: the class `Frame` of the absent `Frame.h`, an
ordered sequence of positions (`Frame.cpp` reads its member `pos`); the
where-index of an iterator is the position in this sequence. -/
structure Frame (F : Type) where
  pos : List (Position F)

instance {F : Type} : Inhabited (Frame F) := ⟨⟨[]⟩⟩

/-- Modelled from the spec: `Frame::NumParticles` of the absent `Frame.h`. -/
def Frame.NumParticles {F : Type} (f : Frame F) : Nat := f.pos.length

/-- The data members of the class `Calibration` that `Stereomatch` reads.  The
member `ncams` is the number of cameras read by the constructor; the member
`mcam` is passed explicitly to the functions that read it. -/
structure Calibration (F : Type) where
  cams : List (Camera F)
  mindist_2D : F
  mindist_3D : F

/-- The member `ncams`: the constructor pushes exactly `ncams` cameras. -/
def Calibration.ncams {F : Type} (cal : Calibration F) : Nat := cal.cams.length

/-- One accepted candidate: the entries pushed together onto the parallel
deques `matchedPos`, `frame_indices`, `raydists` and `PosTouse` (and their
`...3` counterparts).  `mcam` records the pass that produced it (`-1` for the
full pass); the algorithm never reads it. -/
structure Match (F : Type) where
  pos : Position F
  indices : List Nat
  raydist : F
  touse : List (Position F)
  mcam : Int

/-- What one call of `Stereomatch` produces: the returned frame `goodPos` and
the 17-column rows written to `outfile`. -/
structure StereoResult (F : Type) where
  frame : Frame F
  rows : List (List F)

/-- The exception type thrown by `Stereomatch` and `WorldPosition`. -/
inductive StereoError where
  | runtime_error
deriving DecidableEq

section Stereo

variable {F : Type} [LinearOrderedField F] [Arith F]

instance : Inhabited (Match F) := ⟨⟨default, [], 0, [], -1⟩⟩

/-- Inline member `Calibration::m_pos`: `Position(mcam, mcam, mcam, mcam)`. -/
def m_pos (mcam : Int) : Position F :=
  Position.mk4 (mcam : F) (mcam : F) (mcam : F) (mcam : F)

/-- Step 1 of `Stereomatch` (lines 105-114): every detection of camera `i` is
undistorted with camera `i`. -/
def corrframes (cal : Calibration F) (iframes : List (Frame F)) : List (Frame F) :=
  List.zipWith (fun c f => Frame.mk (f.pos.map c.UnDistort)) cal.cams iframes

/-- The detection with where-index `a` of camera `i`. -/
def detAt (frames : List (Frame F)) (i a : Nat) : Position F :=
  (frames.getD i default).pos.getD a default

/-- One of the divisions made for `pairlists[i][a][k]` has a zero divisor:
`f_eff` of camera `i` in `ImageToWorld`, the depth in camera `k` of the centre
of camera `i` or of the world point of the detection in `WorldToImage`, or the
length of the line of sight. -/
def pairlistUndefined (sqrt : F → F) (cal : Calibration F) (corr : List (Frame F))
    (i a k : Nat) : Bool :=
  let pAworld := (cal.cams.getD i default).ImageToWorld (detAt corr i a)
  let center := (cal.cams.getD k default).WorldToImage (cal.cams.getD i default).Center
  let particle := (cal.cams.getD k default).WorldToImage pAworld
  decide ((cal.cams.getD i default).f_eff = 0) ||
    decide ((cal.cams.getD k default).depth (cal.cams.getD i default).Center = 0) ||
    decide ((cal.cams.getD k default).depth pAworld = 0) ||
    decide ((particle.sub center).Magnitude sqrt = 0)

/-- The body of the `k` loop of step 2 (lines 136-173) for detection `a` of
camera `i`: the where-indices on camera `k` pushed onto `pairlists[i][a][k]`.
When a divisor is zero (`pairlistUndefined`) a `z` coordinate or the whole unit
vector is not a number (`0 * inf`, `0 / 0`) or infinite, `Dot(pBline, perpdir)`
is infinite or not a number, and the test `abs(...) < mindist_2D` is false for
every detection: nothing is pushed. -/
def pairlistEntry (sqrt : F → F) (cal : Calibration F) (corr : List (Frame F))
    (i a k : Nat) : List Nat :=
  if i = k then []
  else if pairlistUndefined sqrt cal corr i a k then []
  else
    let pA := detAt corr i a
    let pAworld := (cal.cams.getD i default).ImageToWorld pA
    let center := (cal.cams.getD k default).WorldToImage (cal.cams.getD i default).Center
    let particle := (cal.cams.getD k default).WorldToImage pAworld
    let lineofsight := particle.sub center
    let lineofsight := lineofsight.divEq (lineofsight.Magnitude sqrt)
    let perpdir : Position F := Position.mk3 lineofsight.y (-lineofsight.x) 0
    (List.range (corr.getD k default).NumParticles).filter fun b =>
      let pBline := (detAt corr k b).sub center
      decide (|Dot pBline perpdir| < cal.mindist_2D)

/-- Step 2 of `Stereomatch` (lines 125-175): the three-level table
`pairlists[i][a][k]`. -/
def pairlists (sqrt : F → F) (cal : Calibration F) (corr : List (Frame F)) :
    List (List (List (List Nat))) :=
  (List.range cal.ncams).map fun i =>
    (List.range (corr.getD i default).NumParticles).map fun a =>
      (List.range cal.ncams).map fun k => pairlistEntry sqrt cal corr i a k

/-- The list `pairlists[i][a][k]`. -/
def plist (P : List (List (List (List Nat)))) (i a k : Nat) : List Nat :=
  ((P.getD i []).getD a []).getD k []

/-! ### Step 3: the full matcher -/

/-- The quick check on the anchor (lines 193-201): `ncams_missing`. -/
def ncams_missing (P : List (List (List (List Nat)))) (ncams p0 : Nat) : Nat :=
  ((List.range' 1 (ncams - 1)).filter fun i => (plist P 0 p0 i).length == 0).length

/-- The flag `toNextp` (lines 224-230): some list of `p` toward a later camera
is empty. -/
def toNextp (P : List (List (List (List Nat)))) (ncams i p : Nat) : Bool :=
  (List.range' (i + 1) (ncams - (i + 1))).any fun j => (plist P i p j).length == 0

/-- The flag `canAdd` (lines 235-254): for every earlier camera `j`, the
tuple's detection on `j` is on `p`'s list and `p` is on its list. -/
def canAdd (P : List (List (List (List Nat)))) (i : Nat) (tm : List Nat) (p : Nat) : Bool :=
  (List.range i).all fun j =>
    decide (tm.getD j 0 ∈ plist P i p j) && decide (p ∈ plist P j (tm.getD j 0) i)

/-- One iteration of the camera loop (lines 211-264): every point set that is
present when the iteration starts and is not too small is extended by every
admissible detection of camera `i`; the extensions are pushed at the end. -/
def extendCam (P : List (List (List (List Nat)))) (corr : List (Frame F))
    (ncams i : Nat) (toMatch : List (List Nat)) : List (List Nat) :=
  toMatch ++ toMatch.flatMap fun tm =>
    if tm.length < i then []
    else
      ((List.range (corr.getD i default).NumParticles).filter fun p =>
        !toNextp P ncams i p && canAdd P i tm p).map fun p => tm ++ [p]

/-- The vector `toMatch` after the camera loop for anchor `p0`. -/
def toMatch (P : List (List (List (List Nat)))) (corr : List (Frame F))
    (ncams p0 : Nat) : List (List Nat) :=
  (List.range' 1 (ncams - 1)).foldl (fun tm i => extendCam P corr ncams i tm) [[p0]]

/-- The point sets of anchor `p0` that reach the call of `WorldPosition`
(lines 203-205 and 266-280): none when the quick check rejects the anchor,
otherwise the entries of `toMatch` that are not too small. -/
def submitted (P : List (List (List (List Nat)))) (corr : List (Frame F))
    (ncams p0 : Nat) : List (List Nat) :=
  if ncams_missing P ncams p0 > 0 then []
  else (toMatch P corr ncams p0).filter fun tm => !decide (tm.length < ncams)

/-! ### WorldPosition -/

/-- The cameras that contribute a ray: all `i < ncams` with `i != mcam`. -/
def usedCams (cal : Calibration F) (mcam : Int) : List Nat :=
  (List.range cal.ncams).filter fun i => !decide ((i : Int) = mcam)

/-- The unit line of sight `sight[ic]` of camera `i` (lines 883-885). -/
def sight (sqrt : F → F) (cal : Calibration F) (ipos : List (Position F)) (i : Nat) :
    Position F :=
  let s := ((cal.cams.getD i default).ImageToWorld (ipos.getD i default)).sub
    (cal.cams.getD i default).Center
  s.divEq (s.Magnitude sqrt)

/-- The matrix `tmp` of lines 890-899: `I - s sᵀ`. -/
def projector (s : Position F) : Matrix F :=
  ⟨1 - s.x * s.x, -s.x * s.y, -s.x * s.z,
   -s.y * s.x, 1 - s.y * s.y, -s.y * s.z,
   -s.z * s.x, -s.z * s.y, 1 - s.z * s.z⟩

/-- The accumulated matrix `M` (line 902). -/
def sumM (sqrt : F → F) (cal : Calibration F) (mcam : Int) (ipos : List (Position F)) :
    Matrix F :=
  (usedCams cal mcam).foldl (fun M i => M.add (projector (sight sqrt cal ipos i)))
    Matrix.zero

/-- The accumulated vector `P` (line 901). -/
def sumP (sqrt : F → F) (cal : Calibration F) (mcam : Int) (ipos : List (Position F)) :
    Position F :=
  (usedCams cal mcam).foldl
    (fun P i => P.addEq ((projector (sight sqrt cal ipos i)).mulVec
      (cal.cams.getD i default).Center))
    (Position.mk3 0 0 0)

/-- The vector `h` of line 917: the perpendicular from the line of sight of
camera `i` to `worldpos`. -/
def perpVec (sqrt : F → F) (cal : Calibration F) (ipos : List (Position F))
    (worldpos : Position F) (i : Nat) : Position F :=
  let s := sight sqrt cal ipos i
  let c := (cal.cams.getD i default).Center
  (worldpos.sub (s.smul (Dot worldpos s))).sub (c.sub (s.smul (Dot c s)))

/-- The body of `WorldPosition` after its guard (lines 871-924), for the value
`mcam` of the member of that name: the pair of the residual and the world
position that carries the four source detections and the residual. -/
def WorldPositionBody (sqrt : F → F) (cal : Calibration F) (mcam : Int)
    (ipos : List (Position F)) : F × Position F :=
  let ncams_missing : Nat := if mcam = -1 then 0 else 1
  let M := sumM sqrt cal mcam ipos
  let P := sumP sqrt cal mcam ipos
  let tmpi := M.Invert.mulVec P
  let worldpos := M.Invert.mulVec P
  let dist := (usedCams cal mcam).foldl
    (fun dist i => dist + (perpVec sqrt cal ipos worldpos i).Magnitude2) 0
  let dist := dist / (((cal.ncams : Int) - (ncams_missing : Int) : Int) : F)
  let c0 := cal.cams.getD 0 default
  let c1 := cal.cams.getD 1 default
  let c2 := cal.cams.getD 2 default
  let c3 := cal.cams.getD 3 default
  let p0 := ipos.getD 0 default
  let p1 := ipos.getD 1 default
  let p2 := ipos.getD 2 default
  let p3 := ipos.getD 3 default
  (dist, Position.mk16 tmpi.x tmpi.y tmpi.z
    (c0.Distort p0).x (c0.Distort p0).y p0.ori
    (c1.Distort p1).x (c1.Distort p1).y p1.ori
    (c2.Distort p2).x (c2.Distort p2).y p2.ori
    (c3.Distort p3).x (c3.Distort p3).y p3.ori dist)

/-- The member function `Calibration::WorldPosition`, for the value `mcam` of
the member of that name: it throws when no camera is skipped and the number of
positions differs from the number of cameras. -/
def WorldPosition (sqrt : F → F) (cal : Calibration F) (mcam : Int)
    (ipos : List (Position F)) : Except StereoError (F × Position F) :=
  if mcam = -1 ∧ ipos.length ≠ cal.cams.length then Except.error StereoError.runtime_error
  else Except.ok (WorldPositionBody sqrt cal mcam ipos)

/-! ### Step 3, continued: triangulation and pruning of the full matches -/

/-- Lines 274-290 for one full point set `tm`: the positions are triangulated
and the match is kept when the residual is below `mindist_3D * mindist_3D`.
`PosToMatch` has `ncams` entries, so the guard of `WorldPosition` cannot fire
here and its body is used directly. -/
def matchFull (sqrt : F → F) (cal : Calibration F) (corr : List (Frame F))
    (tm : List Nat) : List (Match F) :=
  let PosToMatch := (List.range cal.ncams).map fun i => detAt corr i (tm.getD i 0)
  let indices := (List.range cal.ncams).map fun i => tm.getD i 0
  let wpos := WorldPositionBody sqrt cal (-1) PosToMatch
  if wpos.1 < cal.mindist_3D * cal.mindist_3D then
    [{ pos := wpos.2, indices := indices, raydist := wpos.1, touse := PosToMatch,
       mcam := -1 }]
  else []

/-- The deques `matchedPos`, `frame_indices`, `raydists`, `PosTouse` after the
anchor loop (lines 189-292). -/
def matchedPos (sqrt : F → F) (cal : Calibration F) (corr : List (Frame F)) :
    List (Match F) :=
  let P := pairlists sqrt cal corr
  (List.range (corr.getD 0 default).NumParticles).flatMap fun p0 =>
    (submitted P corr cal.ncams p0).flatMap fun tm => matchFull sqrt cal corr tm

/-- The inner loop of the pruning (lines 301-318 and 633-652) for point `i`
over the later points `js`: a later point `j` that shares a detection is thrown
out when `min < raydists[j]`; otherwise `i` is thrown out and the loop is
left.  (`min` is only reassigned immediately before the `break`.) -/
def pruneInner (flag : Nat → Nat → Bool) (ray : Nat → F) (i : Nat) (min : F) :
    List Nat → List Nat → List Nat
  | [], bad => bad
  | j :: js, bad =>
    if flag i j then
      if min < ray j then pruneInner flag ray i min js (bad ++ [j])
      else bad ++ [i]
    else pruneInner flag ray i min js bad

/-- The pruning loop (lines 294-319 and 625-653) over `n` points: the deque
`bad`.  A point already thrown out is skipped. -/
def prune (flag : Nat → Nat → Bool) (ray : Nat → F) (n : Nat) : List Nat :=
  (List.range n).foldl
    (fun bad i =>
      if i ∈ bad then bad
      else pruneInner flag ray i (ray i) (List.range' (i + 1) (n - (i + 1))) bad)
    []

/-- The flag of lines 302-305: the points `i` and `j` of `ms` have the same
where-index in one of the first `nslots` slots of `frame_indices`. -/
def sharesIndex (ms : List (Match F)) (nslots i j : Nat) : Bool :=
  (List.range nslots).any fun k =>
    ((ms.getD i default).indices.getD k 0) == ((ms.getD j default).indices.getD k 0)

/-- The residual `raydists[i]`. -/
def rayAt (ms : List (Match F)) (i : Nat) : F := (ms.getD i default).raydist

/-- The deque `bad` of the full pass (lines 294-319). -/
def bad (cal : Calibration F) (ms : List (Match F)) : List Nat :=
  prune (sharesIndex ms cal.ncams) (rayAt ms) ms.length

/-- The entries of `ms` whose index is not on `bad` (the copy loops of lines
328-392 and 683-705). -/
def keepGood (ms : List (Match F)) (bad : List Nat) : List (Match F) :=
  (ms.enum.filter fun e => !decide (e.1 ∈ bad)).map Prod.snd

/-- The row written for one match (lines 340-374 and 800-834): the frame
number, the world point, the residual `ray`, and for each of the cameras 0..3
the re-distorted `x`, `y` and the orientation of its source detection. -/
def row (cal : Calibration F) (framenumber : Int) (m : Match F) (ray : F) : List F :=
  let d := fun (k : Nat) => (cal.cams.getD k default).Distort (m.touse.getD k default)
  [(framenumber : F), m.pos.x, m.pos.y, m.pos.z, ray,
   (d 0).x, (d 0).y, (d 0).ori, (d 1).x, (d 1).y, (d 1).ori,
   (d 2).x, (d 2).y, (d 2).ori, (d 3).x, (d 3).y, (d 3).ori]

/-! ### Step 4: the degraded matcher (one camera `mcam` skipped)

For four cameras the point sets of this pass hold their detections in
increasing camera order (the anchor camera `icam` is the lowest camera other
than `mcam`), so slot `tm_count` of a point set is its detection on the
`tm_count`-th camera other than `mcam`. -/

/-- The test of lines 433-439 and 489-494: the undistorted `X` and `Y` of `p`
equal those of an entry of `goodPosTouse[cam]`. -/
def alreadyUsed (good : List (Match F)) (cam : Nat) (p : Position F) : Bool :=
  good.any fun g =>
    decide ((g.touse.getD cam default).x = p.x) && decide ((g.touse.getD cam default).y = p.y)

/-- Quick check 2 on the anchor (lines 444-451): a list of `picam` toward a
camera other than `mcam` and `icam` is empty. -/
def picamMissing (P : List (List (List (List Nat)))) (ncams mcam icam picam : Nat) : Bool :=
  (List.range ncams).any fun i =>
    !(i == mcam || i == icam) && (plist P icam picam i).length == 0

/-- The flag `toNextpi` (lines 488-504). -/
def toNextpi (P : List (List (List (List Nat)))) (corr : List (Frame F))
    (good : List (Match F)) (ncams mcam i pi : Nat) : Bool :=
  alreadyUsed good i (detAt corr i pi) ||
    (List.range ncams).any fun j => !(j == i || j == mcam) && (plist P i pi j).length == 0

/-- The flag `canAdd` of the degraded pass (lines 511-547): the cameras `j`
other than `i` and `mcam` are visited in increasing order with the counter
`tm_count`; when `s == 1` the loop is left after the first of them. -/
def canAdd3 (P : List (List (List (List Nat)))) (ncams mcam i s : Nat) (tm : List Nat)
    (pi : Nat) : Bool :=
  let js := (List.range ncams).filter fun j => !(j == i || j == mcam)
  let js := if s = 1 then js.take 1 else js
  js.enum.all fun e =>
    decide (tm.getD e.1 0 ∈ plist P i pi e.2) && decide (pi ∈ plist P e.2 (tm.getD e.1 0) i)

/-- One iteration of the camera loop of the degraded pass (lines 475-558) for
camera `i` and the value `cam_count` of the counter. -/
def extendCam3 (P : List (List (List (List Nat)))) (corr : List (Frame F))
    (good : List (Match F)) (ncams mcam i cam_count : Nat) (toMatch3 : List (List Nat)) :
    List (List Nat) :=
  let s := toMatch3.length
  toMatch3 ++ toMatch3.flatMap fun tm =>
    if tm.length < cam_count then []
    else
      ((List.range (corr.getD i default).NumParticles).filter fun pi =>
        !toNextpi P corr good ncams mcam i pi && canAdd3 P ncams mcam i s tm pi).map
        fun pi => tm ++ [pi]

/-- The vector `toMatch3` after the camera loop (lines 461-559) for the anchor
`picam` on camera `icam`. -/
def toMatch3 (P : List (List (List (List Nat)))) (corr : List (Frame F))
    (good : List (Match F)) (ncams mcam icam picam : Nat) : List (List Nat) :=
  (((List.range ncams).filter fun i => !(i == mcam || i == icam)).foldl
    (fun st i => (st.1 + 1, extendCam3 P corr good ncams mcam i (st.1 + 1) st.2))
    (0, [[picam]])).2

/-- Lines 570-618 for one point set `tm` of the pass that skips `mcam`: slot
`mcam` holds `m_pos()` for the triangulation and `UnDistort(m_pos())` in
`PosTouse3`; the counter `ic` of a camera `i != mcam` is `i` below `mcam` and
`i - 1` above it. -/
def matchDegraded (sqrt : F → F) (cal : Calibration F) (corr : List (Frame F))
    (mcam : Nat) (tm : List Nat) : List (Match F) :=
  let ic := fun (i : Nat) => if i < mcam then i else i - 1
  let PosToMatch3 := (List.range cal.ncams).map fun i =>
    if i = mcam then m_pos (mcam : Int) else detAt corr i (tm.getD (ic i) 0)
  let indices3 := ((List.range cal.ncams).filter fun i => !(i == mcam)).map fun i =>
    tm.getD (ic i) 0
  let wpos := WorldPositionBody sqrt cal (mcam : Int) PosToMatch3
  if wpos.1 < cal.mindist_3D * cal.mindist_3D then
    [{ pos := wpos.2, indices := indices3, raydist := wpos.1,
       touse := (List.range cal.ncams).map fun i =>
         if i = mcam then (cal.cams.getD i default).UnDistort (m_pos (mcam : Int))
         else detAt corr i (tm.getD (ic i) 0),
       mcam := (mcam : Int) }]
  else []

/-- The deques `matchedPos3`, `frame_indices3`, `raydists3`, `PosTouse3` of the
pass that skips `mcam` (lines 420-619).  The `break` of line 708 ends the
`icam` loop after its first iteration that is not skipped, so the anchor camera
is the first camera other than `mcam`. -/
def matchedPos3 (sqrt : F → F) (cal : Calibration F) (corr : List (Frame F))
    (good : List (Match F)) (mcam : Nat) : List (Match F) :=
  let P := pairlists sqrt cal corr
  match (List.range cal.ncams).filter fun icam => !(icam == mcam) with
  | [] => []
  | icam :: _ =>
    (List.range (corr.getD icam default).NumParticles).flatMap fun picam =>
      if alreadyUsed good icam (detAt corr icam picam) then []
      else if picamMissing P cal.ncams mcam icam picam then []
      else
        ((toMatch3 P corr good cal.ncams mcam icam picam).filter fun tm =>
          !decide (tm.length < cal.ncams - 1)).flatMap fun tm =>
          matchDegraded sqrt cal corr mcam tm

/-- The flags of lines 666-672: `flagX || flagY` for a degraded match and a
kept full match. -/
def sharesCoordFull (ncams : Nat) (m3 g : Match F) : Bool :=
  let flagX := (List.range ncams).any fun k =>
    decide ((m3.touse.getD k default).x = (g.touse.getD k default).x)
  let flagY := (List.range ncams).any fun k =>
    decide ((m3.touse.getD k default).y = (g.touse.getD k default).y)
  flagX || flagY

/-- The deque `bad3` of one pass: the pruning of lines 625-653 on the first
`ncams - 1` slots of `frame_indices3`, then the comparison with the kept full
matches (lines 656-677). -/
def bad3 (cal : Calibration F) (ms3 good : List (Match F)) : List Nat :=
  let b := prune (sharesIndex ms3 (cal.ncams - 1)) (rayAt ms3) ms3.length
  (List.range ms3.length).foldl
    (fun b i =>
      if i ∈ b then b
      else good.foldl
        (fun b g => if sharesCoordFull cal.ncams (ms3.getD i default) g then b ++ [i] else b) b)
    b

/-- The vectors `goodPos3cams` / `goodPosTouse3cams` (first component) and
`raydists3cams` (second component, the unpruned `raydists3` of the pass),
lines 411-715. -/
def goodPos3cams (sqrt : F → F) (cal : Calibration F) (corr : List (Frame F))
    (good : List (Match F)) : List (List (Match F) × List F) :=
  (List.range cal.ncams).map fun mcam =>
    let ms3 := matchedPos3 sqrt cal corr good mcam
    (keepGood ms3 (bad3 cal ms3 good), ms3.map fun m => m.raydist)

/-- The concatenated `goodPos3` / `goodPosTouse3` of lines 717-740. -/
def goodPos3 (per : List (List (Match F) × List F)) : List (Match F) :=
  per.flatMap fun e => e.1

/-- The concatenated `raydists3` of lines 719-726: for every pass, as many
leading entries of its `raydists3cams` as it has kept matches. -/
def raydists3 (per : List (List (Match F) × List F)) : List F :=
  per.flatMap fun e => e.2.take e.1.length

/-- The flags of lines 756-766 for the points `i` and `j` of the concatenated
list: cameras `k` whose slot of point `i` has orientation `k` are skipped. -/
def sharesCoord3 (gs : List (Match F)) (ncams i j : Nat) : Bool :=
  let ks := (List.range ncams).filter fun k =>
    !decide (((gs.getD i default).touse.getD k default).ori = (k : F))
  let flagX := ks.any fun k =>
    decide (((gs.getD i default).touse.getD k default).x
      = ((gs.getD j default).touse.getD k default).x)
  let flagY := ks.any fun k =>
    decide (((gs.getD i default).touse.getD k default).y
      = ((gs.getD j default).touse.getD k default).y)
  flagX || flagY

/-- The inner loop of lines 751-778: as `pruneInner`, but a point `j` already
on `bad3cams` is skipped. -/
def pruneInner3 (flag : Nat → Nat → Bool) (ray : Nat → F) (i : Nat) (min : F) :
    List Nat → List Nat → List Nat
  | [], bad => bad
  | j :: js, bad =>
    if j ∈ bad then pruneInner3 flag ray i min js bad
    else if flag i j then
      if min < ray j then pruneInner3 flag ray i min js (bad ++ [j])
      else bad ++ [i]
    else pruneInner3 flag ray i min js bad

/-- The deque `bad3cams` (lines 747-779); the outer loop does not skip points
that are already on it. -/
def bad3cams (cal : Calibration F) (gs : List (Match F)) (rays : List F) : List Nat :=
  (List.range gs.length).foldl
    (fun bad i =>
      pruneInner3 (sharesCoord3 gs cal.ncams) (fun j => rays.getD j 0) i (rays.getD i 0)
        (List.range' (i + 1) (gs.length - (i + 1))) bad)
    []

/-! ### Stereomatch -/

/-- The kept full matches `goodPos` / `goodPosTouse` (lines 322-392). -/
def goodFull (sqrt : F → F) (cal : Calibration F) (iframes : List (Frame F)) :
    List (Match F) :=
  let corr := corrframes cal iframes
  let ms := matchedPos sqrt cal corr
  keepGood ms (bad cal ms)

/-- The degraded matches that are written (lines 787-836), each with the entry
of the concatenated `raydists3` that is written with it. -/
def emittedDegraded (sqrt : F → F) (cal : Calibration F) (iframes : List (Frame F)) :
    List (Match F × F) :=
  let corr := corrframes cal iframes
  let per := goodPos3cams sqrt cal corr (goodFull sqrt cal iframes)
  let gs := goodPos3 per
  let rays := raydists3 per
  let b := bad3cams cal gs rays
  (gs.enum.filter fun e => !decide (e.1 ∈ b)).map fun e => (e.2, rays.getD e.1 0)

/-- The member function `Calibration::Stereomatch`. -/
def Stereomatch (sqrt : F → F) (cal : Calibration F) (iframes : List (Frame F))
    (framenumber : Int) : Except StereoError (StereoResult F) :=
  if iframes.length ≠ cal.cams.length then Except.error StereoError.runtime_error
  else
    let good := goodFull sqrt cal iframes
    let deg := emittedDegraded sqrt cal iframes
    Except.ok
      { frame := Frame.mk (good.map (fun m => m.pos) ++ deg.map (fun e => e.1.pos)),
        rows := good.map (fun m => row cal framenumber m m.raydist)
          ++ deg.map (fun e => row cal framenumber e.1 e.2) }

end Stereo

/-! ## Specification predicates -/

section Predicates

variable {F : Type}

/-- The point sets after the first `m` iterations of the camera loop. -/
def stage (P : List (List (List (List Nat)))) (corr : List (Frame F))
    (ncams p0 m : Nat) : List (List Nat) :=
  (List.range' 1 m).foldl (fun tm i => extendCam P corr ncams i tm) [[p0]]

/-- Pairwise mutual consistency of a point set: for any two different slots,
the detection of the one is on the pair-list of the other. -/
def PairOK (P : List (List (List (List Nat)))) (tm : List Nat) : Prop :=
  ∀ a b, a < tm.length → b < tm.length → a ≠ b →
    tm.getD b 0 ∈ plist P a (tm.getD a 0) b

/-- Every slot `a` of the point set holds a where-index of camera `a`. -/
def InRange (corr : List (Frame F)) (tm : List Nat) : Prop :=
  ∀ a, a < tm.length → tm.getD a 0 < (corr.getD a default).NumParticles

/-- The where-index of the detection of camera `k` that a match uses: slot `k`
of `frame_indices` for a full match; for a match of the pass that skips `mcam`,
nothing on camera `mcam` and the slot counted without `mcam` otherwise. -/
def Match.whereIndex (m : Match F) (k : Nat) : Option Nat :=
  if m.mcam = -1 then m.indices[k]?
  else if (k : Int) = m.mcam then none
  else if (k : Int) < m.mcam then m.indices[k]?
  else m.indices[k - 1]?

/-- The rows written by a call that returned normally (none after a throw). -/
def rowsOf (r : Except StereoError (StereoResult F)) : List (List F) :=
  match r with
  | Except.ok res => res.rows
  | Except.error _ => []

end Predicates

section EpipolarPredicates

variable {F : Type} [LinearOrderedField F] [Arith F]

/-- The image on camera `k` of the projective centre of camera `i`
(`center = WorldToImage_k(Center_i)` in the words of the claim). -/
def epipoleOn (cal : Calibration F) (i k : Nat) : Position F :=
  (cal.cams.getD k default).WorldToImage (cal.cams.getD i default).Center

/-- The normalised difference `l` between the image on camera `k` of the world
point of detection `a` of camera `i` and `center`. -/
def epipolarDir (sqrt : F → F) (cal : Calibration F) (corr : List (Frame F))
    (i a k : Nat) : Position F :=
  let d := ((cal.cams.getD k default).WorldToImage
    ((cal.cams.getD i default).ImageToWorld (detAt corr i a))).sub (epipoleOn cal i k)
  d.divEq (d.Magnitude sqrt)

/-- The difference `WorldToImage_k(ImageToWorld_i(a)) - center` before it is
normalised. -/
def epipolarDiff (cal : Calibration F) (corr : List (Frame F)) (i a k : Nat) : Position F :=
  ((cal.cams.getD k default).WorldToImage
    ((cal.cams.getD i default).ImageToWorld (detAt corr i a))).sub (epipoleOn cal i k)

/-- The vector `l` is the normalised `d`: it has length 1 and `d` is a positive
multiple of it. -/
def Position.IsUnitOf (l d : Position F) : Prop :=
  l.Magnitude2 = 1 ∧ ∃ t : F, 0 < t ∧ d.x = t * l.x ∧ d.y = t * l.y ∧ d.z = t * l.z

/-- The vector `perpdir = (l.Y, -l.X, 0)`. -/
def epipolarPerp (sqrt : F → F) (cal : Calibration F) (corr : List (Frame F))
    (i a k : Nat) : Position F :=
  Position.mk3 (epipolarDir sqrt cal corr i a k).y (-(epipolarDir sqrt cal corr i a k).x) 0

/-- The match produced by the pass that skips camera 2 from the detections 0 of
the cameras 0, 1 and 3. -/
def fallbackMatch (sqrt : F → F) (cal : Calibration F) (corr : List (Frame F)) : Match F :=
  { pos := (WorldPositionBody sqrt cal 2
      [detAt corr 0 0, detAt corr 1 0, m_pos 2, detAt corr 3 0]).2,
    indices := [0, 0, 0],
    raydist := (WorldPositionBody sqrt cal 2
      [detAt corr 0 0, detAt corr 1 0, m_pos 2, detAt corr 3 0]).1,
    touse := [detAt corr 0 0, detAt corr 1 0,
      (cal.cams.getD 2 default).UnDistort (m_pos 2), detAt corr 3 0],
    mcam := 2 }

end EpipolarPredicates

/-! ## Concrete scenes on which the model is evaluated

All scenes use cameras with `R = Rinv = I`, `f_eff = 1`, unit pixel pitch and
`Npixw = Npixh = 0` unless said otherwise; every length that occurs is the
square root of a square of a rational (`okScene`, `scenes_regular`). -/

section Scenes

/-- A camera at `(cx, 0, cz)` looking along `+z`. -/
def camAt (cx cz : ℚ) : Camera ℚ :=
  { Npixw := 0, Npixh := 0, wpix := 1, hpix := 1, f_eff := 1, kr := 0, kx := 0,
    R := Matrix.identity, T := Position.mk3 (-cx) 0 (-cz), Rinv := Matrix.identity,
    Tinv := Position.mk3 cx 0 cz }

/-- A camera with an odd number of pixel columns and rows. -/
def camOdd : Camera ℚ :=
  { Npixw := 1281, Npixh := 1023, wpix := 1 / 50, hpix := 1 / 40, f_eff := 35, kr := 0,
    kx := 1, R := Matrix.identity, T := Position.mk3 0 0 500, Rinv := Matrix.identity,
    Tinv := Position.mk3 0 0 (-500) }

/-- Four cameras on the `z` axis, 5, 9, 16 and 35 below the plane `z = 0`. -/
def calAxis : Calibration ℚ :=
  { cams := [camAt 0 (-5), camAt 0 (-9), camAt 0 (-16), camAt 0 (-35)],
    mindist_2D := 1 / 100, mindist_3D := 1 / 100 }

/-- One particle at `(36/5, -48/5, 0)` seen by all four cameras of `calAxis`. -/
def framesOne : List (Frame ℚ) :=
  [⟨[Position.mk4 (36 / 25) (48 / 25) 0 0]⟩, ⟨[Position.mk4 (4 / 5) (16 / 15) 0 0]⟩,
   ⟨[Position.mk4 (9 / 20) (3 / 5) 0 0]⟩, ⟨[Position.mk4 (36 / 175) (48 / 175) 0 0]⟩]

/-- The particle of `framesOne` and a second particle at `(12, 0, 0)` that
camera 2 does not see. -/
def framesTwo : List (Frame ℚ) :=
  [⟨[Position.mk4 (36 / 25) (48 / 25) 0 0, Position.mk4 (12 / 5) 0 0 0]⟩,
   ⟨[Position.mk4 (4 / 5) (16 / 15) 0 0, Position.mk4 (4 / 3) 0 0 0]⟩,
   ⟨[Position.mk4 (9 / 20) (3 / 5) 0 0]⟩,
   ⟨[Position.mk4 (36 / 175) (48 / 175) 0 0, Position.mk4 (12 / 35) 0 0 0]⟩]

/-- One detection at the image centre of every camera of `calAxis`: its line
of sight is the axis that holds the four camera centres, so its image on
another camera is the image of the camera centre, and the line of sight
projected there has the length zero.  (The scene is not regular.) -/
def framesOnAxis : List (Frame ℚ) :=
  [⟨[Position.mk4 0 0 0 0]⟩, ⟨[Position.mk4 0 0 0 0]⟩, ⟨[Position.mk4 0 0 0 0]⟩,
   ⟨[Position.mk4 0 0 0 0]⟩]

/-- The particle of `framesOne` without its detection on camera 2. -/
def framesFallback : List (Frame ℚ) :=
  [⟨[Position.mk4 (36 / 25) (48 / 25) 0 0]⟩, ⟨[Position.mk4 (4 / 5) (16 / 15) 0 0]⟩,
   ⟨[]⟩, ⟨[Position.mk4 (36 / 175) (48 / 175) 0 0]⟩]

/-- As `framesFallback`, but the detection of camera 3 is mirrored through the
image centre: it stays on the epipolar lines of the other two, while its line
of sight passes far from theirs. -/
def framesSkew : List (Frame ℚ) :=
  [⟨[Position.mk4 (36 / 25) (48 / 25) 0 0]⟩, ⟨[Position.mk4 (4 / 5) (16 / 15) 0 0]⟩,
   ⟨[]⟩, ⟨[Position.mk4 (-36 / 175) (-48 / 175) 0 0]⟩]

/-- Four cameras in the plane `y = 0`, at `(0, -2)`, `(-14, -8/3)`,
`(-12, -13/2)` and `(-7, -4/5)` in the coordinates `(x, z)`. -/
def calPlane : Calibration ℚ :=
  { cams := [camAt 0 (-2), camAt (-14) (-8 / 3), camAt (-12) (-13 / 2), camAt (-7) (-4 / 5)],
    mindist_2D := 1 / 100, mindist_3D := 1 }

/-- Two detections on every camera of `calPlane`, all in the plane `y = 0`:
detection 0 of every camera sees the point `(0, 0, 16)`; detection 1 of the
cameras 1, 2, 3 sees the point `(2, 0, 4)`, and detection 1 of camera 0 looks
past it. -/
def framesPlane : List (Frame ℚ) :=
  [⟨[Position.mk4 0 0 0 0, Position.mk4 (3 / 4) 0 0 0]⟩,
   ⟨[Position.mk4 (3 / 4) 0 0 0, Position.mk4 (12 / 5) 0 0 0]⟩,
   ⟨[Position.mk4 (8 / 15) 0 0 0, Position.mk4 (4 / 3) 0 0 0]⟩,
   ⟨[Position.mk4 (5 / 12) 0 0 0, Position.mk4 (15 / 8) 0 0 0]⟩]

/-- Four cameras on the `z` axis, 5, 349/25, 16 and 9 below the plane `z = 0`. -/
def calShare : Calibration ℚ :=
  { cams := [camAt 0 (-5), camAt 0 (-349 / 25), camAt 0 (-16), camAt 0 (-9)],
    mindist_2D := 1 / 100, mindist_3D := 1 / 100 }

/-- Two particles on the line of sight of the one detection of camera 0 (which
has orientation 0): `A = (36/5, -48/5, 0)`, seen by the cameras 2 and 3 but not
by camera 1, and `B = (2016/125, -2688/125, 31/5)`, seen by the cameras 1 and 3
but not by camera 2. -/
def framesShare : List (Frame ℚ) :=
  [⟨[Position.mk4 (36 / 25) (48 / 25) 0 0]⟩, ⟨[Position.mk4 (4 / 5) (16 / 15) 0 0]⟩,
   ⟨[Position.mk4 (9 / 20) (3 / 5) 0 0]⟩,
   ⟨[Position.mk4 (4 / 5) (16 / 15) 0 0, Position.mk4 (504 / 475) (672 / 475) 0 0]⟩]

/-! ### Regularity of a scene

The model is over a field, where `x / 0 = 0`, while the program divides
floating-point numbers.  A scene is regular when none of the divisions the
program performs on it has a zero divisor and every square root it takes is
the root of a square of a rational, so that the model evaluated with `sqrtQ`
in exact arithmetic follows the program, up to the rounding of its
operations. -/

/-- Squared length of the epipolar line of detection `a` of camera `i` on
camera `k`, before it is normalised in the pair-list construction. -/
def losMag2 (cal : Calibration ℚ) (corr : List (Frame ℚ)) (i a k : Nat) : ℚ :=
  (((cal.cams.getD k default).WorldToImage
    ((cal.cams.getD i default).ImageToWorld (detAt corr i a))).sub (epipoleOn cal i k)).Magnitude2

/-- Squared length of the line of sight of detection `a` of camera `i`, before
it is normalised in `WorldPosition`. -/
def sightMag2 (cal : Calibration ℚ) (corr : List (Frame ℚ)) (i a : Nat) : ℚ :=
  (((cal.cams.getD i default).ImageToWorld (detAt corr i a)).sub
    (cal.cams.getD i default).Center).Magnitude2

/-- Every squared length of which the program takes the root on a scene. -/
def allMags (cal : Calibration ℚ) (iframes : List (Frame ℚ)) : List ℚ :=
  let corr := corrframes cal iframes
  (List.range cal.ncams).flatMap fun i =>
    (List.range (corr.getD i default).NumParticles).flatMap fun a =>
      sightMag2 cal corr i a ::
        ((List.range cal.ncams).filter (fun k => k != i)).map fun k => losMag2 cal corr i a k

/-- Every depth by which `ImageToWorld` and `WorldToImage` scale on a scene:
`T.z` of each camera, and the depth in camera `k` of the centre and of each
back-projected detection of every other camera `i`. -/
def depths (cal : Calibration ℚ) (iframes : List (Frame ℚ)) : List ℚ :=
  let corr := corrframes cal iframes
  (List.range cal.ncams).flatMap fun i =>
    (cal.cams.getD i default).T.z ::
    ((List.range cal.ncams).filter (fun k => k != i)).flatMap fun k =>
      (((cal.cams.getD k default).R.mulVec (cal.cams.getD i default).Center).add
        (cal.cams.getD k default).T).z ::
      (List.range (corr.getD i default).NumParticles).map fun a =>
        (((cal.cams.getD k default).R.mulVec
          ((cal.cams.getD i default).ImageToWorld (detAt corr i a))).add
            (cal.cams.getD k default).T).z

/-- All choices of one detection index per camera (index 0 on a camera without
detections). -/
def tuples (corr : List (Frame ℚ)) (n : Nat) : List (List Nat) :=
  (List.range n).foldl (fun acc i => acc.flatMap fun t =>
    (List.range (max 1 (corr.getD i default).NumParticles)).map fun a => t ++ [a]) [[]]

/-- Determinant of the matrix `WorldPosition` inverts, for every choice of
detections and every skipped camera (`-1`: none). -/
def dets (cal : Calibration ℚ) (iframes : List (Frame ℚ)) : List ℚ :=
  let corr := corrframes cal iframes
  ((-1 : Int) :: (List.range cal.ncams).map (fun m => (m : Int))).flatMap fun mcam =>
    (tuples corr cal.ncams).map fun t =>
      (sumM sqrtQ cal mcam ((List.range cal.ncams).map fun i => detAt corr i (t.getD i 0))).det

/-- A scene is regular: no zero length, depth, determinant, focal length or
pixel pitch, and `sqrtQ` is exact on every length. -/
def okScene (cal : Calibration ℚ) (iframes : List (Frame ℚ)) : Bool :=
  (allMags cal iframes).all (fun m => m != 0 && sqrtQ m * sqrtQ m == m) &&
    (depths cal iframes).all (fun d => d != 0) && (dets cal iframes).all (fun d => d != 0) &&
    cal.cams.all (fun c => c.f_eff != 0 && c.wpix != 0 && c.hpix != 0)

end Scenes

/-! ## Distance to a line of sight (specification of the triangulation) -/

section LineDefs
variable {F : Type} [LinearOrderedField F] [Arith F]

/-- The squared distance from the point `x` to the line through `c` with the
direction `s`: the squared length of `x - c` less the square of its component
along `s` (for a unit vector `s` this is the least squared distance from `x`
to a point of the line, see `distLine2_le`). -/
def distLine2 (c s x : Position F) : F :=
  Distance x c - Dot (x.sub c) s * Dot (x.sub c) s

/-- The sum, over the cameras that contribute a ray, of the squared distance
from the point `x` to the line of sight of the camera. -/
def sumDist2 (sqrt : F → F) (cal : Calibration F) (mcam : Int) (ipos : List (Position F))
    (x : Position F) : F :=
  ((usedCams cal mcam).map fun i =>
    distLine2 (cal.cams.getD i default).Center (sight sqrt cal ipos i) x).sum

end LineDefs

section LineScenes

/-- The detections 1 of the four cameras of the scene `framesPlane`. -/
def iposPlane : List (Position ℚ) :=
  (List.range 4).map fun k => detAt (corrframes calPlane framesPlane) k 1

/-- The detections 0 of the cameras 0, 1 and 3 of the scene `framesFallback`,
with the sentinel of camera 2. -/
def iposFallback : List (Position ℚ) :=
  [detAt (corrframes calAxis framesFallback) 0 0,
    detAt (corrframes calAxis framesFallback) 1 0, m_pos 2,
    detAt (corrframes calAxis framesFallback) 3 0]

end LineScenes

/-! ## The anchor camera of the degraded matcher -/

section AnchorDefs
variable {F : Type} [LinearOrderedField F] [Arith F]

/-- The control flow of the `icam` loop (lines 420-709): the cameras are visited
in increasing order, `mcam` is skipped by the `continue` of line 423, and the
first camera that is not skipped runs the body once, after which the `break` of
line 708 leaves the loop. -/
def icamLoop {α : Type} (mcam : Nat) (body : Nat → α → α) : List Nat → α → α
  | [], acc => acc
  | icam :: rest, acc =>
    if icam = mcam then icamLoop mcam body rest acc else body icam acc

/-- The cameras `icam` for which the body of the `icam` loop runs in the pass
that skips `mcam`, in order. -/
def anchorCams (ncams mcam : Nat) : List Nat :=
  icamLoop mcam (fun icam acc => acc ++ [icam]) (List.range ncams) []

/-- The candidates pushed by the body of the `icam` loop (lines 426-619) when
it runs for the anchor camera `icam` in the pass that skips `mcam`. -/
def matchedPos3From (sqrt : F → F) (cal : Calibration F) (corr : List (Frame F))
    (good : List (Match F)) (mcam icam : Nat) : List (Match F) :=
  let P := pairlists sqrt cal corr
  (List.range (corr.getD icam default).NumParticles).flatMap fun picam =>
    if alreadyUsed good icam (detAt corr icam picam) then []
    else if picamMissing P cal.ncams mcam icam picam then []
    else
      ((toMatch3 P corr good cal.ncams mcam icam picam).filter fun tm =>
        !decide (tm.length < cal.ncams - 1)).flatMap fun tm =>
        matchDegraded sqrt cal corr mcam tm

end AnchorDefs

section AnchorScenes

/-- The cameras of `calPlane` with one detection on the cameras 0 and 1, two on
camera 2 and none on camera 3.  The detections of the cameras 0 and 1 and
detection 1 of camera 2 see the point `(0, 0, 16)`; detection 0 of camera 2
looks past it. -/
def framesMisaligned : List (Frame ℚ) :=
  [⟨[Position.mk4 0 0 0 0]⟩, ⟨[Position.mk4 (3 / 4) 0 0 0]⟩,
   ⟨[Position.mk4 (33 / 56) 0 0 0, Position.mk4 (8 / 15) 0 0 0]⟩, ⟨[]⟩]

end AnchorScenes

/-! ## Position.h: the members used by the tracker -/

section PositionTracker

variable {F : Type} [LinearOrderedField F]

/-- Member `Position::SetFake`. -/
def Position.SetFake (p : Position F) : Position F := { p with fake := true }

/-- Member `Position::IsFake`. -/
def Position.IsFake (p : Position F) : Bool := p.fake

/-- Member `Position::operator=`: only `x`, `y`, `z` and `fake` are copied; the
other fields of the target keep their value. -/
def Position.assign (p src : Position F) : Position F :=
  { p with x := src.x, y := src.y, z := src.z, fake := src.fake }

/-- Modelled from the spec: friend `operator*(double, const Position&)` (body in
the absent `Position.cpp`), scalar multiplication of the three coordinates. -/
def Position.smulL (l : F) (r : Position F) : Position F :=
  Position.mk3 (l * r.x) (l * r.y) (l * r.z)

end PositionTracker

/-! ## Track.h and Track.cpp -/

/-- The class `Track`: the positions, their frame numbers, the occlusion
counter and the member `npoints`. -/
structure Track (F : Type) where
  pos : List (Position F)
  time : List Int
  occluded : Int
  npoints : Int

/-- What ends a run of the tracker abnormally: the exception `std::out_of_range`
thrown by `Track::GetTime`, or a read outside a container (unchecked indexing,
dereferencing `end()`), which is undefined behaviour in C++. -/
inductive TrackerError where
  | out_of_range
  | undefined
deriving DecidableEq

section TrackDefs

variable {F : Type} [LinearOrderedField F]

/-- Constructor `Track()`. -/
def Track.new : Track F := { pos := [], time := [], occluded := 0, npoints := 0 }

/-- Constructor `Track(const Position& p, int t)`. -/
def Track.single (p : Position F) (t : Int) : Track F :=
  { pos := [p], time := [t], occluded := 0, npoints := 1 }

/-- Member `Track::Add(const Position&, int)`. -/
def Track.Add (tr : Track F) (p : Position F) (t : Int) : Track F :=
  { tr with pos := tr.pos ++ [p], time := tr.time ++ [t], npoints := tr.npoints + 1 }

/-- Member `Track::Add(const Track&)`. -/
def Track.AddTrack (tr t : Track F) : Track F :=
  { tr with pos := tr.pos ++ t.pos, time := tr.time ++ t.time,
            npoints := ((tr.pos ++ t.pos).length : Int) }

/-- The unchecked access `pos[i]` to the deque of positions. -/
def Track.posAt (tr : Track F) (i : Int) : Except TrackerError (Position F) :=
  if 0 ≤ i then
    match tr.pos[i.toNat]? with
    | some p => Except.ok p
    | none => Except.error TrackerError.undefined
  else Except.error TrackerError.undefined

/-- Member `Track::Last`: `pos[npoints - 1]`. -/
def Track.Last (tr : Track F) : Except TrackerError (Position F) := tr.posAt (tr.npoints - 1)

/-- Member `Track::Penultimate`: `pos[npoints - 2]`. -/
def Track.Penultimate (tr : Track F) : Except TrackerError (Position F) :=
  tr.posAt (tr.npoints - 2)

/-- Member `Track::Antepenultimate`: `pos[npoints - 3]`. -/
def Track.Antepenultimate (tr : Track F) : Except TrackerError (Position F) :=
  tr.posAt (tr.npoints - 3)

/-- The loop of `Track::Length` (lines 41-47) over the positions in reverse
order: `adjust` counts the positions passed before the first one that is not
fake. -/
def Track.adjustLoop : List (Position F) → Nat → Nat
  | [], adjust => adjust
  | p :: ps, adjust => if !p.IsFake then adjust else Track.adjustLoop ps (adjust + 1)

/-- Member `Track::Length` (the difference `npoints - adjust` does not wrap,
since `adjust` is at most the number of positions). -/
def Track.Length (tr : Track F) : Int :=
  if tr.pos.isEmpty then 0
  else tr.npoints - (Track.adjustLoop tr.pos.reverse 0 : Int)

/-- Member `Track::GetTime`: `time.at(index)`, which throws `out_of_range`. -/
def Track.GetTime (tr : Track F) (index : Int) : Except TrackerError Int :=
  if 0 ≤ index then
    match tr.time[index.toNat]? with
    | some t => Except.ok t
    | none => Except.error TrackerError.out_of_range
  else Except.error TrackerError.out_of_range

/-- Member `Track::OcclusionCount`. -/
def Track.OcclusionCount (tr : Track F) : Int := tr.occluded

/-- Member `Track::Occluded`. -/
def Track.Occluded (tr : Track F) : Track F := { tr with occluded := tr.occluded + 1 }

/-- Member `Track::ResetCounter`. -/
def Track.ResetCounter (tr : Track F) : Track F := { tr with occluded := 0 }

/-- Member `Track::Clear`. -/
def Track.Clear (_tr : Track F) : Track F :=
  { pos := [], time := [], occluded := 0, npoints := 0 }

/-- Member `Track::NumFake`: the fake positions among the first `Length()`. -/
def Track.NumFake (tr : Track F) : Nat :=
  ((tr.pos.take tr.Length.toNat).filter fun p => p.IsFake).length

/-- The 19 numbers written by `Track::WriteGDF` for position `i`. -/
def Track.gdfRow (tr : Track F) (index fps : F) (i : Nat) : List F :=
  let p := tr.pos.getD i default
  [index, p.x, p.y, p.z, ((tr.time.getD i 0 : Int) : F) / fps,
   p.x1, p.y1, p.ori1, p.x2, p.y2, p.ori2, p.x3, p.y3, p.ori3, p.x4, p.y4, p.ori4,
   p.info, if p.IsFake then 1 else 0]

/-- Member `Track::WriteGDF`: one row for each of the first `Length()`
positions. -/
def Track.WriteGDF (tr : Track F) (index fps : F) : List (List F) :=
  (List.range tr.Length.toNat).map fun i => tr.gdfRow index fps i

end TrackDefs

/-! ## Tracker.h and Tracker.cpp -/

/-- The enumeration `Tracker::TrackMode`. -/
inductive TrackMode where
  | FRAME2
  | FRAME3
  | FRAME4
deriving DecidableEq

/-- The data members of `Tracker` that the constructor sets from its
arguments. -/
structure Tracker (F : Type) where
  mode : TrackMode
  max_disp : F
  memory : Int
  fps : F

/-- What the embedding leaves open about the machine: the conversion of a
`double` to `float` (`toFloat`), and the indeterminate contents of a `Position`
made by the constructor `Position()`, which initialises nothing (`uninit`). -/
structure Machine (F : Type) where
  toFloat : F → F
  uninit : Position F

/-- The member `tracks` (a `std::map<int, Track*>`) as a partial function from
track ids to tracks. -/
abbrev TrackMap (F : Type) := Int → Option (Track F)

/-- The state of a run of `MakeTracks`: the members `tracks`, `too_short`,
`ntracks`, `ntotalpoints` of the `Tracker`, the locals `activelist`,
`trackindex` and `framenum`, and the calls of `WriteGDF` made so far (the index
passed and the track written). -/
structure TState (F : Type) where
  tracks : TrackMap F
  activelist : List Int
  trackindex : Int
  framenum : Int
  too_short : Int
  ntracks : Nat
  ntotalpoints : Int
  written : List (Nat × Track F)

section TrackerDefs

variable {F : Type} [LinearOrderedField F]

/-- The constant `Tracker::UNLINKED`. -/
def UNLINKED : Int := -1

/-- The constant `Tracker::MINTRACK`. -/
def MINTRACK : Int := 10

/-- The access `tracks.find(id)->second`; undefined when the id is absent. -/
def TrackMap.find (m : TrackMap F) (id : Int) : Except TrackerError (Track F) :=
  match m id with
  | some t => Except.ok t
  | none => Except.error TrackerError.undefined

/-- The assignment `tracks[id] = t`, also the update of the track behind the
pointer `tracks.find(id)->second`. -/
def TrackMap.set (m : TrackMap F) (id : Int) (t : Track F) : TrackMap F :=
  fun j => if j = id then some t else m j

/-- The call `tracks.erase(id)`. -/
def TrackMap.erase (m : TrackMap F) (id : Int) : TrackMap F :=
  fun j => if j = id then none else m j

/-- The first loop of `ComputeCost` (lines 341-364), with the cost of a
candidate `fit` at float distance `mag` given by `cost`: the where-indices and
costs pushed onto `matches` and `match_costs`. -/
def costCandidates (mch : Machine F) (max_disp : F) (fr1 : Frame F) (estimate : Position F)
    (cost : Position F → F → F) : List (Nat × F) :=
  fr1.pos.enum.filterMap fun e =>
    let mag := mch.toFloat (Distance estimate e.2)
    if mag > max_disp * max_disp then none else some (e.1, cost e.2 mag)

/-- The value of `mincost` after the first loop of `ComputeCost`. -/
def mincostOf (cands : List (Nat × F)) : F :=
  cands.foldl (fun mincost c => if mincost > c.2 then c.2 else mincost) 1000000

/-- The second loop of `ComputeCost` (lines 366-374). -/
def selectBest (cands : List (Nat × F)) (mincost : F) : Int × F :=
  cands.foldl (fun retval c => if c.2 > mincost then retval else ((c.1 : Int), c.2))
    (-1, 1000000)

/-- The member function `Tracker::ComputeCost` called with `stopflag == true`
(the frame `fr2`, the velocity and `now` are not read then). -/
def ComputeCostStop (mch : Machine F) (max_disp : F) (fr1 : Frame F)
    (estimate : Position F) : Int × F :=
  let cands := costCandidates mch max_disp fr1 estimate fun _ mag => mag
  selectBest cands (mincostOf cands)

/-- The member function `Tracker::ComputeCost`; its recursive call has
`stopflag == true`. -/
def ComputeCost (mch : Machine F) (max_disp : F) (fr1 fr2 : Frame F)
    (estimate velocity now : Position F) (stopflag : Bool) : Int × F :=
  let cands := costCandidates mch max_disp fr1 estimate fun fit mag =>
    if stopflag then mag
    else
      let new_velocity := fit.sub now
      let acceleration := new_velocity.sub velocity
      let new_estimate := (fit.add new_velocity).add (Position.smulL (1 / 2) acceleration)
      (ComputeCostStop mch max_disp fr2 new_estimate).2
  selectBest cands (mincostOf cands)

/-- Lines 283-309 of `MakeLinks` for one track: the position `now`, the
estimate and the velocity.  `velocity` and `estimate` are made by `Position()`
and assigned with `operator=`. -/
def estimateOf (mch : Machine F) (mode : TrackMode) (t : Track F) :
    Except TrackerError (Position F × Position F × Position F) :=
  match t.Last with
  | Except.error e => Except.error e
  | Except.ok now =>
    let len := t.Length
    if len = 1 ∨ mode = TrackMode.FRAME2 then
      Except.ok (now, mch.uninit.assign now, mch.uninit)
    else
      match t.Penultimate with
      | Except.error e => Except.error e
      | Except.ok pen =>
        let velocity := mch.uninit.assign (now.sub pen)
        if len > 2 then
          match t.Antepenultimate with
          | Except.error e => Except.error e
          | Except.ok ante =>
            let acceleration := (now.sub (Position.smulL 2 pen)).add ante
            Except.ok (now, mch.uninit.assign
              ((now.add velocity).add (Position.smulL (1 / 2) acceleration)), velocity)
        else Except.ok (now, mch.uninit.assign (now.add velocity), velocity)

/-- Lines 281-316 of `MakeLinks` for the track with id `tr`: the pair returned
by `ComputeCost`.  `fr2` is the frame after `fr1` when there is one; it is read
in mode `FRAME4` only. -/
def trackCost (mch : Machine F) (tk : Tracker F) (tracks : TrackMap F) (fr1 : Frame F)
    (fr2 : Option (Frame F)) (tr : Int) : Except TrackerError (Int × F) :=
  match tracks.find tr with
  | Except.error e => Except.error e
  | Except.ok t =>
    match estimateOf mch tk.mode t with
    | Except.error e => Except.error e
    | Except.ok (now, estimate, velocity) =>
      if tk.mode = TrackMode.FRAME4 then
        match fr2 with
        | none => Except.error TrackerError.undefined
        | some fr2 =>
          Except.ok (ComputeCost mch tk.max_disp fr1 fr2 estimate velocity now false)
      else Except.ok (ComputeCost mch tk.max_disp fr1 fr1 estimate velocity now true)

/-- Lines 317-324 of `MakeLinks`: the update of the arrays `costs` and `links`
by the track `tr` whose best continuation is `cost`. -/
def linkUpdate (cl : List F × List Int) (tr : Int) (cost : Int × F) : List F × List Int :=
  if cost.1 = -1 then cl
  else if cl.2.getD cost.1.toNat UNLINKED = UNLINKED ∨ cl.1.getD cost.1.toNat 0 > cost.2 then
    (cl.1.set cost.1.toNat cost.2, cl.2.set cost.1.toNat tr)
  else cl

/-- The loop of `MakeLinks` over a list of track ids, from the arrays `cl`. -/
def linkLoop (mch : Machine F) (tk : Tracker F) (tracks : TrackMap F) (fr1 : Frame F)
    (fr2 : Option (Frame F)) : List Int → List F × List Int →
    Except TrackerError (List F × List Int)
  | [], cl => Except.ok cl
  | tr :: rest, cl =>
    match trackCost mch tk tracks fr1 fr2 tr with
    | Except.error e => Except.error e
    | Except.ok cost => linkLoop mch tk tracks fr1 fr2 rest (linkUpdate cl tr cost)

/-- The member function `Tracker::MakeLinks`: the arrays `costs` and `links`
after the call. -/
def MakeLinks (mch : Machine F) (tk : Tracker F) (tracks : TrackMap F)
    (activelist : List Int) (fr1 : Frame F) (fr2 : Option (Frame F))
    (costs : List F) (links : List Int) : Except TrackerError (List F × List Int) :=
  linkLoop mch tk tracks fr1 fr2 activelist (costs, links)

/-- A loop over a list whose body can end the run: the body is run for each
element in turn, and an error ends the loop. -/
def forEach {σ ι : Type} (step : σ → ι → Except TrackerError σ) :
    List ι → σ → Except TrackerError σ
  | [], s => Except.ok s
  | x :: rest, s =>
    match step s x with
    | Except.error e => Except.error e
    | Except.ok s1 => forEach step rest s1

/-- Lines 135-146 of `MakeTracks` for particle `i` of the next frame. -/
def addLinked (fr1 : Frame F) (links : List Int) (st : TState F) (i : Nat) :
    Except TrackerError (TState F) :=
  if links.getD i UNLINKED = UNLINKED then
    Except.ok { st with
      tracks := st.tracks.set st.trackindex (Track.single (fr1.pos.getD i default) st.framenum),
      activelist := st.activelist ++ [st.trackindex],
      trackindex := st.trackindex + 1 }
  else
    match st.tracks.find (links.getD i UNLINKED) with
    | Except.error e => Except.error e
    | Except.ok t =>
      Except.ok { st with
        tracks := st.tracks.set (links.getD i UNLINKED)
          ((t.Add (fr1.pos.getD i default) st.framenum).ResetCounter) }

/-- Lines 120-147 of `MakeTracks`: the arrays are allocated (`costs` is not
initialised; it is read only where `links` is not `UNLINKED`), the links are
made, and the loop of lines 134-147 adds the particles of the next frame to
their tracks or starts new ones. -/
def linkStage (mch : Machine F) (tk : Tracker F) (fr1 : Frame F) (fr2 : Option (Frame F))
    (st : TState F) : Except TrackerError (TState F) :=
  match MakeLinks mch tk st.tracks st.activelist fr1 fr2
      (List.replicate fr1.NumParticles 0) (List.replicate fr1.NumParticles UNLINKED) with
  | Except.error e => Except.error e
  | Except.ok cl => forEach (addLinked fr1 cl.2) (List.range fr1.NumParticles) st

/-- The locals `writelist` and `stillactive` of `PadTracks` together with the
state. -/
structure PadAcc (F : Type) where
  st : TState F
  writelist : List Int
  stillactive : List Int

/-- The estimated position appended by `PadTracks` (lines 236-248). -/
def padEstimate (tk : Tracker F) (last penultimate antepenultimate : Position F) :
    Position F :=
  let velocity := last.sub penultimate
  let acceleration :=
    Position.smulL (1 / 2) ((last.sub (Position.smulL 2 penultimate)).add antepenultimate)
  let estimate := (last.add velocity).add (Position.smulL (1 / 2) acceleration)
  let estimate :=
    if Distance estimate last > tk.max_disp * tk.max_disp then estimate.assign last
    else estimate
  estimate.SetFake

/-- The body of the first loop of `PadTracks` (lines 202-255) for the track
id `tr`. -/
def padOne (tk : Tracker F) (acc : PadAcc F) (tr : Int) : Except TrackerError (PadAcc F) :=
  match acc.st.tracks.find tr with
  | Except.error e => Except.error e
  | Except.ok t =>
    let len := t.Length
    match t.GetTime (len - 1) with
    | Except.error e => Except.error e
    | Except.ok tm =>
      if tm = acc.st.framenum then
        Except.ok { acc with stillactive := acc.stillactive ++ [tr] }
      else if t.OcclusionCount ≥ tk.memory then
        if len < MINTRACK then
          Except.ok { acc with
            st := { acc.st with tracks := acc.st.tracks.erase tr,
                                too_short := acc.st.too_short + 1 } }
        else Except.ok { acc with writelist := acc.writelist ++ [tr] }
      else if len ≤ 2 then
        Except.ok { acc with
          st := { acc.st with tracks := acc.st.tracks.erase tr,
                              too_short := acc.st.too_short + 1 } }
      else
        match t.Last with
        | Except.error e => Except.error e
        | Except.ok last =>
          match t.Penultimate with
          | Except.error e => Except.error e
          | Except.ok penultimate =>
            match t.Antepenultimate with
            | Except.error e => Except.error e
            | Except.ok antepenultimate =>
              let estimate := padEstimate tk last penultimate antepenultimate
              Except.ok { acc with
                st := { acc.st with
                  tracks := acc.st.tracks.set tr
                    ((t.Add estimate acc.st.framenum).Occluded) },
                stillactive := acc.stillactive ++ [tr] }

/-- The body of the second loop of `PadTracks` (lines 261-267): the track is
written with the index `ntracks` and erased. -/
def writeOne (st : TState F) (tr : Int) : Except TrackerError (TState F) :=
  match st.tracks.find tr with
  | Except.error e => Except.error e
  | Except.ok t =>
    Except.ok { st with
      written := st.written ++ [(st.ntracks, t)],
      ntracks := st.ntracks + 1,
      ntotalpoints := st.ntotalpoints + t.Length,
      tracks := st.tracks.erase tr }

/-- The member function `Tracker::PadTracks`, called with the active list and
the frame number of the state: the loop over the active list (lines 201-256),
the loop over the write list (lines 259-268), and the assignment of
`stillactive` to the active list. -/
def PadTracks (tk : Tracker F) (st : TState F) : Except TrackerError (TState F) :=
  match forEach (padOne tk) st.activelist { st := st, writelist := [], stillactive := [] } with
  | Except.error e => Except.error e
  | Except.ok acc =>
    match forEach writeOne acc.writelist acc.st with
    | Except.error e => Except.error e
    | Except.ok st1 => Except.ok { st1 with activelist := acc.stillactive }

/-- The body of the final loop of `MakeTracks` (lines 172-177). -/
def flushOne (st : TState F) (tr : Int) : Except TrackerError (TState F) :=
  match st.tracks.find tr with
  | Except.error e => Except.error e
  | Except.ok t =>
    if t.Length ≥ MINTRACK then
      Except.ok { st with
        written := st.written ++ [(st.ntracks, t)],
        ntracks := st.ntracks + 1,
        ntotalpoints := st.ntotalpoints + t.Length }
    else Except.ok st

/-- The state of a freshly constructed `Tracker` at the start of
`MakeTracks`. -/
def TState.fresh : TState F :=
  { tracks := fun _ => none, activelist := [], trackindex := 0, framenum := 0,
    too_short := 0, ntracks := 0, ntotalpoints := 0, written := [] }

/-- Lines 76-89 of `MakeTracks`: one track per particle of the first frame,
with time 0 (the default argument of the constructor); `framenum` is 1 after
them. -/
def initState (f0 : Frame F) : TState F :=
  let st := (List.range f0.NumParticles).foldl
    (fun (st : TState F) (i : Nat) =>
      { st with
        tracks := st.tracks.set (i : Int) (Track.single (f0.pos.getD i default) 0),
        activelist := st.activelist ++ [(i : Int)],
        trackindex := st.trackindex + 1 })
    TState.fresh
  { st with framenum := 1 }

/-- The loop of `MakeTracks` over the frames (lines 106-167).  The list holds
the frames from `fr0` on, `st.framenum - 1` is the index of `fr0`, and `last`
is the index that `fr_end` points to.  Reading `fr1` when `fr0` is the last
frame is a read outside the vector.  The result is the list of the states after
each completed stage (after the linking of lines 120-147, and after
`PadTracks`), and the state at the exit of the loop or the error that ended
the run. -/
def frameLoop (mch : Machine F) (tk : Tracker F) (last : Int) :
    List (Frame F) → TState F → List (TState F) × Except TrackerError (TState F)
  | [], st =>
    ([], if st.framenum - 1 = last then Except.ok st
         else Except.error TrackerError.undefined)
  | _ :: rest, st =>
    if st.framenum - 1 = last then ([], Except.ok st)
    else
      match rest with
      | [] => ([], Except.error TrackerError.undefined)
      | fr1 :: rest2 =>
        if fr1.NumParticles ≤ 0 then
          match PadTracks tk st with
          | Except.error e => ([], Except.error e)
          | Except.ok st2 =>
            let r := frameLoop mch tk last rest { st2 with framenum := st2.framenum + 1 }
            (st2 :: r.1, r.2)
        else
          match linkStage mch tk fr1 rest2.head? st with
          | Except.error e => ([], Except.error e)
          | Except.ok st1 =>
            match PadTracks tk st1 with
            | Except.error e => ([st1], Except.error e)
            | Except.ok st2 =>
              let r := frameLoop mch tk last rest { st2 with framenum := st2.framenum + 1 }
              (st1 :: st2 :: r.1, r.2)

/-- The index that `fr_end` points to (lines 94-105): the number of frames,
less 1 in mode `FRAME3` and less 2 in mode `FRAME4`. -/
def lastIndex (mode : TrackMode) (n : Nat) : Int :=
  match mode with
  | TrackMode.FRAME3 => (n : Int) - 1
  | TrackMode.FRAME4 => (n : Int) - 2
  | TrackMode.FRAME2 => (n : Int)

/-- The states of a run of `MakeTracks` on a freshly constructed `Tracker`, in
order: the state after the initialisation, then the states after each
completed stage of the loop over the frames. -/
def MakeTracksTrace (mch : Machine F) (tk : Tracker F) (f : List (Frame F)) :
    List (TState F) :=
  match f with
  | [] => []
  | f0 :: _ =>
    initState f0 :: (frameLoop mch tk (lastIndex tk.mode f.length) f (initState f0)).1

/-- The member function `Tracker::MakeTracks` on a freshly constructed
`Tracker`: the state after the final loop over the active list (lines
170-180).  Reading `f[0]` of an empty vector is a read outside the vector. -/
def MakeTracks (mch : Machine F) (tk : Tracker F) (f : List (Frame F)) :
    Except TrackerError (TState F) :=
  match f with
  | [] => Except.error TrackerError.undefined
  | f0 :: _ =>
    match (frameLoop mch tk (lastIndex tk.mode f.length) f (initState f0)).2 with
    | Except.error e => Except.error e
    | Except.ok st => forEach flushOne st.activelist st

/-- The rows written to the output file by a run: the rows of `WriteGDF` for
each written track, in order. -/
def writtenRows (tk : Tracker F) (st : TState F) : List (List F) :=
  st.written.flatMap fun w => w.2.WriteGDF (w.1 : F) tk.fps

/-- The machine of the evaluations: inputs are chosen so that every `double`
that is converted is a `float`, and the contents of an uninitialised position
are zero. -/
def exactMachine : Machine ℚ := { toFloat := fun x => x, uninit := default }

end TrackerDefs
/-! ## Specification predicates of the tracker -/

section TrackerPredicates

variable {F : Type} [LinearOrderedField F]

/-- The invariant of the class `Track`: `npoints` is the number of stored
positions, and every position has a time. -/
def Track.WF (t : Track F) : Prop :=
  t.npoints = (t.pos.length : Int) ∧ t.time.length = t.pos.length

/-- The arbitration of the links over the active tracks `A` with the best
continuations `cf`: the arrays have `n` entries, and every slot `c` is either
unlinked and chosen by no track of `A`, or linked to the earliest track of `A`
of minimal cost among those whose best continuation is `c`, with that cost. -/
def LinkInv (cf : Int → Except TrackerError (Int × F)) (n : Nat) (A : List Int)
    (cl : List F × List Int) : Prop :=
  cl.1.length = n ∧ cl.2.length = n ∧ ∀ c, c < n →
    ((cl.2.getD c UNLINKED = UNLINKED ∧
        ∀ j, j < A.length → ∀ x, cf (A.getD j 0) ≠ Except.ok ((c : Int), x)) ∨
      (∃ i, i < A.length ∧ cl.2.getD c UNLINKED = A.getD i 0 ∧
        cf (A.getD i 0) = Except.ok ((c : Int), cl.1.getD c 0) ∧
        ∀ j, j < A.length → ∀ x, cf (A.getD j 0) = Except.ok ((c : Int), x) →
          cl.1.getD c 0 ≤ x ∧ (x = cl.1.getD c 0 → i ≤ j)))

/-- The times of a track are strictly increasing. -/
def Track.Increasing (t : Track F) : Prop := t.time.Pairwise (· < ·)

/-- Every time of the track is before `m`. -/
def Track.Below (t : Track F) (m : Int) : Prop := ∀ x ∈ t.time, x < m

/-- The last position of the track is a real one with the time `m`, and every
earlier time is before `m`. -/
def Track.JustAdded (t : Track F) (m : Int) : Prop :=
  ∃ ps p ts, t.pos = ps ++ [p] ∧ p.fake = false ∧ t.time = ts ++ [m] ∧ ∀ x ∈ ts, x < m

/-- The ids of the active list are distinct, non-negative and below
`trackindex`, and every written track has length at least `MINTRACK`. -/
def TState.IdsOK (st : TState F) : Prop :=
  st.activelist.Nodup ∧ 0 ≤ st.trackindex ∧
    (∀ id ∈ st.activelist, 0 ≤ id ∧ id < st.trackindex) ∧
    ∀ w ∈ st.written, MINTRACK ≤ w.2.Length

/-- Every track of the map satisfies `P`, is well formed and has increasing
times, and so has every written track. -/
def TState.TracksOK (st : TState F) (P : Track F → Prop) : Prop :=
  (∀ id t, st.tracks id = some t → t.WF ∧ t.Increasing ∧ P t) ∧
    ∀ w ∈ st.written, w.2.WF ∧ w.2.Increasing

/-- The tracks written by a run that ended normally (none after an error). -/
def writtenOf (r : Except TrackerError (TState F)) : List (Nat × Track F) :=
  match r with
  | Except.ok st => st.written
  | Except.error _ => []

end TrackerPredicates
/-! ## The straight-line scenario of the tracker -/

section LineScenario

variable {F : Type} [LinearOrderedField F]

/-- The track that holds the positions `q 0, ..., q k` with the times
`0, ..., k`. -/
def lineTrack (q : Nat → Position F) (k : Nat) : Track F :=
  { pos := (List.range (k + 1)).map q,
    time := (List.range (k + 1)).map fun (t : Nat) => (t : Int),
    occluded := 0, npoints := ((k + 1 : Nat) : Int) }

/-- The state in which track 0 is `lineTrack q k` and is the only track, with
the frame number `fn`. -/
def lineState (q : Nat → Position F) (k : Nat) (fn : Int) : TState F :=
  { tracks := fun id => if id = 0 then some (lineTrack q k) else none,
    activelist := [0], trackindex := 1, framenum := fn,
    too_short := 0, ntracks := 0, ntotalpoints := 0, written := [] }

/-- The frames `k, ..., k + m - 1` of the scenario: one particle `q t` in
frame `t`. -/
def lineFrames (q : Nat → Position F) (k m : Nat) : List (Frame F) :=
  (List.range' k m).map fun t => Frame.mk [q t]

end LineScenario
/-! ## Inputs on which the tracker is evaluated -/

section TrackerScenes

/-- Two tracks of one position each, at `x = 0` (id 0) and at `x = 1` (id 1). -/
def tracksTwo : TrackMap ℚ := fun id =>
  if id = 0 then some (Track.single (Position.mk3 0 0 0) 0)
  else if id = 1 then some (Track.single (Position.mk3 1 0 0) 0)
  else none

/-- A frame with one particle at `x = 3/4`. -/
def frameNear : Frame ℚ := ⟨[Position.mk3 (3 / 4) 0 0]⟩

/-- A tracker in mode `FRAME3` with `max_disp = 2`, `memory = 2`, `fps = 1`. -/
def tkLine : Tracker ℚ :=
  { mode := TrackMode.FRAME3, max_disp := 2, memory := 2, fps := 1 }

/-- A tracker in mode `FRAME3` with `max_disp = 1`, `memory = 1`, `fps = 1`. -/
def tkGap : Tracker ℚ :=
  { mode := TrackMode.FRAME3, max_disp := 1, memory := 1, fps := 1 }

/-- Ten frames of one particle at rest at the origin; the frames 3 and 7 are
empty. -/
def gapFrames : List (Frame ℚ) :=
  (List.range 10).map fun t => if t = 3 ∨ t = 7 then ⟨[]⟩ else ⟨[Position.mk3 0 0 0]⟩

/-- The particle of frame `t` in the witness: at `x = t`. -/
def qUnit (t : Nat) : Position ℚ := Position.mk3 (t : ℚ) 0 0

/-- The particle of frame `t` in the counterexample: at `x = 2000 t`. -/
def qFast (t : Nat) : Position ℚ := Position.mk3 (2000 * (t : ℚ)) 0 0

/-- A tracker in mode `FRAME3` with `max_disp = 2000`, `memory = 2`,
`fps = 1`. -/
def tkFast : Tracker ℚ :=
  { mode := TrackMode.FRAME3, max_disp := 2000, memory := 2, fps := 1 }

/-- The squared distances between the adjacent positions of a track. -/
def Track.steps {F : Type} [LinearOrderedField F] (t : Track F) : List F :=
  (t.pos.zip t.pos.tail).map fun e => Distance e.1 e.2

/-- Ten frames of one accelerating particle, at `x = t (t + 1)` in frame `t`. -/
def accFrames : List (Frame ℚ) :=
  (List.range 10).map fun t => ⟨[Position.mk3 ((t : ℚ) * ((t : ℚ) + 1)) 0 0]⟩

end TrackerScenes

/-! ## particle-tracker-ncams.cpp: the number of predicted frames -/

section MainDefs

/-- Lines 66-70 of `main`: the program exits with status 1 when
`config.npredict > 2`; this is the only test of `npredict` before the
tracking. -/
def npredictExit (npredict : Int) : Option Int :=
  if npredict > 2 then some 1 else none

/-- Lines 184-194 of `main`: the mode passed to the constructor of `Tracker`.
The variable `mode` starts as `FRAME3` and is reassigned for the values 0, 1
and 2 of `npredict`. -/
def trackMode (npredict : Int) : TrackMode :=
  let mode := TrackMode.FRAME3
  if npredict = 0 then TrackMode.FRAME2
  else if npredict = 1 then TrackMode.FRAME3
  else if npredict = 2 then TrackMode.FRAME4
  else mode

/-- What `main` does with `config.npredict`: the exit status of lines 66-70,
or the mode with which the tracker is constructed at line 196. -/
def mainMode (npredict : Int) : Except Int TrackMode :=
  match npredictExit npredict with
  | some status => Except.error status
  | none => Except.ok (trackMode npredict)

end MainDefs

/-! ## Inputs on which the estimates of the tracker are evaluated -/

section EstimateScenes

/-- A tracker in mode `FRAME3` with `max_disp = 6`, `memory = 1`, `fps = 1`. -/
def tkPad : Tracker ℚ :=
  { mode := TrackMode.FRAME3, max_disp := 6, memory := 1, fps := 1 }

/-- Four frames: one particle at `x = 0`, `2`, `6` in the frames 0, 1, 2, and
no particle in frame 3. -/
def padFrames : List (Frame ℚ) :=
  [⟨[Position.mk3 0 0 0]⟩, ⟨[Position.mk3 2 0 0]⟩, ⟨[Position.mk3 6 0 0]⟩, ⟨[]⟩]

/-- A track of three real positions at `x = 0`, `2`, `6`. -/
def trackAcc : Track ℚ :=
  ((Track.single (Position.mk3 0 0 0) 0).Add (Position.mk3 2 0 0) 1).Add (Position.mk3 6 0 0) 2

end EstimateScenes

/-! ## Inputs on which the output of the tracker is evaluated -/

section OutputScenes

/-- Eleven frames: one particle at rest at the origin in the frames 0 to 9, and
no particle in frame 10. -/
def trailFrames : List (Frame ℚ) :=
  (List.range 11).map fun t => if t = 10 then ⟨[]⟩ else ⟨[Position.mk3 0 0 0]⟩

/-- A track of two real positions followed by two fake ones. -/
def trackTrail : Track ℚ :=
  (((Track.single (Position.mk3 0 0 0) 0).Add (Position.mk3 1 0 0) 1).Add
    (Position.mk3 2 0 0).SetFake 2).Add (Position.mk3 3 0 0).SetFake 3

end OutputScenes

/-! ## The calls of `WorldPosition` made by `Stereomatch` -/

section ThrowDefs

variable {F : Type} [LinearOrderedField F] [Arith F]

/-- The deque `PosToMatch` of lines 274-279 for the point set `tm`: one entry
for each of the `ncams` cameras. -/
def PosToMatch (cal : Calibration F) (corr : List (Frame F)) (tm : List Nat) :
    List (Position F) :=
  (List.range cal.ncams).map fun i => detAt corr i (tm.getD i 0)

/-- The deque `PosToMatch3` of lines 571-583 for the point set `tm` of the pass
that skips `mcam`. -/
def PosToMatch3 (cal : Calibration F) (corr : List (Frame F)) (mcam : Nat) (tm : List Nat) :
    List (Position F) :=
  (List.range cal.ncams).map fun i =>
    if i = mcam then m_pos (mcam : Int)
    else detAt corr i (tm.getD (if i < mcam then i else i - 1) 0)

/-- Lines 274-290 with the call of `WorldPosition` at line 280 as the source
makes it (the member `mcam` is `-1` there): an exception thrown by the call
leaves `Stereomatch`. -/
def matchFullChecked (sqrt : F → F) (cal : Calibration F) (corr : List (Frame F))
    (tm : List Nat) : Except StereoError (List (Match F)) :=
  match WorldPosition sqrt cal (-1) (PosToMatch cal corr tm) with
  | Except.error e => Except.error e
  | Except.ok wpos =>
    Except.ok
      (if wpos.1 < cal.mindist_3D * cal.mindist_3D then
        [{ pos := wpos.2, indices := (List.range cal.ncams).map fun i => tm.getD i 0,
           raydist := wpos.1, touse := PosToMatch cal corr tm, mcam := -1 }]
      else [])

/-- Lines 570-618 with the call of `WorldPosition` at line 596 as the source
makes it (the member `mcam` is the skipped camera there). -/
def matchDegradedChecked (sqrt : F → F) (cal : Calibration F) (corr : List (Frame F))
    (mcam : Nat) (tm : List Nat) : Except StereoError (List (Match F)) :=
  match WorldPosition sqrt cal (mcam : Int) (PosToMatch3 cal corr mcam tm) with
  | Except.error e => Except.error e
  | Except.ok _ => Except.ok (matchDegraded sqrt cal corr mcam tm)

/-- Three frames for the four cameras of `calAxis`. -/
def framesThree : List (Frame ℚ) := framesOne.take 3

end ThrowDefs

/-! ## A scene with a large triangulation tolerance -/

section WideScenes

/-- The cameras of `calPlane` moved four times as far from the origin, at
`(0, -8)`, `(-56, -32/3)`, `(-48, -26)` and `(-28, -16/5)` in the coordinates
`(x, z)`, with `mindist_3D = 2`. -/
def calWide : Calibration ℚ :=
  { cams := [camAt 0 (-8), camAt (-56) (-32 / 3), camAt (-48) (-26), camAt (-28) (-16 / 5)],
    mindist_2D := 1 / 100, mindist_3D := 2 }

end WideScenes

/-! ## Predicates for the termination of the tracker -/

section TotalityDefs

variable {F : Type} [LinearOrderedField F]

/-- A track as the tracker keeps it: it is well formed, has at least one counted
position, and when its length is at most 2 all its stored positions are counted
(estimated positions are appended to tracks longer than 2 only). -/
def Track.Usable (t : Track F) : Prop :=
  t.WF ∧ 1 ≤ t.Length ∧ (t.Length ≤ 2 → t.Length = (t.pos.length : Int))

/-- Every active id is in the map, and every track of the map is usable. -/
def TState.Live (st : TState F) : Prop :=
  (∀ id ∈ st.activelist, ∃ t, st.tracks id = some t) ∧
    ∀ id t, st.tracks id = some t → t.Usable

/-- A tracker in mode `FRAME2` with `max_disp = 2`, `memory = 2`, `fps = 1`. -/
def tkTwo : Tracker ℚ :=
  { mode := TrackMode.FRAME2, max_disp := 2, memory := 2, fps := 1 }

/-- A tracker in mode `FRAME4` with `max_disp = 2`, `memory = 2`, `fps = 1`. -/
def tkFour : Tracker ℚ :=
  { mode := TrackMode.FRAME4, max_disp := 2, memory := 2, fps := 1 }

end TotalityDefs

/-! ## The occlusion scenario of the tracker -/

section OcclusionScenario

variable {F : Type} [LinearOrderedField F]

/-- The state in which track 0 is `T` and is the only track, with the frame
number `fn`. -/
def oneState (T : Track F) (fn : Int) : TState F :=
  { tracks := fun id => if id = 0 then some T else none,
    activelist := [0], trackindex := 1, framenum := fn,
    too_short := 0, ntracks := 0, ntotalpoints := 0, written := [] }

/-- The positions stored in the occlusion scenario: the particle `q t` for
every time `t` other than `m`, and the position `E` at time `m`. -/
def occPos (q : Nat → Position F) (E : Position F) (m t : Nat) : Position F :=
  if t = m then E else q t

/-- The frames `k, ..., k + j - 1` of the occlusion scenario: one particle `q t`
in frame `t`, and no particle in frame `m`. -/
def occFrames (q : Nat → Position F) (m k j : Nat) : List (Frame F) :=
  (List.range' k j).map fun t => if t = m then Frame.mk [] else Frame.mk [q t]

end OcclusionScenario

section OcclusionTrack

variable {F : Type} [LinearOrderedField F]

/-- The one track of the occlusion scenario after frame `k`: the positions
`p 0, ..., p k`; its occlusion counter is 1 after the empty frame `m` and 0
otherwise. -/
def occTrack (p : Nat → Position F) (m k : Nat) : Track F :=
  if k = m then (lineTrack p k).Occluded else lineTrack p k

end OcclusionTrack

/-! ## The costs of `ComputeCost` -/

section CostDefs

variable {F : Type} [LinearOrderedField F]

/-- The value `mag` of line 342 for the particle with where-index `i` of the
frame: the squared distance to the estimate, converted to `float`. -/
def magOf (mch : Machine F) (fr : Frame F) (estimate : Position F) (i : Nat) : F :=
  mch.toFloat (Distance estimate (fr.pos.getD i default))

/-- The cost pushed for the candidate `fit` when `stopflag == false` (lines
355-359): the second component of the recursive call for the second
estimate. -/
def lookCost (mch : Machine F) (max_disp : F) (fr2 : Frame F) (velocity now fit : Position F) :
    F :=
  (ComputeCost mch max_disp fr2 fr2
    ((fit.add (fit.sub now)).add (Position.smulL (1 / 2) ((fit.sub now).sub velocity)))
    (fit.sub now) fit true).2

end CostDefs

section CostScenes

/-- One particle at `x = 1500`. -/
def frameFar : Frame ℚ := ⟨[Position.mk3 1500 0 0]⟩

/-- Two particles, at `x = 1` and at `x = 3`. -/
def framePair : Frame ℚ := ⟨[Position.mk3 1 0 0, Position.mk3 3 0 0]⟩

/-- One particle at `x = 2`. -/
def frameAhead : Frame ℚ := ⟨[Position.mk3 2 0 0]⟩

end CostScenes

/-! ## The effect of one frame step on the state -/

section StepPredicates

variable {F : Type} [LinearOrderedField F]

/-- The where-indices of the particles of the next frame that no track is
linked to, in order. -/
def unlinkedSlots (fr1 : Frame F) (links : List Int) : List Nat :=
  (List.range fr1.NumParticles).filter fun c => decide (links.getD c UNLINKED = UNLINKED)

/-- The state `st1` is the state `st` after the particles of the frame `fr1`
have been added along the array `links`: a track that stands in no slot is
unchanged; the track in a linked slot `c` has got particle `c` with the frame
number and a reset counter; the `k`-th unlinked particle has become the new
track with the id `trackindex + k`, which is active; nothing else changed. -/
def LinkShape (fr1 : Frame F) (links : List Int) (st st1 : TState F) : Prop :=
  st1.framenum = st.framenum ∧ st1.written = st.written ∧ st1.ntracks = st.ntracks ∧
    st1.ntotalpoints = st.ntotalpoints ∧ st1.too_short = st.too_short ∧
    st1.trackindex = st.trackindex + ((unlinkedSlots fr1 links).length : Int) ∧
    st1.activelist = st.activelist ++
      (List.range (unlinkedSlots fr1 links).length).map
        (fun (k : Nat) => st.trackindex + (k : Int)) ∧
    (∀ id, id < st.trackindex →
      (∀ c, c < fr1.NumParticles → links.getD c UNLINKED ≠ UNLINKED →
        links.getD c UNLINKED ≠ id) →
      st1.tracks id = st.tracks id) ∧
    (∀ c, c < fr1.NumParticles → links.getD c UNLINKED ≠ UNLINKED →
      ∃ t, st.tracks (links.getD c UNLINKED) = some t ∧
        st1.tracks (links.getD c UNLINKED)
          = some ((t.Add (fr1.pos.getD c default) st.framenum).ResetCounter)) ∧
    (∀ k, k < (unlinkedSlots fr1 links).length →
      st1.tracks (st.trackindex + (k : Int))
        = some (Track.single (fr1.pos.getD ((unlinkedSlots fr1 links).getD k 0) default)
            st.framenum)) ∧
    (∀ id, st.trackindex + ((unlinkedSlots fr1 links).length : Int) ≤ id →
      st1.tracks id = st.tracks id)

end StepPredicates

/-! ## The effect of `PadTracks` on the state -/

/-- What the first loop of `PadTracks` does with a track of the active list: it
is kept as it is, put on the write list, erased, or padded with an estimated
position. -/
inductive PadOutcome where
  | kept
  | written
  | erased
  | padded
deriving DecidableEq

section PadPredicates

variable {F : Type} [LinearOrderedField F]

/-- The branch of the first loop of `PadTracks` (lines 206-233) for the track
`t`, whose last counted position has the time `tm`, in the frame `framenum`. -/
def padBranch (tk : Tracker F) (framenum tm : Int) (t : Track F) : PadOutcome :=
  if tm = framenum then PadOutcome.kept
  else if t.OcclusionCount ≥ tk.memory then
    if t.Length < MINTRACK then PadOutcome.erased else PadOutcome.written
  else if t.Length ≤ 2 then PadOutcome.erased
  else PadOutcome.padded

/-- The branch of the first loop of `PadTracks` for the track `t` in the frame
`framenum` (lines 203-233); none when `GetTime` throws. -/
def padOutcome (tk : Tracker F) (framenum : Int) (t : Track F) : Option PadOutcome :=
  match t.GetTime (t.Length - 1) with
  | Except.ok tm => some (padBranch tk framenum tm t)
  | Except.error _ => none

/-- The branch of the first loop of `PadTracks` for the track with the id `id`
of the state; none when there is no such track. -/
def outcomeOf (tk : Tracker F) (st : TState F) (id : Int) : Option PadOutcome :=
  match st.tracks id with
  | some t => padOutcome tk st.framenum t
  | none => none

/-- The ids of the active list that the first loop of `PadTracks` pushes onto
`stillactive`. -/
def stillIds (tk : Tracker F) (st : TState F) : List Int :=
  st.activelist.filter fun id =>
    outcomeOf tk st id == some PadOutcome.kept || outcomeOf tk st id == some PadOutcome.padded

/-- The ids of the active list that the first loop of `PadTracks` pushes onto
`writelist`. -/
def writeIds (tk : Tracker F) (st : TState F) : List Int :=
  st.activelist.filter fun id => outcomeOf tk st id == some PadOutcome.written

/-- The state `st2` is the state `st` after a call of `PadTracks`: the active
list keeps, in order, the ids that are kept or padded; the tracks of the write
list are written in order with the indices `ntracks, ntracks + 1, ...` and
counted; a kept track is unchanged, a written or erased one has left the map, a
padded one has got an estimated position with the frame number and an incremented
counter; the tracks that are not active are unchanged. -/
def PadShape (tk : Tracker F) (st st2 : TState F) : Prop :=
  st2.framenum = st.framenum ∧ st2.trackindex = st.trackindex ∧
    st2.activelist = stillIds tk st ∧
    st2.written = st.written ++ ((writeIds tk st).filterMap st.tracks).enumFrom st.ntracks ∧
    st2.ntracks = st.ntracks + ((writeIds tk st).filterMap st.tracks).length ∧
    st2.ntotalpoints = st.ntotalpoints
      + (((writeIds tk st).filterMap st.tracks).map fun t => t.Length).sum ∧
    (∀ id, id ∉ st.activelist → st2.tracks id = st.tracks id) ∧
    ∀ id ∈ st.activelist, ∃ t o, st.tracks id = some t ∧
      padOutcome tk st.framenum t = some o ∧
      (o = PadOutcome.kept → st2.tracks id = some t) ∧
      (o = PadOutcome.written → st2.tracks id = none) ∧
      (o = PadOutcome.erased → st2.tracks id = none) ∧
      (o = PadOutcome.padded → ∃ last pen ante, t.Last = Except.ok last ∧
        t.Penultimate = Except.ok pen ∧ t.Antepenultimate = Except.ok ante ∧
        st2.tracks id
          = some ((t.Add (padEstimate tk last pen ante) st.framenum).Occluded))

end PadPredicates

section LinkScenes

/-- A state at frame 1 with the two active tracks of `tracksTwo`. -/
def stTwo : TState ℚ :=
  { tracks := tracksTwo, activelist := [0, 1], trackindex := 2, framenum := 1,
    too_short := 0, ntracks := 0, ntotalpoints := 0, written := [] }

/-- Two particles, at `x = 3/4` and at `x = 10`. -/
def frameSplit : Frame ℚ := ⟨[Position.mk3 (3 / 4) 0 0, Position.mk3 10 0 0]⟩

end LinkScenes

/-! ## The retirement rule of `PadTracks` as the specification words it -/

section RetirePredicates

variable {F : Type} [LinearOrderedField F]

/-- The track was added to in the frame `framenum`, by a link or as a new
track: its last stored position is a real one with that time. -/
def Track.addedAt (t : Track F) (framenum : Int) : Bool :=
  match t.pos.getLast?, t.time.getLast? with
  | some p, some m => !p.fake && decide (m = framenum)
  | _, _ => false

/-- The retirement rule in the words of the specification, for a track that
was (`linked`) or was not added to in the current frame: a track that was added
to is kept; otherwise, if its occlusion counter has reached `memory`, it is
written when its length is at least `MINTRACK` and erased when not; else it is
erased if its length is at most 2; else it is padded. -/
def retireRule (tk : Tracker F) (linked : Bool) (t : Track F) : PadOutcome :=
  if linked then PadOutcome.kept
  else if t.OcclusionCount ≥ tk.memory then
    if t.Length ≥ MINTRACK then PadOutcome.written else PadOutcome.erased
  else if t.Length ≤ 2 then PadOutcome.erased
  else PadOutcome.padded

/-- The retirement rule for the track with the id `id` of the state; none when
there is no such track. -/
def ruleOf (tk : Tracker F) (st : TState F) (id : Int) : Option PadOutcome :=
  (st.tracks id).map fun t => retireRule tk (t.addedAt st.framenum) t

end RetirePredicates

section RetireScenes

/-- A state at frame 12 with four active tracks: track 0 has one real position
of frame 12; track 1 has the ten positions of the frames 0 to 9 and an occlusion
counter of 1; track 2 has one position of frame 11; track 3 has the ten
positions of the frames 0 to 9 and an occlusion counter of 0. -/
def stFour : TState ℚ :=
  { tracks := fun id =>
      if id = 0 then some (Track.single (qUnit 12) 12)
      else if id = 1 then some (lineTrack qUnit 9).Occluded
      else if id = 2 then some (Track.single (qUnit 11) 11)
      else if id = 3 then some (lineTrack qUnit 9)
      else none,
    activelist := [0, 1, 2, 3], trackindex := 4, framenum := 12,
    too_short := 0, ntracks := 5, ntotalpoints := 60, written := [] }

end RetireScenes

/-! ## Predicates for the occlusion counter -/

section OcclusionPredicates

variable {F : Type} [LinearOrderedField F]

/-- The bookkeeping of a track whose last stored position has the time `m`: the
track is well formed, its occlusion counter is the number of its trailing fake
positions, which are fewer than its positions, the counter is at most
`max(memory, 0)`, and its times are the consecutive frame numbers that end
with `m`. -/
def Track.OccOK (tk : Tracker F) (t : Track F) (m : Int) : Prop :=
  t.WF ∧ t.occluded = ((t.pos.rtakeWhile fun p => p.fake).length : Int) ∧
    (t.pos.rtakeWhile fun p => p.fake).length < t.pos.length ∧
    t.occluded ≤ max tk.memory 0 ∧
    t.time = (List.range t.pos.length).map
      fun (i : Nat) => m - (t.pos.length : Int) + 1 + (i : Int)

/-- Every active track of the state is in the map and satisfies `P`. -/
def TState.ActiveOK (st : TState F) (P : Track F → Prop) : Prop :=
  st.IdsOK ∧ ∀ id ∈ st.activelist, ∃ t, st.tracks id = some t ∧ P t

end OcclusionPredicates

/-! ## The header of the track file -/

section HeaderDefs

variable {F : Type} [LinearOrderedField F]

/-- The number of rows that `MakeTracks` writes into the header of the output
file when the run ends (lines 182-183): the member `ntotalpoints`. -/
def headerRows (st : TState F) : Int := st.ntotalpoints

/-- The number of data fields that `MakeTracks` writes into the header (lines
185-186): `19 * ntotalpoints`. -/
def headerFields (st : TState F) : Int := 19 * st.ntotalpoints

end HeaderDefs

/-! ## A run that writes two tracks -/

section BookkeepingScene

/-- Eleven frames of two particles at rest, at `x = 0` and at `x = 100`; the
last frame holds only the second one. -/
def pairFrames : List (Frame ℚ) :=
  (List.range 11).map fun t =>
    if t = 10 then ⟨[Position.mk3 100 0 0]⟩ else ⟨[Position.mk3 0 0 0, Position.mk3 100 0 0]⟩

end BookkeepingScene

/-! ## A scene for the comparison of the degraded with the full matches -/

section CrossScenes

/-- The detections of `framesPlane` without detection 1 of camera 0: the point
`(0, 0, 16)` is seen by all four cameras of `calPlane`, the point `(2, 0, 4)`
by the cameras 1, 2, 3 only.  All detections have `y = 0`. -/
def framesCross : List (Frame ℚ) :=
  [⟨[Position.mk4 0 0 0 0]⟩,
   ⟨[Position.mk4 (3 / 4) 0 0 0, Position.mk4 (12 / 5) 0 0 0]⟩,
   ⟨[Position.mk4 (8 / 15) 0 0 0, Position.mk4 (4 / 3) 0 0 0]⟩,
   ⟨[Position.mk4 (5 / 12) 0 0 0, Position.mk4 (15 / 8) 0 0 0]⟩]

end CrossScenes

/-! ## A scene with a pixel pitch and an image centre -/

section PixelScenes

/-- The camera `camAt 0 cz` with 3 by 5 pixels of pitch `1/2` by `1/4`. -/
def camPixel (cz : ℚ) : Camera ℚ :=
  { camAt 0 cz with Npixw := 3, Npixh := 5, wpix := 1 / 2, hpix := 1 / 4 }

/-- The cameras of `calAxis` with the pixels of `camPixel`. -/
def calPixel : Calibration ℚ :=
  { cams := [camPixel (-5), camPixel (-9), camPixel (-16), camPixel (-35)],
    mindist_2D := 1 / 100, mindist_3D := 1 / 100 }

/-- One particle seen by all four cameras of `calPixel`, in pixels, with the
orientations 10, 20, 30 and 40. -/
def framesPixel : List (Frame ℚ) :=
  [⟨[Position.mk4 (97 / 25) (242 / 25) 0 10]⟩, ⟨[Position.mk4 (13 / 5) (94 / 15) 0 20]⟩,
   ⟨[Position.mk4 (19 / 10) (22 / 5) 0 30]⟩, ⟨[Position.mk4 (247 / 175) (542 / 175) 0 40]⟩]

end PixelScenes

/-! ## Binary64 rounding, and scenes of numbers that are `double` values -/

section RoundingDefs

/-- The number of binary digits of `n`, for `n` below `2 ^ fuel`. -/
def bitLength : Nat → Nat → Nat
  | 0, _ => 0
  | fuel + 1, n => if n = 0 then 0 else bitLength fuel (n / 2) + 1

/-- Rounding of a rational to the nearest number with 53 significant binary
digits, ties to even: the rounding of an IEEE 754 binary64 operation, without
the bounds of the exponent (numerator and denominator below `2 ^ 4096`). -/
def rnd64 (q : ℚ) : ℚ :=
  if q = 0 then 0
  else
    let n := q.num.natAbs
    let d := q.den
    let e0 : Int := (bitLength 4096 n : Int) - (bitLength 4096 d : Int) - 52
    let e : Int := if n * 2 ^ (-e0).toNat < 2 ^ 52 * (d * 2 ^ e0.toNat) then e0 - 1 else e0
    let N := n * 2 ^ (-e).toNat
    let D := d * 2 ^ e.toNat
    let m := N / D
    let r := N % D
    let m := if D < 2 * r ∨ (2 * r = D ∧ m % 2 = 1) then m + 1 else m
    let v : ℚ := (m : ℚ) * 2 ^ e.toNat / 2 ^ (-e).toNat
    if q < 0 then -v else v

/-- The arithmetic of `double`: every rounded operation rounds with `rnd64`.
(No evaluation below divides by zero.) -/
def ieee : Arith ℚ := ⟨rnd64, 0⟩

/-- The number is a `double`: rounding does not change it. -/
def isDouble (q : ℚ) : Bool := rnd64 q == q

/-- Every number of the scene is a `double`: the parameters of the cameras
(whose matrices are the identity in every scene below), the tolerances, and the
coordinates and orientations of the detections. -/
def allDoubles (cal : Calibration ℚ) (iframes : List (Frame ℚ)) : Bool :=
  cal.cams.all (fun c =>
    [c.wpix, c.hpix, c.f_eff, c.kr, c.kx, c.T.x, c.T.y, c.T.z, c.Tinv.x, c.Tinv.y,
      c.Tinv.z].all isDouble) &&
    isDouble cal.mindist_2D && isDouble cal.mindist_3D &&
    iframes.all (fun f => f.pos.all fun p => [p.x, p.y, p.z, p.ori].all isDouble)

/-- Camera 0 of the scenes below: `camAt (15/8) (-1)` with four pixel columns,
so that `Npixw / 2 = 2`. -/
def camFour : Camera ℚ := { camAt (15 / 8) (-1) with Npixw := 4 }

/-- A camera at `(-63/4, 0, -4)` with 1024 by 1024 pixels of the pitch that the
text `0.017` is read as. -/
def camFine : Camera ℚ :=
  { camAt (-63 / 4) (-4) with
    Npixw := 1024, Npixh := 1024, wpix := rnd64 (17 / 1000), hpix := rnd64 (17 / 1000) }

/-- Four cameras in the plane `y = 0`, at the depths 1, 2, 4 and 8 below the
origin, which they see at the image coordinates `-15/8`, `3/4`, `63/16` and
`255/32`. -/
def calRound : Calibration ℚ :=
  { cams := [camFour, camAt (-3 / 2) (-2), camAt (-63 / 4) (-4), camAt (-255 / 4) (-8)],
    mindist_2D := 1 / 128, mindist_3D := 1 / 128 }

/-- The origin seen by the four cameras of `calRound`, in pixels; the detection
of camera 0 is at the column `1/8 + 2^-55`. -/
def framesRound : List (Frame ℚ) :=
  [⟨[Position.mk4 (1 / 8 + 1 / 2 ^ 55) 0 0 0]⟩, ⟨[Position.mk4 (3 / 4) 0 0 0]⟩,
   ⟨[Position.mk4 (63 / 16) 0 0 0]⟩, ⟨[Position.mk4 (255 / 32) 0 0 0]⟩]

/-- As `framesRound`, with the detection of camera 0 at the column `1/8`. -/
def framesEighth : List (Frame ℚ) :=
  [⟨[Position.mk4 (1 / 8) 0 0 0]⟩, ⟨[Position.mk4 (3 / 4) 0 0 0]⟩,
   ⟨[Position.mk4 (63 / 16) 0 0 0]⟩, ⟨[Position.mk4 (255 / 32) 0 0 0]⟩]

/-- The cameras of `calRound` with `camFine` as camera 2. -/
def calFine : Calibration ℚ :=
  { cams := [camFour, camAt (-3 / 2) (-2), camFine, camAt (-255 / 4) (-8)],
    mindist_2D := 1 / 128, mindist_3D := 1 / 128 }

/-- The origin seen by the cameras 0, 1 and 3; camera 2 has no detection. -/
def framesThreeOfFour : List (Frame ℚ) :=
  [⟨[Position.mk4 (1 / 8) 0 0 0]⟩, ⟨[Position.mk4 (3 / 4) 0 0 0]⟩, ⟨[]⟩,
   ⟨[Position.mk4 (255 / 32) 0 0 0]⟩]

end RoundingDefs

/-! ## The source detections stored in a world point -/

section SourceDefs

variable {F : Type} [LinearOrderedField F]

/-- The source detection of camera `k` stored in a world point: the members
`x(k+1)`, `y(k+1)` and `ori(k+1)`, for `k` among 0..3. -/
def Position.source (p : Position F) (k : Nat) : F × F × F :=
  match k with
  | 0 => (p.x1, p.y1, p.ori1)
  | 1 => (p.x2, p.y2, p.ori2)
  | 2 => (p.x3, p.y3, p.ori3)
  | _ => (p.x4, p.y4, p.ori4)

end SourceDefs

/-! ## Theorems -/


section MatcherLemmas

variable {F : Type}


theorem getD_map_range {α : Type} (f : Nat → α) (n i : Nat) (d : α) (h : i < n) :
    ((List.range n).map f).getD i d = f i := by
  rw [List.getD_eq_getElem _ _ (by simpa using h)]
  simp

theorem stage_succ (P : List (List (List (List Nat)))) (corr : List (Frame F))
    (ncams p0 m : Nat) :
    stage P corr ncams p0 (m + 1) = extendCam P corr ncams (m + 1) (stage P corr ncams p0 m) := by
  unfold stage
  rw [List.range'_concat, List.foldl_append]
  simp [Nat.add_comm]

theorem canAdd_iff (P : List (List (List (List Nat)))) (i : Nat) (tm : List Nat) (p : Nat) :
    canAdd P i tm p = true ↔
      ∀ j < i, tm.getD j 0 ∈ plist P i p j ∧ p ∈ plist P j (tm.getD j 0) i := by
  simp [canAdd]

theorem toNextp_eq_false_iff (P : List (List (List (List Nat)))) (ncams i p : Nat) :
    toNextp P ncams i p = false ↔ ∀ j, i < j → j < ncams → plist P i p j ≠ [] := by
  simp only [toNextp, Bool.eq_false_iff, ne_eq, List.any_eq_true, not_exists, not_and,
    List.mem_range', beq_iff_eq, List.length_eq_zero]
  constructor
  · intro h j hij hj
    apply h j
    refine ⟨j - (i + 1), by omega, by omega⟩
  · rintro h j ⟨k, hk, rfl⟩
    apply h <;> omega

theorem mem_extendCam (P : List (List (List (List Nat)))) (corr : List (Frame F))
    (ncams i : Nat) (T : List (List Nat)) (t : List Nat) :
    t ∈ extendCam P corr ncams i T ↔
      t ∈ T ∨ ∃ tm ∈ T, i ≤ tm.length ∧ ∃ p, p < (corr.getD i default).NumParticles ∧
        toNextp P ncams i p = false ∧ canAdd P i tm p = true ∧ t = tm ++ [p] := by
  simp only [extendCam, List.mem_append, List.mem_flatMap]
  constructor
  · rintro (h | ⟨tm, htm, h⟩)
    · exact Or.inl h
    · right
      refine ⟨tm, htm, ?_⟩
      split at h
      · simp at h
      · rename_i hlen
        simp only [List.mem_map, List.mem_filter, List.mem_range, Bool.and_eq_true,
          Bool.not_eq_true'] at h
        obtain ⟨p, ⟨hp, hn, hc⟩, rfl⟩ := h
        exact ⟨by omega, p, hp, hn, hc, rfl⟩
  · rintro (h | ⟨tm, htm, hlen, p, hp, hn, hc, rfl⟩)
    · exact Or.inl h
    · right
      refine ⟨tm, htm, ?_⟩
      rw [if_neg (by omega)]
      simp only [List.mem_map, List.mem_filter, List.mem_range, Bool.and_eq_true,
        Bool.not_eq_true']
      exact ⟨p, ⟨hp, hn, hc⟩, rfl⟩


theorem getD_snoc_lt (tm : List Nat) (p a : Nat) (h : a < tm.length) :
    (tm ++ [p]).getD a 0 = tm.getD a 0 :=
  List.getD_append _ _ _ _ h

theorem getD_snoc_eq (tm : List Nat) (p : Nat) :
    (tm ++ [p]).getD tm.length 0 = p := by
  rw [List.getD_append_right _ _ _ _ (Nat.le_refl _)]
  simp

theorem stage_sound (P : List (List (List (List Nat)))) (corr : List (Frame F))
    (ncams p0 : Nat) (m : Nat) :
    ∀ tm ∈ stage P corr ncams p0 m,
      1 ≤ tm.length ∧ tm.length ≤ m + 1 ∧ tm.getD 0 0 = p0 ∧ PairOK P tm ∧
        (p0 < (corr.getD 0 default).NumParticles → InRange corr tm) := by
  induction m with
  | zero =>
    intro tm htm
    simp only [stage, List.range'_zero, List.foldl_nil, List.mem_singleton] at htm
    subst htm
    refine ⟨by simp, by simp, by simp, ?_, ?_⟩
    · intro a b ha hb hab
      simp only [List.length_singleton] at ha hb
      omega
    · intro hp0 a ha
      simp only [List.length_singleton] at ha
      have : a = 0 := by omega
      subst this
      simpa using hp0
  | succ m ih =>
    intro t ht
    rw [stage_succ, mem_extendCam] at ht
    rcases ht with h | ⟨tm, htm, hlen, p, hp, _, hc, rfl⟩
    · obtain ⟨h1, h2, h3, h4, h5⟩ := ih t h
      exact ⟨h1, by omega, h3, h4, h5⟩
    · obtain ⟨h1, h2, h3, h4, h5⟩ := ih tm htm
      have hl : tm.length = m + 1 := by omega
      rw [canAdd_iff] at hc
      refine ⟨by simp, by simp [hl], ?_, ?_, ?_⟩
      · rw [getD_snoc_lt tm p 0 (by omega)]
        exact h3
      · intro a b ha hb hab
        simp only [List.length_append, List.length_singleton] at ha hb
        by_cases ha' : a < tm.length
        · by_cases hb' : b < tm.length
          · rw [getD_snoc_lt tm p a ha', getD_snoc_lt tm p b hb']
            exact h4 a b ha' hb' hab
          · have hb2 : b = tm.length := by omega
            subst hb2
            rw [getD_snoc_lt tm p a ha', getD_snoc_eq, hl]
            exact (hc a (by omega)).2
        · have ha2 : a = tm.length := by omega
          subst ha2
          have hb' : b < tm.length := by omega
          rw [getD_snoc_lt tm p b hb', getD_snoc_eq, hl]
          exact (hc b (by omega)).1
      · intro hp0 a ha
        simp only [List.length_append, List.length_singleton] at ha
        by_cases ha' : a < tm.length
        · rw [getD_snoc_lt tm p a ha']
          exact h5 hp0 a ha'
        · have ha2 : a = tm.length := by omega
          subst ha2
          rw [getD_snoc_eq, hl]
          exact hp

theorem take_succ_getD (t : List Nat) (m : Nat) (h : m < t.length) :
    t.take (m + 1) = t.take m ++ [t.getD m 0] := by
  rw [List.take_succ, List.getD_eq_getElem _ _ h]
  simp [List.getElem?_eq_getElem h]

theorem getD_take_lt (t : List Nat) (m a : Nat) (h : a < m) :
    (t.take m).getD a 0 = t.getD a 0 := by
  simp [List.getD_eq_getElem?_getD, List.getElem?_take, h]

theorem stage_complete (P : List (List (List (List Nat)))) (corr : List (Frame F))
    (ncams p0 : Nat) (t : List Nat) (hlen : t.length = ncams) (h0 : t.getD 0 0 = p0)
    (hpair : PairOK P t) (hrange : InRange corr t) (m : Nat) (hm : m + 1 ≤ ncams) :
    t.take (m + 1) ∈ stage P corr ncams p0 m := by
  induction m with
  | zero =>
    simp only [stage, List.range'_zero, List.foldl_nil, List.mem_singleton]
    rw [take_succ_getD t 0 (by omega), h0]
    simp
  | succ m ih =>
    rw [stage_succ, mem_extendCam]
    right
    refine ⟨t.take (m + 1), ih (by omega), ?_, t.getD (m + 1) 0, ?_, ?_, ?_, ?_⟩
    · simp [List.length_take]
      omega
    · exact hrange (m + 1) (by omega)
    · rw [toNextp_eq_false_iff]
      intro j hj hjn
      have := hpair (m + 1) j (by omega) (by omega) (by omega)
      exact List.ne_nil_of_mem this
    · rw [canAdd_iff]
      intro j hj
      rw [getD_take_lt t (m + 1) j hj]
      exact ⟨hpair (m + 1) j (by omega) (by omega) (by omega),
        hpair j (m + 1) (by omega) (by omega) (by omega)⟩
    · exact take_succ_getD t (m + 1) (by omega)

theorem stage_nodup (P : List (List (List (List Nat)))) (corr : List (Frame F))
    (ncams p0 : Nat) (m : Nat) :
    (stage P corr ncams p0 m).Nodup := by
  induction m with
  | zero => simp [stage]
  | succ m ih =>
    rw [stage_succ]
    unfold extendCam
    rw [List.nodup_append]
    refine ⟨ih, ?_, ?_⟩
    · rw [List.nodup_flatMap]
      constructor
      · intro tm _
        split
        · exact List.nodup_nil
        · apply List.Nodup.map
          · intro p q hpq
            simpa using hpq
          · exact List.Nodup.filter _ (List.nodup_range _)
      · refine List.Pairwise.imp ?_ ih
        intro tm tm' hne
        simp only [Function.onFun]
        intro x hx hx'
        split at hx
        · simp at hx
        · split at hx'
          · simp at hx'
          · simp only [List.mem_map] at hx hx'
            obtain ⟨p, _, rfl⟩ := hx
            obtain ⟨q, _, hq⟩ := hx'
            have := List.append_inj_left' hq (by simp)
            exact hne this.symm
    · intro x hx hx'
      simp only [List.mem_flatMap] at hx'
      obtain ⟨tm, htm, hx'⟩ := hx'
      split at hx'
      · simp at hx'
      · rename_i hl
        simp only [List.mem_map] at hx'
        obtain ⟨p, _, rfl⟩ := hx'
        have h1 := (stage_sound P corr ncams p0 m _ hx).2.1
        simp only [List.length_append, List.length_singleton] at h1
        omega


theorem toMatch_eq_stage (P : List (List (List (List Nat)))) (corr : List (Frame F))
    (ncams p0 : Nat) : toMatch P corr ncams p0 = stage P corr ncams p0 (ncams - 1) := rfl

theorem ncams_missing_pos_iff (P : List (List (List (List Nat)))) (ncams p0 : Nat) :
    ncams_missing P ncams p0 > 0 ↔ ∃ i, 1 ≤ i ∧ i < ncams ∧ plist P 0 p0 i = [] := by
  simp only [ncams_missing, gt_iff_lt, List.length_pos_iff_exists_mem, List.mem_filter,
    List.mem_range', beq_iff_eq, List.length_eq_zero]
  constructor
  · rintro ⟨i, ⟨k, hk, rfl⟩, h⟩
    exact ⟨1 + 1 * k, by omega, by omega, h⟩
  · rintro ⟨i, h1, h2, h⟩
    exact ⟨i, ⟨i - 1, by omega, by omega⟩, h⟩

/-- Soundness of the full matcher for an arbitrary pair-list table. -/
theorem submitted_sound (P : List (List (List (List Nat)))) (corr : List (Frame F))
    (ncams p0 : Nat) (hn : 1 ≤ ncams) (tm : List Nat) (h : tm ∈ submitted P corr ncams p0) :
    tm.length = ncams ∧ tm.getD 0 0 = p0 ∧ PairOK P tm ∧
      (p0 < (corr.getD 0 default).NumParticles → InRange corr tm) := by
  unfold submitted at h
  split at h
  · simp at h
  · simp only [List.mem_filter, Bool.not_eq_true', decide_eq_false_iff_not, not_lt] at h
    obtain ⟨hmem, hlen⟩ := h
    rw [toMatch_eq_stage] at hmem
    obtain ⟨_, h2, h3, h4, h5⟩ := stage_sound P corr ncams p0 (ncams - 1) tm hmem
    exact ⟨by omega, h3, h4, h5⟩

/-- Completeness of the full matcher for an arbitrary pair-list table. -/
theorem submitted_complete (P : List (List (List (List Nat)))) (corr : List (Frame F))
    (ncams p0 : Nat) (hn : 1 ≤ ncams) (tm : List Nat) (hlen : tm.length = ncams)
    (h0 : tm.getD 0 0 = p0) (hpair : PairOK P tm) (hrange : InRange corr tm) :
    tm ∈ submitted P corr ncams p0 := by
  unfold submitted
  rw [if_neg]
  · simp only [List.mem_filter, Bool.not_eq_true', decide_eq_false_iff_not, not_lt]
    refine ⟨?_, by omega⟩
    rw [toMatch_eq_stage]
    have := stage_complete P corr ncams p0 tm hlen h0 hpair hrange (ncams - 1) (by omega)
    rw [show ncams - 1 + 1 = ncams by omega, ← hlen, List.take_length] at this
    rw [hlen] at this
    exact this
  · rw [ncams_missing_pos_iff]
    rintro ⟨i, h1, h2, hnil⟩
    have := hpair 0 i (by omega) (by omega) (by omega)
    rw [h0, hnil] at this
    simp at this

theorem submitted_nodup (P : List (List (List (List Nat)))) (corr : List (Frame F))
    (ncams p0 : Nat) : (submitted P corr ncams p0).Nodup := by
  unfold submitted
  split
  · exact List.nodup_nil
  · exact List.Nodup.filter _ (stage_nodup P corr ncams p0 (ncams - 1))

end MatcherLemmas

section ArithLemmas

variable {F : Type} [LinearOrderedField F]

/-- Exact arithmetic rounds nothing. -/
theorem fl_exact (x : F) : @Arith.fl F Arith.exact x = x := rfl

theorem isExact_exact : @Arith.IsExact F Arith.exact := fun _ => rfl

end ArithLemmas

section CameraTheorems

variable {F : Type} [LinearOrderedField F]


/-- C6. Camera round trip: for a camera with non-zero pixel pitch, re-distorting
an undistorted point gives back its `X`, `Y`, `Z` and orientation exactly, also
when `Npixw` or `Npixh` is odd and the integer halves are truncated. -/
theorem C6_camera_round_trip (c : Camera F) (p : Position F)
    (hw : c.wpix ≠ 0) (hh : c.hpix ≠ 0) :
    (c.Distort (c.UnDistort p)).x = p.x ∧ (c.Distort (c.UnDistort p)).y = p.y ∧
      (c.Distort (c.UnDistort p)).z = p.z ∧ (c.Distort (c.UnDistort p)).ori = p.ori := by
  refine ⟨?_, ?_, ?_, ?_⟩
  · simp only [Camera.Distort, Camera.UnDistort, Position.mk4, Position.mulEq, fl_exact,
      if_neg hw]
    field_simp
  · simp only [Camera.Distort, Camera.UnDistort, Position.mk4, Position.mulEq, fl_exact,
      if_neg hh]
    field_simp
  · simp only [Camera.Distort, Camera.UnDistort, Position.mk4, Position.mulEq, fl_exact]
    ring
  · simp only [Camera.Distort, Camera.UnDistort, Position.mk4, Position.mulEq]

/-- C7. Projection round trip: when `Rinv * R = I`, `Tinv = -(Rinv * T)`,
`f_eff ≠ 0` and the camera-frame depth of `w` is non-zero, the point
`ImageToWorld(WorldToImage(w))` lies on the line through `Center()` and `w`. -/
theorem C7_projection_round_trip (c : Camera F) (w : Position F)
    (hR : c.Rinv.mul c.R = Matrix.identity)
    (hT : c.Tinv.x = -(c.Rinv.mulVec c.T).x ∧ c.Tinv.y = -(c.Rinv.mulVec c.T).y ∧
      c.Tinv.z = -(c.Rinv.mulVec c.T).z)
    (hf : c.f_eff ≠ 0) (hz : ((c.R.mulVec w).add c.T).z ≠ 0) :
    ∃ t : F,
      (c.ImageToWorld (c.WorldToImage w)).x = c.Center.x + t * (w.x - c.Center.x) ∧
      (c.ImageToWorld (c.WorldToImage w)).y = c.Center.y + t * (w.y - c.Center.y) ∧
      (c.ImageToWorld (c.WorldToImage w)).z = c.Center.z + t * (w.z - c.Center.z) := by
  obtain ⟨hTx, hTy, hTz⟩ := hT
  simp only [Matrix.mul, Matrix.identity, Matrix.mk.injEq] at hR
  obtain ⟨h00, h01, h02, h10, h11, h12, h20, h21, h22⟩ := hR
  simp only [Matrix.mulVec, Position.add, Position.mk3] at hz hTx hTy hTz
  have hs : (c.R.m20 * w.x + c.R.m21 * w.y + c.R.m22 * w.z + c.T.z)
      * (c.T.z / (c.R.m20 * w.x + c.R.m21 * w.y + c.R.m22 * w.z + c.T.z)) = c.T.z := by
    field_simp
  have hscale : ∀ a : F,
      a * (c.f_eff / (c.R.m20 * w.x + c.R.m21 * w.y + c.R.m22 * w.z + c.T.z)) * c.T.z / c.f_eff
        = a * (c.T.z / (c.R.m20 * w.x + c.R.m21 * w.y + c.R.m22 * w.z + c.T.z)) := by
    intro a
    field_simp
    ring
  refine ⟨c.T.z / (c.R.m20 * w.x + c.R.m21 * w.y + c.R.m22 * w.z + c.T.z), ?_, ?_, ?_⟩
  · simp only [Camera.ImageToWorld, Camera.WorldToImage, Camera.Center, Matrix.mulVec,
      Position.add, Position.sub, Position.smul, Position.sdiv, Position.mk3, Position.mk4]
    rw [hTx, hscale, hscale]
    linear_combination
      (c.T.z / (c.R.m20 * w.x + c.R.m21 * w.y + c.R.m22 * w.z + c.T.z) * w.x) * h00
      + (c.T.z / (c.R.m20 * w.x + c.R.m21 * w.y + c.R.m22 * w.z + c.T.z) * w.y) * h01
      + (c.T.z / (c.R.m20 * w.x + c.R.m21 * w.y + c.R.m22 * w.z + c.T.z) * w.z) * h02
      - c.Rinv.m02 * hs
  · simp only [Camera.ImageToWorld, Camera.WorldToImage, Camera.Center, Matrix.mulVec,
      Position.add, Position.sub, Position.smul, Position.sdiv, Position.mk3, Position.mk4]
    rw [hTy, hscale, hscale]
    linear_combination
      (c.T.z / (c.R.m20 * w.x + c.R.m21 * w.y + c.R.m22 * w.z + c.T.z) * w.x) * h10
      + (c.T.z / (c.R.m20 * w.x + c.R.m21 * w.y + c.R.m22 * w.z + c.T.z) * w.y) * h11
      + (c.T.z / (c.R.m20 * w.x + c.R.m21 * w.y + c.R.m22 * w.z + c.T.z) * w.z) * h12
      - c.Rinv.m12 * hs
  · simp only [Camera.ImageToWorld, Camera.WorldToImage, Camera.Center, Matrix.mulVec,
      Position.add, Position.sub, Position.smul, Position.sdiv, Position.mk3, Position.mk4]
    rw [hTz, hscale, hscale]
    linear_combination
      (c.T.z / (c.R.m20 * w.x + c.R.m21 * w.y + c.R.m22 * w.z + c.T.z) * w.x) * h20
      + (c.T.z / (c.R.m20 * w.x + c.R.m21 * w.y + c.R.m22 * w.z + c.T.z) * w.y) * h21
      + (c.T.z / (c.R.m20 * w.x + c.R.m21 * w.y + c.R.m22 * w.z + c.T.z) * w.z) * h22
      - c.Rinv.m22 * hs

/-- Witness of C6 on a camera with odd pixel counts. -/
theorem C6_camera_round_trip_witness :
    camOdd.wpix ≠ 0 ∧ camOdd.hpix ≠ 0 ∧
      (camOdd.Distort (camOdd.UnDistort (Position.mk4 7 9 0 3))).x = 7 ∧
      (camOdd.Distort (camOdd.UnDistort (Position.mk4 7 9 0 3))).y = 9 ∧
      (camOdd.Distort (camOdd.UnDistort (Position.mk4 7 9 0 3))).z = 0 ∧
      (camOdd.Distort (camOdd.UnDistort (Position.mk4 7 9 0 3))).ori = 3 :=
  ⟨by decide!, by decide!,
    C6_camera_round_trip camOdd (Position.mk4 7 9 0 3) (by decide!) (by decide!)⟩

/-- Witness of C7 on the camera at `(0, 0, -5)` and the world point
`(36/5, 48/5, 0)`. -/
theorem C7_projection_round_trip_witness :
    (camAt 0 (-5)).Rinv.mul (camAt 0 (-5)).R = Matrix.identity ∧
      (camAt 0 (-5)).f_eff ≠ 0 ∧
      ∃ t : ℚ,
        ((camAt 0 (-5)).ImageToWorld ((camAt 0 (-5)).WorldToImage
            (Position.mk3 (36 / 5) (48 / 5) 0))).x
          = (camAt 0 (-5)).Center.x + t * ((36 / 5 : ℚ) - (camAt 0 (-5)).Center.x) ∧
        ((camAt 0 (-5)).ImageToWorld ((camAt 0 (-5)).WorldToImage
            (Position.mk3 (36 / 5) (48 / 5) 0))).y
          = (camAt 0 (-5)).Center.y + t * ((48 / 5 : ℚ) - (camAt 0 (-5)).Center.y) ∧
        ((camAt 0 (-5)).ImageToWorld ((camAt 0 (-5)).WorldToImage
            (Position.mk3 (36 / 5) (48 / 5) 0))).z
          = (camAt 0 (-5)).Center.z + t * ((0 : ℚ) - (camAt 0 (-5)).Center.z) :=
  ⟨by decide!, by decide!,
    C7_projection_round_trip (camAt 0 (-5)) (Position.mk3 (36 / 5) (48 / 5) 0)
      (by decide!) ⟨by decide!, by decide!, by decide!⟩ (by decide!) (by decide!)⟩

end CameraTheorems


section PairTheorems
variable {F : Type} [LinearOrderedField F] [Arith F]

theorem plist_pairlists (sqrt : F → F) (cal : Calibration F) (corr : List (Frame F))
    (i a k : Nat) (hi : i < cal.ncams) (ha : a < (corr.getD i default).NumParticles)
    (hk : k < cal.ncams) :
    plist (pairlists sqrt cal corr) i a k = pairlistEntry sqrt cal corr i a k := by
  unfold plist pairlists
  have h1 : ∀ (f : Nat → List (List (List Nat))) (n : Nat), i < n →
      ((List.range n).map f).getD i [] = f i := by
    intro f n h
    rw [List.getD_eq_getElem _ _ (by simpa using h)]
    simp
  have h2 : ∀ (f : Nat → List (List Nat)) (n : Nat), a < n →
      ((List.range n).map f).getD a [] = f a := by
    intro f n h
    rw [List.getD_eq_getElem _ _ (by simpa using h)]
    simp
  have h3 : ∀ (f : Nat → List Nat) (n : Nat), k < n →
      ((List.range n).map f).getD k [] = f k := by
    intro f n h
    rw [List.getD_eq_getElem _ _ (by simpa using h)]
    simp
  rw [h1 _ _ hi, h2 _ _ ha, h3 _ _ hk]

/-- The unit vector of a non-zero `d` is unique: it is `d` divided by the root
of its squared length. -/
theorem unit_unique (l d : Position F) (s : F) (hs0 : 0 ≤ s) (hs : s * s = d.Magnitude2)
    (hl : l.IsUnitOf d) : s ≠ 0 ∧ l.x = d.x / s ∧ l.y = d.y / s ∧ l.z = d.z / s := by
  obtain ⟨h1, t, ht, hx, hy, hz⟩ := hl
  have hm : d.Magnitude2 = t * t := by
    unfold Position.Magnitude2 at h1 ⊢
    rw [hx, hy, hz]
    linear_combination (t * t) * h1
  have hst : s = t := by
    have h2 : (s - t) * (s + t) = 0 := by
      linear_combination hs + hm
    rcases mul_eq_zero.1 h2 with h | h
    · linarith
    · linarith
  have hne : s ≠ 0 := by rw [hst]; exact ne_of_gt ht
  refine ⟨hne, ?_, ?_, ?_⟩
  · rw [hx, hst]; field_simp
  · rw [hy, hst]; field_simp
  · rw [hz, hst]; field_simp

/-- A non-zero `d` divided by the root of its squared length is its unit
vector. -/
theorem unit_of_div (d : Position F) (s : F) (hs0 : 0 ≤ s) (hs : s * s = d.Magnitude2)
    (hne : s ≠ 0) : (d.divEq s).IsUnitOf d := by
  have hpos : 0 < s := lt_of_le_of_ne hs0 (Ne.symm hne)
  refine ⟨?_, s, hpos, ?_, ?_, ?_⟩
  · unfold Position.Magnitude2 at hs ⊢
    simp only [Position.divEq]
    field_simp
    linear_combination -hs
  · simp only [Position.divEq]; field_simp
  · simp only [Position.divEq]; field_simp
  · simp only [Position.divEq]; field_simp

theorem pairlistUndefined_eq_false (sqrt : F → F) (cal : Calibration F)
    (corr : List (Frame F)) (i a k : Nat) (h : pairlistUndefined sqrt cal corr i a k = false) :
    (cal.cams.getD i default).f_eff ≠ 0 ∧
      (cal.cams.getD k default).depth (cal.cams.getD i default).Center ≠ 0 ∧
      (cal.cams.getD k default).depth
        ((cal.cams.getD i default).ImageToWorld (detAt corr i a)) ≠ 0 ∧
      (epipolarDiff cal corr i a k).Magnitude sqrt ≠ 0 := by
  simp only [pairlistUndefined, Bool.or_eq_false_iff, decide_eq_false_iff_not] at h
  exact ⟨h.1.1.1, h.1.1.2, h.1.2, h.2⟩

/-- C5. Pair-list construction, for a detection `a` of camera `i` and a
detection `b` of another camera `k`, with `center` the image on `k` of the
centre of `i` and `d` the difference of the image on `k` of the world point of
`a` and `center`.  When no divisor is zero (the focal length of `i`, the depths
of the two points in `k`, the length of `d`) and `sqrt` gives the root of the
squared length of `d`, then `d` has a normalised vector `l` (length 1, `d` a
positive multiple of it), the one the code computes, and `b` is on
`pairlists[i][a][k]` iff `|Dot(b - center, perpdir)| < mindist_2D` with
`perpdir = (l.Y, -l.X, 0)`.  When a divisor is zero the list is empty (the
compared value is not a number).  `pairlists[i][a][i]` is empty. -/
theorem C5_pairlist_construction (sqrt : F → F) (cal : Calibration F)
    (corr : List (Frame F)) (i a k b : Nat)
    (hi : i < cal.ncams) (ha : a < (corr.getD i default).NumParticles)
    (hk : k < cal.ncams) (hik : k ≠ i) (hb : b < (corr.getD k default).NumParticles) :
    (pairlistUndefined sqrt cal corr i a k = false →
      0 ≤ sqrt (epipolarDiff cal corr i a k).Magnitude2 →
      sqrt (epipolarDiff cal corr i a k).Magnitude2
          * sqrt (epipolarDiff cal corr i a k).Magnitude2
        = (epipolarDiff cal corr i a k).Magnitude2 →
      (epipolarDir sqrt cal corr i a k).IsUnitOf (epipolarDiff cal corr i a k) ∧
      ∀ l : Position F, l.IsUnitOf (epipolarDiff cal corr i a k) →
        (b ∈ plist (pairlists sqrt cal corr) i a k ↔
          abs (Dot ((detAt corr k b).sub (epipoleOn cal i k)) (Position.mk3 l.y (-l.x) 0))
            < cal.mindist_2D)) ∧
    (pairlistUndefined sqrt cal corr i a k = true →
      plist (pairlists sqrt cal corr) i a k = []) ∧
    plist (pairlists sqrt cal corr) i a i = [] := by
  refine ⟨?_, ?_, ?_⟩
  · intro hund h0 hsq
    obtain ⟨_, _, _, hmag⟩ := pairlistUndefined_eq_false sqrt cal corr i a k hund
    have hdir : (epipolarDir sqrt cal corr i a k).IsUnitOf (epipolarDiff cal corr i a k) :=
      unit_of_div _ _ h0 hsq hmag
    refine ⟨hdir, ?_⟩
    intro l hl
    obtain ⟨_, lx, ly, _⟩ := unit_unique l _ _ h0 hsq hl
    have hperp : (Position.mk3 l.y (-l.x) 0 : Position F) = epipolarPerp sqrt cal corr i a k := by
      unfold epipolarPerp epipolarDir
      rw [lx, ly]
      rfl
    rw [hperp, plist_pairlists sqrt cal corr i a k hi ha hk]
    unfold pairlistEntry
    rw [if_neg (fun h => hik h.symm), hund]
    simp only [Bool.false_eq_true, if_false, List.mem_filter, List.mem_range,
      decide_eq_true_eq]
    constructor
    · intro h
      exact h.2
    · intro h
      exact ⟨hb, h⟩
  · intro hund
    rw [plist_pairlists sqrt cal corr i a k hi ha hk]
    unfold pairlistEntry
    rw [if_neg (fun h => hik h.symm), hund]
    rfl
  · rw [plist_pairlists sqrt cal corr i a i hi ha hi]
    simp [pairlistEntry]

end PairTheorems


section FullMatcherTheorems
variable {F : Type} [LinearOrderedField F] [Arith F]

theorem ncams_pos_of_anchor (cal : Calibration F) (iframes : List (Frame F)) (p0 : Nat)
    (hp0 : p0 < ((corrframes cal iframes).getD 0 default).NumParticles) : 1 ≤ cal.ncams := by
  unfold Calibration.ncams
  cases hc : cal.cams with
  | nil =>
    simp [corrframes, hc, Frame.NumParticles] at hp0
    exact absurd hp0 (by simp [default])
  | cons c cs => simp

/-- C3. Pair-list symmetry: every point set that the full matcher submits to
triangulation is pairwise mutually consistent: for any two different cameras
`i`, `j` its detection on `j` is on the pair-list of its detection on `i` toward
`j` and conversely, so that pair-list is not empty. -/
theorem C3_pairlist_symmetry (sqrt : F → F) (cal : Calibration F)
    (iframes : List (Frame F)) (p0 : Nat) (tm : List Nat)
    (htm : tm ∈ submitted (pairlists sqrt cal (corrframes cal iframes))
      (corrframes cal iframes) cal.ncams p0)
    (i j : Nat) (hi : i < cal.ncams) (hj : j < cal.ncams) (hij : i ≠ j) :
    tm.getD j 0 ∈ plist (pairlists sqrt cal (corrframes cal iframes)) i (tm.getD i 0) j ∧
      tm.getD i 0 ∈ plist (pairlists sqrt cal (corrframes cal iframes)) j (tm.getD j 0) i ∧
      plist (pairlists sqrt cal (corrframes cal iframes)) i (tm.getD i 0) j ≠ [] := by
  obtain ⟨hlen, _, hpair, _⟩ :=
    submitted_sound _ _ cal.ncams p0 (by omega) tm htm
  have h1 := hpair i j (by omega) (by omega) hij
  have h2 := hpair j i (by omega) (by omega) (fun h => hij h.symm)
  exact ⟨h1, h2, List.ne_nil_of_mem h1⟩

/-- Witness of C3 on the scene `framesOne`. -/
theorem C3_pairlist_symmetry_witness :
    [0, 0, 0, 0] ∈ submitted (pairlists sqrtQ calAxis (corrframes calAxis framesOne))
        (corrframes calAxis framesOne) calAxis.ncams 0 ∧
      0 ∈ plist (pairlists sqrtQ calAxis (corrframes calAxis framesOne)) 1 0 3 ∧
      0 ∈ plist (pairlists sqrtQ calAxis (corrframes calAxis framesOne)) 3 0 1 ∧
      plist (pairlists sqrtQ calAxis (corrframes calAxis framesOne)) 1 0 3 ≠ [] :=
  ⟨by decide!,
    C3_pairlist_symmetry sqrtQ calAxis framesOne 0 [0, 0, 0, 0] (by decide!) 1 3
      (by decide) (by decide) (by decide)⟩

/-- C4. The full matcher is complete and non-redundant: for an anchor detection
`p0` of camera 0 the point sets submitted to triangulation are exactly the
lists `(p0, d1, ..., dN-1)` of one where-index per camera that are pairwise
mutually consistent, and each of them is submitted exactly once (the list of
submitted point sets has no duplicates). -/
theorem C4_full_matcher_complete (sqrt : F → F) (cal : Calibration F)
    (iframes : List (Frame F)) (p0 : Nat)
    (hp0 : p0 < ((corrframes cal iframes).getD 0 default).NumParticles) :
    (∀ tm : List Nat,
      tm ∈ submitted (pairlists sqrt cal (corrframes cal iframes))
          (corrframes cal iframes) cal.ncams p0 ↔
        tm.length = cal.ncams ∧ tm.getD 0 0 = p0 ∧ InRange (corrframes cal iframes) tm ∧
          PairOK (pairlists sqrt cal (corrframes cal iframes)) tm) ∧
    (submitted (pairlists sqrt cal (corrframes cal iframes))
      (corrframes cal iframes) cal.ncams p0).Nodup := by
  have hn := ncams_pos_of_anchor cal iframes p0 hp0
  constructor
  · intro tm
    constructor
    · intro h
      obtain ⟨h1, h2, h3, h4⟩ := submitted_sound _ _ cal.ncams p0 hn tm h
      exact ⟨h1, h2, h4 hp0, h3⟩
    · rintro ⟨h1, h2, h3, h4⟩
      exact submitted_complete _ _ cal.ncams p0 hn tm h1 h2 h4 h3
  · exact submitted_nodup _ _ cal.ncams p0

/-- Witness of C4 on the scene `framesOne`: the only point set submitted for the
anchor 0 is `(0, 0, 0, 0)`, once. -/
theorem C4_full_matcher_complete_witness :
    0 < ((corrframes calAxis framesOne).getD 0 default).NumParticles ∧
      (submitted (pairlists sqrtQ calAxis (corrframes calAxis framesOne))
        (corrframes calAxis framesOne) calAxis.ncams 0).Nodup :=
  ⟨by decide!, (C4_full_matcher_complete sqrtQ calAxis framesOne 0 (by decide!)).2⟩

/-- Witness of C5 on the scene `framesTwo`, for detection 0 of camera 0 and
camera 1: the difference `d = (4/5, -16/15, 0)` has the length `4/3` and the
normalised vector `l = (3/5, -4/5, 0)`; detection 0 of camera 1 is at the
distance 0 and is on the list, detection 1 is at the distance `16/15` and is
not.  On the scene `framesOnAxis` the difference is zero, its normalisation
divides zero by zero, and the list is empty. -/
theorem C5_pairlist_construction_witness :
    (epipolarDiff calAxis (corrframes calAxis framesOnAxis) 0 0 1).Magnitude2 = 0 ∧
    pairlistUndefined sqrtQ calAxis (corrframes calAxis framesOnAxis) 0 0 1 = true ∧
    plist (pairlists sqrtQ calAxis (corrframes calAxis framesOnAxis)) 0 0 1 = [] ∧
    pairlistUndefined sqrtQ calAxis (corrframes calAxis framesTwo) 0 0 1 = false ∧
    (epipolarDiff calAxis (corrframes calAxis framesTwo) 0 0 1).x = 4 / 5 ∧
    (epipolarDiff calAxis (corrframes calAxis framesTwo) 0 0 1).y = -16 / 15 ∧
    (epipolarDiff calAxis (corrframes calAxis framesTwo) 0 0 1).z = 0 ∧
    plist (pairlists sqrtQ calAxis (corrframes calAxis framesTwo)) 0 0 1 = [0] ∧
    abs (Dot ((detAt (corrframes calAxis framesTwo) 1 1).sub (epipoleOn calAxis 0 1))
      (Position.mk3 (Position.mk3 (3 / 5) (-4 / 5) 0 : Position ℚ).y
        (-(Position.mk3 (3 / 5) (-4 / 5) 0 : Position ℚ).x) 0)) = 16 / 15 ∧
    (1 ∈ plist (pairlists sqrtQ calAxis (corrframes calAxis framesTwo)) 0 0 1 ↔
      abs (Dot ((detAt (corrframes calAxis framesTwo) 1 1).sub (epipoleOn calAxis 0 1))
        (Position.mk3 (Position.mk3 (3 / 5) (-4 / 5) 0 : Position ℚ).y
          (-(Position.mk3 (3 / 5) (-4 / 5) 0 : Position ℚ).x) 0))
        < calAxis.mindist_2D) :=
  ⟨by decide!, by decide!,
    (C5_pairlist_construction sqrtQ calAxis (corrframes calAxis framesOnAxis) 0 0 1 0
      (by decide) (by decide!) (by decide) (by decide) (by decide!)).2.1 (by decide!),
    by decide!, by decide!, by decide!, by decide!, by decide!, by decide!,
    ((C5_pairlist_construction sqrtQ calAxis (corrframes calAxis framesTwo) 0 0 1 1
      (by decide) (by decide!) (by decide) (by decide) (by decide!)).1
        (by decide!) (by decide!) (by decide!)).2
      (Position.mk3 (3 / 5) (-4 / 5) 0)
      ⟨by decide!, 4 / 3, by decide!, by decide!, by decide!, by decide!⟩⟩

end FullMatcherTheorems

section PipelineLemmas
variable {F : Type} [LinearOrderedField F] [Arith F]

theorem mem_keepGood (ms : List (Match F)) (b : List Nat) (m : Match F) :
    m ∈ keepGood ms b ↔ ∃ i, ms[i]? = some m ∧ i ∉ b := by
  simp only [keepGood, List.mem_map, List.mem_filter, List.mem_enum_iff_getElem?,
    Bool.not_eq_true', decide_eq_false_iff_not, Prod.exists]
  constructor
  · rintro ⟨i, m', ⟨h1, h2⟩, rfl⟩
    exact ⟨i, h1, h2⟩
  · rintro ⟨i, h1, h2⟩
    exact ⟨i, m, ⟨h1, h2⟩, rfl⟩

theorem mem_of_mem_keepGood (ms : List (Match F)) (b : List Nat) (m : Match F)
    (h : m ∈ keepGood ms b) : m ∈ ms := by
  obtain ⟨i, hi, _⟩ := (mem_keepGood ms b m).1 h
  exact List.getElem?_mem hi

theorem getD_of_getElem? (ms : List (Match F)) (i : Nat) (m : Match F)
    (h : ms[i]? = some m) : ms.getD i default = m := by
  simp [List.getD_eq_getElem?_getD, h]

theorem mem_matchFull (sqrt : F → F) (cal : Calibration F) (corr : List (Frame F))
    (tm : List Nat) (m : Match F) (h : m ∈ matchFull sqrt cal corr tm) :
    ∃ ipos : List (Position F), ipos.length = cal.cams.length ∧
      m.pos = (WorldPositionBody sqrt cal (-1) ipos).2 ∧
      m.raydist = (WorldPositionBody sqrt cal (-1) ipos).1 ∧
      m.raydist < cal.mindist_3D * cal.mindist_3D ∧ m.mcam = -1 := by
  unfold matchFull at h
  simp only at h
  split at h
  · rename_i hlt
    simp only [List.mem_singleton] at h
    subst h
    exact ⟨_, by simp [Calibration.ncams], rfl, rfl, hlt, rfl⟩
  · simp at h

theorem mem_matchDegraded (sqrt : F → F) (cal : Calibration F) (corr : List (Frame F))
    (mcam : Nat) (tm : List Nat) (m : Match F)
    (h : m ∈ matchDegraded sqrt cal corr mcam tm) :
    (∃ ipos : List (Position F),
      m.pos = (WorldPositionBody sqrt cal (mcam : Int) ipos).2 ∧
      m.raydist = (WorldPositionBody sqrt cal (mcam : Int) ipos).1) ∧
      m.raydist < cal.mindist_3D * cal.mindist_3D ∧ m.mcam = (mcam : Int) ∧
      (mcam < cal.ncams → m.touse.getD mcam default
        = (cal.cams.getD mcam default).UnDistort (m_pos (mcam : Int))) := by
  unfold matchDegraded at h
  simp only at h
  split at h
  · rename_i hlt
    simp only [List.mem_singleton] at h
    subst h
    refine ⟨⟨_, rfl, rfl⟩, hlt, rfl, ?_⟩
    intro hm
    simp only
    rw [getD_map_range _ _ _ _ hm]
    simp
  · simp at h

theorem mem_matchedPos (sqrt : F → F) (cal : Calibration F) (corr : List (Frame F))
    (m : Match F) (h : m ∈ matchedPos sqrt cal corr) :
    ∃ tm, m ∈ matchFull sqrt cal corr tm := by
  simp only [matchedPos, List.mem_flatMap] at h
  obtain ⟨_, _, tm, _, h⟩ := h
  exact ⟨tm, h⟩

theorem mem_matchedPos3 (sqrt : F → F) (cal : Calibration F) (corr : List (Frame F))
    (good : List (Match F)) (mcam : Nat) (m : Match F)
    (h : m ∈ matchedPos3 sqrt cal corr good mcam) :
    ∃ tm, m ∈ matchDegraded sqrt cal corr mcam tm := by
  unfold matchedPos3 at h
  simp only at h
  split at h
  · simp at h
  · simp only [List.mem_flatMap] at h
    obtain ⟨picam, _, h⟩ := h
    split at h
    · simp at h
    · split at h
      · simp at h
      · simp only [List.mem_flatMap] at h
        obtain ⟨tm, _, h⟩ := h
        exact ⟨tm, h⟩

end PipelineLemmas

section PipelineTheorems
variable {F : Type} [LinearOrderedField F] [Arith F]

theorem mem_goodPos3cams (sqrt : F → F) (cal : Calibration F) (corr : List (Frame F))
    (good : List (Match F)) (e : List (Match F) × List F)
    (h : e ∈ goodPos3cams sqrt cal corr good) :
    ∃ mcam, mcam < cal.ncams ∧
      e = (keepGood (matchedPos3 sqrt cal corr good mcam)
            (bad3 cal (matchedPos3 sqrt cal corr good mcam) good),
          (matchedPos3 sqrt cal corr good mcam).map fun m => m.raydist) := by
  simp only [goodPos3cams, List.mem_map, List.mem_range] at h
  obtain ⟨mcam, hm, rfl⟩ := h
  exact ⟨mcam, hm, rfl⟩

theorem length_keepGood_le (ms : List (Match F)) (b : List Nat) :
    (keepGood ms b).length ≤ ms.length := by
  unfold keepGood
  rw [List.length_map]
  exact (List.length_filter_le _ _).trans (by simp)

theorem length_raydists3 (sqrt : F → F) (cal : Calibration F) (corr : List (Frame F))
    (good : List (Match F)) :
    (raydists3 (goodPos3cams sqrt cal corr good)).length
      = (goodPos3 (goodPos3cams sqrt cal corr good)).length := by
  have key : ∀ per : List (List (Match F) × List F),
      (∀ e ∈ per, e.1.length ≤ e.2.length) →
      (raydists3 per).length = (goodPos3 per).length := by
    intro per
    induction per with
    | nil => intro _; rfl
    | cons e per ih =>
      intro h
      have h1 := h e (List.mem_cons_self _ _)
      have h2 := ih (fun e' he' => h e' (List.mem_cons_of_mem _ he'))
      simp only [raydists3, goodPos3, List.flatMap_cons, List.length_append,
        List.length_take] at h2 ⊢
      omega
  apply key
  intro e he
  obtain ⟨mcam, _, rfl⟩ := mem_goodPos3cams sqrt cal corr good e he
  simp only [List.length_map]
  exact length_keepGood_le _ _

theorem mem_raydists3 (sqrt : F → F) (cal : Calibration F) (corr : List (Frame F))
    (good : List (Match F)) (x : F)
    (h : x ∈ raydists3 (goodPos3cams sqrt cal corr good)) :
    x < cal.mindist_3D * cal.mindist_3D := by
  simp only [raydists3, List.mem_flatMap] at h
  obtain ⟨e, he, hx⟩ := h
  obtain ⟨mcam, _, rfl⟩ := mem_goodPos3cams sqrt cal corr good e he
  have hx' := List.mem_of_mem_take hx
  simp only [List.mem_map] at hx'
  obtain ⟨m, hm, rfl⟩ := hx'
  obtain ⟨tm, htm⟩ := mem_matchedPos3 sqrt cal corr good mcam m hm
  exact (mem_matchDegraded sqrt cal corr mcam tm m htm).2.1

theorem mem_goodPos3 (sqrt : F → F) (cal : Calibration F) (corr : List (Frame F))
    (good : List (Match F)) (m : Match F)
    (h : m ∈ goodPos3 (goodPos3cams sqrt cal corr good)) :
    ∃ mcam, mcam < cal.ncams ∧
      m ∈ keepGood (matchedPos3 sqrt cal corr good mcam)
        (bad3 cal (matchedPos3 sqrt cal corr good mcam) good) := by
  simp only [goodPos3, List.mem_flatMap] at h
  obtain ⟨e, he, hm⟩ := h
  obtain ⟨mcam, hlt, rfl⟩ := mem_goodPos3cams sqrt cal corr good e he
  exact ⟨mcam, hlt, hm⟩

theorem mem_emittedDegraded (sqrt : F → F) (cal : Calibration F) (iframes : List (Frame F))
    (e : Match F × F) (h : e ∈ emittedDegraded sqrt cal iframes) :
    e.1 ∈ goodPos3 (goodPos3cams sqrt cal (corrframes cal iframes) (goodFull sqrt cal iframes)) ∧
      e.2 < cal.mindist_3D * cal.mindist_3D := by
  simp only [emittedDegraded, List.mem_map, List.mem_filter, List.mem_enum_iff_getElem?,
    Bool.not_eq_true', decide_eq_false_iff_not, Prod.exists] at h
  obtain ⟨i, m, ⟨h1, _⟩, rfl⟩ := h
  refine ⟨List.getElem?_mem h1, ?_⟩
  have hi : i < (goodPos3 (goodPos3cams sqrt cal (corrframes cal iframes)
      (goodFull sqrt cal iframes))).length := by
    by_contra hcon
    rw [List.getElem?_eq_none (by omega)] at h1
    simp at h1
  rw [← length_raydists3] at hi
  apply mem_raydists3 sqrt cal (corrframes cal iframes) (goodFull sqrt cal iframes)
  simp only
  rw [List.getD_eq_getElem _ _ hi]
  exact List.getElem_mem _

theorem row_residual (cal : Calibration F) (framenumber : Int) (m : Match F) (ray : F) :
    (row cal framenumber m ray).getD 4 0 = ray := rfl

/-- C2. Residual bound: every world point of the frame returned by `Stereomatch`
(full or degraded) is the position returned by `WorldPosition` for some tuple,
together with a residual strictly below `mindist_3D * mindist_3D`; the residual
column of every written row is below that bound as well. -/
theorem C2_residual_bound (sqrt : F → F) (cal : Calibration F) (iframes : List (Frame F))
    (framenumber : Int) (r : StereoResult F)
    (h : Stereomatch sqrt cal iframes framenumber = Except.ok r) :
    (∀ p ∈ r.frame.pos, ∃ (mcam : Int) (ipos : List (Position F)) (res : F),
      WorldPosition sqrt cal mcam ipos = Except.ok (res, p) ∧
        res < cal.mindist_3D * cal.mindist_3D) ∧
    (∀ rw ∈ r.rows, rw.getD 4 0 < cal.mindist_3D * cal.mindist_3D) := by
  unfold Stereomatch at h
  split at h
  · cases h
  · simp only [Except.ok.injEq] at h
    subst h
    constructor
    · intro p hp
      simp only [List.mem_append, List.mem_map] at hp
      rcases hp with ⟨m, hm, rfl⟩ | ⟨e, he, rfl⟩
      · have hm' := mem_of_mem_keepGood _ _ _ hm
        obtain ⟨tm, htm⟩ := mem_matchedPos sqrt cal _ m hm'
        obtain ⟨ipos, hlen, hpos, hray, hlt, _⟩ := mem_matchFull sqrt cal _ tm m htm
        refine ⟨-1, ipos, m.raydist, ?_, hlt⟩
        unfold WorldPosition
        rw [if_neg (by simp [hlen]), hpos, hray]
      · obtain ⟨hmem, _⟩ := mem_emittedDegraded sqrt cal iframes e he
        obtain ⟨mcam, _, hk⟩ := mem_goodPos3 sqrt cal _ _ e.1 hmem
        have hm' := mem_of_mem_keepGood _ _ _ hk
        obtain ⟨tm, htm⟩ := mem_matchedPos3 sqrt cal _ _ mcam e.1 hm'
        obtain ⟨⟨ipos, hpos, hray⟩, hlt, _, _⟩ := mem_matchDegraded sqrt cal _ mcam tm e.1 htm
        refine ⟨(mcam : Int), ipos, e.1.raydist, ?_, hlt⟩
        unfold WorldPosition
        rw [if_neg (by omega), hpos, hray]
    · intro rw hrw
      simp only [List.mem_append, List.mem_map] at hrw
      rcases hrw with ⟨m, hm, rfl⟩ | ⟨e, he, rfl⟩
      · rw [row_residual]
        have hm' := mem_of_mem_keepGood _ _ _ hm
        obtain ⟨tm, htm⟩ := mem_matchedPos sqrt cal _ m hm'
        exact (mem_matchFull sqrt cal _ tm m htm).choose_spec.2.2.2.1
      · rw [row_residual]
        exact (mem_emittedDegraded sqrt cal iframes e he).2

end PipelineTheorems

section DegradedVsFull
variable {F : Type} [LinearOrderedField F] [Arith F]

theorem mem_crossFold (flag : Match F → Bool) (i : Nat) (good : List (Match F)) :
    ∀ b : List Nat, ∀ x : Nat,
      x ∈ good.foldl (fun b g => if flag g then b ++ [i] else b) b ↔
        x ∈ b ∨ (x = i ∧ ∃ g ∈ good, flag g = true) := by
  induction good with
  | nil => intro b x; simp
  | cons g gs ih =>
    intro b x
    rw [List.foldl_cons, ih]
    by_cases hg : flag g = true
    · simp only [hg, if_true, List.mem_append, List.mem_singleton, List.mem_cons,
        exists_eq_or_imp, true_or, and_true]
      tauto
    · simp only [hg, List.mem_cons, exists_eq_or_imp, false_or]
      simp

/-- The comparison loop of lines 656-677 as a fold over the indices `l`. -/
theorem crossLoop_mono (ncams : Nat) (ms3 good : List (Match F)) (l : List Nat) :
    ∀ b : List Nat, ∀ x : Nat, x ∈ b →
      x ∈ l.foldl
        (fun b i =>
          if i ∈ b then b
          else good.foldl
            (fun b g => if sharesCoordFull ncams (ms3.getD i default) g then b ++ [i] else b) b)
        b := by
  induction l with
  | nil => intro b x hx; exact hx
  | cons i l ih =>
    intro b x hx
    rw [List.foldl_cons]
    apply ih
    split
    · exact hx
    · rw [mem_crossFold]
      exact Or.inl hx

theorem crossLoop_flagged (ncams : Nat) (ms3 good : List (Match F)) (l : List Nat) :
    ∀ b : List Nat, ∀ i : Nat, i ∈ l →
      (∃ g ∈ good, sharesCoordFull ncams (ms3.getD i default) g = true) →
      i ∈ l.foldl
        (fun b i =>
          if i ∈ b then b
          else good.foldl
            (fun b g => if sharesCoordFull ncams (ms3.getD i default) g then b ++ [i] else b) b)
        b := by
  induction l with
  | nil => intro b i hi; simp at hi
  | cons j l ih =>
    intro b i hi hflag
    rw [List.foldl_cons]
    rcases List.mem_cons.1 hi with rfl | hi'
    · apply crossLoop_mono
      split
      · assumption
      · rw [mem_crossFold]
        exact Or.inr ⟨rfl, hflag⟩
    · exact ih _ i hi' hflag

theorem not_flagged_of_not_mem_bad3 (cal : Calibration F) (ms3 good : List (Match F))
    (i : Nat) (hi : i < ms3.length) (hb : i ∉ bad3 cal ms3 good) :
    ∀ g ∈ good, sharesCoordFull cal.ncams (ms3.getD i default) g = false := by
  intro g hg
  by_contra hcon
  apply hb
  unfold bad3
  exact crossLoop_flagged cal.ncams ms3 good _ _ i (List.mem_range.2 hi)
    ⟨g, hg, by simpa using hcon⟩

theorem sharesCoordFull_eq_false (ncams : Nat) (m3 g : Match F)
    (h : sharesCoordFull ncams m3 g = false) (k : Nat) (hk : k < ncams) :
    (m3.touse.getD k default).x ≠ (g.touse.getD k default).x ∧
      (m3.touse.getD k default).y ≠ (g.touse.getD k default).y := by
  simp only [sharesCoordFull, Bool.or_eq_false_iff, List.any_eq_false, List.mem_range,
    decide_eq_true_eq] at h
  exact ⟨h.1 k hk, h.2 k hk⟩

/-- C9. No degraded point that is emitted uses, on any camera `k`, a position
whose undistorted `X` and `Y` equal those of the camera-`k` detection of an
emitted full match of the same frame. -/
theorem C9_degraded_avoids_full (sqrt : F → F) (cal : Calibration F)
    (iframes : List (Frame F)) (e : Match F × F) (g : Match F) (k : Nat)
    (he : e ∈ emittedDegraded sqrt cal iframes) (hg : g ∈ goodFull sqrt cal iframes)
    (hk : k < cal.ncams) :
    ¬ ((e.1.touse.getD k default).x = (g.touse.getD k default).x ∧
        (e.1.touse.getD k default).y = (g.touse.getD k default).y) := by
  obtain ⟨hmem, _⟩ := mem_emittedDegraded sqrt cal iframes e he
  obtain ⟨mcam, _, hkeep⟩ := mem_goodPos3 sqrt cal _ _ e.1 hmem
  obtain ⟨i, hi, hb⟩ := (mem_keepGood _ _ _).1 hkeep
  have hlt : i < (matchedPos3 sqrt cal (corrframes cal iframes)
      (goodFull sqrt cal iframes) mcam).length := by
    by_contra hcon
    rw [List.getElem?_eq_none (by omega)] at hi
    simp at hi
  have hnf := not_flagged_of_not_mem_bad3 cal _ _ i hlt hb g hg
  rw [getD_of_getElem? _ i e.1 hi] at hnf
  have := sharesCoordFull_eq_false cal.ncams e.1 g hnf k hk
  intro hcon
  exact this.1 hcon.1

end DegradedVsFull

section PruneLemmas
variable {F : Type} [LinearOrderedField F] [Arith F]

theorem pruneInner_mono (flag : Nat → Nat → Bool) (ray : Nat → F) (i : Nat) (min : F)
    (js : List Nat) : ∀ b : List Nat, ∀ x, x ∈ b → x ∈ pruneInner flag ray i min js b := by
  induction js with
  | nil => intro b x hx; exact hx
  | cons j js ih =>
    intro b x hx
    unfold pruneInner
    split
    · split
      · exact ih _ x (List.mem_append_left _ hx)
      · exact List.mem_append_left _ hx
    · exact ih _ x hx

theorem pruneInner_source (flag : Nat → Nat → Bool) (ray : Nat → F) (i : Nat) (min : F)
    (js : List Nat) : ∀ b : List Nat, ∀ x, x ∈ pruneInner flag ray i min js b →
      x ∈ b ∨ (x = i ∧ ∃ j ∈ js, flag i j = true ∧ ¬ min < ray j) ∨
        (x ∈ js ∧ flag i x = true ∧ min < ray x) := by
  induction js with
  | nil => intro b x hx; exact Or.inl hx
  | cons j js ih =>
    intro b x hx
    unfold pruneInner at hx
    split at hx
    · rename_i hf
      split at hx
      · rename_i hlt
        rcases ih _ x hx with h | ⟨rfl, j', hj', h1, h2⟩ | ⟨h1, h2, h3⟩
        · rcases List.mem_append.1 h with h | h
          · exact Or.inl h
          · simp only [List.mem_singleton] at h
            subst h
            exact Or.inr (Or.inr ⟨List.mem_cons_self _ _, hf, hlt⟩)
        · exact Or.inr (Or.inl ⟨rfl, j', List.mem_cons_of_mem _ hj', h1, h2⟩)
        · exact Or.inr (Or.inr ⟨List.mem_cons_of_mem _ h1, h2, h3⟩)
      · rename_i hlt
        rcases List.mem_append.1 hx with h | h
        · exact Or.inl h
        · simp only [List.mem_singleton] at h
          subst h
          exact Or.inr (Or.inl ⟨rfl, j, List.mem_cons_self _ _, hf, hlt⟩)
    · rcases ih _ x hx with h | ⟨rfl, j', hj', h1, h2⟩ | ⟨h1, h2, h3⟩
      · exact Or.inl h
      · exact Or.inr (Or.inl ⟨rfl, j', List.mem_cons_of_mem _ hj', h1, h2⟩)
      · exact Or.inr (Or.inr ⟨List.mem_cons_of_mem _ h1, h2, h3⟩)

theorem pruneInner_one_goes (flag : Nat → Nat → Bool) (ray : Nat → F) (i : Nat) (min : F)
    (js : List Nat) : ∀ b : List Nat, ∀ j ∈ js, flag i j = true →
      i ∈ pruneInner flag ray i min js b ∨ j ∈ pruneInner flag ray i min js b := by
  induction js with
  | nil => intro b j hj; simp at hj
  | cons j' js ih =>
    intro b j hj hf
    unfold pruneInner
    rcases List.mem_cons.1 hj with rfl | hj'
    · rw [if_pos hf]
      split
      · right
        exact pruneInner_mono flag ray i min js _ j (by simp)
      · left
        simp
    · split
      · split
        · exact ih _ j hj' hf
        · left
          simp
      · exact ih _ j hj' hf

/-- The points after `i` among `n` points. -/
theorem mem_later (n i j : Nat) : j ∈ List.range' (i + 1) (n - (i + 1)) ↔ i < j ∧ j < n := by
  simp only [List.mem_range']
  constructor
  · rintro ⟨k, hk, rfl⟩
    omega
  · rintro ⟨h1, h2⟩
    exact ⟨j - (i + 1), by omega, by omega⟩

theorem pruneFold_mono (flag : Nat → Nat → Bool) (ray : Nat → F) (n : Nat) (l : List Nat) :
    ∀ b : List Nat, ∀ x, x ∈ b →
      x ∈ l.foldl
        (fun bad i =>
          if i ∈ bad then bad
          else pruneInner flag ray i (ray i) (List.range' (i + 1) (n - (i + 1))) bad) b := by
  induction l with
  | nil => intro b x hx; exact hx
  | cons t l ih =>
    intro b x hx
    rw [List.foldl_cons]
    apply ih
    split
    · exact hx
    · exact pruneInner_mono _ _ _ _ _ _ x hx

theorem pruneFold_source (flag : Nat → Nat → Bool) (ray : Nat → F) (n : Nat) (l : List Nat) :
    ∀ b : List Nat, ∀ x,
      x ∈ l.foldl
        (fun bad i =>
          if i ∈ bad then bad
          else pruneInner flag ray i (ray i) (List.range' (i + 1) (n - (i + 1))) bad) b →
      x ∈ b ∨ ∃ t ∈ l,
        (x = t ∧ ∃ j, (t < j ∧ j < n) ∧ flag t j = true ∧ ¬ ray t < ray j) ∨
        ((t < x ∧ x < n) ∧ flag t x = true ∧ ray t < ray x) := by
  induction l with
  | nil => intro b x hx; exact Or.inl hx
  | cons t l ih =>
    intro b x hx
    rw [List.foldl_cons] at hx
    rcases ih _ x hx with h | ⟨t', ht', h⟩
    · split at h
      · exact Or.inl h
      · rcases pruneInner_source _ _ _ _ _ _ x h with h | ⟨rfl, j, hj, h1, h2⟩ | ⟨h1, h2, h3⟩
        · exact Or.inl h
        · exact Or.inr ⟨x, List.mem_cons_self _ _,
            Or.inl ⟨rfl, j, (mem_later n x j).1 hj, h1, h2⟩⟩
        · exact Or.inr ⟨t, List.mem_cons_self _ _,
            Or.inr ⟨(mem_later n t x).1 h1, h2, h3⟩⟩
    · exact Or.inr ⟨t', List.mem_cons_of_mem _ ht', h⟩

theorem pruneFold_one_goes (flag : Nat → Nat → Bool) (ray : Nat → F) (n : Nat)
    (l : List Nat) :
    ∀ b : List Nat, ∀ t ∈ l, ∀ j, t < j → j < n → flag t j = true →
      t ∈ l.foldl
          (fun bad i =>
            if i ∈ bad then bad
            else pruneInner flag ray i (ray i) (List.range' (i + 1) (n - (i + 1))) bad) b ∨
        j ∈ l.foldl
          (fun bad i =>
            if i ∈ bad then bad
            else pruneInner flag ray i (ray i) (List.range' (i + 1) (n - (i + 1))) bad) b := by
  induction l with
  | nil => intro b t ht; simp at ht
  | cons t' l ih =>
    intro b t ht j htj hjn hf
    rw [List.foldl_cons]
    rcases List.mem_cons.1 ht with rfl | ht'
    · split
      · rename_i hmem
        exact Or.inl (pruneFold_mono flag ray n l _ t hmem)
      · rcases pruneInner_one_goes flag ray t (ray t) _ b j
            ((mem_later n t j).2 ⟨htj, hjn⟩) hf with h | h
        · exact Or.inl (pruneFold_mono flag ray n l _ t h)
        · exact Or.inr (pruneFold_mono flag ray n l _ j h)
    · exact ih _ t ht' j htj hjn hf

theorem sharesIndex_symm (ms : List (Match F)) (nslots a b : Nat) :
    sharesIndex ms nslots a b = sharesIndex ms nslots b a := by
  unfold sharesIndex
  congr 1
  funext k
  rw [Bool.eq_iff_iff]
  simp only [beq_iff_eq]
  exact eq_comm

end PruneLemmas


section PruneTheorems
variable {F : Type} [LinearOrderedField F] [Arith F]

/-- C8 (as amended). Full-pass de-duplication of two accepted full tuples `i`,
`j` that share a detection index on some camera.  At least one of the two is
thrown out; so when the residual of `i` is strictly smaller and `i` is kept,
`j` is thrown out.  That is the case whenever the residual of `i` is strictly
below the residual of every accepted tuple it shares a detection index with:
then `i` is kept and `j` is thrown out. -/
theorem C8_dedup_keeps_smaller (sqrt : F → F) (cal : Calibration F)
    (iframes : List (Frame F)) (i j : Nat)
    (hi : i < (matchedPos sqrt cal (corrframes cal iframes)).length)
    (hj : j < (matchedPos sqrt cal (corrframes cal iframes)).length) (hij : i ≠ j)
    (hshare : sharesIndex (matchedPos sqrt cal (corrframes cal iframes)) cal.ncams i j = true) :
    (i ∈ bad cal (matchedPos sqrt cal (corrframes cal iframes)) ∨
      j ∈ bad cal (matchedPos sqrt cal (corrframes cal iframes))) ∧
    (rayAt (matchedPos sqrt cal (corrframes cal iframes)) i
        < rayAt (matchedPos sqrt cal (corrframes cal iframes)) j →
      i ∉ bad cal (matchedPos sqrt cal (corrframes cal iframes)) →
      j ∈ bad cal (matchedPos sqrt cal (corrframes cal iframes))) ∧
    ((∀ k, k < (matchedPos sqrt cal (corrframes cal iframes)).length → k ≠ i →
        sharesIndex (matchedPos sqrt cal (corrframes cal iframes)) cal.ncams i k = true →
        rayAt (matchedPos sqrt cal (corrframes cal iframes)) i
          < rayAt (matchedPos sqrt cal (corrframes cal iframes)) k) →
      i ∉ bad cal (matchedPos sqrt cal (corrframes cal iframes)) ∧
      j ∈ bad cal (matchedPos sqrt cal (corrframes cal iframes))) := by
  generalize matchedPos sqrt cal (corrframes cal iframes) = ms at hi hj hshare ⊢
  have hsymm := sharesIndex_symm ms cal.ncams
  unfold bad
  have hone : i ∈ prune (sharesIndex ms cal.ncams) (rayAt ms) ms.length ∨
      j ∈ prune (sharesIndex ms cal.ncams) (rayAt ms) ms.length := by
    rcases Nat.lt_or_gt_of_ne hij with h | h
    · exact pruneFold_one_goes (sharesIndex ms cal.ncams) (rayAt ms) ms.length _ [] i
        (List.mem_range.2 hi) j h hj hshare
    · exact (pruneFold_one_goes (sharesIndex ms cal.ncams) (rayAt ms) ms.length _ [] j
        (List.mem_range.2 hj) i h hi (by rw [hsymm]; exact hshare)).symm
  refine ⟨hone, fun _ hnot => hone.resolve_left hnot, ?_⟩
  intro hbest
  have hnot : i ∉ prune (sharesIndex ms cal.ncams) (rayAt ms) ms.length := by
    intro hmem
    rcases pruneFold_source (sharesIndex ms cal.ncams) (rayAt ms) ms.length _ [] i hmem
      with h | ⟨t, ht, h⟩
    · simp at h
    · rcases h with ⟨rfl, k, ⟨h1, h2⟩, h3, h4⟩ | ⟨⟨h1, h2⟩, h3, h4⟩
      · exact h4 (hbest k h2 (by omega) h3)
      · rw [hsymm] at h3
        exact lt_asymm h4 (hbest t (List.mem_range.1 ht) (by omega) h3)
  exact ⟨hnot, hone.resolve_left hnot⟩

/-- Witness of C8 (as amended) on the scene `framesPlane`: the accepted tuples
0 = `(0,0,0,0)` and 1 = `(0,1,1,1)` share detection 0 of camera 0; tuple 0 has
the residual 0, which is below the residual of tuple 1, the only tuple it shares
a detection with; tuple 0 is kept and tuple 1 is thrown out. -/
theorem C8_dedup_keeps_smaller_witness :
    sharesIndex (matchedPos sqrtQ calPlane (corrframes calPlane framesPlane))
        calPlane.ncams 0 1 = true ∧
      rayAt (matchedPos sqrtQ calPlane (corrframes calPlane framesPlane)) 0
        < rayAt (matchedPos sqrtQ calPlane (corrframes calPlane framesPlane)) 1 ∧
      0 ∉ bad calPlane (matchedPos sqrtQ calPlane (corrframes calPlane framesPlane)) ∧
      1 ∈ bad calPlane (matchedPos sqrtQ calPlane (corrframes calPlane framesPlane)) :=
  ⟨by decide!, by decide!,
    (C8_dedup_keeps_smaller sqrtQ calPlane framesPlane 0 1 (by decide!) (by decide!)
      (by decide) (by decide!)).2.2 (by decide!)⟩

/-- Counterexample to C8 as stated, on the scene `framesPlane`: the accepted full
tuples are `(0,0,0,0)`, `(0,1,1,1)` and `(1,1,1,1)` with residuals `0`,
`113570/2886051` and `1419625/9288042`; the last two share the detections 1 of
the cameras 1, 2 and 3, the last one has the strictly larger residual, and it is emitted
(only tuple 1 is thrown out, by tuple 0). -/
theorem C8_counterexample :
    (matchedPos sqrtQ calPlane (corrframes calPlane framesPlane)).map
        (fun m => (m.indices, m.raydist))
      = [([0, 0, 0, 0], 0), ([0, 1, 1, 1], 113570 / 2886051),
          ([1, 1, 1, 1], 1419625 / 9288042)] ∧
    sharesIndex (matchedPos sqrtQ calPlane (corrframes calPlane framesPlane))
      calPlane.ncams 1 2 = true ∧
    rayAt (matchedPos sqrtQ calPlane (corrframes calPlane framesPlane)) 1
      < rayAt (matchedPos sqrtQ calPlane (corrframes calPlane framesPlane)) 2 ∧
    2 ∉ bad calPlane (matchedPos sqrtQ calPlane (corrframes calPlane framesPlane)) ∧
    (goodFull sqrtQ calPlane framesPlane).map (fun m => m.indices)
      = [[0, 0, 0, 0], [1, 1, 1, 1]] := by
  decide!

end PruneTheorems

section Fallback
variable {F : Type} [LinearOrderedField F] [Arith F]

theorem range_four : List.range 4 = [0, 1, 2, 3] := rfl

theorem matchedPos_nil_of_missing (sqrt : F → F) (cal : Calibration F) (corr : List (Frame F))
    (h : ∀ p0, p0 < (corr.getD 0 default).NumParticles →
      ∃ i, 1 ≤ i ∧ i < cal.ncams ∧ plist (pairlists sqrt cal corr) 0 p0 i = []) :
    matchedPos sqrt cal corr = [] := by
  unfold matchedPos
  simp only [List.flatMap_eq_nil_iff, List.mem_range]
  intro p0 hp0 tm htm
  unfold submitted at htm
  rw [if_pos ((ncams_missing_pos_iff _ _ _).2 (h p0 hp0))] at htm
  simp at htm

theorem matchedPos3_nil_of_missing (sqrt : F → F) (cal : Calibration F) (corr : List (Frame F))
    (good : List (Match F)) (mcam icam : Nat) (rest : List Nat)
    (hic : ((List.range cal.ncams).filter fun icam => !(icam == mcam)) = icam :: rest)
    (h : ∀ picam, picam < (corr.getD icam default).NumParticles →
      ∃ i, i < cal.ncams ∧ i ≠ mcam ∧ i ≠ icam ∧
        plist (pairlists sqrt cal corr) icam picam i = []) :
    matchedPos3 sqrt cal corr good mcam = [] := by
  unfold matchedPos3
  simp only [hic, List.flatMap_eq_nil_iff, List.mem_range]
  intro picam hp
  split
  · rfl
  · have : picamMissing (pairlists sqrt cal corr) cal.ncams mcam icam picam = true := by
      obtain ⟨i, h1, h2, h3, h4⟩ := h picam hp
      simp only [picamMissing, List.any_eq_true, List.mem_range, Bool.and_eq_true,
        Bool.not_eq_true', Bool.or_eq_false_iff, beq_eq_false_iff_ne, ne_eq, beq_iff_eq,
        List.length_eq_zero]
      exact ⟨i, h1, ⟨h2, h3⟩, h4⟩
    rw [if_pos this]


theorem toMatch3_fallback (P : List (List (List (List Nat)))) (corr : List (Frame F))
    (n1 : (corr.getD 1 default).NumParticles = 1)
    (n3 : (corr.getD 3 default).NumParticles = 1)
    (h01 : 0 ∈ plist P 0 0 1) (h10 : 0 ∈ plist P 1 0 0)
    (h03 : 0 ∈ plist P 0 0 3) (h30 : 0 ∈ plist P 3 0 0)
    (h13 : 0 ∈ plist P 1 0 3) (h31 : 0 ∈ plist P 3 0 1) :
    toMatch3 P corr ([] : List (Match F)) 4 2 0 0 = [[0], [0, 0], [0, 0, 0]] := by
  have hl : ∀ l : List Nat, 0 ∈ l → (l.length == 0) = false := by
    intro l hmem
    cases l with
    | nil => simp at hmem
    | cons a l => rfl
  have e01 := hl _ h01
  have e10 := hl _ h10
  have e03 := hl _ h03
  have e30 := hl _ h30
  have e13 := hl _ h13
  have e31 := hl _ h31
  have r1 : List.range 1 = [0] := rfl
  have g1 : ∀ h : 1 < ([0, 0] : List Nat).length, ([0, 0] : List Nat)[1] = 0 := fun _ => rfl
  rw [List.getD_eq_getElem?_getD] at n1 n3
  simp only [toMatch3, extendCam3, toNextpi, canAdd3, alreadyUsed, range_four, n1, n3, r1,
    List.enum, List.enumFrom, h01, h10, h03, h30, h13, h31, e01, e10, e03, e30, e13, e31,
    List.filter, List.foldl, List.any, List.all, List.flatMap, List.map, List.flatten,
    List.length, List.take, List.getD_cons_zero, List.getD_cons_succ, List.append,
    List.getD_eq_getElem?_getD, List.nil_append, List.cons_append, List.append_nil,
    List.singleton_append, decide_True, decide_False, Bool.not_true, Bool.not_false,
    Bool.and_true, Bool.true_and, Bool.or_false, Bool.false_or, Bool.and_false,
    Bool.false_and, Bool.or_true, Bool.true_or, beq_self_eq_true, Nat.reduceBEq,
    Nat.reduceEqDiff, Nat.reduceLT, Nat.reduceAdd, if_true, if_false, ite_true, ite_false,
    List.getElem?_cons_zero, List.getElem?_cons_succ, Option.getD_some, Nat.lt_irrefl,
    reduceIte, Nat.reduceLTLE, Nat.reduceBNe, OfNat.ofNat_ne_one, Nat.reduceSucc,
    List.getElem?_eq_getElem, List.getElem_cons_zero, List.getElem_cons_succ,
    List.length_cons, List.length_nil, Nat.zero_lt_succ, Nat.one_lt_ofNat]



theorem matchDegraded_fallback (sqrt : F → F) (cal : Calibration F) (corr : List (Frame F))
    (hn : cal.ncams = 4)
    (hres : (WorldPositionBody sqrt cal 2
      [detAt corr 0 0, detAt corr 1 0, m_pos 2, detAt corr 3 0]).1
        < cal.mindist_3D * cal.mindist_3D) :
    matchDegraded sqrt cal corr 2 [0, 0, 0] = [fallbackMatch sqrt cal corr] := by
  have hpos : ((List.range cal.ncams).map fun i =>
      if i = 2 then m_pos (((2 : Nat) : Int)) else
        detAt corr i (([0, 0, 0] : List Nat).getD (if i < 2 then i else i - 1) 0))
      = [detAt corr 0 0, detAt corr 1 0, m_pos 2, detAt corr 3 0] := by
    rw [hn, range_four]
    rfl
  have hidx : (((List.range cal.ncams).filter fun i => !(i == 2)).map fun i =>
      ([0, 0, 0] : List Nat).getD (if i < 2 then i else i - 1) 0) = [0, 0, 0] := by
    rw [hn, range_four]
    rfl
  have htouse : ((List.range cal.ncams).map fun i =>
      if i = 2 then (cal.cams.getD i default).UnDistort (m_pos (((2 : Nat) : Int))) else
        detAt corr i (([0, 0, 0] : List Nat).getD (if i < 2 then i else i - 1) 0))
      = [detAt corr 0 0, detAt corr 1 0,
          (cal.cams.getD 2 default).UnDistort (m_pos 2), detAt corr 3 0] := by
    rw [hn, range_four]
    rfl
  unfold matchDegraded
  simp only [hpos, hidx, htouse]
  rw [if_pos (by simpa using hres)]
  rfl


theorem matchedPos3_fallback (sqrt : F → F) (cal : Calibration F) (corr : List (Frame F))
    (hn : cal.ncams = 4)
    (n0 : (corr.getD 0 default).NumParticles = 1)
    (n1 : (corr.getD 1 default).NumParticles = 1)
    (n3 : (corr.getD 3 default).NumParticles = 1)
    (h01 : 0 ∈ plist (pairlists sqrt cal corr) 0 0 1)
    (h10 : 0 ∈ plist (pairlists sqrt cal corr) 1 0 0)
    (h03 : 0 ∈ plist (pairlists sqrt cal corr) 0 0 3)
    (h30 : 0 ∈ plist (pairlists sqrt cal corr) 3 0 0)
    (h13 : 0 ∈ plist (pairlists sqrt cal corr) 1 0 3)
    (h31 : 0 ∈ plist (pairlists sqrt cal corr) 3 0 1)
    (hres : (WorldPositionBody sqrt cal 2
      [detAt corr 0 0, detAt corr 1 0, m_pos 2, detAt corr 3 0]).1
        < cal.mindist_3D * cal.mindist_3D) :
    matchedPos3 sqrt cal corr [] 2 = [fallbackMatch sqrt cal corr] := by
  have hl : ∀ l : List Nat, 0 ∈ l → (l.length == 0) = false := by
    intro l hmem
    cases l with
    | nil => simp at hmem
    | cons a l => rfl
  have hic : ((List.range cal.ncams).filter fun icam => !(icam == 2)) = [0, 1, 3] := by
    rw [hn, range_four]
    rfl
  have hmiss : picamMissing (pairlists sqrt cal corr) cal.ncams 2 0 0 = false := by
    rw [hn]
    simp only [picamMissing, range_four, List.any, hl _ h01, hl _ h03]
    rfl
  have htm := toMatch3_fallback (F := F) (pairlists sqrt cal corr) corr n1 n3
    h01 h10 h03 h30 h13 h31
  unfold matchedPos3
  simp only [hic, n0]
  rw [show List.range 1 = [0] from rfl]
  simp only [List.flatMap_cons, List.flatMap_nil, List.append_nil]
  rw [if_neg (by simp [alreadyUsed]), if_neg (by simp [hmiss]), hn, htm]
  rw [show (List.filter (fun tm : List Nat => !decide (tm.length < 4 - 1))
      [[0], [0, 0], [0, 0, 0]]) = [[0, 0, 0]] from rfl]
  simp only [List.flatMap_cons, List.flatMap_nil, List.append_nil]
  exact matchDegraded_fallback sqrt cal corr hn hres


theorem keepGood_nil (b : List Nat) : keepGood ([] : List (Match F)) b = [] := rfl

theorem bad3_single (cal : Calibration F) (m : Match F) : bad3 cal [m] [] = [] := by
  simp [bad3, prune, pruneInner, show List.range 1 = [0] from rfl]

theorem keepGood_single (m : Match F) : keepGood [m] [] = [m] := by
  simp [keepGood, List.enum, List.enumFrom]

theorem fallback_emitted (sqrt : F → F) (cal : Calibration F) (iframes : List (Frame F))
    (hn : cal.ncams = 4)
    (n0 : ((corrframes cal iframes).getD 0 default).NumParticles = 1)
    (n1 : ((corrframes cal iframes).getD 1 default).NumParticles = 1)
    (n3 : ((corrframes cal iframes).getD 3 default).NumParticles = 1)
    (h01 : 0 ∈ plist (pairlists sqrt cal (corrframes cal iframes)) 0 0 1)
    (h10 : 0 ∈ plist (pairlists sqrt cal (corrframes cal iframes)) 1 0 0)
    (h03 : 0 ∈ plist (pairlists sqrt cal (corrframes cal iframes)) 0 0 3)
    (h30 : 0 ∈ plist (pairlists sqrt cal (corrframes cal iframes)) 3 0 0)
    (h13 : 0 ∈ plist (pairlists sqrt cal (corrframes cal iframes)) 1 0 3)
    (h31 : 0 ∈ plist (pairlists sqrt cal (corrframes cal iframes)) 3 0 1)
    (h02 : plist (pairlists sqrt cal (corrframes cal iframes)) 0 0 2 = [])
    (h12 : plist (pairlists sqrt cal (corrframes cal iframes)) 1 0 2 = [])
    (hres : (WorldPositionBody sqrt cal 2
      [detAt (corrframes cal iframes) 0 0, detAt (corrframes cal iframes) 1 0, m_pos 2,
        detAt (corrframes cal iframes) 3 0]).1 < cal.mindist_3D * cal.mindist_3D) :
    goodFull sqrt cal iframes = [] ∧
      emittedDegraded sqrt cal iframes
        = [(fallbackMatch sqrt cal (corrframes cal iframes),
            (fallbackMatch sqrt cal (corrframes cal iframes)).raydist)] := by
  have hfull : matchedPos sqrt cal (corrframes cal iframes) = [] := by
    apply matchedPos_nil_of_missing
    intro p0 hp0
    rw [n0] at hp0
    have : p0 = 0 := by omega
    subst this
    exact ⟨2, by omega, by omega, h02⟩
  have hgood : goodFull sqrt cal iframes = [] := by
    unfold goodFull
    simp only [hfull]
    rfl
  have hm0 : matchedPos3 sqrt cal (corrframes cal iframes) [] 0 = [] := by
    apply matchedPos3_nil_of_missing sqrt cal _ [] 0 1 [2, 3]
    · rw [hn, range_four]
      rfl
    · intro picam hp
      rw [n1] at hp
      have : picam = 0 := by omega
      subst this
      exact ⟨2, by omega, by omega, by omega, h12⟩
  have hm1 : matchedPos3 sqrt cal (corrframes cal iframes) [] 1 = [] := by
    apply matchedPos3_nil_of_missing sqrt cal _ [] 1 0 [2, 3]
    · rw [hn, range_four]
      rfl
    · intro picam hp
      rw [n0] at hp
      have : picam = 0 := by omega
      subst this
      exact ⟨2, by omega, by omega, by omega, h02⟩
  have hm3 : matchedPos3 sqrt cal (corrframes cal iframes) [] 3 = [] := by
    apply matchedPos3_nil_of_missing sqrt cal _ [] 3 0 [1, 2]
    · rw [hn, range_four]
      rfl
    · intro picam hp
      rw [n0] at hp
      have : picam = 0 := by omega
      subst this
      exact ⟨2, by omega, by omega, by omega, h02⟩
  have hm2 := matchedPos3_fallback sqrt cal (corrframes cal iframes) hn n0 n1 n3
    h01 h10 h03 h30 h13 h31 hres
  refine ⟨hgood, ?_⟩
  have hper : goodPos3cams sqrt cal (corrframes cal iframes) []
      = [([], []), ([], []),
          ([fallbackMatch sqrt cal (corrframes cal iframes)],
            [(fallbackMatch sqrt cal (corrframes cal iframes)).raydist]), ([], [])] := by
    unfold goodPos3cams
    rw [hn, range_four]
    simp only [List.map_cons, List.map_nil, hm0, hm1, hm2, hm3, keepGood_nil, bad3_single,
      keepGood_single]
  unfold emittedDegraded
  simp only [hgood, hper]
  simp [goodPos3, raydists3, bad3cams, pruneInner3, List.enum, List.enumFrom,
    show List.range 1 = [0] from rfl]

end Fallback

section Tagging
variable {F : Type} [LinearOrderedField F] [Arith F]

theorem sight_set_skip (sqrt : F → F) (cal : Calibration F) (ipos : List (Position F))
    (m i : Nat) (q : Position F) (h : i ≠ m) :
    sight sqrt cal (ipos.set m q) i = sight sqrt cal ipos i := by
  unfold sight
  have : (ipos.set m q).getD i default = ipos.getD i default := by
    simp [List.getD_eq_getElem?_getD, List.getElem?_set_ne (Ne.symm h)]
  rw [this]

theorem mem_usedCams (cal : Calibration F) (m i : Nat) (h : i ∈ usedCams cal (m : Int)) :
    i ≠ m := by
  simp only [usedCams, List.mem_filter, List.mem_range, Bool.not_eq_true',
    decide_eq_false_iff_not] at h
  intro hcon
  apply h.2
  rw [hcon]

/-- The triangulation of a pass that skips camera `m` does not read slot `m`:
the residual and the world coordinates are the same for every content of that
slot. -/
theorem WorldPositionBody_skip (sqrt : F → F) (cal : Calibration F) (m : Nat)
    (ipos : List (Position F)) (q : Position F) :
    (WorldPositionBody sqrt cal (m : Int) (ipos.set m q)).1
        = (WorldPositionBody sqrt cal (m : Int) ipos).1 ∧
      (WorldPositionBody sqrt cal (m : Int) (ipos.set m q)).2.x
        = (WorldPositionBody sqrt cal (m : Int) ipos).2.x ∧
      (WorldPositionBody sqrt cal (m : Int) (ipos.set m q)).2.y
        = (WorldPositionBody sqrt cal (m : Int) ipos).2.y ∧
      (WorldPositionBody sqrt cal (m : Int) (ipos.set m q)).2.z
        = (WorldPositionBody sqrt cal (m : Int) ipos).2.z := by
  have hM : sumM sqrt cal (m : Int) (ipos.set m q) = sumM sqrt cal (m : Int) ipos := by
    unfold sumM
    apply List.foldl_ext
    intro M i hi
    rw [sight_set_skip sqrt cal ipos m i q (mem_usedCams cal m i hi)]
  have hP : sumP sqrt cal (m : Int) (ipos.set m q) = sumP sqrt cal (m : Int) ipos := by
    unfold sumP
    apply List.foldl_ext
    intro P i hi
    rw [sight_set_skip sqrt cal ipos m i q (mem_usedCams cal m i hi)]
  have hD : ∀ w : Position F,
      (usedCams cal (m : Int)).foldl
          (fun dist i => dist + (perpVec sqrt cal (ipos.set m q) w i).Magnitude2) 0
        = (usedCams cal (m : Int)).foldl
          (fun dist i => dist + (perpVec sqrt cal ipos w i).Magnitude2) 0 := by
    intro w
    apply List.foldl_ext
    intro d i hi
    unfold perpVec
    rw [sight_set_skip sqrt cal ipos m i q (mem_usedCams cal m i hi)]
  unfold WorldPositionBody
  simp only [hM, hP, hD, Position.mk16, and_self]

theorem row_slot (cal : Calibration F) (framenumber : Int) (m : Match F) (ray : F)
    (k : Nat) (hk : k < 4) :
    (row cal framenumber m ray).getD (5 + 3 * k) 0
        = ((cal.cams.getD k default).Distort (m.touse.getD k default)).x ∧
      (row cal framenumber m ray).getD (6 + 3 * k) 0
        = ((cal.cams.getD k default).Distort (m.touse.getD k default)).y ∧
      (row cal framenumber m ray).getD (7 + 3 * k) 0
        = ((cal.cams.getD k default).Distort (m.touse.getD k default)).ori := by
  interval_cases k <;> exact ⟨rfl, rfl, rfl⟩

theorem usedCams_four (cal : Calibration F) (hn : cal.ncams = 4) (m : Nat) :
    usedCams cal (m : Int) = [0, 1, 2, 3].filter fun i => !decide (i = m) := by
  unfold usedCams
  rw [hn, range_four]
  congr 1
  funext i
  simp

end Tagging

section TaggingTheorem
variable {F : Type} [LinearOrderedField F] [Arith F]

theorem sentinel_slot (c : Camera F) (m : Nat) :
    (c.Distort (c.UnDistort (m_pos (m : Int)))).ori = (m : F) ∧
      (Arith.IsExact F → c.wpix ≠ 0 →
        (c.Distort (c.UnDistort (m_pos (m : Int)))).x = (m : F)) ∧
      (Arith.IsExact F → c.hpix ≠ 0 →
        (c.Distort (c.UnDistort (m_pos (m : Int)))).y = (m : F)) := by
  refine ⟨?_, ?_, ?_⟩
  · simp [Camera.Distort, Camera.UnDistort, Position.mk4, Position.mulEq, m_pos]
  · intro hex hw
    simp only [Camera.Distort, Camera.UnDistort, Position.mk4, Position.mulEq, m_pos,
      Int.cast_natCast, hex _, if_neg hw]
    field_simp
  · intro hex hh
    simp only [Camera.Distort, Camera.UnDistort, Position.mk4, Position.mulEq, m_pos,
      Int.cast_natCast, hex _, if_neg hh]
    field_simp

/-- C10 (as amended). Missing-camera tagging, for four cameras and every
arithmetic.  For every degraded point emitted with skipped camera `m`: the
written row has orientation `m` in the slot of camera `m`, and its `x` and `y`
there are those of the re-distorted sentinel
`Distort_m(UnDistort_m((m, m, m, m)))`, which are `m` when the arithmetic is
exact and the pixel pitch of camera `m` is not zero; the triangulation uses the
cameras other than `m` and does not read slot `m`.  Moreover, when the cameras
0, 1 and 3 hold exactly one detection each, these three are on each other's
pair-lists, the detections of the cameras 0 and 1 have nothing on their
pair-lists toward camera 2, and the residual of the three rays is below
`mindist_3D * mindist_3D`, then the full pass emits nothing and the degraded
pass emits exactly one point, tagged `m = 2`. -/
theorem C10_missing_camera_tagging (sqrt : F → F) (cal : Calibration F)
    (iframes : List (Frame F)) (framenumber : Int) (hn : cal.ncams = 4) :
    (∀ e ∈ emittedDegraded sqrt cal iframes, ∃ m : Nat, m < 4 ∧ e.1.mcam = (m : Int) ∧
      (row cal framenumber e.1 e.2).getD (7 + 3 * m) 0 = (m : F) ∧
      (row cal framenumber e.1 e.2).getD (5 + 3 * m) 0
        = ((cal.cams.getD m default).Distort
            ((cal.cams.getD m default).UnDistort (m_pos (m : Int)))).x ∧
      (row cal framenumber e.1 e.2).getD (6 + 3 * m) 0
        = ((cal.cams.getD m default).Distort
            ((cal.cams.getD m default).UnDistort (m_pos (m : Int)))).y ∧
      (Arith.IsExact F → (cal.cams.getD m default).wpix ≠ 0 →
        (row cal framenumber e.1 e.2).getD (5 + 3 * m) 0 = (m : F)) ∧
      (Arith.IsExact F → (cal.cams.getD m default).hpix ≠ 0 →
        (row cal framenumber e.1 e.2).getD (6 + 3 * m) 0 = (m : F)) ∧
      usedCams cal (m : Int) = ([0, 1, 2, 3].filter fun i => !decide (i = m)) ∧
      ∃ ipos : List (Position F),
        e.1.pos = (WorldPositionBody sqrt cal (m : Int) ipos).2 ∧
        ∀ q : Position F,
          (WorldPositionBody sqrt cal (m : Int) (ipos.set m q)).1
              = (WorldPositionBody sqrt cal (m : Int) ipos).1 ∧
            (WorldPositionBody sqrt cal (m : Int) (ipos.set m q)).2.x
              = (WorldPositionBody sqrt cal (m : Int) ipos).2.x ∧
            (WorldPositionBody sqrt cal (m : Int) (ipos.set m q)).2.y
              = (WorldPositionBody sqrt cal (m : Int) ipos).2.y ∧
            (WorldPositionBody sqrt cal (m : Int) (ipos.set m q)).2.z
              = (WorldPositionBody sqrt cal (m : Int) ipos).2.z) ∧
    (((corrframes cal iframes).getD 0 default).NumParticles = 1 →
      ((corrframes cal iframes).getD 1 default).NumParticles = 1 →
      ((corrframes cal iframes).getD 3 default).NumParticles = 1 →
      0 ∈ plist (pairlists sqrt cal (corrframes cal iframes)) 0 0 1 →
      0 ∈ plist (pairlists sqrt cal (corrframes cal iframes)) 1 0 0 →
      0 ∈ plist (pairlists sqrt cal (corrframes cal iframes)) 0 0 3 →
      0 ∈ plist (pairlists sqrt cal (corrframes cal iframes)) 3 0 0 →
      0 ∈ plist (pairlists sqrt cal (corrframes cal iframes)) 1 0 3 →
      0 ∈ plist (pairlists sqrt cal (corrframes cal iframes)) 3 0 1 →
      plist (pairlists sqrt cal (corrframes cal iframes)) 0 0 2 = [] →
      plist (pairlists sqrt cal (corrframes cal iframes)) 1 0 2 = [] →
      (WorldPositionBody sqrt cal 2
        [detAt (corrframes cal iframes) 0 0, detAt (corrframes cal iframes) 1 0, m_pos 2,
          detAt (corrframes cal iframes) 3 0]).1 < cal.mindist_3D * cal.mindist_3D →
      goodFull sqrt cal iframes = [] ∧
        ∃ e : Match F × F, emittedDegraded sqrt cal iframes = [e] ∧ e.1.mcam = 2) := by
  constructor
  · intro e he
    obtain ⟨hmem, _⟩ := mem_emittedDegraded sqrt cal iframes e he
    obtain ⟨mcam, hlt, hkeep⟩ := mem_goodPos3 sqrt cal _ _ e.1 hmem
    obtain ⟨tm, htm⟩ := mem_matchedPos3 sqrt cal _ _ mcam e.1 (mem_of_mem_keepGood _ _ _ hkeep)
    obtain ⟨⟨ipos, hpos, _⟩, _, hmc, htouse⟩ := mem_matchDegraded sqrt cal _ mcam tm e.1 htm
    have h4 : mcam < 4 := by omega
    obtain ⟨hx, hy, hori⟩ := row_slot cal framenumber e.1 e.2 mcam h4
    obtain ⟨sori, sx, sy⟩ := sentinel_slot (cal.cams.getD mcam default) mcam
    rw [htouse hlt] at hx hy hori
    refine ⟨mcam, h4, hmc, ?_, hx, hy, ?_, ?_, usedCams_four cal hn mcam, ipos, hpos, ?_⟩
    · rw [hori, sori]
    · intro hex hw
      rw [hx, sx hex hw]
    · intro hex hh
      rw [hy, sy hex hh]
    · intro q
      exact WorldPositionBody_skip sqrt cal mcam ipos q
  · intro n0 n1 n3 h01 h10 h03 h30 h13 h31 h02 h12 hres
    obtain ⟨hfull, hdeg⟩ := fallback_emitted sqrt cal iframes hn n0 n1 n3 h01 h10 h03 h30 h13
      h31 h02 h12 hres
    exact ⟨hfull, _, hdeg, rfl⟩

end TaggingTheorem


section Evaluations

/-- Every scene on which the model is evaluated below is regular. -/
theorem scenes_regular :
    okScene calAxis framesOne = true ∧ okScene calAxis framesTwo = true ∧
      okScene calAxis framesFallback = true ∧ okScene calAxis framesSkew = true ∧
      okScene calPlane framesPlane = true ∧
      okScene calShare framesShare = true := by
  decide!

/-- Witness of C2 on the scene `framesTwo`: the call returns two world points,
one full and one degraded. -/
theorem C2_residual_bound_witness :
    ∃ r : StereoResult ℚ, Stereomatch sqrtQ calAxis framesTwo 0 = Except.ok r ∧
      r.frame.pos.length = 2 ∧
      (∀ p ∈ r.frame.pos, ∃ (mcam : Int) (ipos : List (Position ℚ)) (res : ℚ),
        WorldPosition sqrtQ calAxis mcam ipos = Except.ok (res, p) ∧
          res < calAxis.mindist_3D * calAxis.mindist_3D) ∧
      (∀ rw ∈ r.rows, rw.getD 4 0 < calAxis.mindist_3D * calAxis.mindist_3D) := by
  have h : Stereomatch sqrtQ calAxis framesTwo 0
      = Except.ok
        { frame := Frame.mk ((goodFull sqrtQ calAxis framesTwo).map (fun m => m.pos)
            ++ (emittedDegraded sqrtQ calAxis framesTwo).map (fun e => e.1.pos)),
          rows := (goodFull sqrtQ calAxis framesTwo).map (fun m => row calAxis 0 m m.raydist)
            ++ (emittedDegraded sqrtQ calAxis framesTwo).map (fun e => row calAxis 0 e.1 e.2) } :=
    if_neg (by decide)
  exact ⟨_, h, by decide!, C2_residual_bound sqrtQ calAxis framesTwo 0 _ h⟩

/-- Witness of C9 on the scene `framesTwo`, which has one emitted full match and
one emitted degraded match. -/
theorem C9_degraded_avoids_full_witness :
    (emittedDegraded sqrtQ calAxis framesTwo).length = 1 ∧
      (goodFull sqrtQ calAxis framesTwo).length = 1 ∧
      ∀ e ∈ emittedDegraded sqrtQ calAxis framesTwo, ∀ g ∈ goodFull sqrtQ calAxis framesTwo,
        ∀ k, k < calAxis.ncams →
          ¬ ((e.1.touse.getD k default).x = (g.touse.getD k default).x ∧
            (e.1.touse.getD k default).y = (g.touse.getD k default).y) :=
  ⟨by decide!, by decide!, fun e he g hg k hk =>
    C9_degraded_avoids_full sqrtQ calAxis framesTwo e g k he hg hk⟩

/-- Witness of C10 (as amended) on the scene `framesFallback`, in exact
arithmetic: one degraded point is emitted, tagged `m = 2`, and its row has
`(2, 2, 2)` in the slot of camera 2. -/
theorem C10_missing_camera_tagging_witness :
    calAxis.ncams = 4 ∧
      (∀ e ∈ emittedDegraded sqrtQ calAxis framesFallback, ∃ m : Nat, m < 4 ∧
        e.1.mcam = (m : Int) ∧ (row calAxis 0 e.1 e.2).getD (7 + 3 * m) 0 = (m : ℚ) ∧
        (row calAxis 0 e.1 e.2).getD (5 + 3 * m) 0 = (m : ℚ) ∧
        (row calAxis 0 e.1 e.2).getD (6 + 3 * m) 0 = (m : ℚ)) ∧
      (rowsOf (Stereomatch sqrtQ calAxis framesFallback 0)).map
          (fun rw => (rw.getD 11 0, rw.getD 12 0, rw.getD 13 0)) = [(2, 2, 2)] ∧
      goodFull sqrtQ calAxis framesFallback = [] ∧
      ∃ e : Match ℚ × ℚ, emittedDegraded sqrtQ calAxis framesFallback = [e] ∧ e.1.mcam = 2 := by
  have h := C10_missing_camera_tagging sqrtQ calAxis framesFallback 0 rfl
  refine ⟨rfl, ?_, by decide!, ?_⟩
  · intro e he
    obtain ⟨m, h1, h2, h3, _, _, h6, h7, _⟩ := h.1 e he
    have hm : m = 0 ∨ m = 1 ∨ m = 2 ∨ m = 3 := by omega
    refine ⟨m, h1, h2, h3, h6 isExact_exact ?_, h7 isExact_exact ?_⟩
    · rcases hm with rfl | rfl | rfl | rfl <;> decide!
    · rcases hm with rfl | rfl | rfl | rfl <;> decide!
  · exact h.2 (by decide!) (by decide!) (by decide!) (by decide!) (by decide!) (by decide!)
      (by decide!) (by decide!) (by decide!) (by decide!) (by decide!) (by decide!)

/-- Counterexample to C10 as stated.  On the scene `framesSkew` the cameras 0, 1
and 3 hold one detection each, camera 2 holds none, and the three detections
are on each other's pair-lists, yet neither pass emits a point (the residual of
the three rays is `117600/22159`).  On the scene `framesThreeOfFour` with the
cameras `calFine`, whose numbers are all `double` values and whose camera 2 has
1024 by 1024 pixels of pitch `0.017`, the arithmetic of `double` gives one
degraded point tagged `m = 2` whose written row has
`x = y = 35184372088833/17592186044416 = 2.000000000000057` in the slot of
camera 2, not 2. -/
theorem C10_counterexample :
    (((corrframes calAxis framesSkew).map fun f => f.NumParticles) = [1, 1, 0, 1] ∧
      0 ∈ plist (pairlists sqrtQ calAxis (corrframes calAxis framesSkew)) 0 0 1 ∧
      0 ∈ plist (pairlists sqrtQ calAxis (corrframes calAxis framesSkew)) 1 0 0 ∧
      0 ∈ plist (pairlists sqrtQ calAxis (corrframes calAxis framesSkew)) 0 0 3 ∧
      0 ∈ plist (pairlists sqrtQ calAxis (corrframes calAxis framesSkew)) 3 0 0 ∧
      0 ∈ plist (pairlists sqrtQ calAxis (corrframes calAxis framesSkew)) 1 0 3 ∧
      0 ∈ plist (pairlists sqrtQ calAxis (corrframes calAxis framesSkew)) 3 0 1 ∧
      (goodFull sqrtQ calAxis framesSkew).length = 0 ∧
      (emittedDegraded sqrtQ calAxis framesSkew).length = 0) ∧
    (okScene calFine framesThreeOfFour = true ∧
      allDoubles calFine framesThreeOfFour = true ∧
      camFine.wpix ≠ 0 ∧ camFine.hpix ≠ 0 ∧
      (@emittedDegraded ℚ _ ieee sqrtQ calFine framesThreeOfFour).map (fun e => e.1.mcam)
        = [2] ∧
      (rowsOf (@Stereomatch ℚ _ ieee sqrtQ calFine framesThreeOfFour 0)).map
          (fun rw => (rw.getD 11 0, rw.getD 12 0, rw.getD 13 0))
        = [(35184372088833 / 17592186044416, 35184372088833 / 17592186044416, 2)] ∧
      (35184372088833 / 17592186044416 : ℚ) ≠ 2) := by
  decide!

/-- C1 at a failing input.  On the scene `framesShare` the full pass emits
nothing, and the degraded passes that skip camera 1 and camera 2 each emit a
point; both points use detection 0 of camera 0 (orientation 0), and both
written rows carry its pixel coordinates in the slot of camera 0. -/
theorem C1_shared_detection_at_failing_input :
    (goodFull sqrtQ calShare framesShare).length = 0 ∧
      (emittedDegraded sqrtQ calShare framesShare).map (fun e => (e.1.mcam, e.1.indices))
        = [(1, [0, 0, 0]), (2, [0, 0, 1])] ∧
      (emittedDegraded sqrtQ calShare framesShare).map (fun e => e.1.whereIndex 0)
        = [some 0, some 0] ∧
      (rowsOf (Stereomatch sqrtQ calShare framesShare 0)).map
          (fun rw => (rw.getD 5 0, rw.getD 6 0, rw.getD 7 0))
        = [(36 / 25, 48 / 25, 0), (36 / 25, 48 / 25, 0)] := by
  decide!

end Evaluations

section LineTheorems
variable {F : Type} [LinearOrderedField F] [Arith F]

theorem distLine2_le (c s x : Position F) (hs : s.Magnitude2 = 1) (t : F) :
    distLine2 c s x ≤ Distance x (c.add (s.smul t)) := by
  unfold distLine2 Distance Dot Position.sub Position.add Position.smul Position.mk3
  unfold Position.Magnitude2 at hs
  simp only
  have key : ((x.x - (c.x + s.x * t)) * (x.x - (c.x + s.x * t))
      + (x.y - (c.y + s.y * t)) * (x.y - (c.y + s.y * t))
      + (x.z - (c.z + s.z * t)) * (x.z - (c.z + s.z * t)))
      - ((x.x - c.x) * (x.x - c.x) + (x.y - c.y) * (x.y - c.y) + (x.z - c.z) * (x.z - c.z)
        - ((x.x - c.x) * s.x + (x.y - c.y) * s.y + (x.z - c.z) * s.z)
          * ((x.x - c.x) * s.x + (x.y - c.y) * s.y + (x.z - c.z) * s.z))
      = (t - ((x.x - c.x) * s.x + (x.y - c.y) * s.y + (x.z - c.z) * s.z))
        * (t - ((x.x - c.x) * s.x + (x.y - c.y) * s.y + (x.z - c.z) * s.z)) := by
    linear_combination (t * t) * hs
  have := mul_self_nonneg (t - ((x.x - c.x) * s.x + (x.y - c.y) * s.y + (x.z - c.z) * s.z))
  linarith

theorem distLine2_attained (c s x : Position F) (hs : s.Magnitude2 = 1) :
    distLine2 c s x = Distance x (c.add (s.smul (Dot (x.sub c) s))) := by
  unfold distLine2 Distance Dot Position.sub Position.add Position.smul Position.mk3
  unfold Position.Magnitude2 at hs
  simp only
  linear_combination
    (-(((x.x - c.x) * s.x + (x.y - c.y) * s.y + (x.z - c.z) * s.z)
      * ((x.x - c.x) * s.x + (x.y - c.y) * s.y + (x.z - c.z) * s.z))) * hs

theorem perpVec_Magnitude2 (sqrt : F → F) (cal : Calibration F) (ipos : List (Position F))
    (w : Position F) (i : Nat) (hs : (sight sqrt cal ipos i).Magnitude2 = 1) :
    (perpVec sqrt cal ipos w i).Magnitude2
      = distLine2 (cal.cams.getD i default).Center (sight sqrt cal ipos i) w := by
  unfold perpVec distLine2 Distance Dot Position.sub Position.smul Position.mk3
    Position.Magnitude2
  unfold Position.Magnitude2 at hs
  simp only
  generalize sight sqrt cal ipos i = s at hs ⊢
  generalize (cal.cams.getD i default).Center = c
  linear_combination
    (((w.x - c.x) * s.x + (w.y - c.y) * s.y + (w.z - c.z) * s.z)
      * ((w.x - c.x) * s.x + (w.y - c.y) * s.y + (w.z - c.z) * s.z)) * hs


theorem foldl_add_eq_sum {α : Type} (g : α → F) (L : List α) (a : F) :
    L.foldl (fun d i => d + g i) a = a + (L.map g).sum := by
  induction L generalizing a with
  | nil => simp
  | cons i L ih => simp only [List.foldl_cons, List.map_cons, List.sum_cons, ih]; ring

theorem foldl_Matrix_add {α : Type} (g : α → Matrix F) (L : List α) (M0 : Matrix F) :
    L.foldl (fun M i => M.add (g i)) M0
      = ⟨M0.m00 + (L.map fun i => (g i).m00).sum, M0.m01 + (L.map fun i => (g i).m01).sum,
         M0.m02 + (L.map fun i => (g i).m02).sum, M0.m10 + (L.map fun i => (g i).m10).sum,
         M0.m11 + (L.map fun i => (g i).m11).sum, M0.m12 + (L.map fun i => (g i).m12).sum,
         M0.m20 + (L.map fun i => (g i).m20).sum, M0.m21 + (L.map fun i => (g i).m21).sum,
         M0.m22 + (L.map fun i => (g i).m22).sum⟩ := by
  induction L generalizing M0 with
  | nil => simp
  | cons i L ih =>
    simp only [List.foldl_cons, List.map_cons, List.sum_cons]
    rw [ih]
    simp only [Matrix.add, add_assoc]

theorem foldl_addEq {α : Type} (g : α → Position F) (L : List α) (P0 : Position F) :
    (L.foldl (fun P i => P.addEq (g i)) P0).x = P0.x + (L.map fun i => (g i).x).sum ∧
    (L.foldl (fun P i => P.addEq (g i)) P0).y = P0.y + (L.map fun i => (g i).y).sum ∧
    (L.foldl (fun P i => P.addEq (g i)) P0).z = P0.z + (L.map fun i => (g i).z).sum := by
  induction L generalizing P0 with
  | nil => simp
  | cons i L ih =>
    simp only [List.foldl_cons, List.map_cons, List.sum_cons]
    obtain ⟨h1, h2, h3⟩ := ih (P0.addEq (g i))
    rw [h1, h2, h3]
    simp only [Position.addEq, add_assoc, and_self]

/-- The inverse of a matrix with non-zero determinant solves the linear system. -/
theorem mulVec_Invert (M : Matrix F) (P : Position F) (hdet : M.det ≠ 0) :
    (M.mulVec (M.Invert.mulVec P)).x = P.x ∧ (M.mulVec (M.Invert.mulVec P)).y = P.y ∧
      (M.mulVec (M.Invert.mulVec P)).z = P.z := by
  have hd := hdet
  unfold Matrix.det at hd
  unfold Matrix.mulVec Matrix.Invert Matrix.det Position.mk3
  simp only
  refine ⟨?_, ?_, ?_⟩ <;> field_simp <;> ring

/-- The sum of squared distances to a family of lines, expanded around a point
`w`. -/
theorem sum_distLine2_sub {α : Type} (L : List α) (c s : α → Position F) (w x : Position F) :
    (L.map fun i => distLine2 (c i) (s i) x).sum - (L.map fun i => distLine2 (c i) (s i) w).sum
      = (L.map fun i => Dot (x.sub w) (x.sub w) - Dot (x.sub w) (s i) * Dot (x.sub w) (s i)).sum
        + 2 * ((x.x - w.x) *
            ((L.map fun i => (projector (s i)).m00).sum * w.x
              + (L.map fun i => (projector (s i)).m01).sum * w.y
              + (L.map fun i => (projector (s i)).m02).sum * w.z
              - (L.map fun i => ((projector (s i)).mulVec (c i)).x).sum)
          + (x.y - w.y) *
            ((L.map fun i => (projector (s i)).m10).sum * w.x
              + (L.map fun i => (projector (s i)).m11).sum * w.y
              + (L.map fun i => (projector (s i)).m12).sum * w.z
              - (L.map fun i => ((projector (s i)).mulVec (c i)).y).sum)
          + (x.z - w.z) *
            ((L.map fun i => (projector (s i)).m20).sum * w.x
              + (L.map fun i => (projector (s i)).m21).sum * w.y
              + (L.map fun i => (projector (s i)).m22).sum * w.z
              - (L.map fun i => ((projector (s i)).mulVec (c i)).z).sum)) := by
  induction L with
  | nil => simp
  | cons i L ih =>
    simp only [List.map_cons, List.sum_cons]
    have ht : distLine2 (c i) (s i) x - distLine2 (c i) (s i) w
        = (Dot (x.sub w) (x.sub w) - Dot (x.sub w) (s i) * Dot (x.sub w) (s i))
          + 2 * ((x.x - w.x) *
              ((projector (s i)).m00 * w.x + (projector (s i)).m01 * w.y
                + (projector (s i)).m02 * w.z - ((projector (s i)).mulVec (c i)).x)
            + (x.y - w.y) *
              ((projector (s i)).m10 * w.x + (projector (s i)).m11 * w.y
                + (projector (s i)).m12 * w.z - ((projector (s i)).mulVec (c i)).y)
            + (x.z - w.z) *
              ((projector (s i)).m20 * w.x + (projector (s i)).m21 * w.y
                + (projector (s i)).m22 * w.z - ((projector (s i)).mulVec (c i)).z)) := by
      unfold distLine2 Distance Dot Position.sub projector Matrix.mulVec Position.mk3
      simp only
      ring
    linear_combination ih + ht

/-- Cauchy-Schwarz for a unit vector: the part of `d` across `s` has a
non-negative square. -/
theorem across_nonneg (d s : Position F) (hs : s.Magnitude2 = 1) :
    0 ≤ Dot d d - Dot d s * Dot d s := by
  unfold Position.Magnitude2 at hs
  unfold Dot
  have h : d.x * d.x + d.y * d.y + d.z * d.z
      - (d.x * s.x + d.y * s.y + d.z * s.z) * (d.x * s.x + d.y * s.y + d.z * s.z)
      = (d.x * s.y - d.y * s.x) * (d.x * s.y - d.y * s.x)
        + (d.y * s.z - d.z * s.y) * (d.y * s.z - d.z * s.y)
        + (d.z * s.x - d.x * s.z) * (d.z * s.x - d.x * s.z) := by
    linear_combination (-(d.x * d.x + d.y * d.y + d.z * d.z)) * hs
  rw [h]
  have h1 := mul_self_nonneg (d.x * s.y - d.y * s.x)
  have h2 := mul_self_nonneg (d.y * s.z - d.z * s.y)
  have h3 := mul_self_nonneg (d.z * s.x - d.x * s.z)
  linarith

theorem sumM_entries (sqrt : F → F) (cal : Calibration F) (mcam : Int)
    (ipos : List (Position F)) :
    sumM sqrt cal mcam ipos
      = ⟨((usedCams cal mcam).map fun i => (projector (sight sqrt cal ipos i)).m00).sum,
         ((usedCams cal mcam).map fun i => (projector (sight sqrt cal ipos i)).m01).sum,
         ((usedCams cal mcam).map fun i => (projector (sight sqrt cal ipos i)).m02).sum,
         ((usedCams cal mcam).map fun i => (projector (sight sqrt cal ipos i)).m10).sum,
         ((usedCams cal mcam).map fun i => (projector (sight sqrt cal ipos i)).m11).sum,
         ((usedCams cal mcam).map fun i => (projector (sight sqrt cal ipos i)).m12).sum,
         ((usedCams cal mcam).map fun i => (projector (sight sqrt cal ipos i)).m20).sum,
         ((usedCams cal mcam).map fun i => (projector (sight sqrt cal ipos i)).m21).sum,
         ((usedCams cal mcam).map fun i => (projector (sight sqrt cal ipos i)).m22).sum⟩ := by
  unfold sumM
  rw [foldl_Matrix_add]
  simp [Matrix.zero]

theorem sumP_entries (sqrt : F → F) (cal : Calibration F) (mcam : Int)
    (ipos : List (Position F)) :
    (sumP sqrt cal mcam ipos).x
        = ((usedCams cal mcam).map fun i =>
            ((projector (sight sqrt cal ipos i)).mulVec (cal.cams.getD i default).Center).x).sum ∧
      (sumP sqrt cal mcam ipos).y
        = ((usedCams cal mcam).map fun i =>
            ((projector (sight sqrt cal ipos i)).mulVec (cal.cams.getD i default).Center).y).sum ∧
      (sumP sqrt cal mcam ipos).z
        = ((usedCams cal mcam).map fun i =>
            ((projector (sight sqrt cal ipos i)).mulVec (cal.cams.getD i default).Center).z).sum := by
  unfold sumP
  obtain ⟨h1, h2, h3⟩ := foldl_addEq
    (fun i => (projector (sight sqrt cal ipos i)).mulVec (cal.cams.getD i default).Center)
    (usedCams cal mcam) (Position.mk3 0 0 0)
  rw [h1, h2, h3]
  simp [Position.mk3]

/-- The point `M⁻¹ P` minimises the sum of the squared distances to the lines of
sight. -/
theorem sumDist2_min (sqrt : F → F) (cal : Calibration F) (mcam : Int)
    (ipos : List (Position F))
    (hunit : ∀ i ∈ usedCams cal mcam, (sight sqrt cal ipos i).Magnitude2 = 1)
    (hdet : (sumM sqrt cal mcam ipos).det ≠ 0) (w x : Position F)
    (hx : w.x = ((sumM sqrt cal mcam ipos).Invert.mulVec (sumP sqrt cal mcam ipos)).x)
    (hy : w.y = ((sumM sqrt cal mcam ipos).Invert.mulVec (sumP sqrt cal mcam ipos)).y)
    (hz : w.z = ((sumM sqrt cal mcam ipos).Invert.mulVec (sumP sqrt cal mcam ipos)).z) :
    sumDist2 sqrt cal mcam ipos w ≤ sumDist2 sqrt cal mcam ipos x := by
  obtain ⟨i1, i2, i3⟩ := mulVec_Invert (sumM sqrt cal mcam ipos) (sumP sqrt cal mcam ipos) hdet
  obtain ⟨p1, p2, p3⟩ := sumP_entries sqrt cal mcam ipos
  have hM := sumM_entries sqrt cal mcam ipos
  have e00 := congrArg Matrix.m00 hM
  have e01 := congrArg Matrix.m01 hM
  have e02 := congrArg Matrix.m02 hM
  have e10 := congrArg Matrix.m10 hM
  have e11 := congrArg Matrix.m11 hM
  have e12 := congrArg Matrix.m12 hM
  have e20 := congrArg Matrix.m20 hM
  have e21 := congrArg Matrix.m21 hM
  have e22 := congrArg Matrix.m22 hM
  have j1 : (sumM sqrt cal mcam ipos).m00 * w.x + (sumM sqrt cal mcam ipos).m01 * w.y
      + (sumM sqrt cal mcam ipos).m02 * w.z = (sumP sqrt cal mcam ipos).x := by
    rw [hx, hy, hz]; exact i1
  have j2 : (sumM sqrt cal mcam ipos).m10 * w.x + (sumM sqrt cal mcam ipos).m11 * w.y
      + (sumM sqrt cal mcam ipos).m12 * w.z = (sumP sqrt cal mcam ipos).y := by
    rw [hx, hy, hz]; exact i2
  have j3 : (sumM sqrt cal mcam ipos).m20 * w.x + (sumM sqrt cal mcam ipos).m21 * w.y
      + (sumM sqrt cal mcam ipos).m22 * w.z = (sumP sqrt cal mcam ipos).z := by
    rw [hx, hy, hz]; exact i3
  have key := sum_distLine2_sub (usedCams cal mcam)
    (fun i => (cal.cams.getD i default).Center) (fun i => sight sqrt cal ipos i) w x
  have hq : 0 ≤ ((usedCams cal mcam).map fun i =>
      Dot (x.sub w) (x.sub w) - Dot (x.sub w) (sight sqrt cal ipos i)
        * Dot (x.sub w) (sight sqrt cal ipos i)).sum := by
    apply List.sum_nonneg
    intro a ha
    obtain ⟨i, hi, rfl⟩ := List.mem_map.1 ha
    exact across_nonneg _ _ (hunit i hi)
  have key2 : sumDist2 sqrt cal mcam ipos x - sumDist2 sqrt cal mcam ipos w
      = ((usedCams cal mcam).map fun i =>
          Dot (x.sub w) (x.sub w) - Dot (x.sub w) (sight sqrt cal ipos i)
            * Dot (x.sub w) (sight sqrt cal ipos i)).sum
        + 2 * ((x.x - w.x) *
            ((sumM sqrt cal mcam ipos).m00 * w.x + (sumM sqrt cal mcam ipos).m01 * w.y
              + (sumM sqrt cal mcam ipos).m02 * w.z - (sumP sqrt cal mcam ipos).x)
          + (x.y - w.y) *
            ((sumM sqrt cal mcam ipos).m10 * w.x + (sumM sqrt cal mcam ipos).m11 * w.y
              + (sumM sqrt cal mcam ipos).m12 * w.z - (sumP sqrt cal mcam ipos).y)
          + (x.z - w.z) *
            ((sumM sqrt cal mcam ipos).m20 * w.x + (sumM sqrt cal mcam ipos).m21 * w.y
              + (sumM sqrt cal mcam ipos).m22 * w.z - (sumP sqrt cal mcam ipos).z)) := by
    rw [e00, e01, e02, e10, e11, e12, e20, e21, e22, p1, p2, p3]
    exact key
  rw [j1, j2, j3] at key2
  simp only [sub_self, mul_zero, add_zero] at key2
  linarith


theorem usedCams_length (cal : Calibration F) (mcam : Int)
    (hm : mcam = -1 ∨ (0 ≤ mcam ∧ mcam < (cal.ncams : Int))) :
    (usedCams cal mcam).length = if mcam = -1 then cal.ncams else cal.ncams - 1 := by
  unfold usedCams
  rcases hm with rfl | ⟨h0, h1⟩
  · rw [if_pos rfl, List.filter_eq_self.2, List.length_range]
    intro i _
    have : ¬ ((i : Int) = -1) := by omega
    simp [this]
  · have hne : mcam ≠ -1 := by omega
    rw [if_neg hne]
    obtain ⟨k, rfl⟩ := Int.eq_ofNat_of_zero_le h0
    have hk : k < cal.ncams := by exact_mod_cast h1
    have hf : (List.range cal.ncams).filter (fun i : Nat => !decide ((i : Int) = (k : Int)))
        = (List.range cal.ncams).filter (fun i : Nat => i != k) := by
      apply List.filter_congr
      intro i _
      by_cases h : i = k
      · simp [h]
      · have : ¬ ((i : Int) = (k : Int)) := by exact_mod_cast h
        simp [h, this]
    rw [hf, ← List.Nodup.erase_eq_filter (List.nodup_range _),
      List.length_erase_of_mem (List.mem_range.2 hk), List.length_range]

theorem WorldPosition_ok (sqrt : F → F) (cal : Calibration F) (mcam : Int)
    (ipos : List (Position F)) (r : F × Position F)
    (hr : WorldPosition sqrt cal mcam ipos = Except.ok r) :
    r = WorldPositionBody sqrt cal mcam ipos := by
  unfold WorldPosition at hr
  split at hr
  · exact Except.noConfusion hr
  · exact (Except.ok.inj hr).symm

/-- C13. Triangulation optimality.  When the lines of sight built by
`WorldPosition` have unit directions and `M = Σ (I - sᵢ sᵢᵀ)` has a non-zero
determinant, the returned world point is `M⁻¹ P` with `P = Σ (I - sᵢ sᵢᵀ) cᵢ`, it
solves `M w = P`, and no point has a smaller sum of squared distances to the
lines of sight of the participating cameras. -/
theorem C13_triangulation_optimal (sqrt : F → F) (cal : Calibration F) (mcam : Int)
    (ipos : List (Position F))
    (hunit : ∀ i ∈ usedCams cal mcam, (sight sqrt cal ipos i).Magnitude2 = 1)
    (hdet : (sumM sqrt cal mcam ipos).det ≠ 0)
    (r : F × Position F) (hr : WorldPosition sqrt cal mcam ipos = Except.ok r) :
    (r.2.x = ((sumM sqrt cal mcam ipos).Invert.mulVec (sumP sqrt cal mcam ipos)).x ∧
      r.2.y = ((sumM sqrt cal mcam ipos).Invert.mulVec (sumP sqrt cal mcam ipos)).y ∧
      r.2.z = ((sumM sqrt cal mcam ipos).Invert.mulVec (sumP sqrt cal mcam ipos)).z) ∧
    (((sumM sqrt cal mcam ipos).mulVec r.2).x = (sumP sqrt cal mcam ipos).x ∧
      ((sumM sqrt cal mcam ipos).mulVec r.2).y = (sumP sqrt cal mcam ipos).y ∧
      ((sumM sqrt cal mcam ipos).mulVec r.2).z = (sumP sqrt cal mcam ipos).z) ∧
    ∀ x : Position F, sumDist2 sqrt cal mcam ipos r.2 ≤ sumDist2 sqrt cal mcam ipos x := by
  rw [WorldPosition_ok sqrt cal mcam ipos r hr]
  have hx : (WorldPositionBody sqrt cal mcam ipos).2.x
      = ((sumM sqrt cal mcam ipos).Invert.mulVec (sumP sqrt cal mcam ipos)).x := rfl
  have hy : (WorldPositionBody sqrt cal mcam ipos).2.y
      = ((sumM sqrt cal mcam ipos).Invert.mulVec (sumP sqrt cal mcam ipos)).y := rfl
  have hz : (WorldPositionBody sqrt cal mcam ipos).2.z
      = ((sumM sqrt cal mcam ipos).Invert.mulVec (sumP sqrt cal mcam ipos)).z := rfl
  refine ⟨⟨hx, hy, hz⟩, ?_, fun x => sumDist2_min sqrt cal mcam ipos hunit hdet _ x hx hy hz⟩
  exact mulVec_Invert _ _ hdet

/-- C14. The residual returned by `WorldPosition`, for `mcam = -1` or `mcam` a
camera index and at least one participating camera: the participating cameras
are `N` (for `mcam = -1`) or `N - 1` in number, the residual is the sum over
them of the squared distance from the returned world point to the camera's
line of sight (unit directions) divided by their number, and it is
non-negative. -/
theorem C14_residual_is_mean (sqrt : F → F) (cal : Calibration F) (mcam : Int)
    (ipos : List (Position F))
    (hm : mcam = -1 ∨ (0 ≤ mcam ∧ mcam < (cal.ncams : Int)))
    (hpos : 0 < (usedCams cal mcam).length)
    (hunit : ∀ i ∈ usedCams cal mcam, (sight sqrt cal ipos i).Magnitude2 = 1)
    (r : F × Position F) (hr : WorldPosition sqrt cal mcam ipos = Except.ok r) :
    ((usedCams cal mcam).length = if mcam = -1 then cal.ncams else cal.ncams - 1) ∧
      r.1 = sumDist2 sqrt cal mcam ipos r.2 / ((usedCams cal mcam).length : F) ∧
      0 ≤ r.1 := by
  have hlen := usedCams_length cal mcam hm
  rw [WorldPosition_ok sqrt cal mcam ipos r hr]
  have hdiv : (((cal.ncams : Int) - ((if mcam = -1 then 0 else 1 : Nat) : Int) : Int) : F)
      = ((usedCams cal mcam).length : F) := by
    rw [hlen]
    rcases hm with rfl | ⟨h0, h1⟩
    · simp
    · have hne : mcam ≠ -1 := by omega
      have h1N : 1 ≤ cal.ncams := by omega
      rw [if_neg hne, if_neg hne]
      push_cast [Nat.cast_sub h1N]
      ring
  have hsum : (usedCams cal mcam).foldl
      (fun dist i => dist + (perpVec sqrt cal ipos
        ((sumM sqrt cal mcam ipos).Invert.mulVec (sumP sqrt cal mcam ipos)) i).Magnitude2) 0
      = sumDist2 sqrt cal mcam ipos (WorldPositionBody sqrt cal mcam ipos).2 := by
    rw [foldl_add_eq_sum, zero_add]
    unfold sumDist2
    congr 1
    apply List.map_congr_left
    intro i hi
    rw [perpVec_Magnitude2 sqrt cal ipos _ i (hunit i hi)]
    rfl
  have h1 : (WorldPositionBody sqrt cal mcam ipos).1
      = sumDist2 sqrt cal mcam ipos (WorldPositionBody sqrt cal mcam ipos).2
        / ((usedCams cal mcam).length : F) := by
    rw [← hsum, ← hdiv]
    rfl
  refine ⟨hlen, h1, ?_⟩
  rw [h1]
  apply div_nonneg
  · rw [← hsum, foldl_add_eq_sum, zero_add]
    apply List.sum_nonneg
    intro a ha
    obtain ⟨i, _, rfl⟩ := List.mem_map.1 ha
    unfold Position.Magnitude2
    have h1 := mul_self_nonneg (perpVec sqrt cal ipos
      ((sumM sqrt cal mcam ipos).Invert.mulVec (sumP sqrt cal mcam ipos)) i).x
    have h2 := mul_self_nonneg (perpVec sqrt cal ipos
      ((sumM sqrt cal mcam ipos).Invert.mulVec (sumP sqrt cal mcam ipos)) i).y
    have h3 := mul_self_nonneg (perpVec sqrt cal ipos
      ((sumM sqrt cal mcam ipos).Invert.mulVec (sumP sqrt cal mcam ipos)) i).z
    linarith
  · exact Nat.cast_nonneg _

end LineTheorems

section LineEvaluations

/-- Witness of C13 on the cameras `calPlane`: the detections 1 of the four
cameras, whose lines of sight do not meet in one point. -/
theorem C13_triangulation_optimal_witness :
    (∀ i ∈ usedCams calPlane (-1), (sight sqrtQ calPlane iposPlane i).Magnitude2 = 1) ∧
    (sumM sqrtQ calPlane (-1) iposPlane).det ≠ 0 ∧
    ∃ r : ℚ × Position ℚ,
      WorldPosition sqrtQ calPlane (-1) iposPlane = Except.ok r ∧
      r.1 = 1419625 / 9288042 ∧
      ∀ x : Position ℚ,
        sumDist2 sqrtQ calPlane (-1) iposPlane r.2 ≤ sumDist2 sqrtQ calPlane (-1) iposPlane x := by
  have h : WorldPosition sqrtQ calPlane (-1) iposPlane
      = Except.ok (WorldPositionBody sqrtQ calPlane (-1) iposPlane) := if_neg (by decide)
  exact ⟨by decide!, by decide!, _, h, by decide!,
    (C13_triangulation_optimal sqrtQ calPlane (-1) iposPlane (by decide!) (by decide!) _ h).2.2⟩

/-- Witness of C14 on the scene `framesFallback`, camera 2 skipped: three
participating cameras. -/
theorem C14_residual_is_mean_witness :
    (usedCams calAxis 2).length = 3 ∧
    ∃ r : ℚ × Position ℚ,
      WorldPosition sqrtQ calAxis 2 iposFallback = Except.ok r ∧
      r.1 = sumDist2 sqrtQ calAxis 2 iposFallback r.2 / 3 ∧ 0 ≤ r.1 := by
  have hr : WorldPosition sqrtQ calAxis 2 iposFallback
      = Except.ok (WorldPositionBody sqrtQ calAxis 2 iposFallback) := if_neg (by decide)
  have h := C14_residual_is_mean sqrtQ calAxis 2 iposFallback
    (Or.inr (by decide)) (by decide) (by decide!) _ hr
  have h3 : (usedCams calAxis 2).length = 3 := by decide
  refine ⟨h3, _, hr, ?_, h.2.2⟩
  have := h.2.1
  rw [h3] at this
  exact_mod_cast this

end LineEvaluations

section AnchorTheorems
variable {F : Type} [LinearOrderedField F] [Arith F]

theorem icamLoop_eq {α : Type} (mcam : Nat) (body : Nat → α → α) (L : List Nat) (acc : α) :
    icamLoop mcam body L acc
      = match L.filter (fun i => !(i == mcam)) with
        | [] => acc
        | icam :: _ => body icam acc := by
  induction L with
  | nil => rfl
  | cons i L ih =>
    by_cases h : i = mcam
    · subst h
      simp only [icamLoop, if_true, List.filter_cons, beq_self_eq_true, Bool.not_true]
      exact ih
    · have hb : (!(i == mcam)) = true := by simp [h]
      simp only [icamLoop, if_neg h, List.filter_cons, hb, if_true]

/-- C11 (as amended). In the pass that skips `mcam` the consistency search is
seeded from one camera only, the first camera other than `mcam`: the body of
the `icam` loop runs for at most that one camera (the loop is left after its
first iteration that is not skipped), and the candidates of the pass are those
found from that anchor camera. -/
theorem C11_degraded_single_anchor (sqrt : F → F) (cal : Calibration F)
    (corr : List (Frame F)) (good : List (Match F)) (mcam : Nat) :
    anchorCams cal.ncams mcam = ((List.range cal.ncams).filter fun i => !(i == mcam)).take 1 ∧
    matchedPos3 sqrt cal corr good mcam
      = icamLoop mcam (fun icam acc => acc ++ matchedPos3From sqrt cal corr good mcam icam)
          (List.range cal.ncams) [] ∧
    matchedPos3 sqrt cal corr good mcam
      = (anchorCams cal.ncams mcam).flatMap fun icam =>
          matchedPos3From sqrt cal corr good mcam icam := by
  have h1 : anchorCams cal.ncams mcam
      = ((List.range cal.ncams).filter fun i => !(i == mcam)).take 1 := by
    unfold anchorCams
    rw [icamLoop_eq]
    cases (List.range cal.ncams).filter fun i => !(i == mcam) with
    | nil => rfl
    | cons a t => rfl
  have h2 : matchedPos3 sqrt cal corr good mcam
      = icamLoop mcam (fun icam acc => acc ++ matchedPos3From sqrt cal corr good mcam icam)
          (List.range cal.ncams) [] := by
    rw [icamLoop_eq]
    unfold matchedPos3
    cases (List.range cal.ncams).filter fun i => !(i == mcam) with
    | nil => rfl
    | cons a t => rfl
  refine ⟨h1, h2, ?_⟩
  rw [h1]
  unfold matchedPos3
  cases (List.range cal.ncams).filter fun i => !(i == mcam) with
  | nil => rfl
  | cons a t => simp [matchedPos3From]

end AnchorTheorems

section AnchorEvaluations

/-- Counterexample to C11 as stated.  With four cameras and camera 2 skipped
the search is seeded from camera 0 only, not from the cameras 1 and 3.  On the
scene `framesFallback` the bodies for the anchor cameras 1 and 3 would each
accept a candidate, but the pass holds the single candidate found from
camera 0. -/
theorem C11_counterexample :
    anchorCams 4 2 = [0] ∧ 1 ∉ anchorCams 4 2 ∧ 3 ∉ anchorCams 4 2 ∧
    (matchedPos3From sqrtQ calAxis (corrframes calAxis framesFallback) [] 2 1).length = 1 ∧
    (matchedPos3From sqrtQ calAxis (corrframes calAxis framesFallback) [] 2 3).length = 1 ∧
    (matchedPos3 sqrtQ calAxis (corrframes calAxis framesFallback) [] 2).length = 1 ∧
    (matchedPos3 sqrtQ calAxis (corrframes calAxis framesFallback) [] 2).map
        (fun m => m.indices)
      = (matchedPos3From sqrtQ calAxis (corrframes calAxis framesFallback) [] 2 0).map
        (fun m => m.indices) := by
  decide!

/-- The scene `framesMisaligned` is regular. -/
theorem scene_misaligned_regular : okScene calPlane framesMisaligned = true := by
  decide!

/-- C12 at a failing input.  On the scene `framesMisaligned` the pass that
skips camera 3 accepts the candidates `(0,0,0)` (residual `6627/29576`) and
`(0,0,1)` (residual `0`); the first is thrown out within the pass.  The one
emitted degraded point is `(0,0,1)`, whose own triangulation residual is `0`,
and the residual written with it is `6627/29576`, that of the discarded
candidate. -/
theorem C12_written_residual_at_failing_input :
    (goodFull sqrtQ calPlane framesMisaligned).length = 0 ∧
    (matchedPos3 sqrtQ calPlane (corrframes calPlane framesMisaligned) [] 3).map
        (fun m => (m.indices, m.raydist))
      = [([0, 0, 0], 6627 / 29576), ([0, 0, 1], 0)] ∧
    (emittedDegraded sqrtQ calPlane framesMisaligned).map
        (fun e => (e.1.mcam, e.1.indices, e.1.raydist,
          (WorldPositionBody sqrtQ calPlane 3 e.1.touse).1, e.2))
      = [(3, [0, 0, 1], 0, 0, 6627 / 29576)] ∧
    (rowsOf (Stereomatch sqrtQ calPlane framesMisaligned 0)).map (fun rw => rw.getD 4 0)
      = [6627 / 29576] := by
  decide!

end AnchorEvaluations

section TrackTheorems

variable {F : Type} [LinearOrderedField F]

theorem adjustLoop_eq (l : List (Position F)) (a : Nat) :
    Track.adjustLoop l a = a + (l.takeWhile fun p => p.fake).length := by
  induction l generalizing a with
  | nil => simp [Track.adjustLoop]
  | cons p ps ih =>
    unfold Track.adjustLoop
    by_cases h : p.fake = true
    · simp only [Position.IsFake, h, Bool.not_true, Bool.false_eq_true, if_false, ih,
        List.takeWhile_cons, if_true, List.length_cons]
      omega
    · have h2 : p.fake = false := by simpa using h
      simp [Position.IsFake, h2, List.takeWhile_cons]

theorem Track.Length_eq (t : Track F) (hn : t.npoints = (t.pos.length : Int)) :
    t.Length = (t.pos.length : Int) - ((t.pos.rtakeWhile fun p => p.fake).length : Int) := by
  unfold Track.Length
  by_cases he : t.pos = []
  · simp [he, List.rtakeWhile]
  · have : t.pos.isEmpty = false := by
      cases h : t.pos with
      | nil => exact absurd h he
      | cons a l => rfl
    rw [this, adjustLoop_eq, hn]
    simp [List.rtakeWhile]

theorem Track.WF_single (p : Position F) (t : Int) : (Track.single p t).WF :=
  ⟨rfl, rfl⟩

theorem Track.WF_Add (tr : Track F) (h : tr.WF) (p : Position F) (t : Int) :
    (tr.Add p t).WF := by
  obtain ⟨h1, h2⟩ := h
  constructor
  · simp [Track.Add, h1]
  · simp [Track.Add, h2]

theorem Track.WF_new : (Track.new : Track F).WF := ⟨rfl, rfl⟩

/-- C15. `Track::Length` of a track whose member `npoints` is the number of its
stored positions (as the constructors and `Add` keep it): the number of stored
positions less the length of the longest terminal run of fake positions; it is
0 for an empty track and when every position is fake. -/
theorem C15_track_length (t : Track F) (hn : t.npoints = (t.pos.length : Int)) :
    t.Length = (t.pos.length : Int) - ((t.pos.rtakeWhile fun p => p.fake).length : Int) ∧
      (t.pos = [] → t.Length = 0) ∧
      ((∀ p ∈ t.pos, p.fake = true) → t.Length = 0) := by
  refine ⟨Track.Length_eq t hn, ?_, ?_⟩
  · intro h
    simp [Track.Length, h]
  · intro h
    rw [Track.Length_eq t hn]
    have : t.pos.rtakeWhile (fun p => p.fake) = t.pos := by
      rw [List.rtakeWhile_eq_self_iff]
      intro p hp
      exact h p hp
    rw [this]
    simp

/-- Witness of C15: a track of one real position followed by two fake ones has
length 1. -/
theorem C15_track_length_witness :
    (((Track.single (Position.mk3 (0 : ℚ) 0 0) 0).Add (Position.mk3 1 0 0).SetFake 1).Add
        (Position.mk3 2 0 0).SetFake 2).Length = 1 ∧
    (((Track.single (Position.mk3 (0 : ℚ) 0 0) 0).Add (Position.mk3 1 0 0).SetFake 1).Add
        (Position.mk3 2 0 0).SetFake 2).Length
      = 3 - (((((Track.single (Position.mk3 (0 : ℚ) 0 0) 0).Add
          (Position.mk3 1 0 0).SetFake 1).Add
          (Position.mk3 2 0 0).SetFake 2).pos.rtakeWhile fun p => p.fake).length : Int) :=
  ⟨by decide, (C15_track_length _ rfl).1⟩

end TrackTheorems
section LinkLemmas

variable {F : Type} [LinearOrderedField F]

theorem getD_set_self {α : Type} (l : List α) (k : Nat) (v d : α) (hk : k < l.length) :
    (l.set k v).getD k d = v := by
  rw [List.getD_eq_getElem?_getD, List.getElem?_set_self (by simpa using hk)]
  rfl

theorem getD_set_other {α : Type} (l : List α) (k c : Nat) (v d : α) (hne : k ≠ c) :
    (l.set k v).getD c d = l.getD c d := by
  rw [List.getD_eq_getElem?_getD, List.getD_eq_getElem?_getD, List.getElem?_set_ne hne]

theorem getD_replicate_lt {α : Type} (n c : Nat) (a d : α) (hc : c < n) :
    (List.replicate n a).getD c d = a := by
  rw [List.getD_eq_getElem?_getD, List.getElem?_replicate, if_pos hc]
  rfl

theorem getD_snoc_left {α : Type} (l : List α) (a d : α) (j : Nat) (hj : j < l.length) :
    (l ++ [a]).getD j d = l.getD j d :=
  List.getD_append l [a] d j hj

theorem getD_snoc_last {α : Type} (l : List α) (a d : α) :
    (l ++ [a]).getD l.length d = a := by
  rw [List.getD_append_right l [a] d l.length (le_refl _)]
  simp

/-- The pair returned by the second loop of `ComputeCost` is the initial one or
is made from a candidate whose cost does not exceed `mincost`. -/
theorem selectBest_fold (cands : List (Nat × F)) (mincost : F) (r0 : Int × F) :
    cands.foldl (fun retval c => if c.2 > mincost then retval else ((c.1 : Int), c.2)) r0 = r0 ∨
      ∃ c ∈ cands, cands.foldl
        (fun retval c => if c.2 > mincost then retval else ((c.1 : Int), c.2)) r0
          = ((c.1 : Int), c.2) ∧ ¬ (c.2 > mincost) := by
  induction cands generalizing r0 with
  | nil => exact Or.inl rfl
  | cons a l ih =>
    simp only [List.foldl_cons]
    by_cases h : a.2 > mincost
    · rw [if_pos h]
      rcases ih r0 with h1 | ⟨c, hc, h1, h2⟩
      · exact Or.inl h1
      · exact Or.inr ⟨c, List.mem_cons_of_mem _ hc, h1, h2⟩
    · rw [if_neg h]
      rcases ih ((a.1 : Int), a.2) with h1 | ⟨c, hc, h1, h2⟩
      · exact Or.inr ⟨a, List.mem_cons_self _ _, h1, h⟩
      · exact Or.inr ⟨c, List.mem_cons_of_mem _ hc, h1, h2⟩

theorem selectBest_cases (cands : List (Nat × F)) (mincost : F) :
    selectBest cands mincost = (-1, 1000000) ∨
      ∃ c ∈ cands, selectBest cands mincost = ((c.1 : Int), c.2) ∧ ¬ (c.2 > mincost) :=
  selectBest_fold cands mincost (-1, 1000000)

/-- A candidate of `ComputeCost` is a particle of the frame whose float
distance to the estimate does not exceed `max_disp * max_disp`. -/
theorem mem_costCandidates (mch : Machine F) (max_disp : F) (fr1 : Frame F)
    (estimate : Position F) (cost : Position F → F → F) (c : Nat × F)
    (h : c ∈ costCandidates mch max_disp fr1 estimate cost) :
    c.1 < fr1.NumParticles ∧
      ¬ (mch.toFloat (Distance estimate (fr1.pos.getD c.1 default)) > max_disp * max_disp) ∧
      c.2 = cost (fr1.pos.getD c.1 default)
        (mch.toFloat (Distance estimate (fr1.pos.getD c.1 default))) := by
  unfold costCandidates at h
  obtain ⟨e, he, h2⟩ := List.mem_filterMap.1 h
  obtain ⟨i, p⟩ := e
  have hip := List.mk_mem_enum_iff_getElem?.1 he
  have hlt : i < fr1.pos.length := by
    by_contra hcon
    rw [List.getElem?_eq_none (by omega)] at hip
    exact Option.noConfusion hip
  have hget : fr1.pos.getD i default = p := by
    rw [List.getD_eq_getElem?_getD, hip]; rfl
  simp only at h2
  split at h2
  · exact Option.noConfusion h2
  · rename_i hmag
    have hc := Option.some.inj h2
    subst hc
    simp only
    rw [hget]
    exact ⟨hlt, hmag, rfl⟩

/-- The pair selected from the candidates of `ComputeCost`. -/
theorem selectCost_cases (mch : Machine F) (max_disp : F) (fr1 : Frame F)
    (estimate : Position F) (cost : Position F → F → F) :
    selectBest (costCandidates mch max_disp fr1 estimate cost)
        (mincostOf (costCandidates mch max_disp fr1 estimate cost)) = (-1, 1000000) ∨
      ∃ c : Nat, c < fr1.NumParticles ∧
        (selectBest (costCandidates mch max_disp fr1 estimate cost)
          (mincostOf (costCandidates mch max_disp fr1 estimate cost))).1 = (c : Int) ∧
        ¬ (mch.toFloat (Distance estimate (fr1.pos.getD c default)) > max_disp * max_disp) ∧
        (selectBest (costCandidates mch max_disp fr1 estimate cost)
          (mincostOf (costCandidates mch max_disp fr1 estimate cost))).2
            = cost (fr1.pos.getD c default)
                (mch.toFloat (Distance estimate (fr1.pos.getD c default))) := by
  rcases selectBest_cases (costCandidates mch max_disp fr1 estimate cost)
    (mincostOf (costCandidates mch max_disp fr1 estimate cost)) with h | ⟨c, hc, h1, _⟩
  · exact Or.inl h
  · right
    obtain ⟨h3, h4, h5⟩ := mem_costCandidates mch max_disp fr1 estimate cost c hc
    refine ⟨c.1, h3, ?_, h4, ?_⟩
    · rw [h1]
    · rw [h1]
      exact h5

/-- The index returned by `ComputeCost` is `-1` or the where-index of a particle
of `fr1` within `max_disp` of the estimate. -/
theorem ComputeCost_cases (mch : Machine F) (max_disp : F) (fr1 fr2 : Frame F)
    (estimate velocity now : Position F) (stopflag : Bool) :
    ComputeCost mch max_disp fr1 fr2 estimate velocity now stopflag = (-1, 1000000) ∨
      ∃ c : Nat, c < fr1.NumParticles ∧
        (ComputeCost mch max_disp fr1 fr2 estimate velocity now stopflag).1 = (c : Int) ∧
        ¬ (mch.toFloat (Distance estimate (fr1.pos.getD c default)) > max_disp * max_disp) ∧
        (stopflag = true →
          (ComputeCost mch max_disp fr1 fr2 estimate velocity now stopflag).2
            = mch.toFloat (Distance estimate (fr1.pos.getD c default))) := by
  rcases selectCost_cases mch max_disp fr1 estimate (fun fit mag =>
    if stopflag then mag
    else
      let new_velocity := fit.sub now
      let acceleration := new_velocity.sub velocity
      let new_estimate := (fit.add new_velocity).add (Position.smulL (1 / 2) acceleration)
      (ComputeCostStop mch max_disp fr2 new_estimate).2) with h | ⟨c, h1, h2, h3, h4⟩
  · exact Or.inl h
  · right
    refine ⟨c, h1, h2, h3, ?_⟩
    intro hs
    have h5 : (ComputeCost mch max_disp fr1 fr2 estimate velocity now stopflag).2
        = _ := h4
    rw [h5]
    simp [hs]

theorem ComputeCost_range (mch : Machine F) (max_disp : F) (fr1 fr2 : Frame F)
    (estimate velocity now : Position F) (stopflag : Bool) :
    (ComputeCost mch max_disp fr1 fr2 estimate velocity now stopflag).1 = -1 ∨
      (0 ≤ (ComputeCost mch max_disp fr1 fr2 estimate velocity now stopflag).1 ∧
        (ComputeCost mch max_disp fr1 fr2 estimate velocity now stopflag).1
          < (fr1.NumParticles : Int)) := by
  rcases ComputeCost_cases mch max_disp fr1 fr2 estimate velocity now stopflag
    with h1 | ⟨c, h1, h2, _⟩
  · left; rw [h1]
  · right; rw [h2]; omega

theorem trackCost_range (mch : Machine F) (tk : Tracker F) (tracks : TrackMap F)
    (fr1 : Frame F) (fr2 : Option (Frame F)) (tr : Int) (cost : Int × F)
    (h : trackCost mch tk tracks fr1 fr2 tr = Except.ok cost) :
    cost.1 = -1 ∨ (0 ≤ cost.1 ∧ cost.1 < (fr1.NumParticles : Int)) := by
  unfold trackCost at h
  split at h
  · exact Except.noConfusion h
  · split at h
    · exact Except.noConfusion h
    · split at h
      · split at h
        · exact Except.noConfusion h
        · rw [← Except.ok.inj h]
          exact ComputeCost_range _ _ _ _ _ _ _ _
      · rw [← Except.ok.inj h]
        exact ComputeCost_range _ _ _ _ _ _ _ _

/-- One step of the loop of `MakeLinks` keeps the arbitration invariant. -/
theorem LinkInv_step (cf : Int → Except TrackerError (Int × F)) (n : Nat) (A : List Int)
    (cl : List F × List Int) (tr : Int) (cost : Int × F)
    (hinv : LinkInv cf n A cl) (hA : ∀ a ∈ A, a ≠ UNLINKED)
    (hcf : cf tr = Except.ok cost)
    (hr : cost.1 = -1 ∨ (0 ≤ cost.1 ∧ cost.1 < (n : Int))) :
    LinkInv cf n (A ++ [tr]) (linkUpdate cl tr cost) := by
  obtain ⟨hl1, hl2, hall⟩ := hinv
  have hlen : (A ++ [tr]).length = A.length + 1 := by simp
  -- extension of an old slot description when the arrays at `c` are unchanged
  have keep : ∀ c, c < n → (cost.1 ≠ (c : Int)) →
      ∀ cl2 : List F × List Int, cl2.1.getD c 0 = cl.1.getD c 0 →
        cl2.2.getD c UNLINKED = cl.2.getD c UNLINKED →
      ((cl2.2.getD c UNLINKED = UNLINKED ∧
          ∀ j, j < (A ++ [tr]).length → ∀ x,
            cf ((A ++ [tr]).getD j 0) ≠ Except.ok ((c : Int), x)) ∨
        (∃ i, i < (A ++ [tr]).length ∧ cl2.2.getD c UNLINKED = (A ++ [tr]).getD i 0 ∧
          cf ((A ++ [tr]).getD i 0) = Except.ok ((c : Int), cl2.1.getD c 0) ∧
          ∀ j, j < (A ++ [tr]).length → ∀ x,
            cf ((A ++ [tr]).getD j 0) = Except.ok ((c : Int), x) →
              cl2.1.getD c 0 ≤ x ∧ (x = cl2.1.getD c 0 → i ≤ j))) := by
    intro c hc hne cl2 e1 e2
    rw [e1, e2]
    rcases hall c hc with ⟨h1, h2⟩ | ⟨i, hi, h1, h2, h3⟩
    · left
      refine ⟨h1, ?_⟩
      intro j hj x
      by_cases hjA : j < A.length
      · rw [getD_snoc_left A tr 0 j hjA]; exact h2 j hjA x
      · have : j = A.length := by omega
        subst this
        rw [getD_snoc_last, hcf]
        intro hcon
        exact hne (congrArg Prod.fst (Except.ok.inj hcon))
    · right
      refine ⟨i, by omega, ?_, ?_, ?_⟩
      · rw [getD_snoc_left A tr 0 i hi]; exact h1
      · rw [getD_snoc_left A tr 0 i hi]; exact h2
      · intro j hj x hx
        by_cases hjA : j < A.length
        · rw [getD_snoc_left A tr 0 j hjA] at hx; exact h3 j hjA x hx
        · have : j = A.length := by omega
          subst this
          rw [getD_snoc_last, hcf] at hx
          exact absurd (congrArg Prod.fst (Except.ok.inj hx)) hne
  unfold linkUpdate
  by_cases hm1 : cost.1 = -1
  · rw [if_pos hm1]
    refine ⟨hl1, hl2, fun c hc => keep c hc (by omega) cl rfl rfl⟩
  · rw [if_neg hm1]
    rcases hr with hr | ⟨hr0, hrn⟩
    · exact absurd hr hm1
    obtain ⟨k, hk⟩ := Int.eq_ofNat_of_zero_le hr0
    have hkn : k < n := by omega
    have hkt : cost.1.toNat = k := by omega
    rw [hkt]
    have hcost : cost = ((k : Int), cost.2) := by
      rw [← hk]
    split
    · -- the arrays are updated
      rename_i hupd
      refine ⟨by simp [hl1], by simp [hl2], ?_⟩
      intro c hc
      by_cases hck : c = k
      · subst hck
        right
        refine ⟨A.length, by omega, ?_, ?_, ?_⟩
        · rw [getD_snoc_last, getD_set_self _ _ _ _ (by omega)]
        · rw [getD_snoc_last, getD_set_self _ _ _ _ (by omega), hcf, hcost]
        · intro j hj x hx
          rw [getD_set_self _ _ _ _ (by omega)]
          by_cases hjA : j < A.length
          · rw [getD_snoc_left A tr 0 j hjA] at hx
            rcases hall c hc with ⟨_, h2⟩ | ⟨i, hi, h1, h2, h3⟩
            · exact absurd hx (h2 j hjA x)
            · have hnot : ¬ (cl.2.getD c UNLINKED = UNLINKED) := by
                rw [h1]
                apply hA
                rw [List.getD_eq_getElem?_getD, List.getElem?_eq_getElem hi]
                exact List.getElem_mem hi
              have hgt : cl.1.getD c 0 > cost.2 := by
                rcases hupd with h | h
                · exact absurd h hnot
                · exact h
              have := h3 j hjA x hx
              constructor
              · exact le_of_lt (lt_of_lt_of_le hgt this.1)
              · intro hxe
                have : cost.2 < x := lt_of_lt_of_le hgt this.1
                rw [hxe] at this
                exact absurd this (lt_irrefl _)
          · have : j = A.length := by omega
            subst this
            rw [getD_snoc_last, hcf] at hx
            have := congrArg Prod.snd (Except.ok.inj hx)
            simp only at this
            rw [this]
            exact ⟨le_refl _, fun _ => le_refl _⟩
      · apply keep c hc
        · rw [hk]; intro hcon; exact hck (by exact_mod_cast hcon.symm)
        · simp only; exact getD_set_other _ _ _ _ _ (Ne.symm hck)
        · simp only; exact getD_set_other _ _ _ _ _ (Ne.symm hck)
    · -- the arrays are kept
      rename_i hupd
      push_neg at hupd
      obtain ⟨hlinked, hle⟩ := hupd
      refine ⟨hl1, hl2, ?_⟩
      intro c hc
      by_cases hck : c = k
      · subst hck
        rcases hall c hc with ⟨h1, _⟩ | ⟨i, hi, h1, h2, h3⟩
        · exact absurd h1 hlinked
        · right
          refine ⟨i, by omega, ?_, ?_, ?_⟩
          · rw [getD_snoc_left A tr 0 i hi]; exact h1
          · rw [getD_snoc_left A tr 0 i hi]; exact h2
          · intro j hj x hx
            by_cases hjA : j < A.length
            · rw [getD_snoc_left A tr 0 j hjA] at hx; exact h3 j hjA x hx
            · have : j = A.length := by omega
              subst this
              rw [getD_snoc_last, hcf] at hx
              have := congrArg Prod.snd (Except.ok.inj hx)
              simp only at this
              rw [← this]
              exact ⟨hle, fun _ => by omega⟩
      · apply keep c hc _ cl rfl rfl
        rw [hk]; intro hcon; exact hck (by exact_mod_cast hcon.symm)

/-- The loop of `MakeLinks` keeps the arbitration invariant. -/
theorem linkLoop_inv (mch : Machine F) (tk : Tracker F) (tracks : TrackMap F) (fr1 : Frame F)
    (fr2 : Option (Frame F)) (B A : List Int) (cl r : List F × List Int)
    (hinv : LinkInv (trackCost mch tk tracks fr1 fr2) fr1.NumParticles A cl)
    (hA : ∀ a ∈ A ++ B, a ≠ UNLINKED)
    (h : linkLoop mch tk tracks fr1 fr2 B cl = Except.ok r) :
    LinkInv (trackCost mch tk tracks fr1 fr2) fr1.NumParticles (A ++ B) r := by
  induction B generalizing A cl with
  | nil =>
    simp only [linkLoop] at h
    rw [List.append_nil, ← Except.ok.inj h]
    exact hinv
  | cons tr rest ih =>
    simp only [linkLoop] at h
    split at h
    · exact Except.noConfusion h
    · rename_i cost hcost
      have hstep := LinkInv_step (trackCost mch tk tracks fr1 fr2) fr1.NumParticles A cl tr cost
        hinv (fun a ha => hA a (List.mem_append_left _ ha)) hcost
        (trackCost_range mch tk tracks fr1 fr2 tr cost hcost)
      have := ih (A ++ [tr]) (linkUpdate cl tr cost) hstep
        (by simpa using hA) h
      simpa using this

/-- The arrays after `MakeLinks`, called with all links `UNLINKED`, satisfy the
arbitration invariant for the whole active list. -/
theorem MakeLinks_inv (mch : Machine F) (tk : Tracker F) (tracks : TrackMap F)
    (activelist : List Int) (fr1 : Frame F) (fr2 : Option (Frame F)) (costs0 : List F)
    (r : List F × List Int)
    (hid : ∀ tr ∈ activelist, tr ≠ UNLINKED) (hc0 : costs0.length = fr1.NumParticles)
    (h : MakeLinks mch tk tracks activelist fr1 fr2 costs0
      (List.replicate fr1.NumParticles UNLINKED) = Except.ok r) :
    LinkInv (trackCost mch tk tracks fr1 fr2) fr1.NumParticles activelist r := by
  have h0 : LinkInv (trackCost mch tk tracks fr1 fr2) fr1.NumParticles []
      (costs0, List.replicate fr1.NumParticles UNLINKED) := by
    refine ⟨hc0, by simp, ?_⟩
    intro c hc
    left
    refine ⟨getD_replicate_lt _ _ _ _ hc, ?_⟩
    intro j hj
    simp at hj
  have := linkLoop_inv mch tk tracks fr1 fr2 activelist [] _ r h0 (by simpa using hid) h
  simpa using this

/-- A linked slot holds a track of the active list whose best continuation is
that slot, with the cost stored there. -/
theorem LinkInv_linked (cf : Int → Except TrackerError (Int × F)) (n : Nat) (A : List Int)
    (cl : List F × List Int) (hinv : LinkInv cf n A cl) (c : Nat) (hc : c < n)
    (hl : cl.2.getD c UNLINKED ≠ UNLINKED) :
    cl.2.getD c UNLINKED ∈ A ∧
      cf (cl.2.getD c UNLINKED) = Except.ok ((c : Int), cl.1.getD c 0) := by
  rcases hinv.2.2 c hc with ⟨h1, _⟩ | ⟨i, hi, h1, h2, _⟩
  · exact absurd h1 hl
  · rw [h1]
    refine ⟨?_, h2⟩
    rw [List.getD_eq_getElem?_getD, List.getElem?_eq_getElem hi]
    exact List.getElem_mem hi

/-- No track is linked to two slots. -/
theorem LinkInv_injective (cf : Int → Except TrackerError (Int × F)) (n : Nat) (A : List Int)
    (cl : List F × List Int) (hinv : LinkInv cf n A cl) (c d : Nat) (hc : c < n) (hd : d < n)
    (hl : cl.2.getD c UNLINKED ≠ UNLINKED)
    (he : cl.2.getD c UNLINKED = cl.2.getD d UNLINKED) : c = d := by
  have h1 := (LinkInv_linked cf n A cl hinv c hc hl).2
  have h2 := (LinkInv_linked cf n A cl hinv d hd (he ▸ hl)).2
  rw [he, h2] at h1
  have := congrArg Prod.fst (Except.ok.inj h1)
  simp only at this
  exact_mod_cast this.symm

end LinkLemmas
section LinkTheorems

variable {F : Type} [LinearOrderedField F]

theorem Distance_assign (u now p : Position F) :
    Distance (u.assign now) p = Distance now p := rfl

/-- C19. Link arbitration in `MakeLinks`, called with every link `UNLINKED` and
arrays of one entry per particle of the next frame, for track ids other than
`UNLINKED`.  For every particle `c` of the next frame: if `c` is the best
continuation of some active track, `links[c]` is the earliest active track of
minimal cost among the tracks whose best continuation is `c`, and `costs[c]`
is that cost; if `c` is the best continuation of no active track, `links[c]`
stays `UNLINKED`; a track stands in `links[c]` only if `c` is its best
continuation, so a track that lost its best continuation stands nowhere. -/
theorem C19_link_arbitration (mch : Machine F) (tk : Tracker F) (tracks : TrackMap F)
    (activelist : List Int) (fr1 : Frame F) (fr2 : Option (Frame F)) (costs0 costs : List F)
    (links : List Int)
    (hid : ∀ tr ∈ activelist, tr ≠ UNLINKED) (hc0 : costs0.length = fr1.NumParticles)
    (h : MakeLinks mch tk tracks activelist fr1 fr2 costs0
      (List.replicate fr1.NumParticles UNLINKED) = Except.ok (costs, links)) :
    ∀ c, c < fr1.NumParticles →
      ((∃ j, j < activelist.length ∧ ∃ x,
          trackCost mch tk tracks fr1 fr2 (activelist.getD j 0) = Except.ok ((c : Int), x)) →
        ∃ i, i < activelist.length ∧ links.getD c UNLINKED = activelist.getD i 0 ∧
          trackCost mch tk tracks fr1 fr2 (activelist.getD i 0)
            = Except.ok ((c : Int), costs.getD c 0) ∧
          ∀ j, j < activelist.length → ∀ x,
            trackCost mch tk tracks fr1 fr2 (activelist.getD j 0) = Except.ok ((c : Int), x) →
              costs.getD c 0 ≤ x ∧ (x = costs.getD c 0 → i ≤ j)) ∧
      ((∀ j, j < activelist.length → ∀ x,
          trackCost mch tk tracks fr1 fr2 (activelist.getD j 0) ≠ Except.ok ((c : Int), x)) →
        links.getD c UNLINKED = UNLINKED) ∧
      (∀ j, j < activelist.length → links.getD c UNLINKED = activelist.getD j 0 →
        trackCost mch tk tracks fr1 fr2 (activelist.getD j 0)
          = Except.ok ((c : Int), costs.getD c 0)) ∧
      (∀ j, j < activelist.length → ∀ d, d < fr1.NumParticles → ∀ x,
        trackCost mch tk tracks fr1 fr2 (activelist.getD j 0) = Except.ok ((d : Int), x) →
        links.getD d UNLINKED ≠ activelist.getD j 0 →
        links.getD c UNLINKED ≠ activelist.getD j 0) := by
  have hinv := MakeLinks_inv mch tk tracks activelist fr1 fr2 costs0 (costs, links) hid hc0 h
  have hmem : ∀ j, j < activelist.length → activelist.getD j 0 ≠ UNLINKED := by
    intro j hj
    apply hid
    rw [List.getD_eq_getElem?_getD, List.getElem?_eq_getElem hj]
    exact List.getElem_mem hj
  have hown : ∀ c, c < fr1.NumParticles → ∀ j, j < activelist.length →
      links.getD c UNLINKED = activelist.getD j 0 →
      trackCost mch tk tracks fr1 fr2 (activelist.getD j 0)
        = Except.ok ((c : Int), costs.getD c 0) := by
    intro c hc j hj hl
    have := (LinkInv_linked _ _ _ _ hinv c hc (by
      show links.getD c UNLINKED ≠ UNLINKED
      rw [hl]; exact hmem j hj)).2
    simp only at this
    rw [hl] at this
    exact this
  intro c hc
  refine ⟨?_, ?_, hown c hc, ?_⟩
  · rintro ⟨j, hj, x, hx⟩
    rcases hinv.2.2 c hc with ⟨_, h2⟩ | hlinked
    · exact absurd hx (h2 j hj x)
    · exact hlinked
  · intro hno
    rcases hinv.2.2 c hc with ⟨h1, _⟩ | ⟨i, hi, _, h2, _⟩
    · exact h1
    · exact absurd h2 (hno i hi _)
  · intro j hj d hd x hx hne hl
    have h1 := hown c hc j hj hl
    rw [hx] at h1
    have hcd := congrArg Prod.fst (Except.ok.inj h1)
    simp only at hcd
    have : d = c := by exact_mod_cast hcd
    subst this
    exact hne hl

/-- C18 (as amended). Every link made by `MakeLinks` in mode `FRAME2` or
`FRAME3` joins a track to a particle whose squared distance to the estimate of
the track, converted to `float`, is at most `max_disp * max_disp`; the stored
cost is that distance.  The estimate is the last stored position of the track
in mode `FRAME2` and for a track of length 1, where the bound is therefore one
between the last stored position and the linked particle. -/
theorem C18_link_within_max_disp (mch : Machine F) (tk : Tracker F) (tracks : TrackMap F)
    (activelist : List Int) (fr1 : Frame F) (fr2 : Option (Frame F)) (costs0 costs : List F)
    (links : List Int)
    (hmode : tk.mode ≠ TrackMode.FRAME4)
    (hid : ∀ tr ∈ activelist, tr ≠ UNLINKED) (hc0 : costs0.length = fr1.NumParticles)
    (h : MakeLinks mch tk tracks activelist fr1 fr2 costs0
      (List.replicate fr1.NumParticles UNLINKED) = Except.ok (costs, links)) :
    ∀ c, c < fr1.NumParticles → links.getD c UNLINKED ≠ UNLINKED →
      ∃ (t : Track F) (now estimate velocity : Position F),
        tracks.find (links.getD c UNLINKED) = Except.ok t ∧
        estimateOf mch tk.mode t = Except.ok (now, estimate, velocity) ∧
        mch.toFloat (Distance estimate (fr1.pos.getD c default))
          ≤ tk.max_disp * tk.max_disp ∧
        costs.getD c 0 = mch.toFloat (Distance estimate (fr1.pos.getD c default)) ∧
        ((tk.mode = TrackMode.FRAME2 ∨ t.Length = 1) →
          t.Last = Except.ok now ∧
          mch.toFloat (Distance now (fr1.pos.getD c default))
            ≤ tk.max_disp * tk.max_disp) := by
  have hinv := MakeLinks_inv mch tk tracks activelist fr1 fr2 costs0 (costs, links) hid hc0 h
  intro c hc hl
  have hcost := (LinkInv_linked _ _ _ _ hinv c hc hl).2
  simp only at hcost
  unfold trackCost at hcost
  split at hcost
  · exact Except.noConfusion hcost
  · rename_i t ht
    split at hcost
    · exact Except.noConfusion hcost
    · rename_i now estimate velocity hest
      rw [if_neg hmode] at hcost
      have hcc := Except.ok.inj hcost
      rcases ComputeCost_cases mch tk.max_disp fr1 fr1 estimate velocity now true
        with h1 | ⟨c2, hc2, h2, h3, h4⟩
      · rw [h1] at hcc
        have := congrArg Prod.fst hcc
        simp only at this
        omega
      · have hfst := congrArg Prod.fst hcc
        simp only at hfst
        rw [h2] at hfst
        have hceq : c2 = c := by exact_mod_cast hfst
        subst hceq
        have hsnd := congrArg Prod.snd hcc
        simp only at hsnd
        rw [h4 rfl] at hsnd
        have hle : mch.toFloat (Distance estimate (fr1.pos.getD c2 default))
            ≤ tk.max_disp * tk.max_disp := not_lt.1 h3
        refine ⟨t, now, estimate, velocity, ht, hest, hle, hsnd.symm, ?_⟩
        intro hcase
        unfold estimateOf at hest
        split at hest
        · exact Except.noConfusion hest
        · rename_i now2 hlast
          simp only [if_pos hcase.symm] at hest
          have he := Except.ok.inj hest
          have e1 : now2 = now := congrArg Prod.fst he
          have e2 : mch.uninit.assign now2 = estimate := congrArg (fun q => q.2.1) he
          subst e1
          refine ⟨hlast, ?_⟩
          rw [← e2] at hle
          exact hle

end LinkTheorems

section LinkEvaluations

theorem ok_of_toOption {ε α : Type} (r : Except ε α) (a : α) (h : r.toOption = some a) :
    r = Except.ok a := by
  cases r with
  | error e => exact Option.noConfusion h
  | ok b => rw [show b = a from Option.some.inj h]

theorem MakeLinks_two :
    MakeLinks exactMachine tkLine tracksTwo [0, 1] frameNear none [0]
      (List.replicate frameNear.NumParticles UNLINKED) = Except.ok ([1 / 16], [1]) :=
  ok_of_toOption _ _ (by decide!)

/-- Witness of C19: the tracks 0 (at `x = 0`) and 1 (at `x = 1`) both have the
particle at `x = 3/4` as their best continuation, with the costs `9/16` and
`1/16`; the particle is linked to track 1 with the cost `1/16`. -/
theorem C19_link_arbitration_witness :
    trackCost exactMachine tkLine tracksTwo frameNear none 0 = Except.ok (0, 9 / 16) ∧
    trackCost exactMachine tkLine tracksTwo frameNear none 1 = Except.ok (0, 1 / 16) ∧
    ∃ i, i < 2 ∧ ([1] : List Int).getD 0 UNLINKED = ([0, 1] : List Int).getD i 0 ∧
      trackCost exactMachine tkLine tracksTwo frameNear none (([0, 1] : List Int).getD i 0)
        = Except.ok (((0 : Nat) : Int), ([1 / 16] : List ℚ).getD 0 0) ∧
      ∀ j, j < 2 → ∀ x,
        trackCost exactMachine tkLine tracksTwo frameNear none (([0, 1] : List Int).getD j 0)
            = Except.ok (((0 : Nat) : Int), x) →
          ([1 / 16] : List ℚ).getD 0 0 ≤ x ∧ (x = ([1 / 16] : List ℚ).getD 0 0 → i ≤ j) := by
  have h0 : trackCost exactMachine tkLine tracksTwo frameNear none 0 = Except.ok (0, 9 / 16) :=
    ok_of_toOption _ _ (by decide!)
  have h1 : trackCost exactMachine tkLine tracksTwo frameNear none 1 = Except.ok (0, 1 / 16) :=
    ok_of_toOption _ _ (by decide!)
  refine ⟨h0, h1, ?_⟩
  exact (C19_link_arbitration exactMachine tkLine tracksTwo [0, 1] frameNear none [0]
    [1 / 16] [1] (by decide) rfl MakeLinks_two 0 (by decide)).1 ⟨0, by decide, 9 / 16, h0⟩

/-- Witness of C18 (as amended): the particle at `x = 3/4` is linked to track 1,
whose last position is at `x = 1`; the squared distance `1/16` is at most
`max_disp * max_disp = 4`. -/
theorem C18_link_within_max_disp_witness :
    ∃ (t : Track ℚ) (now estimate velocity : Position ℚ),
      tracksTwo.find (([1] : List Int).getD 0 UNLINKED) = Except.ok t ∧
      estimateOf exactMachine tkLine.mode t = Except.ok (now, estimate, velocity) ∧
      exactMachine.toFloat (Distance estimate (frameNear.pos.getD 0 default))
        ≤ tkLine.max_disp * tkLine.max_disp ∧
      ([1 / 16] : List ℚ).getD 0 0
        = exactMachine.toFloat (Distance estimate (frameNear.pos.getD 0 default)) ∧
      ((tkLine.mode = TrackMode.FRAME2 ∨ t.Length = 1) →
        t.Last = Except.ok now ∧
        exactMachine.toFloat (Distance now (frameNear.pos.getD 0 default))
          ≤ tkLine.max_disp * tkLine.max_disp) :=
  C18_link_within_max_disp exactMachine tkLine tracksTwo [0, 1] frameNear none [0]
    [1 / 16] [1] (by decide) (by decide) rfl MakeLinks_two 0 (by decide) (by decide)

/-- Counterexample to C18 as stated: on `accFrames`, in mode `FRAME3` with
`max_disp = 2`, one track is written; its ten positions are real, and the
squared distances between adjacent positions are `4, 16, 36, ..., 324`, all but
the first above `max_disp * max_disp = 4` (each particle is within `max_disp`
of the estimate, not of the previous position). -/
theorem C18_counterexample :
    (writtenOf (MakeTracks exactMachine tkLine accFrames)).map
        (fun w => (w.2.pos.map (fun p => p.fake), w.2.steps))
      = [([false, false, false, false, false, false, false, false, false, false],
          [4, 16, 36, 64, 100, 144, 196, 256, 324])] ∧
    tkLine.mode = TrackMode.FRAME3 ∧ tkLine.max_disp * tkLine.max_disp = 4 := by
  decide!

end LinkEvaluations
section InvariantLemmas

variable {F : Type} [LinearOrderedField F]

/-- An invariant of the processed prefix that every step keeps holds after a
loop that ended normally. -/
theorem forEach_inv {σ ι : Type} (step : σ → ι → Except TrackerError σ) (L : List ι)
    (Inv : List ι → σ → Prop)
    (hstep : ∀ done x rest s s1, L = done ++ x :: rest → Inv done s →
      step s x = Except.ok s1 → Inv (done ++ [x]) s1)
    (xs done : List ι) (s s1 : σ) (hL : L = done ++ xs) (h0 : Inv done s)
    (h : forEach step xs s = Except.ok s1) : Inv L s1 := by
  induction xs generalizing done s with
  | nil =>
    simp only [forEach] at h
    rw [hL, List.append_nil, ← Except.ok.inj h]
    exact h0
  | cons x rest ih =>
    simp only [forEach] at h
    split at h
    · exact Except.noConfusion h
    · rename_i s2 hs2
      exact ih (done ++ [x]) s2 (by simpa using hL) (hstep done x rest s s2 hL h0 hs2) h

/-- The same for a loop that cannot fail. -/
theorem foldl_inv {σ ι : Type} (f : σ → ι → σ) (L : List ι) (Inv : List ι → σ → Prop)
    (hstep : ∀ done x rest s, L = done ++ x :: rest → Inv done s → Inv (done ++ [x]) (f s x))
    (xs done : List ι) (s : σ) (hL : L = done ++ xs) (h0 : Inv done s) :
    Inv L (xs.foldl f s) := by
  induction xs generalizing done s with
  | nil =>
    rw [hL, List.append_nil]
    exact h0
  | cons x rest ih =>
    exact ih (done ++ [x]) (f s x) (by simpa using hL) (hstep done x rest s hL h0)

theorem not_mem_done {ι : Type} (L done rest : List ι) (x : ι) (hn : L.Nodup)
    (hL : L = done ++ x :: rest) : x ∉ done := by
  rw [hL] at hn
  intro hx
  have := (List.nodup_append.1 hn).2.2
  exact this hx (List.mem_cons_self _ _) 

theorem mem_of_split {ι : Type} (L done rest : List ι) (x : ι)
    (hL : L = done ++ x :: rest) : x ∈ L := by
  rw [hL]; simp

theorem find_ok_iff (m : TrackMap F) (id : Int) (t : Track F) :
    m.find id = Except.ok t ↔ m id = some t := by
  unfold TrackMap.find
  constructor
  · intro h
    split at h
    · rename_i t2 ht2
      rw [ht2, Except.ok.inj h]
    · exact Except.noConfusion h
  · intro h
    rw [h]

theorem set_apply (m : TrackMap F) (id j : Int) (t : Track F) :
    (m.set id t) j = if j = id then some t else m j := rfl

theorem erase_apply (m : TrackMap F) (id j : Int) :
    (m.erase id) j = if j = id then none else m j := rfl

/-- The two outcomes of the body of the loop of lines 134-147. -/
theorem addLinked_cases (fr1 : Frame F) (links : List Int) (st st1 : TState F) (i : Nat)
    (h : addLinked fr1 links st i = Except.ok st1) :
    (links.getD i UNLINKED = UNLINKED ∧
      st1 = { st with
        tracks := st.tracks.set st.trackindex
          (Track.single (fr1.pos.getD i default) st.framenum),
        activelist := st.activelist ++ [st.trackindex],
        trackindex := st.trackindex + 1 }) ∨
    (links.getD i UNLINKED ≠ UNLINKED ∧ ∃ t, st.tracks (links.getD i UNLINKED) = some t ∧
      st1 = { st with
        tracks := st.tracks.set (links.getD i UNLINKED)
          ((t.Add (fr1.pos.getD i default) st.framenum).ResetCounter) }) := by
  unfold addLinked at h
  split at h
  · rename_i hu
    exact Or.inl ⟨hu, (Except.ok.inj h).symm⟩
  · rename_i hu
    split at h
    · exact Except.noConfusion h
    · rename_i t ht
      exact Or.inr ⟨hu, t, (find_ok_iff _ _ _).1 ht, (Except.ok.inj h).symm⟩

/-- The five outcomes of the body of the first loop of `PadTracks`. -/
theorem padOne_cases (tk : Tracker F) (acc acc1 : PadAcc F) (tr : Int)
    (h : padOne tk acc tr = Except.ok acc1) :
    ∃ t tm, acc.st.tracks tr = some t ∧ t.GetTime (t.Length - 1) = Except.ok tm ∧
      ((tm = acc.st.framenum ∧ acc1 = { acc with stillactive := acc.stillactive ++ [tr] }) ∨
       (tm ≠ acc.st.framenum ∧ t.OcclusionCount ≥ tk.memory ∧ t.Length < MINTRACK ∧
          acc1 = { acc with st := { acc.st with tracks := acc.st.tracks.erase tr,
                                                too_short := acc.st.too_short + 1 } }) ∨
       (tm ≠ acc.st.framenum ∧ t.OcclusionCount ≥ tk.memory ∧ ¬ (t.Length < MINTRACK) ∧
          acc1 = { acc with writelist := acc.writelist ++ [tr] }) ∨
       (tm ≠ acc.st.framenum ∧ ¬ (t.OcclusionCount ≥ tk.memory) ∧ t.Length ≤ 2 ∧
          acc1 = { acc with st := { acc.st with tracks := acc.st.tracks.erase tr,
                                                too_short := acc.st.too_short + 1 } }) ∨
       (tm ≠ acc.st.framenum ∧ ¬ (t.OcclusionCount ≥ tk.memory) ∧ ¬ (t.Length ≤ 2) ∧
          ∃ last penultimate antepenultimate, t.Last = Except.ok last ∧
            t.Penultimate = Except.ok penultimate ∧
            t.Antepenultimate = Except.ok antepenultimate ∧
            acc1 = { acc with
              st := { acc.st with
                tracks := acc.st.tracks.set tr
                  ((t.Add (padEstimate tk last penultimate antepenultimate)
                    acc.st.framenum).Occluded) },
              stillactive := acc.stillactive ++ [tr] })) := by
  unfold padOne at h
  split at h
  · exact Except.noConfusion h
  · rename_i t ht
    simp only at h
    split at h
    · exact Except.noConfusion h
    · rename_i tm htm
      refine ⟨t, tm, (find_ok_iff _ _ _).1 ht, htm, ?_⟩
      split at h
      · rename_i h1
        exact Or.inl ⟨h1, (Except.ok.inj h).symm⟩
      · rename_i h1
        split at h
        · rename_i h2
          split at h
          · rename_i h3
            exact Or.inr (Or.inl ⟨h1, h2, h3, (Except.ok.inj h).symm⟩)
          · rename_i h3
            exact Or.inr (Or.inr (Or.inl ⟨h1, h2, h3, (Except.ok.inj h).symm⟩))
        · rename_i h2
          split at h
          · rename_i h3
            exact Or.inr (Or.inr (Or.inr (Or.inl ⟨h1, h2, h3, (Except.ok.inj h).symm⟩)))
          · rename_i h3
            split at h
            · exact Except.noConfusion h
            · rename_i last hlast
              split at h
              · exact Except.noConfusion h
              · rename_i pen hpen
                split at h
                · exact Except.noConfusion h
                · rename_i ante hante
                  exact Or.inr (Or.inr (Or.inr (Or.inr
                    ⟨h1, h2, h3, last, pen, ante, hlast, hpen, hante,
                      (Except.ok.inj h).symm⟩)))

theorem writeOne_cases (st st1 : TState F) (tr : Int)
    (h : writeOne st tr = Except.ok st1) :
    ∃ t, st.tracks tr = some t ∧
      st1 = { st with
        written := st.written ++ [(st.ntracks, t)],
        ntracks := st.ntracks + 1,
        ntotalpoints := st.ntotalpoints + t.Length,
        tracks := st.tracks.erase tr } := by
  unfold writeOne at h
  split at h
  · exact Except.noConfusion h
  · rename_i t ht
    exact ⟨t, (find_ok_iff _ _ _).1 ht, (Except.ok.inj h).symm⟩

theorem flushOne_cases (st st1 : TState F) (tr : Int)
    (h : flushOne st tr = Except.ok st1) :
    ∃ t, st.tracks tr = some t ∧
      ((t.Length ≥ MINTRACK ∧
        st1 = { st with
          written := st.written ++ [(st.ntracks, t)],
          ntracks := st.ntracks + 1,
          ntotalpoints := st.ntotalpoints + t.Length }) ∨
       (¬ (t.Length ≥ MINTRACK) ∧ st1 = st)) := by
  unfold flushOne at h
  split at h
  · exact Except.noConfusion h
  · rename_i t ht
    refine ⟨t, (find_ok_iff _ _ _).1 ht, ?_⟩
    split at h
    · rename_i h1
      exact Or.inl ⟨h1, (Except.ok.inj h).symm⟩
    · rename_i h1
      exact Or.inr ⟨h1, (Except.ok.inj h).symm⟩

end InvariantLemmas
section IdLemmas

variable {F : Type} [LinearOrderedField F]

theorem addLinked_IdsOK (fr1 : Frame F) (links : List Int) (st st1 : TState F) (i : Nat)
    (hok : st.IdsOK) (h : addLinked fr1 links st i = Except.ok st1) :
    st1.IdsOK ∧ st1.framenum = st.framenum ∧ st1.written = st.written ∧
      st.trackindex ≤ st1.trackindex := by
  obtain ⟨hnd, h0, hb, hw⟩ := hok
  rcases addLinked_cases fr1 links st st1 i h with ⟨_, rfl⟩ | ⟨_, t, _, rfl⟩
  · refine ⟨⟨?_, ?_, ?_, hw⟩, rfl, rfl, ?_⟩
    · simp only
      rw [List.nodup_append]
      refine ⟨hnd, List.nodup_singleton _, ?_⟩
      intro a ha hb2
      have := (hb a ha).2
      simp only [List.mem_singleton] at hb2
      omega
    · simp only; omega
    · intro id hid
      simp only [List.mem_append, List.mem_singleton] at hid
      simp only
      rcases hid with hid | hid
      · have := hb id hid; omega
      · omega
    · simp only; omega
  · exact ⟨⟨hnd, h0, hb, hw⟩, rfl, rfl, le_refl _⟩

theorem addLoop_IdsOK (fr1 : Frame F) (links : List Int) (L : List Nat) (st st1 : TState F)
    (hok : st.IdsOK) (h : forEach (addLinked fr1 links) L st = Except.ok st1) :
    st1.IdsOK ∧ st1.framenum = st.framenum ∧ st1.written = st.written ∧
      st.trackindex ≤ st1.trackindex := by
  refine forEach_inv (addLinked fr1 links) L
    (fun _ s => s.IdsOK ∧ s.framenum = st.framenum ∧ s.written = st.written ∧
      st.trackindex ≤ s.trackindex) ?_ L [] st st1 rfl ⟨hok, rfl, rfl, le_refl _⟩ h
  intro done x rest s s1 _ hs hstep
  obtain ⟨h1, h2, h3, h4⟩ := addLinked_IdsOK fr1 links s s1 x hs.1 hstep
  exact ⟨h1, h2.trans hs.2.1, h3.trans hs.2.2.1, le_trans hs.2.2.2 h4⟩

theorem linkStage_IdsOK (mch : Machine F) (tk : Tracker F) (fr1 : Frame F)
    (fr2 : Option (Frame F)) (st st1 : TState F) (hok : st.IdsOK)
    (h : linkStage mch tk fr1 fr2 st = Except.ok st1) :
    st1.IdsOK ∧ st1.framenum = st.framenum := by
  unfold linkStage at h
  split at h
  · exact Except.noConfusion h
  · have := addLoop_IdsOK fr1 _ _ st st1 hok h
    exact ⟨this.1, this.2.1⟩

/-- The invariant of the first loop of `PadTracks` on the ids. -/
theorem padLoop_ids (tk : Tracker F) (st : TState F) (acc : PadAcc F) (hnd : st.activelist.Nodup)
    (h : forEach (padOne tk) st.activelist { st := st, writelist := [], stillactive := [] }
      = Except.ok acc) :
    acc.st.written = st.written ∧ acc.st.trackindex = st.trackindex ∧
      acc.st.framenum = st.framenum ∧ acc.st.ntracks = st.ntracks ∧
      acc.stillactive.Sublist st.activelist ∧
      acc.writelist.Sublist st.activelist ∧
      ∀ id ∈ acc.writelist, ∃ t, acc.st.tracks id = some t ∧ MINTRACK ≤ t.Length := by
  refine forEach_inv (padOne tk) st.activelist
    (fun done a => a.st.written = st.written ∧ a.st.trackindex = st.trackindex ∧
      a.st.framenum = st.framenum ∧ a.st.ntracks = st.ntracks ∧
      a.stillactive.Sublist done ∧ a.writelist.Sublist done ∧
      ∀ id ∈ a.writelist, ∃ t, a.st.tracks id = some t ∧ MINTRACK ≤ t.Length)
    ?_ st.activelist [] _ acc rfl
    ⟨rfl, rfl, rfl, rfl, List.Sublist.refl _, List.Sublist.refl _, by simp⟩ h
  intro done x rest s s1 hL hs hstep
  obtain ⟨h1, h2, h3, h3b, h4, h5, h6⟩ := hs
  have hx : x ∉ done := not_mem_done _ _ _ _ hnd hL
  have hxw : x ∉ s.writelist := fun hc => hx (h5.subset hc)
  have hsub1 : ∀ l : List Int, l.Sublist done → l.Sublist (done ++ [x]) :=
    fun l hl => hl.trans (List.sublist_append_left _ _)
  have hsub2 : ∀ l : List Int, l.Sublist done → (l ++ [x]).Sublist (done ++ [x]) :=
    fun l hl => List.Sublist.append hl (List.Sublist.refl _)
  have hkeep : ∀ m2 : TrackMap F, (∀ j, j ≠ x → m2 j = s.st.tracks j) →
      ∀ id ∈ s.writelist, ∃ t, m2 id = some t ∧ MINTRACK ≤ t.Length := by
    intro m2 hm id hid
    have hne : id ≠ x := fun hc => hxw (hc ▸ hid)
    rw [hm id hne]
    exact h6 id hid
  obtain ⟨t, tm, ht, _, hcase⟩ := padOne_cases tk s s1 x hstep
  rcases hcase with ⟨_, rfl⟩ | ⟨_, _, _, rfl⟩ | ⟨_, _, hlen, rfl⟩ | ⟨_, _, _, rfl⟩ |
    ⟨_, _, _, last, pen, ante, _, _, _, rfl⟩
  · exact ⟨h1, h2, h3, h3b, hsub2 _ h4, hsub1 _ h5, h6⟩
  · refine ⟨h1, h2, h3, h3b, hsub1 _ h4, hsub1 _ h5, ?_⟩
    apply hkeep
    intro j hj
    simp only [erase_apply, if_neg hj]
  · refine ⟨h1, h2, h3, h3b, hsub1 _ h4, hsub2 _ h5, ?_⟩
    intro id hid
    simp only [List.mem_append, List.mem_singleton] at hid
    rcases hid with hid | rfl
    · exact h6 id hid
    · exact ⟨t, ht, not_lt.1 hlen⟩
  · refine ⟨h1, h2, h3, h3b, hsub1 _ h4, hsub1 _ h5, ?_⟩
    apply hkeep
    intro j hj
    simp only [erase_apply, if_neg hj]
  · refine ⟨h1, h2, h3, h3b, hsub2 _ h4, hsub1 _ h5, ?_⟩
    apply hkeep
    intro j hj
    simp only [set_apply, if_neg hj]

/-- The invariant of the second loop of `PadTracks`: every written track has
length at least `MINTRACK`. -/
theorem writeLoop_ids (L : List Int) (st st1 : TState F) (hnd : L.Nodup)
    (hw : ∀ w ∈ st.written, MINTRACK ≤ w.2.Length)
    (hL : ∀ id ∈ L, ∃ t, st.tracks id = some t ∧ MINTRACK ≤ t.Length)
    (h : forEach writeOne L st = Except.ok st1) :
    (∀ w ∈ st1.written, MINTRACK ≤ w.2.Length) ∧ st1.trackindex = st.trackindex ∧
      st1.framenum = st.framenum := by
  have := forEach_inv writeOne L
    (fun done s => (∀ w ∈ s.written, MINTRACK ≤ w.2.Length) ∧
      s.trackindex = st.trackindex ∧ s.framenum = st.framenum ∧
      ∀ id ∈ L, id ∉ done → ∃ t, s.tracks id = some t ∧ MINTRACK ≤ t.Length)
    ?_ L [] st st1 rfl ⟨hw, rfl, rfl, fun id hid _ => hL id hid⟩ h
  · exact ⟨this.1, this.2.1, this.2.2.1⟩
  intro done x rest s s1 hsplit hs hstep
  obtain ⟨h1, h2, h3, h4⟩ := hs
  have hx : x ∉ done := not_mem_done _ _ _ _ hnd hsplit
  obtain ⟨t, ht, rfl⟩ := writeOne_cases s s1 x hstep
  obtain ⟨t2, ht2, hlen⟩ := h4 x (mem_of_split _ _ _ _ hsplit) hx
  have htt : t2 = t := Option.some.inj (ht2.symm.trans ht)
  subst htt
  refine ⟨?_, h2, h3, ?_⟩
  · intro w hw2
    simp only [List.mem_append, List.mem_singleton] at hw2
    rcases hw2 with hw2 | rfl
    · exact h1 w hw2
    · exact hlen
  · intro id hid hnot
    simp only [List.mem_append, List.mem_singleton, not_or] at hnot
    simp only [erase_apply, if_neg hnot.2]
    exact h4 id hid hnot.1

theorem PadTracks_IdsOK (tk : Tracker F) (st st1 : TState F) (hok : st.IdsOK)
    (h : PadTracks tk st = Except.ok st1) :
    st1.IdsOK ∧ st1.framenum = st.framenum := by
  obtain ⟨hnd, h0, hb, hw⟩ := hok
  unfold PadTracks at h
  split at h
  · exact Except.noConfusion h
  · rename_i acc hacc
    split at h
    · exact Except.noConfusion h
    · rename_i st2 hst2
      obtain ⟨a1, a2, a3, _, a4, a5, a6⟩ := padLoop_ids tk st acc hnd hacc
      obtain ⟨w1, w2, w3⟩ := writeLoop_ids acc.writelist acc.st st2 (a5.nodup hnd)
        (by rw [a1]; exact hw) a6 hst2
      rw [← Except.ok.inj h]
      refine ⟨⟨a4.nodup hnd, ?_, ?_, w1⟩, ?_⟩
      · simp only; rw [w2, a2]; exact h0
      · intro id hid
        simp only at hid ⊢
        rw [w2, a2]
        exact hb id (a4.subset hid)
      · simp only; rw [w3, a3]

theorem flush_IdsOK (L : List Int) (st st1 : TState F)
    (hw : ∀ w ∈ st.written, MINTRACK ≤ w.2.Length)
    (h : forEach flushOne L st = Except.ok st1) :
    ∀ w ∈ st1.written, MINTRACK ≤ w.2.Length := by
  refine forEach_inv flushOne L (fun _ s => ∀ w ∈ s.written, MINTRACK ≤ w.2.Length)
    ?_ L [] st st1 rfl hw h
  intro done x rest s s1 _ hs hstep
  obtain ⟨t, _, hcase⟩ := flushOne_cases s s1 x hstep
  rcases hcase with ⟨hlen, rfl⟩ | ⟨_, rfl⟩
  · intro w hw2
    simp only [List.mem_append, List.mem_singleton] at hw2
    rcases hw2 with hw2 | rfl
    · exact hs w hw2
    · exact hlen
  · exact hs

theorem range_split (n : Nat) (done rest : List Nat) (x : Nat)
    (h : List.range n = done ++ x :: rest) : x = done.length ∧ x < n := by
  have h1 : (List.range n)[done.length]? = some x := by
    rw [h, List.getElem?_append_right (le_refl _)]
    simp
  have hlt : done.length < n := by
    by_contra hc
    rw [List.getElem?_eq_none (by simpa using hc)] at h1
    exact Option.noConfusion h1
  rw [List.getElem?_range hlt] at h1
  exact ⟨(Option.some.inj h1).symm, (Option.some.inj h1) ▸ hlt⟩

/-- The state after the initialisation with its fields spelled out. -/
theorem initState_fields (f0 : Frame F) :
    (initState f0).activelist = (List.range f0.NumParticles).map (fun (i : Nat) => (i : Int)) ∧
    (initState f0).trackindex = (f0.NumParticles : Int) ∧
    (initState f0).framenum = 1 ∧ (initState f0).written = [] ∧
    ∀ id t, (initState f0).tracks id = some t →
      ∃ i, i < f0.NumParticles ∧ t = Track.single (f0.pos.getD i default) 0 := by
  have := foldl_inv
    (fun (st : TState F) (i : Nat) =>
      { st with
        tracks := st.tracks.set (i : Int) (Track.single (f0.pos.getD i default) 0),
        activelist := st.activelist ++ [(i : Int)],
        trackindex := st.trackindex + 1 })
    (List.range f0.NumParticles)
    (fun done s => s.activelist = done.map (fun (i : Nat) => (i : Int)) ∧
      s.trackindex = (done.length : Int) ∧ s.written = [] ∧
      ∀ id t, s.tracks id = some t →
        ∃ i, i < f0.NumParticles ∧ t = Track.single (f0.pos.getD i default) 0)
    ?_ (List.range f0.NumParticles) [] TState.fresh rfl
    ⟨rfl, rfl, rfl, fun id t h => Option.noConfusion h⟩
  · obtain ⟨h1, h2, h3, h4⟩ := this
    refine ⟨h1, ?_, rfl, h3, h4⟩
    show (List.foldl _ TState.fresh (List.range f0.NumParticles)).trackindex = _
    rw [h2, List.length_range]
  intro done x rest s hsplit hs
  obtain ⟨h1, h2, h3, h4⟩ := hs
  obtain ⟨_, hxn⟩ := range_split _ _ _ _ hsplit
  refine ⟨?_, ?_, h3, ?_⟩
  · simp only [h1, List.map_append, List.map_cons, List.map_nil]
  · simp only [h2, List.length_append, List.length_singleton]; push_cast; ring
  · intro id t ht
    simp only [set_apply] at ht
    split at ht
    · exact ⟨x, hxn, (Option.some.inj ht).symm⟩
    · exact h4 id t ht

theorem initState_IdsOK (f0 : Frame F) : (initState f0).IdsOK := by
  obtain ⟨h1, h2, _, h4, _⟩ := initState_fields f0
  refine ⟨?_, ?_, ?_, ?_⟩
  · rw [h1]
    exact (List.nodup_range _).map (fun a b h => by exact_mod_cast h)
  · rw [h2]; exact Int.natCast_nonneg _
  · intro id hid
    rw [h1] at hid
    obtain ⟨i, hi, rfl⟩ := List.mem_map.1 hid
    rw [h2]
    have := List.mem_range.1 hi
    omega
  · rw [h4]; simp

theorem frameLoop_IdsOK (mch : Machine F) (tk : Tracker F) (last : Int) (fs : List (Frame F))
    (st : TState F) (hok : st.IdsOK) :
    (∀ s ∈ (frameLoop mch tk last fs st).1, s.IdsOK) ∧
      ∀ r, (frameLoop mch tk last fs st).2 = Except.ok r → r.IdsOK := by
  induction fs generalizing st with
  | nil =>
    simp only [frameLoop]
    refine ⟨by simp, ?_⟩
    intro r hr
    split at hr
    · rw [← Except.ok.inj hr]; exact hok
    · exact Except.noConfusion hr
  | cons fr0 rest ih =>
    unfold frameLoop
    split
    · refine ⟨by simp, ?_⟩
      intro r hr
      rw [← Except.ok.inj hr]; exact hok
    · split
      · refine ⟨by simp, ?_⟩
        intro r hr
        exact Except.noConfusion hr
      · rename_i fr1 rest2
        split
        · split
          · refine ⟨by simp, ?_⟩
            intro r hr
            exact Except.noConfusion hr
          · rename_i st2 hst2
            have h2 := (PadTracks_IdsOK tk st st2 hok hst2).1
            have h3 : ({ st2 with framenum := st2.framenum + 1 } : TState F).IdsOK := h2
            obtain ⟨i1, i2⟩ := ih _ h3
            refine ⟨?_, i2⟩
            intro s hs
            simp only [List.mem_cons] at hs
            rcases hs with rfl | hs
            · exact h2
            · exact i1 s hs
        · split
          · refine ⟨by simp, ?_⟩
            intro r hr
            exact Except.noConfusion hr
          · rename_i st1 hst1
            have h1 := (linkStage_IdsOK mch tk fr1 _ st st1 hok hst1).1
            split
            · refine ⟨?_, ?_⟩
              · intro s hs
                simp only [List.mem_singleton] at hs
                rw [hs]; exact h1
              · intro r hr
                exact Except.noConfusion hr
            · rename_i st2 hst2
              have h2 := (PadTracks_IdsOK tk st1 st2 h1 hst2).1
              have h3 : ({ st2 with framenum := st2.framenum + 1 } : TState F).IdsOK := h2
              obtain ⟨i1, i2⟩ := ih _ h3
              refine ⟨?_, i2⟩
              intro s hs
              simp only [List.mem_cons] at hs
              rcases hs with rfl | rfl | hs
              · exact h1
              · exact h2
              · exact i1 s hs

end IdLemmas
section MinLength

variable {F : Type} [LinearOrderedField F]

theorem trace_IdsOK (mch : Machine F) (tk : Tracker F) (f : List (Frame F)) :
    ∀ st ∈ MakeTracksTrace mch tk f, st.IdsOK := by
  unfold MakeTracksTrace
  cases f with
  | nil => simp
  | cons f0 rest =>
    intro st hst
    simp only [List.mem_cons] at hst
    rcases hst with rfl | hst
    · exact initState_IdsOK f0
    · exact (frameLoop_IdsOK mch tk _ _ _ (initState_IdsOK f0)).1 st hst

theorem written_min_length (mch : Machine F) (tk : Tracker F) (f : List (Frame F)) :
    ∀ w ∈ writtenOf (MakeTracks mch tk f), MINTRACK ≤ w.2.Length := by
  unfold MakeTracks
  cases f with
  | nil => simp [writtenOf]
  | cons f0 rest =>
    simp only
    split
    · simp [writtenOf]
    · rename_i st hst
      have hok := (frameLoop_IdsOK mch tk _ _ _ (initState_IdsOK f0)).2 st hst
      cases hfl : forEach flushOne st.activelist st with
      | error e => simp [writtenOf]
      | ok st1 =>
        simp only [writtenOf]
        exact flush_IdsOK _ st st1 hok.2.2.2 hfl

theorem WriteGDF_length (t : Track F) (index fps : F) :
    (t.WriteGDF index fps).length = t.Length.toNat := by
  simp [Track.WriteGDF]

/-- C17 (as amended). Every track written by the tracker, on retirement in
`PadTracks` or in the final loop of `MakeTracks`, has `Length()` at least
`MINTRACK = 10`, so at least 10 rows are written for it: it holds at least 10
positions up to and including its last real one, fake positions between real
ones included. -/
theorem C17_written_min_length (mch : Machine F) (tk : Tracker F) (f : List (Frame F)) :
    (∀ st ∈ MakeTracksTrace mch tk f, ∀ w ∈ st.written, MINTRACK ≤ w.2.Length) ∧
    ∀ w ∈ writtenOf (MakeTracks mch tk f),
      MINTRACK ≤ w.2.Length ∧ 10 ≤ (w.2.WriteGDF (w.1 : F) tk.fps).length := by
  refine ⟨fun st hst => (trace_IdsOK mch tk f st hst).2.2.2, ?_⟩
  intro w hw
  have h := written_min_length mch tk f w hw
  refine ⟨h, ?_⟩
  rw [WriteGDF_length]
  unfold MINTRACK at h
  omega

end MinLength

section MinLengthEvaluations

/-- Counterexample to C17 as stated: on `gapFrames` one track is written; its
length is 10 and it holds 10 positions, of which only 8 are real (the positions
of the frames 3 and 7 are fake). -/
theorem C17_counterexample :
    (writtenOf (MakeTracks exactMachine tkGap gapFrames)).map
        (fun w => (w.2.Length, (w.2.pos.filter fun p => !p.fake).length,
          w.2.pos.map fun p => p.fake))
      = [(10, 8, [false, false, false, true, false, false, false, true, false, false])] := by
  decide!

/-- Witness of C17 (as amended) on `gapFrames`. -/
theorem C17_written_min_length_witness :
    (writtenOf (MakeTracks exactMachine tkGap gapFrames)).length = 1 ∧
    ∀ w ∈ writtenOf (MakeTracks exactMachine tkGap gapFrames),
      MINTRACK ≤ w.2.Length ∧ 10 ≤ (w.2.WriteGDF (w.1 : ℚ) tkGap.fps).length :=
  ⟨by decide!, (C17_written_min_length exactMachine tkGap gapFrames).2⟩

end MinLengthEvaluations
section TimeLemmas

variable {F : Type} [LinearOrderedField F]

theorem getD_mem_of_lt {α : Type} (l : List α) (i : Nat) (d : α) (h : i < l.length) :
    l.getD i d ∈ l := by
  rw [List.getD_eq_getElem?_getD, List.getElem?_eq_getElem h]
  exact List.getElem_mem h

theorem Track.WF_ResetCounter (t : Track F) (h : t.WF) : t.ResetCounter.WF := h

theorem Track.WF_Occluded (t : Track F) (h : t.WF) : t.Occluded.WF := h

theorem Track.Increasing_Add (t : Track F) (p : Position F) (m : Int)
    (h : t.Increasing) (hb : t.Below m) : (t.Add p m).Increasing := by
  unfold Track.Increasing Track.Add
  simp only
  rw [List.pairwise_append]
  refine ⟨h, List.pairwise_singleton _ _, ?_⟩
  intro a ha b hb2
  simp only [List.mem_singleton] at hb2
  rw [hb2]
  exact hb a ha

theorem Track.JustAdded_Add (t : Track F) (p : Position F) (m : Int)
    (hp : p.fake = false) (hb : t.Below m) : (t.Add p m).JustAdded m :=
  ⟨t.pos, p, t.time, rfl, hp, rfl, hb⟩

theorem Track.le_of_Add (t : Track F) (p : Position F) (m : Int) (hb : t.Below m) :
    ∀ x ∈ (t.Add p m).time, x ≤ m := by
  intro x hx
  simp only [Track.Add, List.mem_append, List.mem_singleton] at hx
  rcases hx with hx | rfl
  · exact le_of_lt (hb x hx)
  · exact le_refl _

theorem Track.le_of_JustAdded (t : Track F) (m : Int) (h : t.JustAdded m) :
    ∀ x ∈ t.time, x ≤ m := by
  obtain ⟨ps, p, ts, _, _, h3, h4⟩ := h
  intro x hx
  rw [h3] at hx
  simp only [List.mem_append, List.mem_singleton] at hx
  rcases hx with hx | rfl
  · exact le_of_lt (h4 x hx)
  · exact le_refl _

/-- A well-formed track whose last position is real and has the time `m`
reports that time for its last counted position. -/
theorem Track.GetTime_JustAdded (t : Track F) (m : Int) (hwf : t.WF) (h : t.JustAdded m) :
    t.GetTime (t.Length - 1) = Except.ok m := by
  obtain ⟨ps, p, ts, h1, h2, h3, _⟩ := h
  obtain ⟨w1, w2⟩ := hwf
  have hlen : t.Length = (t.pos.length : Int) := by
    unfold Track.Length
    rw [h1]
    simp [Track.adjustLoop, Position.IsFake, h2, w1, h1]
  have hts : ts.length = ps.length := by
    rw [h1, h3] at w2
    simpa using w2
  unfold Track.GetTime
  rw [hlen, h1, h3]
  simp only [List.length_append, List.length_singleton]
  have e : ((ps.length + 1 : Nat) : Int) - 1 = (ts.length : Int) := by
    rw [hts]; push_cast; ring
  rw [e]
  simp

theorem Track.GetTime_mem (t : Track F) (i tm : Int) (h : t.GetTime i = Except.ok tm) :
    tm ∈ t.time := by
  unfold Track.GetTime at h
  split at h
  · split at h
    · rename_i x hx
      rw [← Except.ok.inj h]
      exact List.getElem?_mem hx
    · exact Except.noConfusion h
  · exact Except.noConfusion h

/-- The loop of lines 134-147 on the times: after it every track has all its
times before the frame number or has just got a real position with the frame
number. -/
theorem addLoop_times (fr1 : Frame F) (links : List Int) (st st1 : TState F)
    (hreal : ∀ p ∈ fr1.pos, p.fake = false)
    (hids : ∀ c, c < fr1.NumParticles → links.getD c UNLINKED ≠ UNLINKED →
      links.getD c UNLINKED < st.trackindex)
    (hinj : ∀ c d, c < fr1.NumParticles → d < fr1.NumParticles →
      links.getD c UNLINKED ≠ UNLINKED →
      links.getD c UNLINKED = links.getD d UNLINKED → c = d)
    (hpre : st.TracksOK fun t => t.Below st.framenum)
    (h : forEach (addLinked fr1 links) (List.range fr1.NumParticles) st = Except.ok st1) :
    (st1.TracksOK fun t => t.Below st.framenum ∨ t.JustAdded st.framenum) ∧
      st1.framenum = st.framenum := by
  have := forEach_inv (addLinked fr1 links) (List.range fr1.NumParticles)
    (fun done s => s.framenum = st.framenum ∧ st.trackindex ≤ s.trackindex ∧
      s.written = st.written ∧
      ∀ id t, s.tracks id = some t → t.WF ∧ t.Increasing ∧
        (t.Below st.framenum ∨
          (t.JustAdded st.framenum ∧
            (st.trackindex ≤ id ∨ ∃ i ∈ done, links.getD i UNLINKED = id))))
    ?_ (List.range fr1.NumParticles) [] st st1 rfl
    ⟨rfl, le_refl _, rfl, fun id t ht =>
      ⟨(hpre.1 id t ht).1, (hpre.1 id t ht).2.1, Or.inl (hpre.1 id t ht).2.2⟩⟩ h
  · obtain ⟨h1, _, h3, h4⟩ := this
    refine ⟨⟨?_, ?_⟩, h1⟩
    · intro id t ht
      obtain ⟨a, b, c⟩ := h4 id t ht
      refine ⟨a, b, ?_⟩
      rcases c with c | ⟨c, _⟩
      · exact Or.inl c
      · exact Or.inr c
    · rw [h3]; exact hpre.2
  intro done x rest s s1 hsplit hs hstep
  obtain ⟨h1, h2, h3, h4⟩ := hs
  obtain ⟨hxd, hxn⟩ := range_split _ _ _ _ hsplit
  have hxnot : x ∉ done := not_mem_done _ _ _ _ (List.nodup_range _) hsplit
  have hdone : ∀ i ∈ done, i < fr1.NumParticles := by
    intro i hi
    have : i ∈ List.range fr1.NumParticles := by rw [hsplit]; simp [hi]
    exact List.mem_range.1 this
  have hp : (fr1.pos.getD x default).fake = false :=
    hreal _ (getD_mem_of_lt _ _ _ hxn)
  rcases addLinked_cases fr1 links s s1 x hstep with ⟨_, rfl⟩ | ⟨hl, t, ht, rfl⟩
  · refine ⟨h1, by simp only; omega, h3, ?_⟩
    intro id t2 ht2
    simp only [set_apply] at ht2
    split at ht2
    · rename_i hid
      rw [← Option.some.inj ht2]
      refine ⟨Track.WF_single _ _, List.pairwise_singleton _ _, Or.inr ⟨?_, Or.inl ?_⟩⟩
      · rw [h1]
        exact ⟨[], _, [], rfl, hp, rfl, by simp⟩
      · rw [hid]; exact h2
    · obtain ⟨a, b, c⟩ := h4 id t2 ht2
      refine ⟨a, b, ?_⟩
      rcases c with c | ⟨c, d⟩
      · exact Or.inl c
      · refine Or.inr ⟨c, ?_⟩
        rcases d with d | ⟨i, hi, d⟩
        · exact Or.inl d
        · exact Or.inr ⟨i, by simp [hi], d⟩
  · refine ⟨h1, h2, h3, ?_⟩
    intro id t2 ht2
    simp only [set_apply] at ht2
    split at ht2
    · rename_i hid
      -- the linked track was not touched before
      have hbelow : t.Below st.framenum := by
        obtain ⟨_, _, c⟩ := h4 _ t ht
        rcases c with c | ⟨_, d⟩
        · exact c
        · exfalso
          rcases d with d | ⟨i, hi, d⟩
          · have := hids x hxn hl
            omega
          · have hix : i = x := hinj i x (hdone i hi) hxn (by rw [d]; exact hl) d
            exact hxnot (hix ▸ hi)
      obtain ⟨hwf, hinc, _⟩ := h4 _ t ht
      rw [← Option.some.inj ht2]
      refine ⟨Track.WF_ResetCounter _ (Track.WF_Add t hwf (fr1.pos.getD x default) s.framenum),
        ?_, Or.inr ⟨?_, Or.inr ?_⟩⟩
      · rw [h1]; exact Track.Increasing_Add t (fr1.pos.getD x default) st.framenum hinc hbelow
      · rw [h1]; exact Track.JustAdded_Add t (fr1.pos.getD x default) st.framenum hp hbelow
      · exact ⟨x, by simp, hid.symm⟩
    · obtain ⟨a, b, c⟩ := h4 id t2 ht2
      refine ⟨a, b, ?_⟩
      rcases c with c | ⟨c, d⟩
      · exact Or.inl c
      · refine Or.inr ⟨c, ?_⟩
        rcases d with d | ⟨i, hi, d⟩
        · exact Or.inl d
        · exact Or.inr ⟨i, by simp [hi], d⟩

theorem linkStage_times (mch : Machine F) (tk : Tracker F) (fr1 : Frame F)
    (fr2 : Option (Frame F)) (st st1 : TState F)
    (hreal : ∀ p ∈ fr1.pos, p.fake = false) (hok : st.IdsOK)
    (hpre : st.TracksOK fun t => t.Below st.framenum)
    (h : linkStage mch tk fr1 fr2 st = Except.ok st1) :
    (st1.TracksOK fun t => t.Below st.framenum ∨ t.JustAdded st.framenum) ∧
      st1.framenum = st.framenum := by
  unfold linkStage at h
  split at h
  · exact Except.noConfusion h
  · rename_i cl hcl
    have hid : ∀ tr ∈ st.activelist, tr ≠ UNLINKED := by
      intro tr htr
      have := (hok.2.2.1 tr htr).1
      unfold UNLINKED
      omega
    have hinv := MakeLinks_inv mch tk st.tracks st.activelist fr1 fr2 _ cl hid (by simp) hcl
    apply addLoop_times fr1 cl.2 st st1 hreal _ _ hpre h
    · intro c hc hl
      exact (hok.2.2.1 _ (LinkInv_linked _ _ _ _ hinv c hc hl).1).2
    · intro c d hc hd hl he
      exact LinkInv_injective _ _ _ _ hinv c d hc hd hl he

/-- The first loop of `PadTracks` on the times. -/
theorem padLoop_times (tk : Tracker F) (st : TState F) (acc : PadAcc F)
    (hnd : st.activelist.Nodup)
    (hmid : st.TracksOK fun t => t.Below st.framenum ∨ t.JustAdded st.framenum)
    (h : forEach (padOne tk) st.activelist { st := st, writelist := [], stillactive := [] }
      = Except.ok acc) :
    acc.st.framenum = st.framenum ∧ acc.st.written = st.written ∧
      ∀ id t, acc.st.tracks id = some t →
        t.WF ∧ t.Increasing ∧ ∀ x ∈ t.time, x ≤ st.framenum := by
  have := forEach_inv (padOne tk) st.activelist
    (fun done a => a.st.framenum = st.framenum ∧ a.st.written = st.written ∧
      ∀ id t, a.st.tracks id = some t →
        t.WF ∧ t.Increasing ∧ (∀ x ∈ t.time, x ≤ st.framenum) ∧
          (id ∉ done → t.Below st.framenum ∨ t.JustAdded st.framenum))
    ?_ st.activelist [] _ acc rfl
    ⟨rfl, rfl, fun id t ht => by
      obtain ⟨a, b, c⟩ := hmid.1 id t ht
      refine ⟨a, b, ?_, fun _ => c⟩
      rcases c with c | c
      · exact fun x hx => le_of_lt (c x hx)
      · exact Track.le_of_JustAdded t _ c⟩ h
  · exact ⟨this.1, this.2.1, fun id t ht =>
      ⟨(this.2.2 id t ht).1, (this.2.2 id t ht).2.1, (this.2.2 id t ht).2.2.1⟩⟩
  intro done x rest s s1 hsplit hs hstep
  obtain ⟨h1, h2, h3⟩ := hs
  have hx : x ∉ done := not_mem_done _ _ _ _ hnd hsplit
  have hkeep : ∀ m2 : TrackMap F, (∀ j, j ≠ x → m2 j = s.st.tracks j) →
      (∀ t, m2 x = some t → t.WF ∧ t.Increasing ∧ ∀ y ∈ t.time, y ≤ st.framenum) →
      ∀ id t, m2 id = some t →
        t.WF ∧ t.Increasing ∧ (∀ y ∈ t.time, y ≤ st.framenum) ∧
          (id ∉ done ++ [x] → t.Below st.framenum ∨ t.JustAdded st.framenum) := by
    intro m2 hm hmx id t ht
    by_cases hid : id = x
    · subst hid
      obtain ⟨a, b, c⟩ := hmx t ht
      exact ⟨a, b, c, fun hn => absurd (by simp) hn⟩
    · rw [hm id hid] at ht
      obtain ⟨a, b, c, d⟩ := h3 id t ht
      exact ⟨a, b, c, fun hn => d (fun hc => hn (by simp [hc]))⟩
  obtain ⟨t, tm, ht, htm, hcase⟩ := padOne_cases tk s s1 x hstep
  obtain ⟨twf, tinc, tle, tfresh⟩ := h3 x t ht
  rcases hcase with ⟨_, rfl⟩ | ⟨_, _, _, rfl⟩ | ⟨_, _, _, rfl⟩ | ⟨_, _, _, rfl⟩ |
    ⟨hne, _, _, last, pen, ante, _, _, _, rfl⟩
  · refine ⟨h1, h2, hkeep _ (fun _ _ => rfl) ?_⟩
    intro t2 ht2
    rw [ht] at ht2; rw [← Option.some.inj ht2]; exact ⟨twf, tinc, tle⟩
  · refine ⟨h1, h2, hkeep _ (fun j hj => by simp only [erase_apply, if_neg hj]) ?_⟩
    intro t2 ht2
    simp only [erase_apply, if_true] at ht2
    exact Option.noConfusion ht2
  · refine ⟨h1, h2, hkeep _ (fun _ _ => rfl) ?_⟩
    intro t2 ht2
    rw [ht] at ht2; rw [← Option.some.inj ht2]; exact ⟨twf, tinc, tle⟩
  · refine ⟨h1, h2, hkeep _ (fun j hj => by simp only [erase_apply, if_neg hj]) ?_⟩
    intro t2 ht2
    simp only [erase_apply, if_true] at ht2
    exact Option.noConfusion ht2
  · refine ⟨h1, h2, hkeep _ (fun j hj => by simp only [set_apply, if_neg hj]) ?_⟩
    intro t2 ht2
    simp only [set_apply, if_true] at ht2
    rw [← Option.some.inj ht2]
    have hbelow : t.Below st.framenum := by
      rcases tfresh hx with c | c
      · exact c
      · exfalso
        have := Track.GetTime_JustAdded t _ twf c
        rw [htm] at this
        rw [h1] at hne
        exact hne (Except.ok.inj this)
    rw [h1]
    exact ⟨Track.WF_Occluded _
        (Track.WF_Add t twf (padEstimate tk last pen ante) st.framenum),
      Track.Increasing_Add t (padEstimate tk last pen ante) st.framenum tinc hbelow,
      Track.le_of_Add t (padEstimate tk last pen ante) st.framenum hbelow⟩

/-- The second loop of `PadTracks` on the times. -/
theorem writeLoop_times (L : List Int) (st st1 : TState F) (P : Track F → Prop)
    (hok : st.TracksOK P) (h : forEach writeOne L st = Except.ok st1) :
    st1.TracksOK P ∧ st1.framenum = st.framenum := by
  refine forEach_inv writeOne L (fun _ s => s.TracksOK P ∧ s.framenum = st.framenum)
    ?_ L [] st st1 rfl ⟨hok, rfl⟩ h
  intro done x rest s s1 _ hs hstep
  obtain ⟨⟨h1, h2⟩, h3⟩ := hs
  obtain ⟨t, ht, rfl⟩ := writeOne_cases s s1 x hstep
  refine ⟨⟨?_, ?_⟩, h3⟩
  · intro id t2 ht2
    simp only [erase_apply] at ht2
    split at ht2
    · exact Option.noConfusion ht2
    · exact h1 id t2 ht2
  · intro w hw
    simp only [List.mem_append, List.mem_singleton] at hw
    rcases hw with hw | rfl
    · exact h2 w hw
    · exact ⟨(h1 x t ht).1, (h1 x t ht).2.1⟩

theorem PadTracks_times (tk : Tracker F) (st st1 : TState F) (hnd : st.activelist.Nodup)
    (hmid : st.TracksOK fun t => t.Below st.framenum ∨ t.JustAdded st.framenum)
    (h : PadTracks tk st = Except.ok st1) :
    (st1.TracksOK fun t => ∀ x ∈ t.time, x ≤ st.framenum) ∧ st1.framenum = st.framenum := by
  unfold PadTracks at h
  split at h
  · exact Except.noConfusion h
  · rename_i acc hacc
    split at h
    · exact Except.noConfusion h
    · rename_i st2 hst2
      obtain ⟨a1, a2, a3⟩ := padLoop_times tk st acc hnd hmid hacc
      have hacc_ok : acc.st.TracksOK fun t => ∀ x ∈ t.time, x ≤ st.framenum :=
        ⟨a3, by rw [a2]; exact hmid.2⟩
      obtain ⟨w1, w2⟩ := writeLoop_times acc.writelist acc.st st2 _ hacc_ok hst2
      rw [← Except.ok.inj h]
      exact ⟨w1, by simp only; rw [w2, a1]⟩

theorem flush_times (L : List Int) (st st1 : TState F) (P : Track F → Prop)
    (hok : st.TracksOK P) (h : forEach flushOne L st = Except.ok st1) :
    st1.TracksOK P := by
  refine forEach_inv flushOne L (fun _ s => s.TracksOK P) ?_ L [] st st1 rfl hok h
  intro done x rest s s1 _ hs hstep
  obtain ⟨h1, h2⟩ := hs
  obtain ⟨t, ht, hcase⟩ := flushOne_cases s s1 x hstep
  rcases hcase with ⟨_, rfl⟩ | ⟨_, rfl⟩
  · refine ⟨h1, ?_⟩
    intro w hw
    simp only [List.mem_append, List.mem_singleton] at hw
    rcases hw with hw | rfl
    · exact h2 w hw
    · exact ⟨(h1 x t ht).1, (h1 x t ht).2.1⟩
  · exact ⟨h1, h2⟩

theorem TracksOK_weaken (st : TState F) (P Q : Track F → Prop) (h : st.TracksOK P)
    (hPQ : ∀ t, P t → Q t) : st.TracksOK Q :=
  ⟨fun id t ht => ⟨(h.1 id t ht).1, (h.1 id t ht).2.1, hPQ t (h.1 id t ht).2.2⟩, h.2⟩

theorem initState_times (f0 : Frame F) :
    (initState f0).TracksOK fun t => t.Below (initState f0).framenum := by
  obtain ⟨_, _, h3, h4, h5⟩ := initState_fields f0
  refine ⟨?_, by rw [h4]; simp⟩
  intro id t ht
  obtain ⟨i, _, rfl⟩ := h5 id t ht
  refine ⟨Track.WF_single _ _, List.pairwise_singleton _ _, ?_⟩
  rw [h3]
  intro x hx
  simp only [Track.single, List.mem_singleton] at hx
  omega

theorem frameLoop_times (mch : Machine F) (tk : Tracker F) (last : Int) (fs : List (Frame F))
    (st : TState F) (hreal : ∀ fr ∈ fs, ∀ p ∈ fr.pos, p.fake = false) (hok : st.IdsOK)
    (hpre : st.TracksOK fun t => t.Below st.framenum) :
    (∀ s ∈ (frameLoop mch tk last fs st).1, s.TracksOK fun _ => True) ∧
      ∀ r, (frameLoop mch tk last fs st).2 = Except.ok r → r.TracksOK fun _ => True := by
  induction fs generalizing st with
  | nil =>
    simp only [frameLoop]
    refine ⟨by simp, ?_⟩
    intro r hr
    split at hr
    · rw [← Except.ok.inj hr]; exact TracksOK_weaken _ _ _ hpre (fun _ _ => trivial)
    · exact Except.noConfusion hr
  | cons fr0 rest ih =>
    have hrest : ∀ fr ∈ rest, ∀ p ∈ fr.pos, p.fake = false :=
      fun fr hfr => hreal fr (List.mem_cons_of_mem _ hfr)
    have next : ∀ s1 st2 : TState F, s1.IdsOK → s1.framenum = st.framenum →
        (s1.TracksOK fun t => t.Below st.framenum ∨ t.JustAdded st.framenum) →
        PadTracks tk s1 = Except.ok st2 →
        (st2.TracksOK fun _ => True) ∧
          (∀ s ∈ (frameLoop mch tk last rest { st2 with framenum := st2.framenum + 1 }).1,
            s.TracksOK fun _ => True) ∧
          ∀ r, (frameLoop mch tk last rest { st2 with framenum := st2.framenum + 1 }).2
            = Except.ok r → r.TracksOK fun _ => True := by
      intro s1 st2 hs1 hfn hmid hpad
      have hmid2 : s1.TracksOK fun t => t.Below s1.framenum ∨ t.JustAdded s1.framenum := by
        rw [hfn]; exact hmid
      obtain ⟨p1, p2⟩ := PadTracks_times tk s1 st2 hs1.1 hmid2 hpad
      have hid2 := (PadTracks_IdsOK tk s1 st2 hs1 hpad).1
      have hpre2 : ({ st2 with framenum := st2.framenum + 1 } : TState F).TracksOK
          fun t => t.Below ({ st2 with framenum := st2.framenum + 1 } : TState F).framenum := by
        refine ⟨?_, p1.2⟩
        intro id t ht
        obtain ⟨a, b, c⟩ := p1.1 id t ht
        refine ⟨a, b, ?_⟩
        intro x hx
        have := c x hx
        show x < st2.framenum + 1
        rw [p2]
        omega
      obtain ⟨i1, i2⟩ := ih ({ st2 with framenum := st2.framenum + 1 }) hrest hid2 hpre2
      exact ⟨TracksOK_weaken _ _ _ p1 (fun _ _ => trivial), i1, i2⟩
    unfold frameLoop
    split
    · refine ⟨by simp, ?_⟩
      intro r hr
      rw [← Except.ok.inj hr]; exact TracksOK_weaken _ _ _ hpre (fun _ _ => trivial)
    · split
      · refine ⟨by simp, ?_⟩
        intro r hr
        exact Except.noConfusion hr
      · rename_i fr1 rest2
        have hfr1 : ∀ p ∈ fr1.pos, p.fake = false :=
          hreal fr1 (by simp)
        split
        · split
          · refine ⟨by simp, ?_⟩
            intro r hr
            exact Except.noConfusion hr
          · rename_i st2 hst2
            obtain ⟨n1, n2, n3⟩ := next st st2 hok rfl
              (TracksOK_weaken _ _ _ hpre (fun _ h => Or.inl h)) hst2
            refine ⟨?_, n3⟩
            intro s hs
            simp only [List.mem_cons] at hs
            rcases hs with rfl | hs
            · exact n1
            · exact n2 s hs
        · split
          · refine ⟨by simp, ?_⟩
            intro r hr
            exact Except.noConfusion hr
          · rename_i st1 hst1
            obtain ⟨l1, l2⟩ := linkStage_times mch tk fr1 _ st st1 hfr1 hok hpre hst1
            have hid1 := (linkStage_IdsOK mch tk fr1 _ st st1 hok hst1).1
            split
            · refine ⟨?_, ?_⟩
              · intro s hs
                simp only [List.mem_singleton] at hs
                rw [hs]; exact TracksOK_weaken _ _ _ l1 (fun _ _ => trivial)
              · intro r hr
                exact Except.noConfusion hr
            · rename_i st2 hst2
              obtain ⟨n1, n2, n3⟩ := next st1 st2 hid1 l2 l1 hst2
              refine ⟨?_, n3⟩
              intro s hs
              simp only [List.mem_cons] at hs
              rcases hs with rfl | rfl | hs
              · exact TracksOK_weaken _ _ _ l1 (fun _ _ => trivial)
              · exact n1
              · exact n2 s hs

end TimeLemmas
section TimeTheorem

variable {F : Type} [LinearOrderedField F]

/-- C16. For every sequence of frames whose positions are real (not flagged
fake, as the positions made by the stereo matcher are) and every mode: in
every state of a run of `MakeTracks` (after the initialisation, after the
linking of each frame, after each call of `PadTracks`, and after the final
loop) the times stored in every track of the map and in every written track
are strictly increasing. -/
theorem C16_times_increasing (mch : Machine F) (tk : Tracker F) (f : List (Frame F))
    (hreal : ∀ fr ∈ f, ∀ p ∈ fr.pos, p.fake = false) :
    (∀ st ∈ MakeTracksTrace mch tk f,
      (∀ id t, st.tracks id = some t → t.time.Pairwise (· < ·)) ∧
        ∀ w ∈ st.written, w.2.time.Pairwise (· < ·)) ∧
    (∀ st, MakeTracks mch tk f = Except.ok st →
      (∀ id t, st.tracks id = some t → t.time.Pairwise (· < ·)) ∧
        ∀ w ∈ st.written, w.2.time.Pairwise (· < ·)) := by
  have conv : ∀ st : TState F, (st.TracksOK fun _ => True) →
      (∀ id t, st.tracks id = some t → t.time.Pairwise (· < ·)) ∧
        ∀ w ∈ st.written, w.2.time.Pairwise (· < ·) :=
    fun st h => ⟨fun id t ht => (h.1 id t ht).2.1, fun w hw => (h.2 w hw).2⟩
  cases f with
  | nil =>
    refine ⟨by simp [MakeTracksTrace], ?_⟩
    intro st hst
    exact Except.noConfusion hst
  | cons f0 rest =>
    obtain ⟨l1, l2⟩ := frameLoop_times mch tk (lastIndex tk.mode (f0 :: rest).length)
      (f0 :: rest) (initState f0) hreal (initState_IdsOK f0) (initState_times f0)
    constructor
    · intro st hst
      simp only [MakeTracksTrace, List.mem_cons] at hst
      rcases hst with rfl | hst
      · exact conv _ (TracksOK_weaken _ _ _ (initState_times f0) (fun _ _ => trivial))
      · exact conv _ (l1 st hst)
    · intro st hst
      simp only [MakeTracks] at hst
      split at hst
      · exact Except.noConfusion hst
      · rename_i st0 hst0
        exact conv _ (flush_times _ st0 st _ (l2 st0 hst0) hst)

end TimeTheorem

section TimeEvaluations

/-- Witness of C16 on `gapFrames`: the run visits 17 states and ends normally
with one written track, whose times are `0, 1, ..., 9`. -/
theorem C16_times_increasing_witness :
    (∀ fr ∈ gapFrames, ∀ p ∈ fr.pos, p.fake = false) ∧
    (MakeTracksTrace exactMachine tkGap gapFrames).length = 17 ∧
    (writtenOf (MakeTracks exactMachine tkGap gapFrames)).map (fun w => w.2.time)
      = [[0, 1, 2, 3, 4, 5, 6, 7, 8, 9]] ∧
    ∀ st ∈ MakeTracksTrace exactMachine tkGap gapFrames,
      (∀ id t, st.tracks id = some t → t.time.Pairwise (· < ·)) ∧
        ∀ w ∈ st.written, w.2.time.Pairwise (· < ·) :=
  ⟨by decide, by decide!, by decide!,
    (C16_times_increasing exactMachine tkGap gapFrames (by decide)).1⟩

end TimeEvaluations
section LineLemmas

variable {F : Type} [LinearOrderedField F]

theorem lineTrack_pos_get (q : Nat → Position F) (k j : Nat) (hj : j ≤ k) :
    (lineTrack q k).pos[j]? = some (q j) := by
  simp only [lineTrack, List.getElem?_map]
  rw [List.getElem?_range (by omega)]
  rfl

theorem lineTrack_posAt (q : Nat → Position F) (k j : Nat) (hj : j ≤ k) :
    (lineTrack q k).posAt (j : Int) = Except.ok (q j) := by
  unfold Track.posAt
  rw [if_pos (Int.natCast_nonneg j)]
  simp only [Int.toNat_ofNat]
  rw [lineTrack_pos_get q k j hj]

theorem lineTrack_Last (q : Nat → Position F) (k : Nat) :
    (lineTrack q k).Last = Except.ok (q k) := by
  unfold Track.Last
  have : (lineTrack q k).npoints - 1 = (k : Int) := by
    simp only [lineTrack]; push_cast; ring
  rw [this]
  exact lineTrack_posAt q k k (le_refl _)

theorem lineTrack_Penultimate (q : Nat → Position F) (k : Nat) :
    (lineTrack q (k + 1)).Penultimate = Except.ok (q k) := by
  unfold Track.Penultimate
  have : (lineTrack q (k + 1)).npoints - 2 = (k : Int) := by
    simp only [lineTrack]; push_cast; ring
  rw [this]
  exact lineTrack_posAt q (k + 1) k (by omega)

theorem lineTrack_Antepenultimate (q : Nat → Position F) (k : Nat) :
    (lineTrack q (k + 2)).Antepenultimate = Except.ok (q k) := by
  unfold Track.Antepenultimate
  have : (lineTrack q (k + 2)).npoints - 3 = (k : Int) := by
    simp only [lineTrack]; push_cast; ring
  rw [this]
  exact lineTrack_posAt q (k + 2) k (by omega)

theorem lineTrack_Length (q : Nat → Position F) (k : Nat) (hq : ∀ t, (q t).fake = false) :
    (lineTrack q k).Length = ((k + 1 : Nat) : Int) := by
  unfold Track.Length
  have hpos : (lineTrack q k).pos = (List.range k).map q ++ [q k] := by
    simp only [lineTrack, List.range_succ, List.map_append, List.map_cons, List.map_nil]
  rw [hpos]
  simp [Track.adjustLoop, Position.IsFake, hq k, lineTrack]

theorem lineTrack_GetTime (q : Nat → Position F) (k : Nat) :
    (lineTrack q k).GetTime (k : Int) = Except.ok (k : Int) := by
  unfold Track.GetTime
  rw [if_pos (Int.natCast_nonneg k)]
  simp only [Int.toNat_ofNat, lineTrack, List.getElem?_map]
  rw [List.getElem?_range (by omega)]
  rfl

theorem lineTrack_Add (q : Nat → Position F) (k : Nat) :
    ((lineTrack q k).Add (q (k + 1)) ((k + 1 : Nat) : Int)).ResetCounter
      = lineTrack q (k + 1) := by
  simp only [lineTrack, Track.Add, Track.ResetCounter]
  congr 1
  · rw [List.range_succ (k + 1)]; simp
  · rw [List.range_succ (k + 1)]; simp

/-- The result of `ComputeCost` without look-ahead on a frame of one particle within
`max_disp` of the estimate and at a float distance of at most `1e6`. -/
theorem ComputeCost_single (mch : Machine F) (max_disp : F) (p estimate velocity now : Position F)
    (h1 : mch.toFloat (Distance estimate p) ≤ max_disp * max_disp)
    (h2 : mch.toFloat (Distance estimate p) ≤ 1000000) :
    ComputeCost mch max_disp ⟨[p]⟩ ⟨[p]⟩ estimate velocity now true
      = (0, mch.toFloat (Distance estimate p)) := by
  have hc : costCandidates mch max_disp ⟨[p]⟩ estimate (fun _ mag => mag)
      = [(0, mch.toFloat (Distance estimate p))] := by
    simp [costCandidates, List.enum, List.enumFrom, not_lt.2 h1]
  unfold ComputeCost
  simp only [if_true]
  rw [hc]
  simp only [mincostOf, selectBest, List.foldl_cons, List.foldl_nil]
  by_cases hlt : (1000000 : F) > mch.toFloat (Distance estimate p)
  · simp [hlt]
  · have : mch.toFloat (Distance estimate p) = 1000000 := le_antisymm h2 (not_lt.1 hlt)
    simp [hlt, this]

end LineLemmas
section LineSteps

variable {F : Type} [LinearOrderedField F]

/-- The estimate of `MakeLinks` for the line track in mode `FRAME3`: it is at
squared distance `|v|²` of the next particle for a track of one position, and
coincides with the next particle otherwise. -/
theorem lineTrack_estimate (mch : Machine F) (s v : Position F) (q : Nat → Position F)
    (hq : ∀ t, (q t).x = s.x + (t : F) * v.x ∧ (q t).y = s.y + (t : F) * v.y ∧
      (q t).z = s.z + (t : F) * v.z ∧ (q t).fake = false) (k : Nat) :
    ∃ estimate velocity,
      estimateOf mch TrackMode.FRAME3 (lineTrack q k) = Except.ok (q k, estimate, velocity) ∧
      (Distance estimate (q (k + 1)) = v.x * v.x + v.y * v.y + v.z * v.z ∨
        Distance estimate (q (k + 1)) = 0) := by
  have hfake : ∀ t, (q t).fake = false := fun t => (hq t).2.2.2
  have hlen := lineTrack_Length q k hfake
  unfold estimateOf
  rw [lineTrack_Last]
  simp only [hlen]
  match k with
  | 0 =>
    refine ⟨mch.uninit.assign (q 0), mch.uninit, by simp, Or.inl ?_⟩
    obtain ⟨a0, b0, c0, _⟩ := hq 0
    obtain ⟨a1, b1, c1, _⟩ := hq (0 + 1)
    simp only [Distance, Position.assign, a0, b0, c0, a1, b1, c1]
    push_cast
    ring
  | 1 =>
    have hne : ¬ (((1 + 1 : Nat) : Int) = 1 ∨ TrackMode.FRAME3 = TrackMode.FRAME2) := by
      simp
    rw [if_neg hne, lineTrack_Penultimate q 0]
    have hgt : ¬ (((1 + 1 : Nat) : Int) > 2) := by simp
    simp only [if_neg hgt]
    refine ⟨_, _, rfl, Or.inr ?_⟩
    obtain ⟨a0, b0, c0, _⟩ := hq 0
    obtain ⟨a1, b1, c1, _⟩ := hq 1
    obtain ⟨a2, b2, c2, _⟩ := hq (1 + 1)
    simp only [Distance, Position.assign, Position.add, Position.sub, Position.mk3,
      a0, b0, c0, a1, b1, c1, a2, b2, c2]
    push_cast
    ring
  | j + 2 =>
    have hne : ¬ (((j + 2 + 1 : Nat) : Int) = 1 ∨ TrackMode.FRAME3 = TrackMode.FRAME2) := by
      simp; omega
    rw [if_neg hne, lineTrack_Penultimate q (j + 1)]
    have hgt : ((j + 2 + 1 : Nat) : Int) > 2 := by push_cast; omega
    simp only [if_pos hgt]
    rw [lineTrack_Antepenultimate q j]
    refine ⟨_, _, rfl, Or.inr ?_⟩
    obtain ⟨a0, b0, c0, _⟩ := hq j
    obtain ⟨a1, b1, c1, _⟩ := hq (j + 1)
    obtain ⟨a2, b2, c2, _⟩ := hq (j + 2)
    obtain ⟨a3, b3, c3, _⟩ := hq (j + 2 + 1)
    simp only [Distance, Position.assign, Position.add, Position.sub, Position.smulL,
      Position.mk3, a0, b0, c0, a1, b1, c1, a2, b2, c2, a3, b3, c3]
    push_cast
    ring

/-- In the line scenario the one active track is linked to the one particle of
the next frame. -/
theorem line_MakeLinks (mch : Machine F) (tk : Tracker F) (s v : Position F)
    (q : Nat → Position F) (hmode : tk.mode = TrackMode.FRAME3)
    (hq : ∀ t, (q t).x = s.x + (t : F) * v.x ∧ (q t).y = s.y + (t : F) * v.y ∧
      (q t).z = s.z + (t : F) * v.z ∧ (q t).fake = false)
    (hv : mch.toFloat (v.x * v.x + v.y * v.y + v.z * v.z) ≤ tk.max_disp * tk.max_disp)
    (hcap : mch.toFloat (v.x * v.x + v.y * v.y + v.z * v.z) ≤ 1000000)
    (h0 : mch.toFloat 0 = 0) (k : Nat) (fn : Int) (fr2 : Option (Frame F)) :
    ∃ c, MakeLinks mch tk (lineState q k fn).tracks [0] ⟨[q (k + 1)]⟩ fr2
      (List.replicate 1 0) (List.replicate 1 UNLINKED) = Except.ok ([c], [0]) := by
  obtain ⟨estimate, velocity, hest, hd⟩ := lineTrack_estimate mch s v q hq k
  have hmag : mch.toFloat (Distance estimate (q (k + 1))) ≤ tk.max_disp * tk.max_disp ∧
      mch.toFloat (Distance estimate (q (k + 1))) ≤ 1000000 := by
    rcases hd with hd | hd
    · rw [hd]; exact ⟨hv, hcap⟩
    · rw [hd, h0]
      exact ⟨mul_self_nonneg _, by norm_num⟩
  have hcost : trackCost mch tk (lineState q k fn).tracks ⟨[q (k + 1)]⟩ fr2 0
      = Except.ok (0, mch.toFloat (Distance estimate (q (k + 1)))) := by
    unfold trackCost
    have hfind : (lineState q k fn).tracks.find 0 = Except.ok (lineTrack q k) := by
      simp [TrackMap.find, lineState]
    rw [hfind]
    simp only [hmode, hest]
    rw [if_neg (by decide)]
    rw [ComputeCost_single mch tk.max_disp _ _ _ _ hmag.1 hmag.2]
  refine ⟨mch.toFloat (Distance estimate (q (k + 1))), ?_⟩
  unfold MakeLinks
  simp only [linkLoop, hcost]
  simp [linkUpdate, UNLINKED]

/-- One stage of linking in the line scenario. -/
theorem line_linkStage (mch : Machine F) (tk : Tracker F) (s v : Position F)
    (q : Nat → Position F) (hmode : tk.mode = TrackMode.FRAME3)
    (hq : ∀ t, (q t).x = s.x + (t : F) * v.x ∧ (q t).y = s.y + (t : F) * v.y ∧
      (q t).z = s.z + (t : F) * v.z ∧ (q t).fake = false)
    (hv : mch.toFloat (v.x * v.x + v.y * v.y + v.z * v.z) ≤ tk.max_disp * tk.max_disp)
    (hcap : mch.toFloat (v.x * v.x + v.y * v.y + v.z * v.z) ≤ 1000000)
    (h0 : mch.toFloat 0 = 0) (k : Nat) (fr2 : Option (Frame F)) :
    linkStage mch tk ⟨[q (k + 1)]⟩ fr2 (lineState q k ((k + 1 : Nat) : Int))
      = Except.ok (lineState q (k + 1) ((k + 1 : Nat) : Int)) := by
  obtain ⟨c, hc⟩ := line_MakeLinks mch tk s v q hmode hq hv hcap h0 k ((k + 1 : Nat) : Int) fr2
  unfold linkStage
  have hn : (⟨[q (k + 1)]⟩ : Frame F).NumParticles = 1 := rfl
  have hact : (lineState q k ((k + 1 : Nat) : Int)).activelist = [0] := rfl
  rw [hn, hact, hc]
  rw [show List.range 1 = [0] from rfl]
  simp only [forEach, addLinked]
  have hl : ([0] : List Int).getD 0 UNLINKED ≠ UNLINKED := by decide
  rw [if_neg hl]
  have hfind : (lineState q k ((k + 1 : Nat) : Int)).tracks.find
      (([0] : List Int).getD 0 UNLINKED) = Except.ok (lineTrack q k) := by
    simp [TrackMap.find, lineState]
  rw [hfind]
  simp only
  congr 1
  simp only [lineState]
  congr 1
  funext id
  have hget : (⟨[q (k + 1)]⟩ : Frame F).pos.getD 0 default = q (k + 1) := rfl
  simp only [set_apply, hget]
  have hzero : ([0] : List Int).getD 0 UNLINKED = 0 := rfl
  rw [hzero]
  by_cases hid : id = 0
  · simp only [hid, if_true]
    rw [lineTrack_Add]
  · simp only [hid, if_false]

/-- The call of `PadTracks` leaves the state alone when the one track was just
added to. -/
theorem line_PadTracks (tk : Tracker F) (q : Nat → Position F)
    (hq : ∀ t, (q t).fake = false) (k : Nat) :
    PadTracks tk (lineState q k (k : Int)) = Except.ok (lineState q k (k : Int)) := by
  unfold PadTracks
  have hact : (lineState q k (k : Int)).activelist = [0] := rfl
  rw [hact]
  simp only [forEach, padOne]
  have hfind : (lineState q k (k : Int)).tracks.find 0 = Except.ok (lineTrack q k) := by
    simp [TrackMap.find, lineState]
  rw [hfind]
  simp only [lineTrack_Length q k hq]
  have hidx : ((k + 1 : Nat) : Int) - 1 = (k : Int) := by push_cast; ring
  rw [hidx, lineTrack_GetTime]
  simp only
  have hfn : (lineState q k (k : Int)).framenum = (k : Int) := rfl
  rw [hfn]
  simp only [if_true, forEach]
  rfl

end LineSteps
section LineTheorem

variable {F : Type} [LinearOrderedField F]

theorem line_initState (q : Nat → Position F) :
    initState (⟨[q 0]⟩ : Frame F) = lineState q 0 1 := by
  unfold initState lineState
  have hn : (⟨[q 0]⟩ : Frame F).NumParticles = 1 := rfl
  rw [hn, show List.range 1 = [0] from rfl]
  simp only [List.foldl_cons, List.foldl_nil, TState.fresh]
  rfl

theorem lineFrames_succ (q : Nat → Position F) (k m : Nat) :
    lineFrames q k (m + 1) = ⟨[q k]⟩ :: lineFrames q (k + 1) m := by
  simp [lineFrames, List.range'_succ]

/-- The loop over the frames in the line scenario, from frame `k` on. -/
theorem line_frameLoop (mch : Machine F) (tk : Tracker F) (s v : Position F)
    (q : Nat → Position F) (hmode : tk.mode = TrackMode.FRAME3)
    (hq : ∀ t, (q t).x = s.x + (t : F) * v.x ∧ (q t).y = s.y + (t : F) * v.y ∧
      (q t).z = s.z + (t : F) * v.z ∧ (q t).fake = false)
    (hv : mch.toFloat (v.x * v.x + v.y * v.y + v.z * v.z) ≤ tk.max_disp * tk.max_disp)
    (hcap : mch.toFloat (v.x * v.x + v.y * v.y + v.z * v.z) ≤ 1000000)
    (h0 : mch.toFloat 0 = 0) (m k : Nat) (last : Int) (hlast : last = ((k + m : Nat) : Int)) :
    (frameLoop mch tk last (lineFrames q k (m + 1)) (lineState q k ((k + 1 : Nat) : Int))).2
      = Except.ok (lineState q (k + m) ((k + m + 1 : Nat) : Int)) := by
  induction m generalizing k with
  | zero =>
    rw [lineFrames_succ]
    unfold frameLoop
    have hfn : (lineState q k ((k + 1 : Nat) : Int)).framenum - 1 = last := by
      rw [hlast]; simp only [lineState]; push_cast; ring
    rw [if_pos hfn]
    rfl
  | succ m ih =>
    rw [lineFrames_succ, lineFrames_succ]
    unfold frameLoop
    have hfn : ¬ ((lineState q k ((k + 1 : Nat) : Int)).framenum - 1 = last) := by
      rw [hlast]; simp only [lineState]; push_cast; omega
    rw [if_neg hfn]
    simp only
    have hnp : ¬ ((⟨[q (k + 1)]⟩ : Frame F).NumParticles ≤ 0) := by
      simp [Frame.NumParticles]
    rw [if_neg hnp]
    rw [line_linkStage mch tk s v q hmode hq hv hcap h0 k]
    simp only
    rw [line_PadTracks tk q (fun t => (hq t).2.2.2) (k + 1)]
    simp only
    have hst : ({ lineState q (k + 1) ((k + 1 : Nat) : Int) with
        framenum := (lineState q (k + 1) ((k + 1 : Nat) : Int)).framenum + 1 } : TState F)
        = lineState q (k + 1) ((k + 1 + 1 : Nat) : Int) := by
      simp only [lineState]
      congr 1
    rw [hst, ← lineFrames_succ]
    have := ih (k + 1) (by rw [hlast]; push_cast; ring)
    rw [this]
    congr 2
    · omega
    · push_cast; ring

theorem line_flush (q : Nat → Position F) (hq : ∀ t, (q t).fake = false) (k : Nat) (fn : Int)
    (hk : 9 ≤ k) :
    forEach flushOne (lineState q k fn).activelist (lineState q k fn)
      = Except.ok { lineState q k fn with
          written := [(0, lineTrack q k)], ntracks := 1,
          ntotalpoints := ((k + 1 : Nat) : Int) } := by
  have hact : (lineState q k fn).activelist = [0] := rfl
  rw [hact]
  simp only [forEach, flushOne]
  have hfind : (lineState q k fn).tracks.find 0 = Except.ok (lineTrack q k) := by
    simp [TrackMap.find, lineState]
  rw [hfind]
  simp only [lineTrack_Length q k hq]
  have hge : ((k + 1 : Nat) : Int) ≥ MINTRACK := by
    unfold MINTRACK; push_cast; omega
  rw [if_pos hge]
  simp [lineState]

/-- C20 (as amended). Straight-line tracking in mode `FRAME3`: for `n ≥ 10`
frames that hold one real particle each, at `s + t v` in frame `t`, when the
squared speed `|v|²`, converted to `float`, is at most `max_disp * max_disp`
and at most `1e6` (and the conversion of `0` is `0`), `MakeTracks` ends
normally and writes exactly one track; the track holds the `n` particles in
order with the times `0, ..., n - 1`, none of its positions is fake, its length
is `n` and `n` rows are written for it. -/
theorem C20_straight_line (mch : Machine F) (tk : Tracker F) (n : Nat) (s v : Position F)
    (q : Nat → Position F) (hmode : tk.mode = TrackMode.FRAME3) (hn : 10 ≤ n)
    (hq : ∀ t, (q t).x = s.x + (t : F) * v.x ∧ (q t).y = s.y + (t : F) * v.y ∧
      (q t).z = s.z + (t : F) * v.z ∧ (q t).fake = false)
    (hv : mch.toFloat (v.x * v.x + v.y * v.y + v.z * v.z) ≤ tk.max_disp * tk.max_disp)
    (hcap : mch.toFloat (v.x * v.x + v.y * v.y + v.z * v.z) ≤ 1000000)
    (h0 : mch.toFloat 0 = 0) :
    ∃ (st : TState F) (T : Track F),
      MakeTracks mch tk ((List.range n).map fun t => Frame.mk [q t]) = Except.ok st ∧
      st.written = [(0, T)] ∧
      T.pos = (List.range n).map q ∧
      T.time = (List.range n).map (fun (t : Nat) => (t : Int)) ∧
      (∀ p ∈ T.pos, p.fake = false) ∧
      T.Length = (n : Int) ∧
      (T.WriteGDF 0 tk.fps).length = n := by
  obtain ⟨m, rfl⟩ : ∃ m, n = m + 1 := ⟨n - 1, by omega⟩
  have hfake : ∀ t, (q t).fake = false := fun t => (hq t).2.2.2
  have hframes : ((List.range (m + 1)).map fun t => Frame.mk [q t]) = lineFrames q 0 (m + 1) := by
    simp [lineFrames, List.range_eq_range']
  have hloop := line_frameLoop mch tk s v q hmode hq hv hcap h0 m 0
    (lastIndex tk.mode (lineFrames q 0 (m + 1)).length) (by
      rw [hmode]
      simp [lastIndex, lineFrames])
  simp only [Nat.zero_add] at hloop
  refine ⟨{ lineState q m ((m + 1 : Nat) : Int) with
      written := [(0, lineTrack q m)], ntracks := 1,
      ntotalpoints := ((m + 1 : Nat) : Int) }, lineTrack q m, ?_, rfl, rfl, rfl, ?_, ?_, ?_⟩
  · rw [hframes]
    unfold MakeTracks
    rw [lineFrames_succ]
    simp only
    rw [← lineFrames_succ, line_initState]
    have h1 : ((0 + 1 : Nat) : Int) = 1 := rfl
    rw [h1] at hloop
    rw [hloop]
    simp only
    exact line_flush q hfake m _ (by omega)
  · intro p hp
    simp only [lineTrack, List.mem_map] at hp
    obtain ⟨t, _, rfl⟩ := hp
    exact hfake t
  · exact lineTrack_Length q m hfake
  · rw [WriteGDF_length, lineTrack_Length q m hfake]
    simp

end LineTheorem

section LineEvaluations

/-- Witness of C20 (as amended): `n = 20`, `v = (1, 0, 0)`, `max_disp = 2`,
`memory = 2`. -/
theorem C20_straight_line_witness :
    ∃ (st : TState ℚ) (T : Track ℚ),
      MakeTracks exactMachine tkLine ((List.range 20).map fun t => Frame.mk [qUnit t])
        = Except.ok st ∧
      st.written = [(0, T)] ∧
      T.pos = (List.range 20).map qUnit ∧
      T.time = (List.range 20).map (fun (t : Nat) => (t : Int)) ∧
      (∀ p ∈ T.pos, p.fake = false) ∧
      T.Length = ((20 : Nat) : Int) ∧
      (T.WriteGDF 0 tkLine.fps).length = 20 :=
  C20_straight_line exactMachine tkLine 20 (Position.mk3 0 0 0) (Position.mk3 1 0 0) qUnit
    rfl (by decide)
    (fun t => ⟨by simp [qUnit, Position.mk3], by simp [qUnit, Position.mk3],
      by simp [qUnit, Position.mk3], rfl⟩)
    (by decide!) (by decide!) rfl

/-- Counterexample to C20 as stated: ten frames with one particle each at
`x = 2000 t`, `max_disp = 2000`, so that `|v|² = max_disp²`.  Since the squared
speed exceeds `1e6`, the initial value of `mincost`, no link is ever made:
nothing is written, nine tracks are dropped as too short, and the run ends with
the track of the last frame alone. -/
theorem C20_counterexample :
    (writtenOf (MakeTracks exactMachine tkFast
      ((List.range 10).map fun t => Frame.mk [qFast t]))).length = 0 ∧
    (MakeTracks exactMachine tkFast
      ((List.range 10).map fun t => Frame.mk [qFast t])).toOption.map
        (fun st => (st.activelist, st.trackindex, st.too_short, st.ntracks))
      = some ([9], 10, 9, 0) ∧
    Distance (qFast 0) (qFast 1) ≤ tkFast.max_disp * tkFast.max_disp := by
  decide!

end LineEvaluations

section UnDistortTheorem

variable {F : Type} [LinearOrderedField F]

/-- C27 (as amended). `UnDistort` maps the pixel `(x, y)` to
`((x - Npixw/2) * wpix, (Npixh/2 - y) * hpix)` where `Npixw/2` and `Npixh/2`
are the truncating integer divisions of the source; it keeps `Z` and the
orientation, and its result does not depend on `kr` or `kx`.  For an even
dimension the integer half is the exact half, so the point at the exact centre
column maps to `X = 0`; for an odd non-negative width the point at the exact
centre column `Npixw / 2` maps to `X = wpix / 2`. -/
theorem C27_undistort (c : Camera F) (p : Position F) :
    (c.UnDistort p).x = (p.x - ((Int.tdiv c.Npixw 2 : Int) : F)) * c.wpix ∧
    (c.UnDistort p).y = (((Int.tdiv c.Npixh 2 : Int) : F) - p.y) * c.hpix ∧
    (c.UnDistort p).z = p.z ∧ (c.UnDistort p).ori = p.ori ∧
    (∀ kr kx : F, ({ c with kr := kr, kx := kx } : Camera F).UnDistort p = c.UnDistort p) ∧
    (c.Npixw % 2 = 0 → p.x = (c.Npixw : F) / 2 → (c.UnDistort p).x = 0) ∧
    (c.Npixh % 2 = 0 → p.y = (c.Npixh : F) / 2 → (c.UnDistort p).y = 0) ∧
    (0 ≤ c.Npixw → c.Npixw % 2 = 1 → p.x = (c.Npixw : F) / 2 →
      (c.UnDistort p).x = c.wpix / 2) := by
  have heven : ∀ n : Int, n % 2 = 0 → ((Int.tdiv n 2 : Int) : F) = (n : F) / 2 := by
    intro n hn
    obtain ⟨k, rfl⟩ : ∃ k, n = 2 * k := ⟨n / 2, by omega⟩
    rw [Int.mul_tdiv_cancel_left _ (by norm_num : (2 : Int) ≠ 0)]
    push_cast
    ring
  have hodd : ∀ n : Int, 0 ≤ n → n % 2 = 1 → ((Int.tdiv n 2 : Int) : F) = ((n : F) - 1) / 2 := by
    intro n h0 hn
    rw [Int.tdiv_eq_ediv h0 (by norm_num)]
    obtain ⟨k, rfl⟩ : ∃ k, n = 2 * k + 1 := ⟨n / 2, by omega⟩
    have : (2 * k + 1) / 2 = k := by omega
    rw [this]
    push_cast
    ring
  refine ⟨?_, ?_, ?_, rfl, fun _ _ => rfl, ?_, ?_, ?_⟩
  · simp [Camera.UnDistort, Position.mk4, Position.mulEq, fl_exact]
  · simp [Camera.UnDistort, Position.mk4, Position.mulEq, fl_exact]
    left; ring
  · simp [Camera.UnDistort, Position.mk4, Position.mulEq, fl_exact]
  · intro he hx
    simp only [Camera.UnDistort, Position.mk4, Position.mulEq, heven _ he, hx, fl_exact]
    ring
  · intro he hy
    simp only [Camera.UnDistort, Position.mk4, Position.mulEq, heven _ he, hy, fl_exact]
    ring
  · intro h0 ho hx
    simp only [Camera.UnDistort, Position.mk4, Position.mulEq, hodd _ h0 ho, hx, fl_exact]
    ring

end UnDistortTheorem

section UnDistortEvaluations

/-- Witness of C27 (as amended): the camera `camOdd` has 1281 columns; the point
at the exact centre column `1281 / 2` maps to `X = wpix / 2`. -/
theorem C27_undistort_witness :
    (camOdd.UnDistort (Position.mk4 (1281 / 2) (1023 / 2) 0 0)).x = camOdd.wpix / 2 :=
  (C27_undistort camOdd (Position.mk4 (1281 / 2) (1023 / 2) 0 0)).2.2.2.2.2.2.2
    (by decide) (by decide) (by decide!)

/-- Counterexample to C27 as stated: for the camera `camOdd` (1281 columns, 1023
rows, pixel pitch `1/50` by `1/40`) the point at the exact image centre
`(1281/2, 1023/2)` maps to `(1/100, -1/80)` and not to `(0, 0)`, the value of
`((x - Npixw/2) * wpix, (Npixh/2 - y) * hpix)` with the exact halves. -/
theorem C27_counterexample :
    (camOdd.UnDistort (Position.mk4 (1281 / 2) (1023 / 2) 0 0)).x = 1 / 100 ∧
    (camOdd.UnDistort (Position.mk4 (1281 / 2) (1023 / 2) 0 0)).y = -1 / 80 ∧
    ((1281 : ℚ) / 2 - ((camOdd.Npixw : Int) : ℚ) / 2) * camOdd.wpix = 0 ∧
    (((camOdd.Npixh : Int) : ℚ) / 2 - (1023 : ℚ) / 2) * camOdd.hpix = 0 := by
  decide!

end UnDistortEvaluations

section MainTheorems

/-- C28 (as amended). The test of `npredict` in `main` makes the program exit
(with status 1, before any tracking) exactly when `npredict > 2`; every other
value is accepted: 0 selects `FRAME2`, 2 selects `FRAME4`, and 1 as well as every
negative value selects `FRAME3`. -/
theorem C28_npredict (npredict : Int) :
    (mainMode npredict = Except.error 1 ↔ npredict > 2) ∧
    (npredict > 2 ∨ ∃ mode, mainMode npredict = Except.ok mode) ∧
    (mainMode 0 = Except.ok TrackMode.FRAME2) ∧
    (mainMode 1 = Except.ok TrackMode.FRAME3) ∧
    (mainMode 2 = Except.ok TrackMode.FRAME4) ∧
    (npredict < 0 → mainMode npredict = Except.ok TrackMode.FRAME3) := by
  refine ⟨?_, ?_, rfl, rfl, rfl, ?_⟩
  · unfold mainMode npredictExit
    by_cases h : npredict > 2
    · simp [h]
    · simp [h]
  · by_cases h : npredict > 2
    · exact Or.inl h
    · exact Or.inr ⟨trackMode npredict, by simp [mainMode, npredictExit, h]⟩
  · intro h
    have h1 : ¬ npredict > 2 := by omega
    have h2 : npredict ≠ 0 := by omega
    have h3 : npredict ≠ 1 := by omega
    have h4 : npredict ≠ 2 := by omega
    simp [mainMode, npredictExit, trackMode, h1, h2, h3, h4]

/-- Witness of C28 (as amended): `npredict = -3` is accepted and selects
`FRAME3`. -/
theorem C28_npredict_witness : mainMode (-3) = Except.ok TrackMode.FRAME3 :=
  (C28_npredict (-3)).2.2.2.2.2 (by decide)

/-- Counterexample to C28 as stated: `npredict = -1` is outside `{0, 1, 2}`,
yet the program does not exit: the tracker is constructed in mode `FRAME3`. -/
theorem C28_counterexample :
    npredictExit (-1) = none ∧ mainMode (-1) = Except.ok TrackMode.FRAME3 ∧
    (-1 : Int) ≠ 0 ∧ (-1 : Int) ≠ 1 ∧ (-1 : Int) ≠ 2 :=
  ⟨rfl, rfl, by decide, by decide, by decide⟩

end MainTheorems

section EstimateTheorems

variable {F : Type} [LinearOrderedField F]

theorem Track.Length_le (t : Track F) (hn : t.npoints = (t.pos.length : Int)) :
    t.Length ≤ (t.pos.length : Int) := by
  rw [Track.Length_eq t hn]
  omega

theorem Track.posAt_ok (t : Track F) (i : Int) (h0 : 0 ≤ i) (h1 : i < (t.pos.length : Int)) :
    ∃ p, t.posAt i = Except.ok p ∧ p ∈ t.pos := by
  unfold Track.posAt
  rw [if_pos h0]
  have hlt : i.toNat < t.pos.length := by omega
  rw [List.getElem?_eq_getElem hlt]
  exact ⟨_, rfl, List.getElem_mem hlt⟩

/-- C29. The position estimate of `MakeLinks` for a track as the tracker keeps
it (the member `npoints` is the number of stored positions, at least one
position is counted by `Length()`, and a track of length at most 2 has all its
stored positions counted, as `PTV.trace_Live` shows for the runs on real
positions).  The number of its points is the same whether counted by `Length()`,
as the source does, or as stored positions, as far as the cases one, two, and
three or more go.  With `L`, `P`, `A` the last, penultimate and antepenultimate
stored positions, the estimate is `L` in mode `FRAME2` or when the track has one
point, `L + (L - P)` when it has exactly two, and
`L + (L - P) + 0.5 * (L - 2 P + A)` when it has three or more. -/
theorem C29_link_estimate (mch : Machine F) (mode : TrackMode) (t : Track F)
    (hn : t.npoints = (t.pos.length : Int)) (hlen : 1 ≤ t.Length)
    (hshort : t.Length ≤ 2 → t.Length = (t.pos.length : Int)) :
    ∃ L est vel, t.Last = Except.ok L ∧
      estimateOf mch mode t = Except.ok (L, est, vel) ∧
      ((t.Length = 1 ↔ t.pos.length = 1) ∧ (t.Length = 2 ↔ t.pos.length = 2) ∧
        (3 ≤ t.Length ↔ 3 ≤ t.pos.length)) ∧
      ((t.Length = 1 ∨ mode = TrackMode.FRAME2) →
        est.x = L.x ∧ est.y = L.y ∧ est.z = L.z) ∧
      (t.Length = 2 → mode ≠ TrackMode.FRAME2 →
        ∃ P, t.Penultimate = Except.ok P ∧
          est.x = L.x + (L.x - P.x) ∧ est.y = L.y + (L.y - P.y) ∧
          est.z = L.z + (L.z - P.z)) ∧
      (3 ≤ t.Length → mode ≠ TrackMode.FRAME2 →
        ∃ P A, t.Penultimate = Except.ok P ∧ t.Antepenultimate = Except.ok A ∧
          est.x = L.x + (L.x - P.x) + 1 / 2 * (L.x - 2 * P.x + A.x) ∧
          est.y = L.y + (L.y - P.y) + 1 / 2 * (L.y - 2 * P.y + A.y) ∧
          est.z = L.z + (L.z - P.z) + 1 / 2 * (L.z - 2 * P.z + A.z)) := by
  have hle := Track.Length_le t hn
  have hcount : (t.Length = 1 ↔ t.pos.length = 1) ∧ (t.Length = 2 ↔ t.pos.length = 2) ∧
      (3 ≤ t.Length ↔ 3 ≤ t.pos.length) := by
    by_cases hs : t.Length ≤ 2
    · have := hshort hs
      refine ⟨?_, ?_, ?_⟩ <;> constructor <;> intro h <;> omega
    · refine ⟨?_, ?_, ?_⟩ <;> constructor <;> intro h <;> omega
  obtain ⟨L, hL, _⟩ := Track.posAt_ok t (t.npoints - 1) (by omega) (by omega)
  have hLast : t.Last = Except.ok L := hL
  by_cases h1 : t.Length = 1 ∨ mode = TrackMode.FRAME2
  · refine ⟨L, mch.uninit.assign L, mch.uninit, hLast, ?_, hcount,
      fun _ => ⟨rfl, rfl, rfl⟩, ?_, ?_⟩
    · unfold estimateOf
      rw [hLast]
      simp only [if_pos h1]
    · intro h2 hm
      rcases h1 with h1 | h1
      · omega
      · exact absurd h1 hm
    · intro h3 hm
      rcases h1 with h1 | h1
      · omega
      · exact absurd h1 hm
  · have hge : 2 ≤ t.Length := by
      by_contra hc
      exact h1 (Or.inl (by omega))
    obtain ⟨P, hP, _⟩ := Track.posAt_ok t (t.npoints - 2) (by omega) (by omega)
    have hPen : t.Penultimate = Except.ok P := hP
    by_cases h2 : t.Length > 2
    · obtain ⟨A, hA, _⟩ := Track.posAt_ok t (t.npoints - 3) (by omega) (by omega)
      have hAnte : t.Antepenultimate = Except.ok A := hA
      refine ⟨L, mch.uninit.assign ((L.add (mch.uninit.assign (L.sub P))).add
          (Position.smulL (1 / 2) ((L.sub (Position.smulL 2 P)).add A))),
        mch.uninit.assign (L.sub P), hLast, ?_, hcount, fun h => absurd h h1,
        fun h _ => by omega, ?_⟩
      · unfold estimateOf
        rw [hLast]
        simp only [if_neg h1, hPen, if_pos h2, hAnte]
      · intro _ _
        refine ⟨P, A, hPen, hAnte, ?_, ?_, ?_⟩ <;>
          simp only [Position.assign, Position.add, Position.sub, Position.smulL, Position.mk3]
    · refine ⟨L, mch.uninit.assign (L.add (mch.uninit.assign (L.sub P))),
        mch.uninit.assign (L.sub P), hLast, ?_, hcount, fun h => absurd h h1, ?_,
        fun h _ => by omega⟩
      · unfold estimateOf
        rw [hLast]
        simp only [if_neg h1, hPen, if_neg h2]
      · intro _ _
        refine ⟨P, hPen, ?_, ?_, ?_⟩ <;>
          simp only [Position.assign, Position.add, Position.sub, Position.mk3]

/-- The fake position that `PadTracks` appends (lines 236-252) to a track that
was not added to in this frame, whose occlusion counter is below `memory` and
whose length exceeds 2, with last, penultimate and antepenultimate stored
positions `L`, `P`, `A`: it is `L + (L - P) + 0.25 * (L - 2 P + A)` when the
squared distance of that point to `L` is at most `max_disp * max_disp`, and `L`
otherwise.  (The acceleration of `PadTracks` is `0.5 * (L - 2 P + A)` and enters
the estimate with another factor `0.5`.) -/
theorem padOne_estimate (tk : Tracker F) (acc : PadAcc F) (tr : Int) (t : Track F) (tm : Int)
    (L P A : Position F) (ht : acc.st.tracks tr = some t)
    (htm : t.GetTime (t.Length - 1) = Except.ok tm) (hne : tm ≠ acc.st.framenum)
    (hocc : t.OcclusionCount < tk.memory) (hlen : 2 < t.Length)
    (hL : t.Last = Except.ok L) (hP : t.Penultimate = Except.ok P)
    (hA : t.Antepenultimate = Except.ok A) :
    ∃ e : Position F,
      padOne tk acc tr = Except.ok { acc with
        st := { acc.st with
          tracks := acc.st.tracks.set tr ((t.Add e acc.st.framenum).Occluded) },
        stillactive := acc.stillactive ++ [tr] } ∧
      e.fake = true ∧
      (Distance (Position.mk3 (L.x + (L.x - P.x) + 1 / 4 * (L.x - 2 * P.x + A.x))
          (L.y + (L.y - P.y) + 1 / 4 * (L.y - 2 * P.y + A.y))
          (L.z + (L.z - P.z) + 1 / 4 * (L.z - 2 * P.z + A.z))) L
            ≤ tk.max_disp * tk.max_disp →
        e.x = L.x + (L.x - P.x) + 1 / 4 * (L.x - 2 * P.x + A.x) ∧
        e.y = L.y + (L.y - P.y) + 1 / 4 * (L.y - 2 * P.y + A.y) ∧
        e.z = L.z + (L.z - P.z) + 1 / 4 * (L.z - 2 * P.z + A.z)) ∧
      (tk.max_disp * tk.max_disp
          < Distance (Position.mk3 (L.x + (L.x - P.x) + 1 / 4 * (L.x - 2 * P.x + A.x))
          (L.y + (L.y - P.y) + 1 / 4 * (L.y - 2 * P.y + A.y))
          (L.z + (L.z - P.z) + 1 / 4 * (L.z - 2 * P.z + A.z))) L →
        e.x = L.x ∧ e.y = L.y ∧ e.z = L.z) := by
  have hx : ((L.add (L.sub P)).add (Position.smulL (1 / 2)
      (Position.smulL (1 / 2) ((L.sub (Position.smulL 2 P)).add A)))).x
      = L.x + (L.x - P.x) + 1 / 4 * (L.x - 2 * P.x + A.x) := by
    simp only [Position.add, Position.sub, Position.smulL, Position.mk3]; ring
  have hy : ((L.add (L.sub P)).add (Position.smulL (1 / 2)
      (Position.smulL (1 / 2) ((L.sub (Position.smulL 2 P)).add A)))).y
      = L.y + (L.y - P.y) + 1 / 4 * (L.y - 2 * P.y + A.y) := by
    simp only [Position.add, Position.sub, Position.smulL, Position.mk3]; ring
  have hz : ((L.add (L.sub P)).add (Position.smulL (1 / 2)
      (Position.smulL (1 / 2) ((L.sub (Position.smulL 2 P)).add A)))).z
      = L.z + (L.z - P.z) + 1 / 4 * (L.z - 2 * P.z + A.z) := by
    simp only [Position.add, Position.sub, Position.smulL, Position.mk3]; ring
  have hd : Distance ((L.add (L.sub P)).add (Position.smulL (1 / 2)
      (Position.smulL (1 / 2) ((L.sub (Position.smulL 2 P)).add A)))) L
      = Distance (Position.mk3 (L.x + (L.x - P.x) + 1 / 4 * (L.x - 2 * P.x + A.x))
          (L.y + (L.y - P.y) + 1 / 4 * (L.y - 2 * P.y + A.y))
          (L.z + (L.z - P.z) + 1 / 4 * (L.z - 2 * P.z + A.z))) L := by
    unfold Distance
    rw [hx, hy, hz]
    rfl
  refine ⟨padEstimate tk L P A, ?_, rfl, ?_, ?_⟩
  · unfold padOne
    rw [(find_ok_iff _ _ _).2 ht]
    simp only [htm, if_neg hne]
    have h1 : ¬ (t.OcclusionCount ≥ tk.memory) := not_le.2 hocc
    have h2 : ¬ (t.Length ≤ 2) := not_le.2 hlen
    simp only [if_neg h1, if_neg h2, hL, hP, hA]
  · intro hle
    have hnot : ¬ (Distance ((L.add (L.sub P)).add (Position.smulL (1 / 2)
        (Position.smulL (1 / 2) ((L.sub (Position.smulL 2 P)).add A)))) L
          > tk.max_disp * tk.max_disp) := by
      rw [hd]; exact not_lt.2 hle
    unfold padEstimate
    simp only [if_neg hnot, Position.SetFake]
    exact ⟨hx, hy, hz⟩
  · intro hgt
    have hpos : Distance ((L.add (L.sub P)).add (Position.smulL (1 / 2)
        (Position.smulL (1 / 2) ((L.sub (Position.smulL 2 P)).add A)))) L
          > tk.max_disp * tk.max_disp := by
      rw [hd]; exact hgt
    unfold padEstimate
    simp only [if_pos hpos, Position.SetFake, Position.assign, and_self]

end EstimateTheorems

section EstimateEvaluations

/-- Witness of C29: in mode `FRAME3` the estimate for the track `trackAcc`
(positions `x = 0, 2, 6`) is at `x = 6 + 4 + 0.5 * 2 = 11`. -/
theorem C29_link_estimate_witness :
    ∃ L est vel, trackAcc.Last = Except.ok L ∧
      estimateOf exactMachine TrackMode.FRAME3 trackAcc = Except.ok (L, est, vel) ∧
      L.x = 6 ∧
      (∃ P A, trackAcc.Penultimate = Except.ok P ∧ trackAcc.Antepenultimate = Except.ok A ∧
        P.x = 2 ∧ A.x = 0 ∧
        est.x = L.x + (L.x - P.x) + 1 / 2 * (L.x - 2 * P.x + A.x)) := by
  obtain ⟨L, est, vel, h1, h2, _, _, _, h5⟩ :=
    C29_link_estimate exactMachine TrackMode.FRAME3 trackAcc rfl (by decide) (by decide)
  obtain ⟨P, A, h6, h7, h8, _, _⟩ := h5 (by decide) (by decide)
  have e1 : L = Position.mk3 6 0 0 := Except.ok.inj (h1.symm.trans rfl)
  have e2 : P = Position.mk3 2 0 0 := Except.ok.inj (h6.symm.trans rfl)
  have e3 : A = Position.mk3 0 0 0 := Except.ok.inj (h7.symm.trans rfl)
  exact ⟨L, est, vel, h1, h2, by rw [e1]; rfl, P, A, h6, h7, by rw [e2]; rfl,
    by rw [e3]; rfl, h8⟩

/-- C30 at a failing input.  On `padFrames` (one particle at `x = 0, 2, 6`,
then an empty frame), in mode `FRAME3` with `max_disp = 6` and `memory = 1`,
the track has `L = 6`, `P = 2`, `A = 0` when frame 3 is padded.  The estimate
that `MakeLinks` makes for this track is `L + (L - P) + 0.5 * (L - 2 P + A)`,
at `x = 11`, at squared distance `25 ≤ 36` of `L`; the fake position that
`PadTracks` appends to it is at `x = 21/2`, which is
`L + (L - P) + 0.25 * (L - 2 P + A)`: the last state of the run holds the track
with the positions `x = 0, 2, 6, 21/2`, the last one fake. -/
theorem C30_pad_estimate_at_failing_input :
    trackAcc.pos.map (fun p => (p.x, p.y, p.z, p.fake))
      = [(0, 0, 0, false), (2, 0, 0, false), (6, 0, 0, false)] ∧
    (estimateOf exactMachine TrackMode.FRAME3 trackAcc).toOption.map
        (fun r => (r.2.1.x, r.2.1.y, r.2.1.z)) = some (11, 0, 0) ∧
    (6 : ℚ) + (6 - 2) + 1 / 2 * (6 - 2 * 2 + 0) = 11 ∧
    Distance (Position.mk3 (11 : ℚ) 0 0) (Position.mk3 6 0 0)
      ≤ tkPad.max_disp * tkPad.max_disp ∧
    ((MakeTracksTrace exactMachine tkPad padFrames).getLast?.bind fun st => st.tracks 0).map
        (fun t => t.pos.map fun p => (p.x, p.y, p.z, p.fake))
      = some [(0, 0, 0, false), (2, 0, 0, false), (6, 0, 0, false), (21 / 2, 0, 0, true)] ∧
    (6 : ℚ) + (6 - 2) + 1 / 4 * (6 - 2 * 2 + 0) = 21 / 2 ∧
    (21 / 2 : ℚ) ≠ 11 := by
  decide!

end EstimateEvaluations

section OutputTheorems

variable {F : Type} [LinearOrderedField F]

theorem rdropWhile_append_rtakeWhile {α : Type} (p : α → Bool) (l : List α) :
    l.rdropWhile p ++ l.rtakeWhile p = l := by
  unfold List.rdropWhile List.rtakeWhile
  rw [← List.reverse_append, List.takeWhile_append_dropWhile, List.reverse_reverse]

/-- C22 (as amended). `Track::WriteGDF` writes one record for each of the first
`Length()` positions and none for the trailing run of fake positions: the number
of records is the number of stored positions less the length of that run; the
record with index `k` is that of position `k`; every stored position without a
record is fake, and the last record is that of a real position.  The number of
records equals the number of stored positions exactly when the track does not
end in a fake position. -/
theorem C22_written_rows (t : Track F) (index fps : F)
    (hn : t.npoints = (t.pos.length : Int)) :
    (t.WriteGDF index fps).length = t.Length.toNat ∧
    (t.WriteGDF index fps).length
      = t.pos.length - (t.pos.rtakeWhile fun p => p.fake).length ∧
    (∀ k, k < (t.WriteGDF index fps).length →
      (t.WriteGDF index fps)[k]? = some (t.gdfRow index fps k)) ∧
    (∀ k, (t.WriteGDF index fps).length ≤ k → ∀ p, t.pos[k]? = some p → p.fake = true) ∧
    (∀ k, k + 1 = (t.WriteGDF index fps).length → ∀ p, t.pos[k]? = some p → p.fake = false) ∧
    ((t.WriteGDF index fps).length = t.pos.length ↔
      (t.pos.rtakeWhile fun p => p.fake) = []) := by
  have hlen := WriteGDF_length t index fps
  have hsplit := rdropWhile_append_rtakeWhile (fun p : Position F => p.fake) t.pos
  have htot : (t.pos.rdropWhile fun p => p.fake).length
      + (t.pos.rtakeWhile fun p => p.fake).length = t.pos.length := by
    rw [← List.length_append, hsplit]
  have hrows : (t.WriteGDF index fps).length = (t.pos.rdropWhile fun p => p.fake).length := by
    rw [hlen, Track.Length_eq t hn]
    omega
  refine ⟨hlen, by omega, ?_, ?_, ?_, ?_⟩
  · intro k hk
    rw [hlen] at hk
    simp [Track.WriteGDF, hk]
  · intro k hk p hp
    rw [hrows] at hk
    rw [← hsplit, List.getElem?_append_right hk] at hp
    have hmem := List.getElem?_mem hp
    exact List.mem_rtakeWhile_imp hmem
  · intro k hk p hp
    rw [hrows] at hk
    have hne : (t.pos.rdropWhile fun p => p.fake) ≠ [] := by
      intro hc
      rw [hc] at hk
      simp at hk
    have hlast := List.rdropWhile_last_not (fun p : Position F => p.fake) t.pos hne
    have hk2 : k < (t.pos.rdropWhile fun p => p.fake).length := by omega
    rw [← hsplit, List.getElem?_append_left hk2] at hp
    have hget : (t.pos.rdropWhile fun p => p.fake).getLast hne = p := by
      rw [List.getLast_eq_getElem]
      have hidx : (t.pos.rdropWhile fun p => p.fake).length - 1 = k := by omega
      rw [List.getElem?_eq_getElem hk2] at hp
      simp only [hidx]
      exact Option.some.inj hp
    rw [hget] at hlast
    simpa using hlast
  · rw [hrows]
    constructor
    · intro h
      have : (t.pos.rtakeWhile fun p => p.fake).length = 0 := by omega
      exact List.length_eq_zero.1 this
    · intro h
      rw [h] at htot
      simpa using htot

end OutputTheorems

section OutputEvaluations

/-- Witness of C22 (as amended): the track `trackTrail` holds four positions, the
last two fake; two records are written for it. -/
theorem C22_written_rows_witness :
    trackTrail.pos.length = 4 ∧ (trackTrail.WriteGDF 0 1).length = 2 ∧
    (trackTrail.WriteGDF 0 1).length
      = trackTrail.pos.length - (trackTrail.pos.rtakeWhile fun p => p.fake).length :=
  ⟨rfl, by decide, (C22_written_rows trackTrail 0 1 rfl).2.1⟩

/-- Counterexample to C22 as stated: on `trailFrames` (ten frames with one
particle at rest, then an empty frame; mode `FRAME3`, `memory = 1`) one track is
written.  It holds 11 stored positions, the last one fake; its length is 10 and
10 records are written for it. -/
theorem C22_counterexample :
    (writtenOf (MakeTracks exactMachine tkGap trailFrames)).map
        (fun w => (w.2.pos.length, w.2.pos.map (fun p => p.fake), w.2.Length,
          (w.2.WriteGDF (w.1 : ℚ) tkGap.fps).length))
      = [(11, [false, false, false, false, false, false, false, false, false, false, true],
          10, 10)] := by
  decide!

end OutputEvaluations

section ThrowTheorems

variable {F : Type} [LinearOrderedField F] [Arith F]

theorem matchFullChecked_eq (sqrt : F → F) (cal : Calibration F) (corr : List (Frame F))
    (tm : List Nat) :
    matchFullChecked sqrt cal corr tm = Except.ok (matchFull sqrt cal corr tm) := by
  have hlen : (PosToMatch cal corr tm).length = cal.cams.length := by
    simp [PosToMatch, Calibration.ncams]
  unfold matchFullChecked WorldPosition
  rw [if_neg (by simp [hlen])]
  rfl

theorem matchDegradedChecked_eq (sqrt : F → F) (cal : Calibration F) (corr : List (Frame F))
    (mcam : Nat) (tm : List Nat) :
    matchDegradedChecked sqrt cal corr mcam tm
      = Except.ok (matchDegraded sqrt cal corr mcam tm) := by
  unfold matchDegradedChecked WorldPosition
  rw [if_neg (by omega)]

/-- C24. `Stereomatch` throws `runtime_error` exactly when the number of frames
supplied differs from the number of cameras; then nothing is returned and no
record is written (the test is the first statement).  When the numbers agree
the call returns: the only other `throw` it can reach, the guard of
`WorldPosition`, does not fire, since the full pass passes one position per
camera and the degraded passes set the member `mcam`. -/
theorem C24_stereomatch_throws (sqrt : F → F) (cal : Calibration F) (iframes : List (Frame F))
    (framenumber : Int) :
    (Stereomatch sqrt cal iframes framenumber = Except.error StereoError.runtime_error
      ↔ iframes.length ≠ cal.cams.length) ∧
    (iframes.length ≠ cal.cams.length →
      rowsOf (Stereomatch sqrt cal iframes framenumber) = [] ∧
      ∀ r, Stereomatch sqrt cal iframes framenumber ≠ Except.ok r) ∧
    (iframes.length = cal.cams.length →
      ∃ r, Stereomatch sqrt cal iframes framenumber = Except.ok r) ∧
    (∀ corr tm, matchFullChecked sqrt cal corr tm = Except.ok (matchFull sqrt cal corr tm)) ∧
    (∀ corr mcam tm, matchDegradedChecked sqrt cal corr mcam tm
      = Except.ok (matchDegraded sqrt cal corr mcam tm)) := by
  refine ⟨?_, ?_, ?_, matchFullChecked_eq sqrt cal, matchDegradedChecked_eq sqrt cal⟩
  · unfold Stereomatch
    by_cases h : iframes.length ≠ cal.cams.length
    · rw [if_pos h]
      exact ⟨fun _ => h, fun _ => rfl⟩
    · simp only [if_neg h, h]
      constructor
      · intro hc; exact Except.noConfusion hc
      · intro hc; exact absurd hc (by simp)
  · intro h
    unfold Stereomatch
    rw [if_pos h]
    exact ⟨rfl, fun r hc => Except.noConfusion hc⟩
  · intro h
    unfold Stereomatch
    rw [if_neg (by simpa using h)]
    exact ⟨_, rfl⟩

end ThrowTheorems

section ThrowEvaluations

/-- Witness of C24: three frames for the four cameras of `calAxis`. -/
theorem C24_stereomatch_throws_witness :
    framesThree.length ≠ calAxis.cams.length ∧
    Stereomatch sqrtQ calAxis framesThree 0 = Except.error StereoError.runtime_error ∧
    rowsOf (Stereomatch sqrtQ calAxis framesThree 0) = [] :=
  ⟨by decide,
    (C24_stereomatch_throws sqrtQ calAxis framesThree 0).1.2 (by decide),
    ((C24_stereomatch_throws sqrtQ calAxis framesThree 0).2.1 (by decide)).1⟩

end ThrowEvaluations

section ResidualTheorems

variable {F : Type} [LinearOrderedField F] [Arith F]

theorem WorldPositionBody_info (sqrt : F → F) (cal : Calibration F) (mcam : Int)
    (ipos : List (Position F)) :
    (WorldPositionBody sqrt cal mcam ipos).2.info = (WorldPositionBody sqrt cal mcam ipos).1 :=
  rfl

/-- C26 (as amended). Every world point of the frame returned by `Stereomatch`
is the position returned by `WorldPosition` for some tuple; the residual of that
triangulation, which the point carries in its field `info`, is strictly below
`mindist_3D * mindist_3D`.  It is below `mindist_3D` itself when
`0 ≤ mindist_3D ≤ 1`. -/
theorem C26_residual_below (sqrt : F → F) (cal : Calibration F) (iframes : List (Frame F))
    (framenumber : Int) (r : StereoResult F)
    (h : Stereomatch sqrt cal iframes framenumber = Except.ok r) :
    ∀ p ∈ r.frame.pos, ∃ (mcam : Int) (ipos : List (Position F)) (res : F),
      WorldPosition sqrt cal mcam ipos = Except.ok (res, p) ∧ p.info = res ∧
        res < cal.mindist_3D * cal.mindist_3D ∧
        (0 ≤ cal.mindist_3D → cal.mindist_3D ≤ 1 → res < cal.mindist_3D) := by
  have hsq : ∀ res : F, res < cal.mindist_3D * cal.mindist_3D →
      0 ≤ cal.mindist_3D → cal.mindist_3D ≤ 1 → res < cal.mindist_3D := by
    intro res hres h0 h1
    have : cal.mindist_3D * cal.mindist_3D ≤ cal.mindist_3D * 1 :=
      mul_le_mul_of_nonneg_left h1 h0
    rw [mul_one] at this
    exact lt_of_lt_of_le hres this
  unfold Stereomatch at h
  split at h
  · cases h
  · simp only [Except.ok.injEq] at h
    subst h
    intro p hp
    simp only [List.mem_append, List.mem_map] at hp
    rcases hp with ⟨m, hm, rfl⟩ | ⟨e, he, rfl⟩
    · have hm' := mem_of_mem_keepGood _ _ _ hm
      obtain ⟨tm, htm⟩ := mem_matchedPos sqrt cal _ m hm'
      obtain ⟨ipos, hlen, hpos, hray, hlt, _⟩ := mem_matchFull sqrt cal _ tm m htm
      refine ⟨-1, ipos, m.raydist, ?_, ?_, hlt, hsq _ hlt⟩
      · unfold WorldPosition
        rw [if_neg (by simp [hlen]), hpos, hray]
      · rw [hpos, hray, WorldPositionBody_info]
    · obtain ⟨hmem, _⟩ := mem_emittedDegraded sqrt cal iframes e he
      obtain ⟨mcam, _, hk⟩ := mem_goodPos3 sqrt cal _ _ e.1 hmem
      have hm' := mem_of_mem_keepGood _ _ _ hk
      obtain ⟨tm, htm⟩ := mem_matchedPos3 sqrt cal _ _ mcam e.1 hm'
      obtain ⟨⟨ipos, hpos, hray⟩, hlt, _, _⟩ := mem_matchDegraded sqrt cal _ mcam tm e.1 htm
      refine ⟨(mcam : Int), ipos, e.1.raydist, ?_, ?_, hlt, hsq _ hlt⟩
      · unfold WorldPosition
        rw [if_neg (by omega), hpos, hray]
      · rw [hpos, hray, WorldPositionBody_info]

end ResidualTheorems

section ResidualEvaluations

/-- The scene `framesPlane` seen by the cameras `calWide` is regular. -/
theorem scene_wide_regular : okScene calWide framesPlane = true := by
  decide!

/-- Witness of C26 (as amended) on the scene `framesPlane` with the cameras
`calPlane`, where `mindist_3D = 1`: two world points are returned, with the
residuals `0` and `1419625/9288042`. -/
theorem C26_residual_below_witness :
    ∃ r : StereoResult ℚ, Stereomatch sqrtQ calPlane framesPlane 0 = Except.ok r ∧
      r.frame.pos.map (fun p => p.info) = [0, 1419625 / 9288042] ∧
      ∀ p ∈ r.frame.pos, ∃ (mcam : Int) (ipos : List (Position ℚ)) (res : ℚ),
        WorldPosition sqrtQ calPlane mcam ipos = Except.ok (res, p) ∧ p.info = res ∧
          res < calPlane.mindist_3D * calPlane.mindist_3D ∧
          (0 ≤ calPlane.mindist_3D → calPlane.mindist_3D ≤ 1 → res < calPlane.mindist_3D) := by
  have h : Stereomatch sqrtQ calPlane framesPlane 0
      = Except.ok
        { frame := Frame.mk ((goodFull sqrtQ calPlane framesPlane).map (fun m => m.pos)
            ++ (emittedDegraded sqrtQ calPlane framesPlane).map (fun e => e.1.pos)),
          rows := (goodFull sqrtQ calPlane framesPlane).map
              (fun m => row calPlane 0 m m.raydist)
            ++ (emittedDegraded sqrtQ calPlane framesPlane).map
              (fun e => row calPlane 0 e.1 e.2) } :=
    if_neg (by decide)
  exact ⟨_, h, by decide!, C26_residual_below sqrtQ calPlane framesPlane 0 _ h⟩

/-- Counterexample to C26 as stated: with the cameras `calWide`, whose
`mindist_3D` is 2, the scene `framesPlane` gives two world points; the second
one has the residual `11357000/4644021`, which is below `mindist_3D² = 4` but
not below `mindist_3D = 2`, and that residual is written in its row. -/
theorem C26_counterexample :
    (goodFull sqrtQ calWide framesPlane).map (fun m => (m.pos.info, m.raydist))
      = [(0, 0), (11357000 / 4644021, 11357000 / 4644021)] ∧
    (emittedDegraded sqrtQ calWide framesPlane).length = 0 ∧
    (rowsOf (Stereomatch sqrtQ calWide framesPlane 0)).map (fun rw => rw.getD 4 0)
      = [0, 11357000 / 4644021] ∧
    calWide.mindist_3D ≤ (11357000 : ℚ) / 4644021 ∧
    (11357000 : ℚ) / 4644021 < calWide.mindist_3D * calWide.mindist_3D := by
  decide!

end ResidualEvaluations

section MissingFrame

variable {F : Type} [LinearOrderedField F] [Arith F]

theorem corrframes_empty (cal : Calibration F) (iframes : List (Frame F)) (e : Nat)
    (h : (iframes.getD e default).pos = []) :
    ((corrframes cal iframes).getD e default).NumParticles = 0 := by
  unfold corrframes
  rw [List.getD_eq_getElem?_getD, List.getElem?_zipWith]
  rw [List.getD_eq_getElem?_getD] at h
  cases hc : cal.cams[e]? with
  | none => rfl
  | some c =>
    cases hf : iframes[e]? with
    | none => rfl
    | some f =>
      rw [hf] at h
      simp only [Option.getD_some] at h
      simp [Frame.NumParticles, h]

theorem plist_toward_empty (sqrt : F → F) (cal : Calibration F) (corr : List (Frame F))
    (i a e : Nat) (hi : i < cal.ncams) (ha : a < (corr.getD i default).NumParticles)
    (he : e < cal.ncams) (hempty : (corr.getD e default).NumParticles = 0) :
    plist (pairlists sqrt cal corr) i a e = [] := by
  rw [plist_pairlists sqrt cal corr i a e hi ha he]
  unfold pairlistEntry
  split
  · rfl
  · split
    · rfl
    · simp only
      rw [hempty]
      rfl

theorem matchedPos_nil_of_empty (sqrt : F → F) (cal : Calibration F) (corr : List (Frame F))
    (e : Nat) (he : e < cal.ncams) (hempty : (corr.getD e default).NumParticles = 0) :
    matchedPos sqrt cal corr = [] := by
  apply matchedPos_nil_of_missing
  intro p0 hp0
  by_cases h0 : e = 0
  · rw [h0] at hempty
    omega
  · exact ⟨e, by omega, he,
      plist_toward_empty sqrt cal corr 0 p0 e (by omega) hp0 he hempty⟩

theorem matchedPos3_nil_of_empty (sqrt : F → F) (cal : Calibration F) (corr : List (Frame F))
    (good : List (Match F)) (mcam e : Nat) (hne : mcam ≠ e) (he : e < cal.ncams)
    (hempty : (corr.getD e default).NumParticles = 0) :
    matchedPos3 sqrt cal corr good mcam = [] := by
  cases hf : (List.range cal.ncams).filter fun icam => !(icam == mcam) with
  | nil =>
    unfold matchedPos3
    simp only [hf]
  | cons icam rest =>
    apply matchedPos3_nil_of_missing sqrt cal corr good mcam icam rest hf
    intro picam hp
    have hic : icam ∈ (List.range cal.ncams).filter fun icam => !(icam == mcam) := by
      rw [hf]; exact List.mem_cons_self _ _
    have hlt : icam < cal.ncams := List.mem_range.1 (List.mem_of_mem_filter hic)
    by_cases hie : icam = e
    · rw [hie] at hp
      omega
    · exact ⟨e, he, fun h => hne h.symm, fun h => hie h.symm,
        plist_toward_empty sqrt cal corr icam picam e hlt hp he hempty⟩

/-- C25 (as amended). When the 2D frame of camera `e` is empty, the full pass of
`Stereomatch` produces nothing, and every world point that is emitted comes from
the degraded pass that skips camera `e`.  When the frames of two cameras are
empty nothing is emitted at all: the returned frame is empty and no record is
written. -/
theorem C25_missing_frame (sqrt : F → F) (cal : Calibration F) (iframes : List (Frame F))
    (framenumber : Int) (e : Nat) (he : e < cal.ncams)
    (hempty : (iframes.getD e default).pos = []) :
    goodFull sqrt cal iframes = [] ∧
    (∀ m ∈ emittedDegraded sqrt cal iframes, m.1.mcam = (e : Int)) ∧
    (∀ e2, e2 < cal.ncams → e2 ≠ e → (iframes.getD e2 default).pos = [] →
      emittedDegraded sqrt cal iframes = [] ∧
      (iframes.length = cal.cams.length →
        Stereomatch sqrt cal iframes framenumber
          = Except.ok { frame := Frame.mk [], rows := [] })) := by
  have hfrom : ∀ e1, e1 < cal.ncams → (iframes.getD e1 default).pos = [] →
      ∀ m ∈ emittedDegraded sqrt cal iframes, m.1.mcam = (e1 : Int) := by
    intro e1 he1 hemp m hm
    have hc := corrframes_empty cal iframes e1 hemp
    obtain ⟨hmem, _⟩ := mem_emittedDegraded sqrt cal iframes m hm
    obtain ⟨mcam, _, hk⟩ := mem_goodPos3 sqrt cal _ _ m.1 hmem
    have hm' := mem_of_mem_keepGood _ _ _ hk
    by_cases hme : mcam = e1
    · obtain ⟨tm, htm⟩ := mem_matchedPos3 sqrt cal _ _ mcam m.1 hm'
      rw [← hme]
      exact (mem_matchDegraded sqrt cal _ mcam tm m.1 htm).2.2.1
    · rw [matchedPos3_nil_of_empty sqrt cal _ _ mcam e1 hme he1 hc] at hm'
      simp at hm'
  have hfull : goodFull sqrt cal iframes = [] := by
    unfold goodFull
    simp only
    rw [matchedPos_nil_of_empty sqrt cal _ e he (corrframes_empty cal iframes e hempty)]
    rfl
  refine ⟨hfull, hfrom e he hempty, ?_⟩
  intro e2 he2 hne hemp2
  have hnil : emittedDegraded sqrt cal iframes = [] := by
    apply List.eq_nil_iff_forall_not_mem.2
    intro m hm
    have h1 := hfrom e he hempty m hm
    have h2 := hfrom e2 he2 hemp2 m hm
    rw [h1] at h2
    exact hne (by exact_mod_cast h2.symm)
  refine ⟨hnil, ?_⟩
  intro hlen
  unfold Stereomatch
  rw [if_neg (by simpa using hlen)]
  simp only [hfull, hnil, List.map_nil, List.append_nil]

end MissingFrame

section MissingFrameEvaluations

/-- Witness of C25 (as amended) on the scene `framesFallback`, in which the
frame of camera 2 is empty. -/
theorem C25_missing_frame_witness :
    goodFull sqrtQ calAxis framesFallback = [] ∧
    ∀ m ∈ emittedDegraded sqrtQ calAxis framesFallback, m.1.mcam = ((2 : Nat) : Int) :=
  ⟨(C25_missing_frame sqrtQ calAxis framesFallback 0 2 (by decide) rfl).1,
    (C25_missing_frame sqrtQ calAxis framesFallback 0 2 (by decide) rfl).2.1⟩

/-- Counterexample to C25 as stated: in the scene `framesFallback` the frame of
camera 2 is empty, yet `Stereomatch` returns one world point, `(36/5, -48/5, 0)`,
found by the pass that skips camera 2, and writes one record for it. -/
theorem C25_counterexample :
    (framesFallback.getD 2 default).pos = [] ∧
    (Stereomatch sqrtQ calAxis framesFallback 0).toOption.map
        (fun r => r.frame.pos.map fun p => (p.x, p.y, p.z))
      = some [(36 / 5, -48 / 5, 0)] ∧
    (rowsOf (Stereomatch sqrtQ calAxis framesFallback 0)).length = 1 ∧
    (emittedDegraded sqrtQ calAxis framesFallback).map (fun e => e.1.mcam) = [2] := by
  decide!

end MissingFrameEvaluations

section TotalityLemmas

variable {F : Type} [LinearOrderedField F]

/-- A loop whose body returns normally and keeps an invariant of the processed
prefix returns normally. -/
theorem forEach_total {σ ι : Type} (step : σ → ι → Except TrackerError σ) (L : List ι)
    (Inv : List ι → σ → Prop)
    (hstep : ∀ done x rest s, L = done ++ x :: rest → Inv done s →
      ∃ s1, step s x = Except.ok s1 ∧ Inv (done ++ [x]) s1)
    (xs done : List ι) (s : σ) (hL : L = done ++ xs) (h0 : Inv done s) :
    ∃ s1, forEach step xs s = Except.ok s1 ∧ Inv L s1 := by
  induction xs generalizing done s with
  | nil =>
    refine ⟨s, rfl, ?_⟩
    rw [hL, List.append_nil]
    exact h0
  | cons x rest ih =>
    obtain ⟨s2, hs2, hinv⟩ := hstep done x rest s hL h0
    obtain ⟨s1, hs1, hfin⟩ := ih (done ++ [x]) s2 (by simpa using hL) hinv
    refine ⟨s1, ?_, hfin⟩
    simp only [forEach, hs2]
    exact hs1

theorem Track.Length_single (p : Position F) (m : Int) (hp : p.fake = false) :
    (Track.single p m).Length = 1 := by
  simp [Track.Length, Track.single, Track.adjustLoop, Position.IsFake, hp]

theorem Track.Length_Add_real (t : Track F) (p : Position F) (m : Int) (hwf : t.WF)
    (hp : p.fake = false) : (t.Add p m).Length = (t.pos.length : Int) + 1 := by
  rw [Track.Length_eq _ (Track.WF_Add t hwf p m).1]
  simp only [Track.Add]
  rw [List.rtakeWhile_concat_neg _ _ _ (by simp [hp])]
  simp

theorem Track.Length_Add_fake (t : Track F) (p : Position F) (m : Int) (hwf : t.WF)
    (hp : p.fake = true) : (t.Add p m).Length = t.Length := by
  rw [Track.Length_eq _ (Track.WF_Add t hwf p m).1, Track.Length_eq t hwf.1]
  simp only [Track.Add]
  rw [List.rtakeWhile_concat_pos _ _ _ (by simp [hp])]
  simp only [List.length_append, List.length_singleton]
  push_cast
  ring

theorem Track.Usable_single (p : Position F) (m : Int) (hp : p.fake = false) :
    (Track.single p m).Usable :=
  ⟨Track.WF_single p m, by rw [Track.Length_single p m hp],
    fun _ => by rw [Track.Length_single p m hp]; rfl⟩

theorem Track.Usable_Add_real (t : Track F) (p : Position F) (m : Int) (h : t.Usable)
    (hp : p.fake = false) : ((t.Add p m).ResetCounter).Usable := by
  have hl : ((t.Add p m).ResetCounter).Length = (t.pos.length : Int) + 1 :=
    Track.Length_Add_real t p m h.1 hp
  refine ⟨Track.WF_ResetCounter _ (Track.WF_Add t h.1 p m), ?_, ?_⟩
  · rw [hl]; omega
  · intro _
    rw [hl]
    simp [Track.Add, Track.ResetCounter]

theorem Track.Usable_Add_fake (t : Track F) (p : Position F) (m : Int) (h : t.Usable)
    (hp : p.fake = true) (hlong : 2 < t.Length) : ((t.Add p m).Occluded).Usable := by
  have hl : ((t.Add p m).Occluded).Length = t.Length :=
    Track.Length_Add_fake t p m h.1 hp
  refine ⟨Track.WF_Occluded _ (Track.WF_Add t h.1 p m), ?_, ?_⟩
  · rw [hl]; exact h.2.1
  · intro hc
    rw [hl] at hc
    omega

theorem padEstimate_fake (tk : Tracker F) (last pen ante : Position F) :
    (padEstimate tk last pen ante).fake = true := rfl

/-- The estimate of `MakeLinks` is defined for every usable track. -/
theorem estimateOf_ok (mch : Machine F) (mode : TrackMode) (t : Track F) (h : t.Usable) :
    ∃ r, estimateOf mch mode t = Except.ok r := by
  obtain ⟨⟨hn, _⟩, hlen, _⟩ := h
  have hle := Track.Length_le t hn
  obtain ⟨L, hL, _⟩ := Track.posAt_ok t (t.npoints - 1) (by omega) (by omega)
  have hLast : t.Last = Except.ok L := hL
  unfold estimateOf
  rw [hLast]
  simp only
  split
  · exact ⟨_, rfl⟩
  · rename_i h1
    have hge : 2 ≤ t.Length := by
      by_contra hc
      exact h1 (Or.inl (by omega))
    obtain ⟨P, hP, _⟩ := Track.posAt_ok t (t.npoints - 2) (by omega) (by omega)
    have hPen : t.Penultimate = Except.ok P := hP
    rw [hPen]
    simp only
    split
    · rename_i h2
      obtain ⟨A, hA, _⟩ := Track.posAt_ok t (t.npoints - 3) (by omega) (by omega)
      have hAnte : t.Antepenultimate = Except.ok A := hA
      rw [hAnte]
      exact ⟨_, rfl⟩
    · exact ⟨_, rfl⟩

theorem trackCost_ok (mch : Machine F) (tk : Tracker F) (tracks : TrackMap F) (fr1 : Frame F)
    (fr2 : Option (Frame F)) (tr : Int) (t : Track F) (ht : tracks tr = some t)
    (hu : t.Usable) (h4 : tk.mode = TrackMode.FRAME4 → fr2.isSome = true) :
    ∃ c, trackCost mch tk tracks fr1 fr2 tr = Except.ok c := by
  obtain ⟨r, hr⟩ := estimateOf_ok mch tk.mode t hu
  unfold trackCost
  rw [(find_ok_iff _ _ _).2 ht]
  simp only [hr]
  split
  · rename_i hm
    cases hf : fr2 with
    | none =>
      have := h4 hm
      rw [hf] at this
      exact absurd this (by simp)
    | some f2 => exact ⟨_, rfl⟩
  · exact ⟨_, rfl⟩

theorem linkLoop_ok (mch : Machine F) (tk : Tracker F) (tracks : TrackMap F) (fr1 : Frame F)
    (fr2 : Option (Frame F)) (A : List Int)
    (h : ∀ tr ∈ A, ∃ c, trackCost mch tk tracks fr1 fr2 tr = Except.ok c)
    (cl : List F × List Int) :
    ∃ r, linkLoop mch tk tracks fr1 fr2 A cl = Except.ok r := by
  induction A generalizing cl with
  | nil => exact ⟨cl, rfl⟩
  | cons tr rest ih =>
    obtain ⟨c, hc⟩ := h tr (List.mem_cons_self _ _)
    simp only [linkLoop, hc]
    exact ih (fun t ht => h t (List.mem_cons_of_mem _ ht)) _

end TotalityLemmas

section TotalityStages

variable {F : Type} [LinearOrderedField F]

/-- The loop of lines 134-147 returns normally on a live state when every link
is a track of the active list, and the state it returns is live. -/
theorem addLoop_Live (fr1 : Frame F) (links : List Int) (st : TState F) (hlive : st.Live)
    (hreal : ∀ p ∈ fr1.pos, p.fake = false)
    (hlinks : ∀ c, c < fr1.NumParticles → links.getD c UNLINKED ≠ UNLINKED →
      links.getD c UNLINKED ∈ st.activelist) :
    ∃ st1, forEach (addLinked fr1 links) (List.range fr1.NumParticles) st = Except.ok st1 ∧
      st1.Live := by
  have hfe := forEach_total (addLinked fr1 links) (List.range fr1.NumParticles)
    (fun _ s => s.Live ∧ ∀ id ∈ st.activelist, id ∈ s.activelist) ?_
    (List.range fr1.NumParticles) [] st rfl ⟨hlive, fun _ h => h⟩
  · obtain ⟨st1, h1, h2⟩ := hfe
    exact ⟨st1, h1, h2.1⟩
  intro done x rest s hsplit hs
  obtain ⟨hl, hsub⟩ := hs
  obtain ⟨_, hxn⟩ := range_split _ _ _ _ hsplit
  have hp : (fr1.pos.getD x default).fake = false :=
    hreal _ (getD_mem_of_lt _ _ _ hxn)
  unfold addLinked
  by_cases hu : links.getD x UNLINKED = UNLINKED
  · rw [if_pos hu]
    refine ⟨_, rfl, ⟨?_, ?_⟩, ?_⟩
    · intro id hid2
      simp only [List.mem_append, List.mem_singleton] at hid2
      simp only [set_apply]
      by_cases he : id = s.trackindex
      · rw [if_pos he]; exact ⟨_, rfl⟩
      · rw [if_neg he]
        rcases hid2 with hid2 | hid2
        · exact hl.1 id hid2
        · exact absurd hid2 he
    · intro id t ht
      simp only [set_apply] at ht
      split at ht
      · rw [← Option.some.inj ht]
        exact Track.Usable_single _ _ hp
      · exact hl.2 id t ht
    · intro id hid2
      simp only [List.mem_append, List.mem_singleton]
      exact Or.inl (hsub id hid2)
  · rw [if_neg hu]
    have hmem := hlinks x hxn hu
    obtain ⟨t, ht⟩ := hl.1 _ (hsub _ hmem)
    rw [(find_ok_iff _ _ _).2 ht]
    refine ⟨_, rfl, ⟨?_, ?_⟩, hsub⟩
    · intro id hid2
      simp only [set_apply]
      split
      · exact ⟨_, rfl⟩
      · exact hl.1 id hid2
    · intro id t2 ht2
      simp only [set_apply] at ht2
      split at ht2
      · rw [← Option.some.inj ht2]
        exact Track.Usable_Add_real t _ _ (hl.2 _ t ht) hp
      · exact hl.2 id t2 ht2

/-- The links made by `MakeLinks` are tracks of the active list. -/
theorem MakeLinks_active (mch : Machine F) (tk : Tracker F) (fr1 : Frame F)
    (fr2 : Option (Frame F)) (st : TState F) (hok : st.IdsOK) (cl : List F × List Int)
    (hcl : MakeLinks mch tk st.tracks st.activelist fr1 fr2
      (List.replicate fr1.NumParticles 0) (List.replicate fr1.NumParticles UNLINKED)
      = Except.ok cl) :
    ∀ c, c < fr1.NumParticles → cl.2.getD c UNLINKED ≠ UNLINKED →
      cl.2.getD c UNLINKED ∈ st.activelist := by
  have hid : ∀ tr ∈ st.activelist, tr ≠ UNLINKED := by
    intro tr htr
    have := (hok.2.2.1 tr htr).1
    unfold UNLINKED
    omega
  have hinv := MakeLinks_inv mch tk st.tracks st.activelist fr1 fr2 _ cl hid (by simp) hcl
  intro c hc hu
  exact (LinkInv_linked _ _ _ _ hinv c hc hu).1

/-- The linking stage returns normally on a live state. -/
theorem linkStage_ok (mch : Machine F) (tk : Tracker F) (fr1 : Frame F)
    (fr2 : Option (Frame F)) (st : TState F) (hlive : st.Live) (hok : st.IdsOK)
    (hreal : ∀ p ∈ fr1.pos, p.fake = false)
    (h4 : tk.mode = TrackMode.FRAME4 → fr2.isSome = true) :
    ∃ st1, linkStage mch tk fr1 fr2 st = Except.ok st1 ∧ st1.Live := by
  have hcost : ∀ tr ∈ st.activelist,
      ∃ c, trackCost mch tk st.tracks fr1 fr2 tr = Except.ok c := by
    intro tr htr
    obtain ⟨t, ht⟩ := hlive.1 tr htr
    exact trackCost_ok mch tk st.tracks fr1 fr2 tr t ht (hlive.2 tr t ht) h4
  obtain ⟨cl, hcl⟩ := linkLoop_ok mch tk st.tracks fr1 fr2 st.activelist hcost
    (List.replicate fr1.NumParticles 0, List.replicate fr1.NumParticles UNLINKED)
  have hcl2 : MakeLinks mch tk st.tracks st.activelist fr1 fr2
      (List.replicate fr1.NumParticles 0) (List.replicate fr1.NumParticles UNLINKED)
      = Except.ok cl := hcl
  obtain ⟨st1, h1, h2⟩ := addLoop_Live fr1 cl.2 st hlive hreal
    (MakeLinks_active mch tk fr1 fr2 st hok cl hcl2)
  refine ⟨st1, ?_, h2⟩
  unfold linkStage
  rw [hcl2]
  exact h1

/-- The state returned by the linking stage on a live state is live. -/
theorem linkStage_Live (mch : Machine F) (tk : Tracker F) (fr1 : Frame F)
    (fr2 : Option (Frame F)) (st st1 : TState F) (hlive : st.Live) (hok : st.IdsOK)
    (hreal : ∀ p ∈ fr1.pos, p.fake = false)
    (h : linkStage mch tk fr1 fr2 st = Except.ok st1) : st1.Live := by
  unfold linkStage at h
  split at h
  · exact Except.noConfusion h
  · rename_i cl hcl
    obtain ⟨s1, h1, h2⟩ := addLoop_Live fr1 cl.2 st hlive hreal
      (MakeLinks_active mch tk fr1 fr2 st hok cl hcl)
    rw [h1] at h
    rw [← Except.ok.inj h]
    exact h2

end TotalityStages

section TotalityPad

variable {F : Type} [LinearOrderedField F]

theorem Track.GetTime_ok (t : Track F) (h : t.Usable) :
    ∃ tm, t.GetTime (t.Length - 1) = Except.ok tm := by
  obtain ⟨⟨hn, ht⟩, hlen, _⟩ := h
  have hle := Track.Length_le t hn
  unfold Track.GetTime
  rw [if_pos (by omega)]
  have hlt : (t.Length - 1).toNat < t.time.length := by omega
  rw [List.getElem?_eq_getElem hlt]
  exact ⟨_, rfl⟩

/-- The first loop of `PadTracks` returns normally on a live state. -/
theorem padLoop_ok (tk : Tracker F) (st : TState F) (hlive : st.Live)
    (hnd : st.activelist.Nodup) :
    ∃ acc, forEach (padOne tk) st.activelist { st := st, writelist := [], stillactive := [] }
        = Except.ok acc ∧
      (∀ id t, acc.st.tracks id = some t → t.Usable) ∧
      (∀ id ∈ acc.stillactive, ∃ t, acc.st.tracks id = some t) ∧
      (∀ id ∈ acc.writelist, (∃ t, acc.st.tracks id = some t) ∧ id ∉ acc.stillactive) ∧
      acc.writelist.Nodup := by
  have hfe := forEach_total (padOne tk) st.activelist
    (fun done acc =>
      (∀ id t, acc.st.tracks id = some t → t.Usable) ∧
      (∀ id ∈ st.activelist, id ∉ done → ∃ t, acc.st.tracks id = some t) ∧
      (∀ id ∈ acc.stillactive, id ∈ done ∧ ∃ t, acc.st.tracks id = some t) ∧
      (∀ id ∈ acc.writelist, id ∈ done ∧ (∃ t, acc.st.tracks id = some t) ∧
        id ∉ acc.stillactive) ∧
      acc.writelist.Nodup)
    ?_ st.activelist [] { st := st, writelist := [], stillactive := [] } rfl
    ⟨hlive.2, fun id hid _ => hlive.1 id hid, by simp, by simp, List.nodup_nil⟩
  · obtain ⟨acc, h1, i1, _, i3, i4, i5⟩ := hfe
    exact ⟨acc, h1, i1, fun id hid => (i3 id hid).2,
      fun id hid => ⟨(i4 id hid).2.1, (i4 id hid).2.2⟩, i5⟩
  intro done x rest acc hsplit hinv
  obtain ⟨i1, i2, i3, i4, i5⟩ := hinv
  have hx : x ∉ done := not_mem_done _ _ _ _ hnd hsplit
  have hxa : x ∈ st.activelist := mem_of_split _ _ _ _ hsplit
  obtain ⟨t, ht⟩ := i2 x hxa hx
  have hu := i1 x t ht
  obtain ⟨tm, htm⟩ := Track.GetTime_ok t hu
  have hxs : x ∉ acc.stillactive := fun hc => hx (i3 x hc).1
  have hxw : x ∉ acc.writelist := fun hc => hx (i4 x hc).1
  -- the two ways the lists and the map change
  have keepS : ∀ m2 : TrackMap F, (∀ j, j ≠ x → m2 j = acc.st.tracks j) →
      (∀ id ∈ acc.stillactive, id ∈ done ++ [x] ∧ ∃ t, m2 id = some t) ∧
      (∀ id ∈ acc.writelist, id ∈ done ++ [x] ∧ (∃ t, m2 id = some t)) ∧
      (∀ id ∈ st.activelist, id ∉ done ++ [x] → ∃ t, m2 id = some t) := by
    intro m2 hm
    refine ⟨?_, ?_, ?_⟩
    · intro id hid
      have hne : id ≠ x := fun hc => hxs (hc ▸ hid)
      rw [hm id hne]
      exact ⟨by simp [(i3 id hid).1], (i3 id hid).2⟩
    · intro id hid
      have hne : id ≠ x := fun hc => hxw (hc ▸ hid)
      rw [hm id hne]
      exact ⟨by simp [(i4 id hid).1], (i4 id hid).2.1⟩
    · intro id hid hnot
      simp only [List.mem_append, List.mem_singleton, not_or] at hnot
      rw [hm id hnot.2]
      exact i2 id hid hnot.1
  unfold padOne
  rw [(find_ok_iff _ _ _).2 ht]
  simp only [htm]
  by_cases c1 : tm = acc.st.framenum
  · rw [if_pos c1]
    obtain ⟨k1, k2, k3⟩ := keepS acc.st.tracks (fun _ _ => rfl)
    refine ⟨_, rfl, i1, k3, ?_, ?_, i5⟩
    · intro id hid
      simp only [List.mem_append, List.mem_singleton] at hid
      rcases hid with hid | rfl
      · exact k1 id hid
      · exact ⟨by simp, t, ht⟩
    · intro id hid
      refine ⟨(k2 id hid).1, (k2 id hid).2, ?_⟩
      simp only [List.mem_append, List.mem_singleton, not_or]
      exact ⟨(i4 id hid).2.2, fun hc => hxw (hc ▸ hid)⟩
  · rw [if_neg c1]
    have eraseCase : ∃ s1, (Except.ok { acc with
          st := { acc.st with tracks := acc.st.tracks.erase x,
                              too_short := acc.st.too_short + 1 } } :
          Except TrackerError (PadAcc F)) = Except.ok s1 ∧
        (∀ id t, s1.st.tracks id = some t → t.Usable) ∧
        (∀ id ∈ st.activelist, id ∉ done ++ [x] → ∃ t, s1.st.tracks id = some t) ∧
        (∀ id ∈ s1.stillactive, id ∈ done ++ [x] ∧ ∃ t, s1.st.tracks id = some t) ∧
        (∀ id ∈ s1.writelist, id ∈ done ++ [x] ∧ (∃ t, s1.st.tracks id = some t) ∧
          id ∉ s1.stillactive) ∧
        s1.writelist.Nodup := by
      obtain ⟨k1, k2, k3⟩ := keepS (acc.st.tracks.erase x)
        (fun j hj => by simp only [erase_apply, if_neg hj])
      refine ⟨_, rfl, ?_, k3, k1, ?_, i5⟩
      · intro id t2 ht2
        simp only [erase_apply] at ht2
        split at ht2
        · exact Option.noConfusion ht2
        · exact i1 id t2 ht2
      · intro id hid
        exact ⟨(k2 id hid).1, (k2 id hid).2, (i4 id hid).2.2⟩
    by_cases c2 : t.OcclusionCount ≥ tk.memory
    · rw [if_pos c2]
      by_cases c3 : t.Length < MINTRACK
      · rw [if_pos c3]
        exact eraseCase
      · rw [if_neg c3]
        obtain ⟨k1, k2, k3⟩ := keepS acc.st.tracks (fun _ _ => rfl)
        refine ⟨_, rfl, i1, k3, k1, ?_, ?_⟩
        · intro id hid
          simp only [List.mem_append, List.mem_singleton] at hid
          rcases hid with hid | rfl
          · exact ⟨(k2 id hid).1, (k2 id hid).2, (i4 id hid).2.2⟩
          · exact ⟨by simp, ⟨t, ht⟩, hxs⟩
        · simp only
          rw [List.nodup_append]
          refine ⟨i5, List.nodup_singleton _, ?_⟩
          intro a ha hb
          simp only [List.mem_singleton] at hb
          exact hxw (hb ▸ ha)
    · rw [if_neg c2]
      by_cases c3 : t.Length ≤ 2
      · rw [if_pos c3]
        exact eraseCase
      · rw [if_neg c3]
        have hle := Track.Length_le t hu.1.1
        have hnp := hu.1.1
        obtain ⟨L, hL, _⟩ := Track.posAt_ok t (t.npoints - 1) (by omega) (by omega)
        obtain ⟨P, hP, _⟩ := Track.posAt_ok t (t.npoints - 2) (by omega) (by omega)
        obtain ⟨A, hA, _⟩ := Track.posAt_ok t (t.npoints - 3) (by omega) (by omega)
        have hLast : t.Last = Except.ok L := hL
        have hPen : t.Penultimate = Except.ok P := hP
        have hAnte : t.Antepenultimate = Except.ok A := hA
        simp only [hLast, hPen, hAnte]
        obtain ⟨k1, k2, k3⟩ := keepS
          (acc.st.tracks.set x ((t.Add (padEstimate tk L P A) acc.st.framenum).Occluded))
          (fun j hj => by simp only [set_apply, if_neg hj])
        refine ⟨_, rfl, ?_, k3, ?_, ?_, i5⟩
        · intro id t2 ht2
          simp only [set_apply] at ht2
          split at ht2
          · rw [← Option.some.inj ht2]
            exact Track.Usable_Add_fake t _ _ hu (padEstimate_fake tk L P A) (by omega)
          · exact i1 id t2 ht2
        · intro id hid
          simp only [List.mem_append, List.mem_singleton] at hid
          rcases hid with hid | rfl
          · exact k1 id hid
          · refine ⟨by simp, ?_⟩
            simp only [set_apply, if_true]
            exact ⟨_, rfl⟩
        · intro id hid
          refine ⟨(k2 id hid).1, (k2 id hid).2, ?_⟩
          simp only [List.mem_append, List.mem_singleton, not_or]
          exact ⟨(i4 id hid).2.2, fun hc => hxw (hc ▸ hid)⟩

/-- The member function `PadTracks` returns normally on a live state, and the
state it returns is live. -/
theorem PadTracks_ok (tk : Tracker F) (st : TState F) (hlive : st.Live)
    (hnd : st.activelist.Nodup) :
    ∃ st1, PadTracks tk st = Except.ok st1 ∧ st1.Live := by
  obtain ⟨acc, hacc, a1, a3, a4, a5⟩ := padLoop_ok tk st hlive hnd
  have hfe := forEach_total writeOne acc.writelist
    (fun done s =>
      (∀ id t, s.tracks id = some t → t.Usable) ∧
      (∀ id ∈ acc.writelist, id ∉ done → ∃ t, s.tracks id = some t) ∧
      (∀ id ∈ acc.stillactive, ∃ t, s.tracks id = some t))
    ?_ acc.writelist [] acc.st rfl ⟨a1, fun id hid _ => (a4 id hid).1, a3⟩
  · obtain ⟨s1, h1, j1, _, j3⟩ := hfe
    refine ⟨{ s1 with activelist := acc.stillactive }, ?_, j3, j1⟩
    unfold PadTracks
    simp only [hacc, h1]
  intro done x rest s hsplit hinv
  obtain ⟨j1, j2, j3⟩ := hinv
  have hx : x ∉ done := not_mem_done _ _ _ _ a5 hsplit
  have hxw : x ∈ acc.writelist := mem_of_split _ _ _ _ hsplit
  obtain ⟨t, ht⟩ := j2 x hxw hx
  unfold writeOne
  rw [(find_ok_iff _ _ _).2 ht]
  refine ⟨_, rfl, ?_, ?_, ?_⟩
  · intro id t2 ht2
    simp only [erase_apply] at ht2
    split at ht2
    · exact Option.noConfusion ht2
    · exact j1 id t2 ht2
  · intro id hid hnot
    simp only [List.mem_append, List.mem_singleton, not_or] at hnot
    simp only [erase_apply, if_neg hnot.2]
    exact j2 id hid hnot.1
  · intro id hid
    have hne : id ≠ x := fun hc => (a4 x hxw).2 (hc ▸ hid)
    simp only [erase_apply, if_neg hne]
    exact j3 id hid

/-- The state returned by `PadTracks` on a live state is live. -/
theorem PadTracks_Live (tk : Tracker F) (st st1 : TState F) (hlive : st.Live)
    (hnd : st.activelist.Nodup) (h : PadTracks tk st = Except.ok st1) : st1.Live := by
  obtain ⟨s1, h1, h2⟩ := PadTracks_ok tk st hlive hnd
  rw [h1] at h
  rw [← Except.ok.inj h]
  exact h2

/-- The final loop of `MakeTracks` returns normally on a live state. -/
theorem flush_ok (st : TState F) (hlive : st.Live) :
    ∃ st1, forEach flushOne st.activelist st = Except.ok st1 := by
  have hfe := forEach_total flushOne st.activelist
    (fun _ s => s.tracks = st.tracks) ?_ st.activelist [] st rfl rfl
  · obtain ⟨s1, h1, _⟩ := hfe
    exact ⟨s1, h1⟩
  intro done x rest s hsplit hinv
  obtain ⟨t, ht⟩ := hlive.1 x (mem_of_split _ _ _ _ hsplit)
  unfold flushOne
  rw [hinv, (find_ok_iff _ _ _).2 ht]
  simp only
  split
  · exact ⟨_, rfl, rfl⟩
  · exact ⟨_, rfl, hinv⟩

end TotalityPad

section TotalityLoop

variable {F : Type} [LinearOrderedField F]

theorem initState_Live (f0 : Frame F) (hreal : ∀ p ∈ f0.pos, p.fake = false) :
    (initState f0).Live := by
  obtain ⟨h1, _, _, _, h5⟩ := initState_fields f0
  have hin := foldl_inv
    (fun (st : TState F) (i : Nat) =>
      { st with
        tracks := st.tracks.set (i : Int) (Track.single (f0.pos.getD i default) 0),
        activelist := st.activelist ++ [(i : Int)],
        trackindex := st.trackindex + 1 })
    (List.range f0.NumParticles)
    (fun done s => ∀ i ∈ done, ∃ t, s.tracks (i : Int) = some t)
    ?_ (List.range f0.NumParticles) [] TState.fresh rfl (by simp)
  · constructor
    · intro id hid
      rw [h1] at hid
      obtain ⟨i, hi, rfl⟩ := List.mem_map.1 hid
      exact hin i hi
    · intro id t ht
      obtain ⟨i, hi, rfl⟩ := h5 id t ht
      exact Track.Usable_single _ _ (hreal _ (getD_mem_of_lt _ _ _ hi))
  intro done x rest s _ hs i hi
  simp only [List.mem_append, List.mem_singleton] at hi
  simp only [set_apply]
  split
  · exact ⟨_, rfl⟩
  · rcases hi with hi | rfl
    · exact hs i hi
    · rename_i hc
      exact absurd rfl hc

/-- The loop of `MakeTracks` over the frames, started on a live state at a frame
index not beyond `last` (and, in mode `FRAME4`, with a frame after the one that
`last` is followed by): it returns normally when `last` is the index of one of
the frames, and it ends by reading the frame after the last one when `last` is
beyond them. -/
theorem frameLoop_result (mch : Machine F) (tk : Tracker F) (last : Int) (fs : List (Frame F))
    (st : TState F) (hreal : ∀ fr ∈ fs, ∀ p ∈ fr.pos, p.fake = false) (hok : st.IdsOK)
    (hlive : st.Live) (hne : fs ≠ []) (h1 : st.framenum - 1 ≤ last)
    (h4 : tk.mode = TrackMode.FRAME4 → last + 1 < st.framenum - 1 + (fs.length : Int)) :
    (last < st.framenum - 1 + (fs.length : Int) →
      ∃ r, (frameLoop mch tk last fs st).2 = Except.ok r ∧ r.Live) ∧
    (st.framenum - 1 + (fs.length : Int) ≤ last →
      (frameLoop mch tk last fs st).2 = Except.error TrackerError.undefined) := by
  induction fs generalizing st with
  | nil => exact absurd rfl hne
  | cons fr0 rest ih =>
    have hrest : ∀ fr ∈ rest, ∀ p ∈ fr.pos, p.fake = false :=
      fun fr hfr => hreal fr (List.mem_cons_of_mem _ hfr)
    by_cases he : st.framenum - 1 = last
    · constructor
      · intro _
        refine ⟨st, ?_, hlive⟩
        unfold frameLoop
        rw [if_pos he]
      · intro hc
        simp only [List.length_cons] at hc
        push_cast at hc
        omega
    · cases rest with
      | nil =>
        constructor
        · intro hc
          simp only [List.length_cons, List.length_nil] at hc
          push_cast at hc
          omega
        · intro _
          unfold frameLoop
          rw [if_neg he]
      | cons fr1 rest2 =>
        have hfr1 : ∀ p ∈ fr1.pos, p.fake = false := hreal fr1 (by simp)
        have next : ∀ s1 st2 : TState F, s1.IdsOK → s1.framenum = st.framenum →
            PadTracks tk s1 = Except.ok st2 → st2.Live →
            (last < st.framenum - 1 + ((fr0 :: fr1 :: rest2).length : Int) →
              ∃ r, (frameLoop mch tk last (fr1 :: rest2)
                { st2 with framenum := st2.framenum + 1 }).2 = Except.ok r ∧ r.Live) ∧
            (st.framenum - 1 + ((fr0 :: fr1 :: rest2).length : Int) ≤ last →
              (frameLoop mch tk last (fr1 :: rest2)
                { st2 with framenum := st2.framenum + 1 }).2
                = Except.error TrackerError.undefined) := by
          intro s1 st2 hs1 hfn hpad hl2
          obtain ⟨hid2, hfn2⟩ := PadTracks_IdsOK tk s1 st2 hs1 hpad
          have hid3 : ({ st2 with framenum := st2.framenum + 1 } : TState F).IdsOK := hid2
          have hl3 : ({ st2 with framenum := st2.framenum + 1 } : TState F).Live := hl2
          have hfn3 : ({ st2 with framenum := st2.framenum + 1 } : TState F).framenum
              = st.framenum + 1 := by
            show st2.framenum + 1 = st.framenum + 1
            rw [hfn2, hfn]
          have := ih ({ st2 with framenum := st2.framenum + 1 }) hrest hid3 hl3 (by simp)
            (by rw [hfn3]; omega)
            (by
              intro hm
              have := h4 hm
              rw [hfn3]
              simp only [List.length_cons] at this ⊢
              push_cast at this ⊢
              omega)
          rw [hfn3] at this
          simp only [List.length_cons] at this ⊢
          push_cast at this ⊢
          constructor
          · intro hc
            exact this.1 (by omega)
          · intro hc
            exact this.2 (by omega)
        by_cases hnp : fr1.NumParticles ≤ 0
        · obtain ⟨st2, hpad, hl2⟩ := PadTracks_ok tk st hlive hok.1
          obtain ⟨n1, n2⟩ := next st st2 hok rfl hpad hl2
          have hfl : (frameLoop mch tk last (fr0 :: fr1 :: rest2) st).2
              = (frameLoop mch tk last (fr1 :: rest2)
                  { st2 with framenum := st2.framenum + 1 }).2 := by
            conv_lhs => unfold frameLoop
            rw [if_neg he]
            simp only [if_pos hnp, hpad]
          rw [hfl]
          exact ⟨n1, n2⟩
        · have hfour : tk.mode = TrackMode.FRAME4 → rest2.head?.isSome = true := by
            intro hm
            have := h4 hm
            simp only [List.length_cons] at this
            push_cast at this
            cases rest2 with
            | nil =>
              simp only [List.length_nil] at this
              push_cast at this
              omega
            | cons a b => rfl
          obtain ⟨st1, hlink, hl1⟩ := linkStage_ok mch tk fr1 rest2.head? st hlive hok hfr1 hfour
          obtain ⟨hid1, hfn1⟩ := linkStage_IdsOK mch tk fr1 _ st st1 hok hlink
          obtain ⟨st2, hpad, hl2⟩ := PadTracks_ok tk st1 hl1 hid1.1
          obtain ⟨n1, n2⟩ := next st1 st2 hid1 hfn1 hpad hl2
          have hfl : (frameLoop mch tk last (fr0 :: fr1 :: rest2) st).2
              = (frameLoop mch tk last (fr1 :: rest2)
                  { st2 with framenum := st2.framenum + 1 }).2 := by
            conv_lhs => unfold frameLoop
            rw [if_neg he]
            simp only [if_neg hnp, hlink, hpad]
          rw [hfl]
          exact ⟨n1, n2⟩

/-- Every state that the loop over the frames visits from a live state is
live. -/
theorem frameLoop_Live (mch : Machine F) (tk : Tracker F) (last : Int) (fs : List (Frame F))
    (st : TState F) (hreal : ∀ fr ∈ fs, ∀ p ∈ fr.pos, p.fake = false) (hok : st.IdsOK)
    (hlive : st.Live) :
    ∀ s ∈ (frameLoop mch tk last fs st).1, s.Live := by
  induction fs generalizing st with
  | nil => simp [frameLoop]
  | cons fr0 rest ih =>
    have hrest : ∀ fr ∈ rest, ∀ p ∈ fr.pos, p.fake = false :=
      fun fr hfr => hreal fr (List.mem_cons_of_mem _ hfr)
    unfold frameLoop
    split
    · simp
    · split
      · simp
      · rename_i fr1 rest2
        have hfr1 : ∀ p ∈ fr1.pos, p.fake = false := hreal fr1 (by simp)
        split
        · split
          · simp
          · rename_i st2 hst2
            have hl2 := PadTracks_Live tk st st2 hlive hok.1 hst2
            have hid2 := (PadTracks_IdsOK tk st st2 hok hst2).1
            have hid3 : ({ st2 with framenum := st2.framenum + 1 } : TState F).IdsOK := hid2
            have hl3 : ({ st2 with framenum := st2.framenum + 1 } : TState F).Live := hl2
            intro s hs
            simp only [List.mem_cons] at hs
            rcases hs with rfl | hs
            · exact hl2
            · exact ih _ hrest hid3 hl3 s hs
        · split
          · simp
          · rename_i st1 hst1
            have hl1 := linkStage_Live mch tk fr1 _ st st1 hlive hok hfr1 hst1
            have hid1 := (linkStage_IdsOK mch tk fr1 _ st st1 hok hst1).1
            split
            · intro s hs
              simp only [List.mem_singleton] at hs
              rw [hs]; exact hl1
            · rename_i st2 hst2
              have hl2 := PadTracks_Live tk st1 st2 hl1 hid1.1 hst2
              have hid2 := (PadTracks_IdsOK tk st1 st2 hid1 hst2).1
              have hid3 : ({ st2 with framenum := st2.framenum + 1 } : TState F).IdsOK := hid2
              have hl3 : ({ st2 with framenum := st2.framenum + 1 } : TState F).Live := hl2
              intro s hs
              simp only [List.mem_cons] at hs
              rcases hs with rfl | rfl | hs
              · exact hl1
              · exact hl2
              · exact ih _ hrest hid3 hl3 s hs

/-- In every state of a run of `MakeTracks` on real positions, every active id
is in the map and every track of the map is usable: it is well formed, has at
least one counted position, and has no estimated position when its length is at
most 2. -/
theorem trace_Live (mch : Machine F) (tk : Tracker F) (f : List (Frame F))
    (hreal : ∀ fr ∈ f, ∀ p ∈ fr.pos, p.fake = false) :
    ∀ st ∈ MakeTracksTrace mch tk f, st.Live := by
  unfold MakeTracksTrace
  cases f with
  | nil => simp
  | cons f0 rest =>
    have hlive := initState_Live f0 (hreal f0 (List.mem_cons_self _ _))
    intro st hst
    simp only [List.mem_cons] at hst
    rcases hst with rfl | hst
    · exact hlive
    · exact frameLoop_Live mch tk _ _ _ hreal (initState_IdsOK f0) hlive st hst

/-- When `MakeTracks` returns: on real positions it returns normally in mode
`FRAME3` on a non-empty sequence and in mode `FRAME4` on at least two frames,
and it ends by a read outside the vector of frames in mode `FRAME2`. -/
theorem MakeTracks_result (mch : Machine F) (tk : Tracker F) (f0 : Frame F)
    (rest : List (Frame F)) (hreal : ∀ fr ∈ f0 :: rest, ∀ p ∈ fr.pos, p.fake = false) :
    (tk.mode = TrackMode.FRAME3 ∨ (tk.mode = TrackMode.FRAME4 ∧ rest ≠ []) →
      ∃ st, MakeTracks mch tk (f0 :: rest) = Except.ok st) ∧
    (tk.mode = TrackMode.FRAME2 →
      MakeTracks mch tk (f0 :: rest) = Except.error TrackerError.undefined) := by
  have hfn : (initState f0).framenum = 1 := (initState_fields f0).2.2.1
  have hlive := initState_Live f0 (hreal f0 (List.mem_cons_self _ _))
  have hrestlen : rest ≠ [] → 1 ≤ (rest.length : Int) := by
    intro h
    cases rest with
    | nil => exact absurd rfl h
    | cons a b => simp only [List.length_cons]; push_cast; omega
  constructor
  · intro hmode
    have hres := frameLoop_result mch tk (lastIndex tk.mode (f0 :: rest).length) (f0 :: rest)
      (initState f0) hreal (initState_IdsOK f0) hlive (by simp)
      (by
        rw [hfn]
        rcases hmode with hm | ⟨hm, hr⟩
        · rw [hm]; simp only [lastIndex, List.length_cons]; push_cast; omega
        · have := hrestlen hr
          rw [hm]; simp only [lastIndex, List.length_cons]; push_cast; omega)
      (by
        intro hm
        rw [hfn, hm]
        simp only [lastIndex, List.length_cons]
        push_cast
        omega)
    obtain ⟨r, hr, hlr⟩ := hres.1 (by
      rw [hfn]
      rcases hmode with hm | ⟨hm, _⟩
      · rw [hm]; simp only [lastIndex, List.length_cons]; push_cast; omega
      · rw [hm]; simp only [lastIndex, List.length_cons]; push_cast; omega)
    obtain ⟨st1, hst1⟩ := flush_ok r hlr
    refine ⟨st1, ?_⟩
    unfold MakeTracks
    simp only [hr]
    exact hst1
  · intro hm
    have hres := frameLoop_result mch tk (lastIndex tk.mode (f0 :: rest).length) (f0 :: rest)
      (initState f0) hreal (initState_IdsOK f0) hlive (by simp)
      (by
        rw [hfn, hm]; simp only [lastIndex, List.length_cons]; push_cast; omega)
      (by
        intro h4
        rw [hm] at h4
        exact TrackMode.noConfusion h4)
    have := hres.2 (by
      rw [hfn, hm]; simp only [lastIndex, List.length_cons]; push_cast; omega)
    unfold MakeTracks
    simp only [this]

end TotalityLoop

section TotalityTheorem

variable {F : Type} [LinearOrderedField F]

/-- C23 at the failing inputs, with the inputs on which the run completes.  For
frames whose positions are real: `MakeTracks` ends by a read outside the vector
of frames on the empty sequence (it reads `f[0]`), on every non-empty sequence in
mode `FRAME2` (after the last link it reads the frame after the last one), and
on a single frame in mode `FRAME4` (the end of the loop is before the first
frame).  It returns normally, reading no frame and no track position out of
range, in mode `FRAME3` on every non-empty sequence and in mode `FRAME4` on
every sequence of at least two frames. -/
theorem C23_tracker_termination (mch : Machine F) (tk : Tracker F) (f : List (Frame F))
    (hreal : ∀ fr ∈ f, ∀ p ∈ fr.pos, p.fake = false) :
    (f = [] → MakeTracks mch tk f = Except.error TrackerError.undefined) ∧
    (f ≠ [] → tk.mode = TrackMode.FRAME2 →
      MakeTracks mch tk f = Except.error TrackerError.undefined) ∧
    (tk.mode = TrackMode.FRAME4 → f.length = 1 →
      MakeTracks mch tk f = Except.error TrackerError.undefined) ∧
    (f ≠ [] → tk.mode = TrackMode.FRAME3 → ∃ st, MakeTracks mch tk f = Except.ok st) ∧
    (tk.mode = TrackMode.FRAME4 → 2 ≤ f.length →
      ∃ st, MakeTracks mch tk f = Except.ok st) := by
  cases f with
  | nil =>
    refine ⟨fun _ => rfl, fun h => absurd rfl h, ?_, fun h => absurd rfl h, ?_⟩
    · intro _ h
      simp at h
    · intro _ h
      simp at h
  | cons f0 rest =>
    obtain ⟨r1, r2⟩ := MakeTracks_result mch tk f0 rest hreal
    refine ⟨fun h => List.noConfusion h, fun _ hm => r2 hm, ?_, fun _ hm => r1 (Or.inl hm), ?_⟩
    · intro hm hlen
      have hnil : rest = [] := by
        cases rest with
        | nil => rfl
        | cons a b => simp at hlen
      subst hnil
      have hfn : (initState f0).framenum = 1 := (initState_fields f0).2.2.1
      have hne : ¬ ((initState f0).framenum - 1 = lastIndex tk.mode [f0].length) := by
        rw [hfn, hm]
        simp [lastIndex]
      unfold MakeTracks
      simp only
      unfold frameLoop
      rw [if_neg hne]
    · intro hm hlen
      apply r1
      refine Or.inr ⟨hm, ?_⟩
      intro hc
      rw [hc] at hlen
      simp at hlen

end TotalityTheorem

section TotalityEvaluations

/-- Witness of C23 at a failing input: the twenty frames of the straight-line
scenario (one particle at `x = t` in frame `t`) in mode `FRAME2`.  The run
visits 39 states (the initialisation, and the linking and the padding of the
frames 1 to 19) and then reads the frame after the last one. -/
theorem C23_tracker_termination_witness :
    (∀ fr ∈ (List.range 20).map (fun t => Frame.mk [qUnit t]), ∀ p ∈ fr.pos, p.fake = false) ∧
    (MakeTracksTrace exactMachine tkTwo ((List.range 20).map fun t => Frame.mk [qUnit t])).length
      = 39 ∧
    MakeTracks exactMachine tkTwo ((List.range 20).map fun t => Frame.mk [qUnit t])
      = Except.error TrackerError.undefined ∧
    MakeTracks exactMachine tkFour [Frame.mk [qUnit 0]] = Except.error TrackerError.undefined ∧
    (∃ st, MakeTracks exactMachine tkFour ((List.range 20).map fun t => Frame.mk [qUnit t])
      = Except.ok st) :=
  ⟨by decide, by decide!,
    (C23_tracker_termination exactMachine tkTwo
      ((List.range 20).map fun t => Frame.mk [qUnit t]) (by decide)).2.1 (by simp) rfl,
    (C23_tracker_termination exactMachine tkFour [Frame.mk [qUnit 0]] (by decide)).2.2.1 rfl rfl,
    (C23_tracker_termination exactMachine tkFour
      ((List.range 20).map fun t => Frame.mk [qUnit t]) (by decide)).2.2.2.2 rfl (by decide)⟩

/-- The hypothesis of real positions: a first frame whose one position is
flagged fake gives a track without counted position, and in mode `FRAME3` the
linking of the next frame reads `Penultimate()` of that track of one stored
position, a read outside its deque. -/
theorem fake_input_reads_outside :
    MakeTracks exactMachine tkLine
      [Frame.mk [(Position.mk3 0 0 0).SetFake], Frame.mk [Position.mk3 0 0 0]]
      = Except.error TrackerError.undefined ∧
    (Track.single ((Position.mk3 (0 : ℚ) 0 0).SetFake) 0).Length = 0 ∧
    (Track.single ((Position.mk3 (0 : ℚ) 0 0).SetFake) 0).Penultimate
      = Except.error TrackerError.undefined :=
  ⟨rfl, by decide, rfl⟩

end TotalityEvaluations

section OneTrack

variable {F : Type} [LinearOrderedField F]

theorem lineState_eq_oneState (q : Nat → Position F) (k : Nat) (fn : Int) :
    lineState q k fn = oneState (lineTrack q k) fn := rfl

/-- One turn of the loop over the frames when the next frame holds particles. -/
theorem frameLoop_link_step (mch : Machine F) (tk : Tracker F) (last : Int)
    (fr0 fr1 : Frame F) (rest2 : List (Frame F)) (st st1 st2 : TState F)
    (he : ¬ (st.framenum - 1 = last)) (hnp : ¬ (fr1.NumParticles ≤ 0))
    (hlink : linkStage mch tk fr1 rest2.head? st = Except.ok st1)
    (hpad : PadTracks tk st1 = Except.ok st2) :
    (frameLoop mch tk last (fr0 :: fr1 :: rest2) st).2
      = (frameLoop mch tk last (fr1 :: rest2) { st2 with framenum := st2.framenum + 1 }).2 := by
  conv_lhs => unfold frameLoop
  rw [if_neg he]
  simp only [if_neg hnp, hlink, hpad]

/-- One turn of the loop over the frames when the next frame is empty. -/
theorem frameLoop_pad_step (mch : Machine F) (tk : Tracker F) (last : Int)
    (fr0 fr1 : Frame F) (rest2 : List (Frame F)) (st st2 : TState F)
    (he : ¬ (st.framenum - 1 = last)) (hnp : fr1.NumParticles ≤ 0)
    (hpad : PadTracks tk st = Except.ok st2) :
    (frameLoop mch tk last (fr0 :: fr1 :: rest2) st).2
      = (frameLoop mch tk last (fr1 :: rest2) { st2 with framenum := st2.framenum + 1 }).2 := by
  conv_lhs => unfold frameLoop
  rw [if_neg he]
  simp only [if_pos hnp, hpad]

/-- The linking stage for one track and a frame of one particle that is within
`max_disp` of the estimate, at a float distance of at most `1e6`. -/
theorem one_linkStage (mch : Machine F) (tk : Tracker F) (T : Track F) (p : Position F)
    (fn : Int) (fr2 : Option (Frame F)) (now est vel : Position F)
    (hmode : tk.mode = TrackMode.FRAME3)
    (hest : estimateOf mch TrackMode.FRAME3 T = Except.ok (now, est, vel))
    (h1 : mch.toFloat (Distance est p) ≤ tk.max_disp * tk.max_disp)
    (h2 : mch.toFloat (Distance est p) ≤ 1000000) :
    linkStage mch tk ⟨[p]⟩ fr2 (oneState T fn)
      = Except.ok (oneState ((T.Add p fn).ResetCounter) fn) := by
  have hfind : (oneState T fn).tracks.find 0 = Except.ok T := by
    simp [TrackMap.find, oneState]
  have hcost : trackCost mch tk (oneState T fn).tracks ⟨[p]⟩ fr2 0
      = Except.ok (0, mch.toFloat (Distance est p)) := by
    unfold trackCost
    rw [hfind]
    simp only [hmode, hest]
    rw [if_neg (by decide)]
    rw [ComputeCost_single mch tk.max_disp _ _ _ _ h1 h2]
  have hlinks : MakeLinks mch tk (oneState T fn).tracks [0] ⟨[p]⟩ fr2
      (List.replicate 1 0) (List.replicate 1 UNLINKED)
      = Except.ok ([mch.toFloat (Distance est p)], [0]) := by
    unfold MakeLinks
    simp only [linkLoop, hcost]
    simp [linkUpdate, UNLINKED]
  unfold linkStage
  have hn : (⟨[p]⟩ : Frame F).NumParticles = 1 := rfl
  have hact : (oneState T fn).activelist = [0] := rfl
  rw [hn, hact, hlinks]
  rw [show List.range 1 = [0] from rfl]
  simp only [forEach, addLinked]
  have hl : ([0] : List Int).getD 0 UNLINKED ≠ UNLINKED := by decide
  rw [if_neg hl]
  have hzero : ([0] : List Int).getD 0 UNLINKED = 0 := rfl
  rw [hzero, hfind]
  simp only
  congr 1
  simp only [oneState]
  congr 1
  funext id
  have hget : (⟨[p]⟩ : Frame F).pos.getD 0 default = p := rfl
  simp only [set_apply, hget]
  by_cases hid : id = 0
  · simp only [hid, if_true]
  · simp only [hid, if_false]

/-- The call of `PadTracks` leaves the state alone when the one track was just
added to. -/
theorem one_PadTracks_skip (tk : Tracker F) (T : Track F) (fn : Int)
    (htm : T.GetTime (T.Length - 1) = Except.ok fn) :
    PadTracks tk (oneState T fn) = Except.ok (oneState T fn) := by
  unfold PadTracks
  have hact : (oneState T fn).activelist = [0] := rfl
  rw [hact]
  simp only [forEach, padOne]
  have hfind : (oneState T fn).tracks.find 0 = Except.ok T := by
    simp [TrackMap.find, oneState]
  rw [hfind]
  simp only [htm]
  have hfn : (oneState T fn).framenum = fn := rfl
  rw [hfn]
  simp only [if_true, forEach]
  rfl

/-- The call of `PadTracks` appends an estimated position to the one track when
it was not added to, its occlusion counter is below `memory` and its length
exceeds 2. -/
theorem one_PadTracks_pad (tk : Tracker F) (T : Track F) (fn tm : Int) (L P A : Position F)
    (htm : T.GetTime (T.Length - 1) = Except.ok tm) (hne : tm ≠ fn)
    (hocc : T.OcclusionCount < tk.memory) (hlen : 2 < T.Length)
    (hL : T.Last = Except.ok L) (hP : T.Penultimate = Except.ok P)
    (hA : T.Antepenultimate = Except.ok A) :
    PadTracks tk (oneState T fn)
      = Except.ok (oneState ((T.Add (padEstimate tk L P A) fn).Occluded) fn) := by
  unfold PadTracks
  have hact : (oneState T fn).activelist = [0] := rfl
  rw [hact]
  simp only [forEach, padOne]
  have hfind : (oneState T fn).tracks.find 0 = Except.ok T := by
    simp [TrackMap.find, oneState]
  rw [hfind]
  simp only [htm]
  have hfn : (oneState T fn).framenum = fn := rfl
  rw [hfn]
  have h1 : ¬ (T.OcclusionCount ≥ tk.memory) := not_le.2 hocc
  have h2 : ¬ (T.Length ≤ 2) := not_le.2 hlen
  simp only [if_neg hne, if_neg h1, if_neg h2, hL, hP, hA, forEach]
  congr 1
  simp only [oneState]
  congr 1
  funext id
  simp only [set_apply]
  by_cases hid : id = 0
  · simp only [hid, if_true]
  · simp only [hid, if_false]

/-- The final loop of `MakeTracks` writes the one track when it is long
enough. -/
theorem one_flush (T : Track F) (fn : Int) (hlen : T.Length ≥ MINTRACK) :
    forEach flushOne (oneState T fn).activelist (oneState T fn)
      = Except.ok { oneState T fn with
          written := [(0, T)], ntracks := 1, ntotalpoints := T.Length } := by
  have hact : (oneState T fn).activelist = [0] := rfl
  rw [hact]
  simp only [forEach, flushOne]
  have hfind : (oneState T fn).tracks.find 0 = Except.ok T := by
    simp [TrackMap.find, oneState]
  rw [hfind]
  simp only
  rw [if_pos hlen]
  simp [oneState]

end OneTrack

section OcclusionLemmas

variable {F : Type} [LinearOrderedField F]

theorem lineTrack_Length_real (q : Nat → Position F) (k : Nat) (hk : (q k).fake = false) :
    (lineTrack q k).Length = ((k + 1 : Nat) : Int) := by
  unfold Track.Length
  have hpos : (lineTrack q k).pos = (List.range k).map q ++ [q k] := by
    simp only [lineTrack, List.range_succ, List.map_append, List.map_cons, List.map_nil]
  rw [hpos]
  simp [Track.adjustLoop, Position.IsFake, hk, lineTrack]

theorem lineTrack_WF (q : Nat → Position F) (k : Nat) : (lineTrack q k).WF := by
  constructor
  · simp [lineTrack]
  · simp [lineTrack]

theorem lineTrack_congr (q1 q2 : Nat → Position F) (k : Nat) (h : ∀ t, t ≤ k → q1 t = q2 t) :
    lineTrack q1 k = lineTrack q2 k := by
  unfold lineTrack
  congr 1
  apply List.map_congr_left
  intro t ht
  exact h t (by have := List.mem_range.1 ht; omega)

theorem lineTrack_Add_plain (q : Nat → Position F) (k : Nat) :
    (lineTrack q k).Add (q (k + 1)) ((k + 1 : Nat) : Int) = lineTrack q (k + 1) := by
  simp only [lineTrack, Track.Add]
  congr 1
  · rw [List.range_succ (k + 1)]; simp
  · rw [List.range_succ (k + 1)]; simp

/-- The length of a line track whose last position is fake and whose last but
one is real. -/
theorem lineTrack_Length_fake (q : Nat → Position F) (k : Nat) (hk : (q k).fake = false)
    (hf : (q (k + 1)).fake = true) : (lineTrack q (k + 1)).Length = ((k + 1 : Nat) : Int) := by
  rw [← lineTrack_Add_plain q k,
    Track.Length_Add_fake _ _ _ (lineTrack_WF q k) hf, lineTrack_Length_real q k hk]

/-- The estimate of `MakeLinks` in mode `FRAME3` for a line track of at least
three stored positions with length above 2, on positions that advance by `v`:
it coincides with the next position. -/
theorem lineTrack_estimate_far (mch : Machine F) (s v : Position F) (q : Nat → Position F)
    (hq : ∀ t, (q t).x = s.x + (t : F) * v.x ∧ (q t).y = s.y + (t : F) * v.y ∧
      (q t).z = s.z + (t : F) * v.z) (j : Nat)
    (hlen : 2 < (lineTrack q (j + 2)).Length) :
    ∃ est vel, estimateOf mch TrackMode.FRAME3 (lineTrack q (j + 2))
        = Except.ok (q (j + 2), est, vel) ∧
      Distance est (q (j + 2 + 1)) = 0 := by
  unfold estimateOf
  rw [lineTrack_Last]
  have hne : ¬ ((lineTrack q (j + 2)).Length = 1 ∨ TrackMode.FRAME3 = TrackMode.FRAME2) := by
    intro hc
    rcases hc with hc | hc
    · omega
    · exact TrackMode.noConfusion hc
  simp only [if_neg hne]
  rw [lineTrack_Penultimate q (j + 1)]
  simp only [if_pos hlen]
  rw [lineTrack_Antepenultimate q j]
  refine ⟨_, _, rfl, ?_⟩
  obtain ⟨a0, b0, c0⟩ := hq j
  obtain ⟨a1, b1, c1⟩ := hq (j + 1)
  obtain ⟨a2, b2, c2⟩ := hq (j + 2)
  obtain ⟨a3, b3, c3⟩ := hq (j + 2 + 1)
  simp only [Distance, Position.assign, Position.add, Position.sub, Position.smulL,
    Position.mk3, a0, b0, c0, a1, b1, c1, a2, b2, c2, a3, b3, c3]
  push_cast
  ring

/-- The position that `PadTracks` estimates after three positions that advance
by `v`, when `|v|²` is at most `max_disp * max_disp`: it is fake and advances by
`v` once more. -/
theorem padEstimate_line (tk : Tracker F) (s v : Position F) (q : Nat → Position F)
    (hq : ∀ t, (q t).x = s.x + (t : F) * v.x ∧ (q t).y = s.y + (t : F) * v.y ∧
      (q t).z = s.z + (t : F) * v.z) (j : Nat)
    (hv2 : v.x * v.x + v.y * v.y + v.z * v.z ≤ tk.max_disp * tk.max_disp) :
    (padEstimate tk (q (j + 2)) (q (j + 1)) (q j)).fake = true ∧
    (padEstimate tk (q (j + 2)) (q (j + 1)) (q j)).x = s.x + ((j + 3 : Nat) : F) * v.x ∧
    (padEstimate tk (q (j + 2)) (q (j + 1)) (q j)).y = s.y + ((j + 3 : Nat) : F) * v.y ∧
    (padEstimate tk (q (j + 2)) (q (j + 1)) (q j)).z = s.z + ((j + 3 : Nat) : F) * v.z := by
  obtain ⟨a0, b0, c0⟩ := hq j
  obtain ⟨a1, b1, c1⟩ := hq (j + 1)
  obtain ⟨a2, b2, c2⟩ := hq (j + 2)
  have hd : Distance (((q (j + 2)).add ((q (j + 2)).sub (q (j + 1)))).add
      (Position.smulL (1 / 2) (Position.smulL (1 / 2)
        (((q (j + 2)).sub (Position.smulL 2 (q (j + 1)))).add (q j))))) (q (j + 2))
      = v.x * v.x + v.y * v.y + v.z * v.z := by
    simp only [Distance, Position.add, Position.sub, Position.smulL, Position.mk3,
      a0, b0, c0, a1, b1, c1, a2, b2, c2]
    push_cast
    ring
  have hnot : ¬ (Distance (((q (j + 2)).add ((q (j + 2)).sub (q (j + 1)))).add
      (Position.smulL (1 / 2) (Position.smulL (1 / 2)
        (((q (j + 2)).sub (Position.smulL 2 (q (j + 1)))).add (q j))))) (q (j + 2))
        > tk.max_disp * tk.max_disp) := by
    rw [hd]; exact not_lt.2 hv2
  have hE : padEstimate tk (q (j + 2)) (q (j + 1)) (q j)
      = ((((q (j + 2)).add ((q (j + 2)).sub (q (j + 1)))).add
      (Position.smulL (1 / 2) (Position.smulL (1 / 2)
        (((q (j + 2)).sub (Position.smulL 2 (q (j + 1)))).add (q j)))))).SetFake := by
    unfold padEstimate
    simp only [if_neg hnot]
  rw [hE]
  refine ⟨rfl, ?_, ?_, ?_⟩ <;>
  · simp only [Position.SetFake, Position.add, Position.sub, Position.smulL,
      Position.mk3, a0, b0, c0, a1, b1, c1, a2, b2, c2]
    push_cast
    ring

theorem occFrames_succ (q : Nat → Position F) (m k j : Nat) :
    occFrames q m k (j + 1)
      = (if k = m then Frame.mk [] else Frame.mk [q k]) :: occFrames q m (k + 1) j := by
  simp [occFrames, List.range'_succ]

end OcclusionLemmas

section OcclusionSteps

variable {F : Type} [LinearOrderedField F]

/-- The estimate of `MakeLinks` in mode `FRAME3` for a line track on positions
that advance by `v`, when the length of the track is 1 for one stored position,
2 for two, and above 2 for three or more: it is at squared distance `|v|²` of
the next position for a track of one position, and coincides with the next
position otherwise. -/
theorem lineTrack_estimate_gen (mch : Machine F) (s v : Position F) (p : Nat → Position F)
    (hp : ∀ t, (p t).x = s.x + (t : F) * v.x ∧ (p t).y = s.y + (t : F) * v.y ∧
      (p t).z = s.z + (t : F) * v.z) (k : Nat)
    (h0 : k = 0 → (lineTrack p k).Length = 1) (h1 : k = 1 → (lineTrack p k).Length = 2)
    (h2 : 2 ≤ k → 2 < (lineTrack p k).Length) :
    ∃ est vel, estimateOf mch TrackMode.FRAME3 (lineTrack p k) = Except.ok (p k, est, vel) ∧
      (Distance est (p (k + 1)) = v.x * v.x + v.y * v.y + v.z * v.z ∨
        Distance est (p (k + 1)) = 0) := by
  match k with
  | 0 =>
    refine ⟨mch.uninit.assign (p 0), mch.uninit, ?_, Or.inl ?_⟩
    · unfold estimateOf
      rw [lineTrack_Last]
      simp only [h0 rfl, true_or, if_true]
    · obtain ⟨a0, b0, c0⟩ := hp 0
      obtain ⟨a1, b1, c1⟩ := hp (0 + 1)
      simp only [Distance, Position.assign, a0, b0, c0, a1, b1, c1]
      push_cast
      ring
  | 1 =>
    refine ⟨mch.uninit.assign ((p 1).add (mch.uninit.assign ((p 1).sub (p 0)))),
      mch.uninit.assign ((p 1).sub (p 0)), ?_, Or.inr ?_⟩
    · unfold estimateOf
      rw [lineTrack_Last]
      have hne : ¬ ((lineTrack p 1).Length = 1 ∨ TrackMode.FRAME3 = TrackMode.FRAME2) := by
        rw [h1 rfl]; simp
      have hgt : ¬ ((lineTrack p 1).Length > 2) := by rw [h1 rfl]; simp
      simp only [if_neg hne]
      rw [lineTrack_Penultimate p 0]
      simp only [if_neg hgt]
    · obtain ⟨a0, b0, c0⟩ := hp 0
      obtain ⟨a1, b1, c1⟩ := hp 1
      obtain ⟨a2, b2, c2⟩ := hp (1 + 1)
      simp only [Distance, Position.assign, Position.add, Position.sub, Position.mk3,
        a0, b0, c0, a1, b1, c1, a2, b2, c2]
      push_cast
      ring
  | j + 2 =>
    obtain ⟨est, vel, he, hd⟩ := lineTrack_estimate_far mch s v p hp j (h2 (by omega))
    exact ⟨est, vel, he, Or.inr hd⟩

/-- The linking stage of the occlusion scenario for a frame that holds the next
position. -/
theorem occ_link (mch : Machine F) (tk : Tracker F) (s v : Position F) (p : Nat → Position F)
    (m k : Nat) (fr2 : Option (Frame F)) (hmode : tk.mode = TrackMode.FRAME3)
    (hp : ∀ t, (p t).x = s.x + (t : F) * v.x ∧ (p t).y = s.y + (t : F) * v.y ∧
      (p t).z = s.z + (t : F) * v.z)
    (hreal : ∀ t, t ≠ m → (p t).fake = false) (hfake : (p m).fake = true) (hm : 3 ≤ m)
    (hv : mch.toFloat (v.x * v.x + v.y * v.y + v.z * v.z) ≤ tk.max_disp * tk.max_disp)
    (hcap : mch.toFloat (v.x * v.x + v.y * v.y + v.z * v.z) ≤ 1000000)
    (h0 : mch.toFloat 0 = 0) :
    linkStage mch tk ⟨[p (k + 1)]⟩ fr2 (oneState (occTrack p m k) ((k + 1 : Nat) : Int))
      = Except.ok (oneState (lineTrack p (k + 1)) ((k + 1 : Nat) : Int)) := by
  have hmag : ∀ est : Position F,
      (Distance est (p (k + 1)) = v.x * v.x + v.y * v.y + v.z * v.z ∨
        Distance est (p (k + 1)) = 0) →
      mch.toFloat (Distance est (p (k + 1))) ≤ tk.max_disp * tk.max_disp ∧
        mch.toFloat (Distance est (p (k + 1))) ≤ 1000000 := by
    intro est hd
    rcases hd with hd | hd
    · rw [hd]; exact ⟨hv, hcap⟩
    · rw [hd, h0]
      exact ⟨mul_self_nonneg _, by norm_num⟩
  by_cases hk : k = m
  · -- the track ends in the estimated position
    obtain ⟨j, rfl⟩ : ∃ j, m = j + 2 + 1 := ⟨m - 3, by omega⟩
    have hlen : (lineTrack p (j + 2 + 1)).Length = ((j + 2 + 1 : Nat) : Int) :=
      lineTrack_Length_fake p (j + 2) (hreal _ (by omega)) hfake
    obtain ⟨est, vel, he, hd⟩ := lineTrack_estimate_far mch s v p hp (j + 1)
      (by rw [hlen]; push_cast; omega)
    have hT : occTrack p (j + 2 + 1) k = (lineTrack p (j + 2 + 1)).Occluded := by
      unfold occTrack
      rw [if_pos hk, hk]
    have he2 : estimateOf mch TrackMode.FRAME3 (lineTrack p (j + 2 + 1)).Occluded
        = Except.ok (p (j + 1 + 2), est, vel) := he
    have hmg := hmag est (by rw [hk]; exact Or.inr hd)
    rw [hT, one_linkStage mch tk _ (p (k + 1)) _ fr2 _ est vel hmode he2 hmg.1 hmg.2]
    congr 2
    rw [← hk]
    exact (show ((lineTrack p k).Occluded.Add (p (k + 1)) ((k + 1 : Nat) : Int)).ResetCounter
      = ((lineTrack p k).Add (p (k + 1)) ((k + 1 : Nat) : Int)).ResetCounter from rfl).trans
      (lineTrack_Add p k)
  · have hlen : (lineTrack p k).Length = ((k + 1 : Nat) : Int) :=
      lineTrack_Length_real p k (hreal k hk)
    obtain ⟨est, vel, he, hd⟩ := lineTrack_estimate_gen mch s v p hp k
      (by intro h; rw [hlen, h]; rfl) (by intro h; rw [hlen, h]; rfl)
      (by intro h; rw [hlen]; push_cast; omega)
    have hT : occTrack p m k = lineTrack p k := by
      unfold occTrack
      rw [if_neg hk]
    have hmg := hmag est hd
    rw [hT, one_linkStage mch tk _ (p (k + 1)) _ fr2 _ est vel hmode he hmg.1 hmg.2]
    rw [lineTrack_Add]

/-- The call of `PadTracks` after the linking stage of the occlusion scenario
leaves the state alone. -/
theorem occ_skip (tk : Tracker F) (p : Nat → Position F) (k : Nat)
    (hk : (p k).fake = false) :
    PadTracks tk (oneState (lineTrack p k) (k : Int))
      = Except.ok (oneState (lineTrack p k) (k : Int)) := by
  apply one_PadTracks_skip
  rw [lineTrack_Length_real p k hk]
  have hidx : ((k + 1 : Nat) : Int) - 1 = (k : Int) := by push_cast; ring
  rw [hidx, lineTrack_GetTime]

/-- The call of `PadTracks` for the empty frame `j + 3` of the occlusion
scenario appends the estimated position. -/
theorem occ_pad (tk : Tracker F) (p : Nat → Position F) (j : Nat)
    (hmem : 1 ≤ tk.memory) (hk : (p (j + 2)).fake = false)
    (hE : p (j + 3) = padEstimate tk (p (j + 2)) (p (j + 1)) (p j)) :
    PadTracks tk (oneState (lineTrack p (j + 2)) ((j + 3 : Nat) : Int))
      = Except.ok (oneState ((lineTrack p (j + 3)).Occluded) ((j + 3 : Nat) : Int)) := by
  have hlen : (lineTrack p (j + 2)).Length = ((j + 2 + 1 : Nat) : Int) :=
    lineTrack_Length_real p (j + 2) hk
  have hidx : ((j + 2 + 1 : Nat) : Int) - 1 = ((j + 2 : Nat) : Int) := by push_cast; ring
  rw [one_PadTracks_pad tk (lineTrack p (j + 2)) _ ((j + 2 : Nat) : Int)
    (p (j + 2)) (p (j + 1)) (p j)
    (by rw [hlen, hidx]; exact lineTrack_GetTime p (j + 2))
    (by push_cast; omega)
    (by
      have : (lineTrack p (j + 2)).OcclusionCount = 0 := rfl
      rw [this]; omega)
    (by rw [hlen]; push_cast; omega)
    (lineTrack_Last p (j + 2)) (lineTrack_Penultimate p (j + 1))
    (lineTrack_Antepenultimate p j)]
  rw [← hE]
  congr 3
  exact lineTrack_Add_plain p (j + 2)

end OcclusionSteps

section OcclusionTheorem

variable {F : Type} [LinearOrderedField F]

/-- The loop over the frames in the occlusion scenario, from frame `k` on. -/
theorem occ_frameLoop (mch : Machine F) (tk : Tracker F) (s v : Position F)
    (p q : Nat → Position F) (m : Nat) (hmode : tk.mode = TrackMode.FRAME3)
    (hmem : 1 ≤ tk.memory)
    (hp : ∀ t, (p t).x = s.x + (t : F) * v.x ∧ (p t).y = s.y + (t : F) * v.y ∧
      (p t).z = s.z + (t : F) * v.z)
    (hreal : ∀ t, t ≠ m → (p t).fake = false) (hfake : (p m).fake = true)
    (hpq : ∀ t, t ≠ m → p t = q t)
    (hE : ∀ j, m = j + 3 → p (j + 3) = padEstimate tk (p (j + 2)) (p (j + 1)) (p j))
    (hm : 3 ≤ m)
    (hv : mch.toFloat (v.x * v.x + v.y * v.y + v.z * v.z) ≤ tk.max_disp * tk.max_disp)
    (hcap : mch.toFloat (v.x * v.x + v.y * v.y + v.z * v.z) ≤ 1000000)
    (h0 : mch.toFloat 0 = 0) (j k : Nat) (last : Int) (hlast : last = ((k + j : Nat) : Int))
    (hend : k + j ≠ m) :
    (frameLoop mch tk last (occFrames q m k (j + 1))
        (oneState (occTrack p m k) ((k + 1 : Nat) : Int))).2
      = Except.ok (oneState (occTrack p m (k + j)) ((k + j + 1 : Nat) : Int)) := by
  induction j generalizing k with
  | zero =>
    rw [occFrames_succ]
    unfold frameLoop
    have hfn : (oneState (occTrack p m k) ((k + 1 : Nat) : Int)).framenum - 1 = last := by
      rw [hlast]; simp only [oneState]; push_cast; ring
    rw [if_pos hfn]
    rfl
  | succ j ih =>
    rw [occFrames_succ, occFrames_succ]
    have hfn : ¬ ((oneState (occTrack p m k) ((k + 1 : Nat) : Int)).framenum - 1 = last) := by
      rw [hlast]; simp only [oneState]; push_cast; omega
    have hnext := ih (k + 1) (by rw [hlast]; push_cast; ring) (by omega)
    have hidx : k + 1 + j = k + (j + 1) := by omega
    rw [hidx] at hnext
    by_cases hk : k + 1 = m
    · -- the next frame is the empty one
      have hfr : (if k + 1 = m then (Frame.mk [] : Frame F) else Frame.mk [q (k + 1)])
          = Frame.mk [] := by rw [if_pos hk]
      rw [hfr]
      obtain ⟨j0, hj0⟩ : ∃ j0, m = j0 + 3 := ⟨m - 3, by omega⟩
      have hk2 : k = j0 + 2 := by omega
      have hT : occTrack p m k = lineTrack p (j0 + 2) := by
        unfold occTrack
        rw [if_neg (by omega), hk2]
      have hpad : PadTracks tk (oneState (occTrack p m k) ((k + 1 : Nat) : Int))
          = Except.ok (oneState ((lineTrack p (j0 + 3)).Occluded) ((j0 + 3 : Nat) : Int)) := by
        rw [hT, hk2]
        exact occ_pad tk p j0 hmem (hreal _ (by omega)) (hE j0 hj0)
      rw [frameLoop_pad_step mch tk last _ _ _ _ _ hfn (by simp [Frame.NumParticles]) hpad]
      have hst : ({ oneState ((lineTrack p (j0 + 3)).Occluded) ((j0 + 3 : Nat) : Int) with
          framenum := (oneState ((lineTrack p (j0 + 3)).Occluded)
            ((j0 + 3 : Nat) : Int)).framenum + 1 } : TState F)
          = oneState (occTrack p m (k + 1)) ((k + 1 + 1 : Nat) : Int) := by
        have hT2 : occTrack p m (k + 1) = (lineTrack p (j0 + 3)).Occluded := by
          unfold occTrack
          rw [if_pos hk, hk, hj0]
        rw [hT2]
        simp only [oneState]
        congr 1
        push_cast
        omega
      rw [hst, ← hfr, ← occFrames_succ]
      exact hnext
    · have hpk : q (k + 1) = p (k + 1) := (hpq (k + 1) hk).symm
      have hfr : (if k + 1 = m then (Frame.mk [] : Frame F) else Frame.mk [q (k + 1)])
          = Frame.mk [p (k + 1)] := by rw [if_neg hk, hpk]
      rw [hfr]
      have hlink := occ_link mch tk s v p m k (occFrames q m (k + 1 + 1) j).head? hmode hp
        hreal hfake hm hv hcap h0
      have hpad := occ_skip tk p (k + 1) (hreal (k + 1) hk)
      rw [frameLoop_link_step mch tk last _ _ _ _ _ _ hfn (by simp [Frame.NumParticles])
        hlink hpad]
      have hst : ({ oneState (lineTrack p (k + 1)) ((k + 1 : Nat) : Int) with
          framenum := (oneState (lineTrack p (k + 1)) ((k + 1 : Nat) : Int)).framenum + 1 } :
            TState F)
          = oneState (occTrack p m (k + 1)) ((k + 1 + 1 : Nat) : Int) := by
        have hT2 : occTrack p m (k + 1) = lineTrack p (k + 1) := by
          unfold occTrack
          rw [if_neg hk]
        rw [hT2]
        simp only [oneState]
        congr 1
      rw [hst, ← hfr, ← occFrames_succ]
      exact hnext

/-- C21 (as amended). Occlusion bridging in mode `FRAME3` with `memory ≥ 1`: for
`n ≥ 10` frames that hold one real particle each, at `s + t v` in frame `t`,
except for one empty frame `m` with `3 ≤ m` and `m + 1 < n`, when the squared
speed `|v|²` is at most `max_disp * max_disp`, both as it is and converted to
`float`, and the converted value is at most `1e6` (and the conversion of `0` is
`0`), `MakeTracks` ends normally and writes exactly one track.  The track holds
`n` positions with the times `0, ..., n - 1`; the position at time `m` is fake
and is the extrapolated position `s + m v`, every other position is the real
particle of its frame; the length of the track is `n` and `n` rows are written
for it. -/
theorem C21_occlusion (mch : Machine F) (tk : Tracker F) (n m : Nat) (s v : Position F)
    (q : Nat → Position F) (hmode : tk.mode = TrackMode.FRAME3) (hmem : 1 ≤ tk.memory)
    (hn : 10 ≤ n) (hm : 3 ≤ m) (hmn : m + 1 < n)
    (hq : ∀ t, (q t).x = s.x + (t : F) * v.x ∧ (q t).y = s.y + (t : F) * v.y ∧
      (q t).z = s.z + (t : F) * v.z ∧ (q t).fake = false)
    (hv : mch.toFloat (v.x * v.x + v.y * v.y + v.z * v.z) ≤ tk.max_disp * tk.max_disp)
    (hcap : mch.toFloat (v.x * v.x + v.y * v.y + v.z * v.z) ≤ 1000000)
    (h0 : mch.toFloat 0 = 0)
    (hv2 : v.x * v.x + v.y * v.y + v.z * v.z ≤ tk.max_disp * tk.max_disp) :
    ∃ (st : TState F) (T : Track F) (E : Position F),
      MakeTracks mch tk
        ((List.range n).map fun t => if t = m then Frame.mk [] else Frame.mk [q t])
        = Except.ok st ∧
      st.written = [(0, T)] ∧
      T.pos = (List.range n).map (fun t => if t = m then E else q t) ∧
      T.time = (List.range n).map (fun (t : Nat) => (t : Int)) ∧
      E.fake = true ∧ E.x = s.x + (m : F) * v.x ∧ E.y = s.y + (m : F) * v.y ∧
      E.z = s.z + (m : F) * v.z ∧
      (∀ t, t < n → t ≠ m → T.pos[t]? = some (q t) ∧ (q t).fake = false) ∧
      T.pos[m]? = some E ∧
      T.Length = (n : Int) ∧
      (T.WriteGDF 0 tk.fps).length = n := by
  obtain ⟨j0, rfl⟩ : ∃ j0, m = j0 + 3 := ⟨m - 3, by omega⟩
  obtain ⟨j, rfl⟩ : ∃ j, n = j + 1 := ⟨n - 1, by omega⟩
  have hqc : ∀ t, (q t).x = s.x + (t : F) * v.x ∧ (q t).y = s.y + (t : F) * v.y ∧
      (q t).z = s.z + (t : F) * v.z := fun t => ⟨(hq t).1, (hq t).2.1, (hq t).2.2.1⟩
  obtain ⟨e1, e2, e3, e4⟩ := padEstimate_line tk s v q hqc j0 hv2
  -- the stored positions
  have hpdef : ∀ t, occPos q (padEstimate tk (q (j0 + 2)) (q (j0 + 1)) (q j0)) (j0 + 3) t
      = if t = j0 + 3 then padEstimate tk (q (j0 + 2)) (q (j0 + 1)) (q j0) else q t :=
    fun _ => rfl
  have hpq : ∀ t, t ≠ j0 + 3 →
      occPos q (padEstimate tk (q (j0 + 2)) (q (j0 + 1)) (q j0)) (j0 + 3) t = q t := by
    intro t ht
    rw [hpdef, if_neg ht]
  have hpm : occPos q (padEstimate tk (q (j0 + 2)) (q (j0 + 1)) (q j0)) (j0 + 3) (j0 + 3)
      = padEstimate tk (q (j0 + 2)) (q (j0 + 1)) (q j0) := by
    rw [hpdef, if_pos rfl]
  have hp : ∀ t,
      (occPos q (padEstimate tk (q (j0 + 2)) (q (j0 + 1)) (q j0)) (j0 + 3) t).x
        = s.x + (t : F) * v.x ∧
      (occPos q (padEstimate tk (q (j0 + 2)) (q (j0 + 1)) (q j0)) (j0 + 3) t).y
        = s.y + (t : F) * v.y ∧
      (occPos q (padEstimate tk (q (j0 + 2)) (q (j0 + 1)) (q j0)) (j0 + 3) t).z
        = s.z + (t : F) * v.z := by
    intro t
    by_cases ht : t = j0 + 3
    · rw [ht, hpm]
      exact ⟨e2, e3, e4⟩
    · rw [hpq t ht]
      exact hqc t
  have hreal : ∀ t, t ≠ j0 + 3 →
      (occPos q (padEstimate tk (q (j0 + 2)) (q (j0 + 1)) (q j0)) (j0 + 3) t).fake = false := by
    intro t ht
    rw [hpq t ht]
    exact (hq t).2.2.2
  have hfake :
      (occPos q (padEstimate tk (q (j0 + 2)) (q (j0 + 1)) (q j0)) (j0 + 3) (j0 + 3)).fake
        = true := by
    rw [hpm]; exact e1
  have hE : ∀ i, j0 + 3 = i + 3 →
      occPos q (padEstimate tk (q (j0 + 2)) (q (j0 + 1)) (q j0)) (j0 + 3) (i + 3)
        = padEstimate tk
          (occPos q (padEstimate tk (q (j0 + 2)) (q (j0 + 1)) (q j0)) (j0 + 3) (i + 2))
          (occPos q (padEstimate tk (q (j0 + 2)) (q (j0 + 1)) (q j0)) (j0 + 3) (i + 1))
          (occPos q (padEstimate tk (q (j0 + 2)) (q (j0 + 1)) (q j0)) (j0 + 3) i) := by
    intro i hi
    have : i = j0 := by omega
    subst this
    rw [hpm, hpq _ (by omega), hpq _ (by omega), hpq _ (by omega)]
  have hloop := occ_frameLoop mch tk s v
    (occPos q (padEstimate tk (q (j0 + 2)) (q (j0 + 1)) (q j0)) (j0 + 3)) q (j0 + 3)
    hmode hmem hp hreal hfake hpq hE hm hv hcap h0 j 0
    (lastIndex tk.mode (occFrames q (j0 + 3) 0 (j + 1)).length)
    (by rw [hmode]; simp [lastIndex, occFrames]) (by omega)
  simp only [Nat.zero_add] at hloop
  have hTend : occTrack (occPos q (padEstimate tk (q (j0 + 2)) (q (j0 + 1)) (q j0)) (j0 + 3))
      (j0 + 3) j
      = lineTrack (occPos q (padEstimate tk (q (j0 + 2)) (q (j0 + 1)) (q j0)) (j0 + 3)) j := by
    unfold occTrack
    rw [if_neg (by omega)]
  have hT0 : occTrack (occPos q (padEstimate tk (q (j0 + 2)) (q (j0 + 1)) (q j0)) (j0 + 3))
      (j0 + 3) 0 = lineTrack q 0 := by
    unfold occTrack
    rw [if_neg (by omega)]
    exact lineTrack_congr _ _ 0 (fun t ht => hpq t (by omega))
  rw [hTend, hT0] at hloop
  have hlenT : (lineTrack (occPos q (padEstimate tk (q (j0 + 2)) (q (j0 + 1)) (q j0))
      (j0 + 3)) j).Length = ((j + 1 : Nat) : Int) :=
    lineTrack_Length_real _ j (hreal j (by omega))
  have hframes : ((List.range (j + 1)).map fun t =>
      if t = j0 + 3 then (Frame.mk [] : Frame F) else Frame.mk [q t])
      = occFrames q (j0 + 3) 0 (j + 1) := by
    simp [occFrames, List.range_eq_range']
  refine ⟨{ oneState (lineTrack (occPos q (padEstimate tk (q (j0 + 2)) (q (j0 + 1)) (q j0))
        (j0 + 3)) j) ((j + 1 : Nat) : Int) with
      written := [(0, lineTrack (occPos q (padEstimate tk (q (j0 + 2)) (q (j0 + 1)) (q j0))
        (j0 + 3)) j)],
      ntracks := 1, ntotalpoints := ((j + 1 : Nat) : Int) },
    lineTrack (occPos q (padEstimate tk (q (j0 + 2)) (q (j0 + 1)) (q j0)) (j0 + 3)) j,
    padEstimate tk (q (j0 + 2)) (q (j0 + 1)) (q j0), ?_, rfl, rfl, rfl, e1, e2, e3, e4,
    ?_, ?_, hlenT, ?_⟩
  · have hff : occFrames q (j0 + 3) 0 (j + 1)
        = Frame.mk [q 0] :: occFrames q (j0 + 3) (0 + 1) j := by
      rw [occFrames_succ, if_neg (by omega)]
    rw [hframes]
    unfold MakeTracks
    rw [hff]
    simp only
    rw [← hff, line_initState, lineState_eq_oneState]
    have h1 : ((0 + 1 : Nat) : Int) = 1 := rfl
    rw [h1] at hloop
    rw [hloop]
    simp only
    have hfl := one_flush (lineTrack (occPos q (padEstimate tk (q (j0 + 2)) (q (j0 + 1)) (q j0))
      (j0 + 3)) j) ((j + 1 : Nat) : Int) (by rw [hlenT]; unfold MINTRACK; push_cast; omega)
    rw [hfl, hlenT]
  · intro t ht htm
    refine ⟨?_, (hq t).2.2.2⟩
    simp only [lineTrack, List.getElem?_map]
    rw [List.getElem?_range ht]
    simp only [Option.map_some', hpq t htm]
  · simp only [lineTrack, List.getElem?_map]
    rw [List.getElem?_range (by omega)]
    simp only [Option.map_some', hpm]
  · rw [WriteGDF_length, hlenT]
    simp

end OcclusionTheorem

section OcclusionEvaluations

/-- Witness of C21 (as amended): 20 frames, `v = (1, 0, 0)`, `max_disp = 2`,
`memory = 2`, and no particle in frame 10. -/
theorem C21_occlusion_witness :
    ∃ (st : TState ℚ) (T : Track ℚ) (E : Position ℚ),
      MakeTracks exactMachine tkLine
        ((List.range 20).map fun t => if t = 10 then Frame.mk [] else Frame.mk [qUnit t])
        = Except.ok st ∧
      st.written = [(0, T)] ∧
      T.pos = (List.range 20).map (fun t => if t = 10 then E else qUnit t) ∧
      T.time = (List.range 20).map (fun (t : Nat) => (t : Int)) ∧
      E.fake = true ∧
      E.x = (Position.mk3 (0 : ℚ) 0 0).x + ((10 : Nat) : ℚ) * (Position.mk3 (1 : ℚ) 0 0).x ∧
      E.y = (Position.mk3 (0 : ℚ) 0 0).y + ((10 : Nat) : ℚ) * (Position.mk3 (1 : ℚ) 0 0).y ∧
      E.z = (Position.mk3 (0 : ℚ) 0 0).z + ((10 : Nat) : ℚ) * (Position.mk3 (1 : ℚ) 0 0).z ∧
      (∀ t, t < 20 → t ≠ 10 → T.pos[t]? = some (qUnit t) ∧ (qUnit t).fake = false) ∧
      T.pos[10]? = some E ∧
      T.Length = ((20 : Nat) : Int) ∧
      (T.WriteGDF 0 tkLine.fps).length = 20 :=
  C21_occlusion exactMachine tkLine 20 10 (Position.mk3 0 0 0) (Position.mk3 1 0 0) qUnit
    rfl (by decide) (by decide) (by decide) (by decide)
    (fun t => ⟨by simp [qUnit, Position.mk3], by simp [qUnit, Position.mk3],
      by simp [qUnit, Position.mk3], rfl⟩)
    (by decide!) (by decide!) rfl (by decide!)

/-- Counterexample to C21 as stated: twenty frames with one particle each at
`x = 2000 t`, except for the empty frame 10, with `max_disp = 2000` and
`memory = 2`, so that `|v|² = max_disp²`.  Since the squared speed exceeds
`1e6`, the initial value of `mincost`, no link is made and nothing is
written. -/
theorem C21_counterexample :
    (writtenOf (MakeTracks exactMachine tkFast
      ((List.range 20).map fun t =>
        if t = 10 then Frame.mk [] else Frame.mk [qFast t]))).length = 0 ∧
    (MakeTracks exactMachine tkFast
      ((List.range 20).map fun t =>
        if t = 10 then Frame.mk [] else Frame.mk [qFast t])).toOption.map
        (fun st => (st.activelist, st.trackindex, st.too_short, st.ntracks))
      = some ([18], 19, 18, 0) ∧
    Distance (qFast 0) (qFast 1) ≤ tkFast.max_disp * tkFast.max_disp ∧
    (1 : Int) ≤ tkFast.memory := by
  decide!

end OcclusionEvaluations

section CostLemmas

variable {F : Type} [LinearOrderedField F]

/-- The value of `mincost` after the first loop of `ComputeCost`, started from
`m0`: it is the least of `m0` and the costs. -/
theorem mincost_fold (cands : List (Nat × F)) (m0 : F) :
    cands.foldl (fun mincost c => if mincost > c.2 then c.2 else mincost) m0 ≤ m0 ∧
      (∀ c ∈ cands,
        cands.foldl (fun mincost c => if mincost > c.2 then c.2 else mincost) m0 ≤ c.2) ∧
      (cands.foldl (fun mincost c => if mincost > c.2 then c.2 else mincost) m0 = m0 ∨
        ∃ c ∈ cands,
          cands.foldl (fun mincost c => if mincost > c.2 then c.2 else mincost) m0 = c.2) := by
  induction cands generalizing m0 with
  | nil => exact ⟨le_refl _, by simp, Or.inl rfl⟩
  | cons a l ih =>
    simp only [List.foldl_cons]
    by_cases h : m0 > a.2
    · rw [if_pos h]
      obtain ⟨h1, h2, h3⟩ := ih a.2
      refine ⟨le_trans h1 (le_of_lt h), ?_, ?_⟩
      · intro c hc
        rcases List.mem_cons.1 hc with rfl | hc
        · exact h1
        · exact h2 c hc
      · rcases h3 with h3 | ⟨c, hc, h3⟩
        · exact Or.inr ⟨a, List.mem_cons_self _ _, h3⟩
        · exact Or.inr ⟨c, List.mem_cons_of_mem _ hc, h3⟩
    · rw [if_neg h]
      obtain ⟨h1, h2, h3⟩ := ih m0
      refine ⟨h1, ?_, ?_⟩
      · intro c hc
        rcases List.mem_cons.1 hc with rfl | hc
        · exact le_trans h1 (not_lt.1 h)
        · exact h2 c hc
      · rcases h3 with h3 | ⟨c, hc, h3⟩
        · exact Or.inl h3
        · exact Or.inr ⟨c, List.mem_cons_of_mem _ hc, h3⟩

/-- The pair returned by the second loop of `ComputeCost` is the initial one
when every cost exceeds `mincost`, and is otherwise made from the last
candidate whose cost does not exceed `mincost`. -/
theorem selectBest_last (cands : List (Nat × F)) (mincost : F) (r0 : Int × F) :
    ((∀ c ∈ cands, c.2 > mincost) ∧
      cands.foldl (fun retval c => if c.2 > mincost then retval else ((c.1 : Int), c.2)) r0
        = r0) ∨
    ∃ l1 c l2, cands = l1 ++ c :: l2 ∧ ¬ (c.2 > mincost) ∧ (∀ d ∈ l2, d.2 > mincost) ∧
      cands.foldl (fun retval c => if c.2 > mincost then retval else ((c.1 : Int), c.2)) r0
        = ((c.1 : Int), c.2) := by
  induction cands generalizing r0 with
  | nil => exact Or.inl ⟨by simp, rfl⟩
  | cons a l ih =>
    simp only [List.foldl_cons]
    by_cases h : a.2 > mincost
    · rw [if_pos h]
      rcases ih r0 with ⟨h1, h2⟩ | ⟨l1, c, l2, h1, h2, h3, h4⟩
      · left
        refine ⟨?_, h2⟩
        intro c hc
        rcases List.mem_cons.1 hc with rfl | hc
        · exact h
        · exact h1 c hc
      · right
        exact ⟨a :: l1, c, l2, by rw [h1]; rfl, h2, h3, h4⟩
    · rw [if_neg h]
      rcases ih ((a.1 : Int), a.2) with ⟨h1, h2⟩ | ⟨l1, c, l2, h1, h2, h3, h4⟩
      · right
        exact ⟨[], a, l, rfl, h, h1, h2⟩
      · right
        exact ⟨a :: l1, c, l2, by rw [h1]; rfl, h2, h3, h4⟩

/-- The candidates of `ComputeCost` over the positions `l` numbered from `n`:
their where-indices increase, and start at `n`. -/
theorem candidates_sorted (f : Nat × Position F → Option F) (l : List (Position F)) (n : Nat) :
    ((l.enumFrom n).filterMap fun e => (f e).map fun x => (e.1, x)).Pairwise
        (fun a b => a.1 < b.1) ∧
      ∀ c ∈ (l.enumFrom n).filterMap fun e => (f e).map fun x => (e.1, x), n ≤ c.1 := by
  induction l generalizing n with
  | nil => simp
  | cons p ps ih =>
    obtain ⟨h1, h2⟩ := ih (n + 1)
    simp only [List.enumFrom_cons, List.filterMap_cons]
    cases hf : f (n, p) with
    | none =>
      simp only [Option.map_none']
      exact ⟨h1, fun c hc => by have := h2 c hc; omega⟩
    | some x =>
      simp only [Option.map_some']
      refine ⟨List.pairwise_cons.2 ⟨?_, h1⟩, ?_⟩
      · intro c hc
        have := h2 c hc
        show n < c.1
        omega
      · intro c hc
        rcases List.mem_cons.1 hc with rfl | hc
        · exact le_refl _
        · have := h2 c hc; omega

/-- The candidates of `ComputeCost` as a `filterMap` of an optional cost. -/
theorem costCandidates_eq (mch : Machine F) (max_disp : F) (fr1 : Frame F)
    (estimate : Position F) (cost : Position F → F → F) :
    costCandidates mch max_disp fr1 estimate cost
      = (fr1.pos.enumFrom 0).filterMap fun e =>
          ((fun (e : Nat × Position F) =>
            if mch.toFloat (Distance estimate e.2) > max_disp * max_disp then none
            else some (cost e.2 (mch.toFloat (Distance estimate e.2)))) e).map
            fun x => (e.1, x) := by
  unfold costCandidates List.enum
  congr 1
  funext e
  simp only
  split <;> rfl

/-- A particle of the frame within `max_disp` of the estimate is a candidate of
`ComputeCost`. -/
theorem costCandidates_mem (mch : Machine F) (max_disp : F) (fr1 : Frame F)
    (estimate : Position F) (cost : Position F → F → F) (i : Nat) (hi : i < fr1.NumParticles)
    (hd : mch.toFloat (Distance estimate (fr1.pos.getD i default)) ≤ max_disp * max_disp) :
    (i, cost (fr1.pos.getD i default)
        (mch.toFloat (Distance estimate (fr1.pos.getD i default))))
      ∈ costCandidates mch max_disp fr1 estimate cost := by
  unfold costCandidates
  rw [List.mem_filterMap]
  refine ⟨(i, fr1.pos.getD i default), ?_, ?_⟩
  · rw [List.mk_mem_enum_iff_getElem?, List.getD_eq_getElem?_getD,
      List.getElem?_eq_getElem hi]
    rfl
  · simp only
    rw [if_neg (not_lt.2 hd)]

/-- What the two loops of `ComputeCost` select, for any cost of the candidates:
nothing when every candidate costs more than `1e6`; otherwise the last of the
candidates of least cost. -/
theorem select_spec (mch : Machine F) (max_disp : F) (fr1 : Frame F)
    (estimate : Position F) (cost : Position F → F → F) :
    (selectBest (costCandidates mch max_disp fr1 estimate cost)
        (mincostOf (costCandidates mch max_disp fr1 estimate cost)) = (-1, 1000000) ∧
      ∀ i, i < fr1.NumParticles →
        mch.toFloat (Distance estimate (fr1.pos.getD i default)) ≤ max_disp * max_disp →
        cost (fr1.pos.getD i default)
          (mch.toFloat (Distance estimate (fr1.pos.getD i default))) > 1000000) ∨
    ∃ c, c < fr1.NumParticles ∧
      selectBest (costCandidates mch max_disp fr1 estimate cost)
          (mincostOf (costCandidates mch max_disp fr1 estimate cost))
        = ((c : Int), cost (fr1.pos.getD c default)
            (mch.toFloat (Distance estimate (fr1.pos.getD c default)))) ∧
      mch.toFloat (Distance estimate (fr1.pos.getD c default)) ≤ max_disp * max_disp ∧
      cost (fr1.pos.getD c default)
        (mch.toFloat (Distance estimate (fr1.pos.getD c default))) ≤ 1000000 ∧
      (∀ i, i < fr1.NumParticles →
        mch.toFloat (Distance estimate (fr1.pos.getD i default)) ≤ max_disp * max_disp →
        cost (fr1.pos.getD c default)
            (mch.toFloat (Distance estimate (fr1.pos.getD c default)))
          ≤ cost (fr1.pos.getD i default)
            (mch.toFloat (Distance estimate (fr1.pos.getD i default)))) ∧
      (∀ i, i < fr1.NumParticles → c < i →
        mch.toFloat (Distance estimate (fr1.pos.getD i default)) ≤ max_disp * max_disp →
        cost (fr1.pos.getD c default)
            (mch.toFloat (Distance estimate (fr1.pos.getD c default)))
          < cost (fr1.pos.getD i default)
            (mch.toFloat (Distance estimate (fr1.pos.getD i default)))) := by
  obtain ⟨m1, m2, m3⟩ := mincost_fold (costCandidates mch max_disp fr1 estimate cost) 1000000
  have hmem := costCandidates_mem mch max_disp fr1 estimate cost
  rcases selectBest_last (costCandidates mch max_disp fr1 estimate cost)
    (mincostOf (costCandidates mch max_disp fr1 estimate cost)) (-1, 1000000)
    with ⟨h1, h2⟩ | ⟨l1, c, l2, h1, h2, h3, h4⟩
  · left
    refine ⟨h2, ?_⟩
    have hm : mincostOf (costCandidates mch max_disp fr1 estimate cost) = 1000000 := by
      rcases m3 with m3 | ⟨c, hc, m3⟩
      · exact m3
      · have := h1 c hc
        have e : mincostOf (costCandidates mch max_disp fr1 estimate cost) = c.2 := m3
        rw [e] at this
        exact absurd this (lt_irrefl _)
    intro i hi hd
    have := h1 _ (hmem i hi hd)
    rw [hm] at this
    exact this
  · right
    have hc : c ∈ costCandidates mch max_disp fr1 estimate cost := by rw [h1]; simp
    obtain ⟨c1, c2, c3⟩ := mem_costCandidates mch max_disp fr1 estimate cost c hc
    have hle : c.2 ≤ mincostOf (costCandidates mch max_disp fr1 estimate cost) := not_lt.1 h2
    have hge : mincostOf (costCandidates mch max_disp fr1 estimate cost) ≤ c.2 := m2 c hc
    have heq : mincostOf (costCandidates mch max_disp fr1 estimate cost) = c.2 :=
      le_antisymm hge hle
    refine ⟨c.1, c1, ?_, not_lt.1 c2, ?_, ?_, ?_⟩
    · rw [← c3]; exact h4
    · rw [← c3, ← heq]; exact m1
    · intro i hi hd
      rw [← c3, ← heq]
      exact m2 _ (hmem i hi hd)
    · intro i hi hci hd
      rw [← c3, ← heq]
      have hin := hmem i hi hd
      have hsorted := (candidates_sorted
        (fun (e : Nat × Position F) =>
          if mch.toFloat (Distance estimate e.2) > max_disp * max_disp then none
          else some (cost e.2 (mch.toFloat (Distance estimate e.2)))) fr1.pos 0).1
      rw [← costCandidates_eq, h1] at hsorted
      rw [h1] at hin
      rcases List.mem_append.1 hin with hin | hin
      · have := (List.pairwise_append.1 hsorted).2.2 _ hin c (List.mem_cons_self _ _)
        simp only at this
        omega
      · rcases List.mem_cons.1 hin with hin | hin
        · have := congrArg Prod.fst hin
          simp only at this
          omega
        · exact h3 _ hin

/-- The cost returned by `ComputeCost` without look-ahead is at most `1e6`. -/
theorem ComputeCostStop_le (mch : Machine F) (max_disp : F) (fr : Frame F)
    (estimate : Position F) : (ComputeCostStop mch max_disp fr estimate).2 ≤ 1000000 := by
  rcases select_spec mch max_disp fr estimate (fun _ mag => mag) with ⟨h, _⟩ | ⟨c, _, h, _, h2, _⟩
  · unfold ComputeCostStop
    simp only
    rw [h]
  · unfold ComputeCostStop
    simp only
    rw [h]
    exact h2

/-- The second estimate of `ComputeCost` for the candidate `fit` (lines
355-357). -/
theorem ComputeCost_false (mch : Machine F) (max_disp : F) (fr1 fr2 : Frame F)
    (estimate velocity now : Position F) :
    ComputeCost mch max_disp fr1 fr2 estimate velocity now false
      = selectBest (costCandidates mch max_disp fr1 estimate fun fit _ =>
            (ComputeCostStop mch max_disp fr2
              ((fit.add (fit.sub now)).add
                (Position.smulL (1 / 2) ((fit.sub now).sub velocity)))).2)
          (mincostOf (costCandidates mch max_disp fr1 estimate fun fit _ =>
            (ComputeCostStop mch max_disp fr2
              ((fit.add (fit.sub now)).add
                (Position.smulL (1 / 2) ((fit.sub now).sub velocity)))).2)) := by
  unfold ComputeCost
  simp

theorem ComputeCost_true (mch : Machine F) (max_disp : F) (fr1 fr2 : Frame F)
    (estimate velocity now : Position F) :
    ComputeCost mch max_disp fr1 fr2 estimate velocity now true
      = selectBest (costCandidates mch max_disp fr1 estimate fun _ mag => mag)
          (mincostOf (costCandidates mch max_disp fr1 estimate fun _ mag => mag)) := by
  unfold ComputeCost
  simp

end CostLemmas

section CostTheorems

variable {F : Type} [LinearOrderedField F]

theorem lookCost_eq (mch : Machine F) (max_disp : F) (fr2 : Frame F)
    (velocity now fit : Position F) :
    lookCost mch max_disp fr2 velocity now fit
      = (ComputeCostStop mch max_disp fr2
          ((fit.add (fit.sub now)).add
            (Position.smulL (1 / 2) ((fit.sub now).sub velocity)))).2 := by
  unfold lookCost ComputeCostStop
  rw [ComputeCost_true]

/-- C32 (as amended). `ComputeCost` without look-ahead (`stopflag == true`), for
every frame, estimate and `max_disp`, with `mag` the squared distance of a
particle to the estimate converted to `float`.  It returns the index `-1`
exactly when no particle of the frame has `mag` at most `max_disp * max_disp`
and at most `1e6`.  Otherwise it returns the where-index `c` of a particle with
`mag` at most `max_disp * max_disp` together with that `mag` as the cost; no
particle of the frame has a smaller `mag`, and every particle after `c` has a
larger one.  When `max_disp * max_disp` is at most `1e6`, the index is `-1`
exactly when no particle has `mag` at most `max_disp * max_disp`. -/
theorem C32_cost_nearest (mch : Machine F) (max_disp : F) (fr1 fr2 : Frame F)
    (estimate velocity now : Position F) :
    ((ComputeCost mch max_disp fr1 fr2 estimate velocity now true).1 = -1 ↔
      ∀ i, i < fr1.NumParticles →
        ¬ (magOf mch fr1 estimate i ≤ max_disp * max_disp ∧
          magOf mch fr1 estimate i ≤ 1000000)) ∧
    ((ComputeCost mch max_disp fr1 fr2 estimate velocity now true).1 ≠ -1 →
      ∃ c, c < fr1.NumParticles ∧
        ComputeCost mch max_disp fr1 fr2 estimate velocity now true
          = ((c : Int), magOf mch fr1 estimate c) ∧
        magOf mch fr1 estimate c ≤ max_disp * max_disp ∧
        magOf mch fr1 estimate c ≤ 1000000 ∧
        (∀ i, i < fr1.NumParticles → magOf mch fr1 estimate c ≤ magOf mch fr1 estimate i) ∧
        (∀ i, i < fr1.NumParticles → c < i →
          magOf mch fr1 estimate c < magOf mch fr1 estimate i)) ∧
    (max_disp * max_disp ≤ 1000000 →
      ((ComputeCost mch max_disp fr1 fr2 estimate velocity now true).1 = -1 ↔
        ∀ i, i < fr1.NumParticles → ¬ magOf mch fr1 estimate i ≤ max_disp * max_disp)) := by
  rw [ComputeCost_true]
  have hiff : (selectBest (costCandidates mch max_disp fr1 estimate fun _ mag => mag)
        (mincostOf (costCandidates mch max_disp fr1 estimate fun _ mag => mag))).1 = -1 ↔
      ∀ i, i < fr1.NumParticles →
        ¬ (magOf mch fr1 estimate i ≤ max_disp * max_disp ∧
          magOf mch fr1 estimate i ≤ 1000000) := by
    rcases select_spec mch max_disp fr1 estimate (fun _ mag => mag)
      with ⟨h1, h2⟩ | ⟨c, hc, h1, h2, h3, _, _⟩
    · rw [h1]
      refine ⟨fun _ i hi hcon => ?_, fun _ => rfl⟩
      exact absurd hcon.2 (not_le.2 (h2 i hi hcon.1))
    · rw [h1]
      constructor
      · intro hcon
        simp only at hcon
        omega
      · intro hcon
        exact absurd ⟨h2, h3⟩ (hcon c hc)
  refine ⟨hiff, ?_, ?_⟩
  · intro hne
    rcases select_spec mch max_disp fr1 estimate (fun _ mag => mag)
      with ⟨h1, _⟩ | ⟨c, hc, h1, h2, h3, h4, h5⟩
    · rw [h1] at hne
      exact absurd rfl hne
    · refine ⟨c, hc, h1, h2, h3, ?_, ?_⟩
      · intro i hi
        by_cases hd : magOf mch fr1 estimate i ≤ max_disp * max_disp
        · exact h4 i hi hd
        · exact le_of_lt (lt_of_le_of_lt h2 (not_le.1 hd))
      · intro i hi hci
        by_cases hd : magOf mch fr1 estimate i ≤ max_disp * max_disp
        · exact h5 i hi hci hd
        · exact lt_of_le_of_lt h2 (not_le.1 hd)
  · intro hcap
    rw [hiff]
    constructor
    · intro h i hi hd
      exact h i hi ⟨hd, le_trans hd hcap⟩
    · intro h i hi hd
      exact h i hi hd.1

/-- C33 (as amended). `ComputeCost` with look-ahead (`stopflag == false`), with
`mag` the squared distance of a particle of `fr1` to the estimate converted to
`float`, and with the cost of a particle `c` being the cost that the call
without look-ahead returns on `fr2` for the second estimate
`c + (c - now) + 0.5 * ((c - now) - velocity)`.  That cost is at most `1e6`: it
is the least `mag` to the second estimate among the particles of `fr2` when
one of them has it at most `max_disp * max_disp` and at most `1e6`, and `1e6`
otherwise.  The call returns the index `-1` exactly when no particle of `fr1`
has `mag` at most `max_disp * max_disp`; otherwise it returns such a particle
`c` with its cost, no such particle costs less, and every such particle after
`c` costs more. -/
theorem C33_cost_lookahead (mch : Machine F) (max_disp : F) (fr1 fr2 : Frame F)
    (estimate velocity now : Position F) :
    ((ComputeCost mch max_disp fr1 fr2 estimate velocity now false).1 = -1 ↔
      ∀ i, i < fr1.NumParticles → ¬ magOf mch fr1 estimate i ≤ max_disp * max_disp) ∧
    ((ComputeCost mch max_disp fr1 fr2 estimate velocity now false).1 ≠ -1 →
      ∃ c, c < fr1.NumParticles ∧
        ComputeCost mch max_disp fr1 fr2 estimate velocity now false
          = ((c : Int), lookCost mch max_disp fr2 velocity now (fr1.pos.getD c default)) ∧
        magOf mch fr1 estimate c ≤ max_disp * max_disp ∧
        (∀ i, i < fr1.NumParticles → magOf mch fr1 estimate i ≤ max_disp * max_disp →
          lookCost mch max_disp fr2 velocity now (fr1.pos.getD c default)
            ≤ lookCost mch max_disp fr2 velocity now (fr1.pos.getD i default)) ∧
        (∀ i, i < fr1.NumParticles → c < i →
          magOf mch fr1 estimate i ≤ max_disp * max_disp →
          lookCost mch max_disp fr2 velocity now (fr1.pos.getD c default)
            < lookCost mch max_disp fr2 velocity now (fr1.pos.getD i default))) ∧
    (∀ fit : Position F,
      lookCost mch max_disp fr2 velocity now fit ≤ 1000000 ∧
      ((lookCost mch max_disp fr2 velocity now fit = 1000000 ∧
          ∀ j, j < fr2.NumParticles →
            magOf mch fr2 ((fit.add (fit.sub now)).add
                (Position.smulL (1 / 2) ((fit.sub now).sub velocity))) j
              ≤ max_disp * max_disp →
            1000000 ≤ magOf mch fr2 ((fit.add (fit.sub now)).add
                (Position.smulL (1 / 2) ((fit.sub now).sub velocity))) j) ∨
        ∃ j, j < fr2.NumParticles ∧
          lookCost mch max_disp fr2 velocity now fit
            = magOf mch fr2 ((fit.add (fit.sub now)).add
                (Position.smulL (1 / 2) ((fit.sub now).sub velocity))) j ∧
          magOf mch fr2 ((fit.add (fit.sub now)).add
              (Position.smulL (1 / 2) ((fit.sub now).sub velocity))) j
            ≤ max_disp * max_disp ∧
          ∀ k, k < fr2.NumParticles →
            magOf mch fr2 ((fit.add (fit.sub now)).add
                (Position.smulL (1 / 2) ((fit.sub now).sub velocity))) j
              ≤ magOf mch fr2 ((fit.add (fit.sub now)).add
                (Position.smulL (1 / 2) ((fit.sub now).sub velocity))) k)) := by
  have hlook : ∀ fit : Position F,
      lookCost mch max_disp fr2 velocity now fit ≤ 1000000 := by
    intro fit
    rw [lookCost_eq]
    exact ComputeCostStop_le _ _ _ _
  have hsel := select_spec mch max_disp fr1 estimate (fun fit _ =>
    (ComputeCostStop mch max_disp fr2
      ((fit.add (fit.sub now)).add (Position.smulL (1 / 2) ((fit.sub now).sub velocity)))).2)
  simp only [← lookCost_eq] at hsel
  rw [ComputeCost_false]
  simp only [← lookCost_eq]
  refine ⟨?_, ?_, ?_⟩
  · rcases hsel with ⟨h1, h2⟩ | ⟨c, hc, h1, h2, _⟩
    · rw [h1]
      refine ⟨fun _ i hi hd => ?_, fun _ => rfl⟩
      exact absurd (hlook _) (not_le.2 (h2 i hi hd))
    · rw [h1]
      constructor
      · intro hcon
        simp only at hcon
        omega
      · intro hcon
        exact absurd h2 (hcon c hc)
  · intro hne
    rcases hsel with ⟨h1, _⟩ | ⟨c, hc, h1, h2, _, h4, h5⟩
    · rw [h1] at hne
      exact absurd rfl hne
    · exact ⟨c, hc, h1, h2, h4, h5⟩
  · intro fit
    refine ⟨hlook fit, ?_⟩
    rw [lookCost_eq]
    unfold ComputeCostStop
    simp only
    rcases select_spec mch max_disp fr2
      ((fit.add (fit.sub now)).add (Position.smulL (1 / 2) ((fit.sub now).sub velocity)))
      (fun _ mag => mag) with ⟨h1, h2⟩ | ⟨j, hj, h1, h2, h3, h4, _⟩
    · left
      rw [h1]
      exact ⟨rfl, fun j hj hd => le_of_lt (h2 j hj hd)⟩
    · right
      rw [h1]
      refine ⟨j, hj, rfl, h2, ?_⟩
      intro k hk
      by_cases hd : magOf mch fr2 ((fit.add (fit.sub now)).add
          (Position.smulL (1 / 2) ((fit.sub now).sub velocity))) k ≤ max_disp * max_disp
      · exact h4 k hk hd
      · exact le_of_lt (lt_of_le_of_lt h2 (not_le.1 hd))

end CostTheorems

section CostEvaluations

/-- Witness of C32 (as amended): of the particles at `x = 1` and `x = 3`, the
first is returned for the estimate at `x = 0` with `max_disp = 2`, with the cost
1. -/
theorem C32_cost_nearest_witness :
    ComputeCost exactMachine 2 framePair framePair (Position.mk3 0 0 0) default default true
        = (0, 1) ∧
    ∃ c, c < framePair.NumParticles ∧
      ComputeCost exactMachine 2 framePair framePair (Position.mk3 0 0 0) default default true
        = ((c : Int), magOf exactMachine framePair (Position.mk3 0 0 0) c) ∧
      magOf exactMachine framePair (Position.mk3 0 0 0) c ≤ 2 * 2 ∧
      magOf exactMachine framePair (Position.mk3 0 0 0) c ≤ 1000000 ∧
      (∀ i, i < framePair.NumParticles →
        magOf exactMachine framePair (Position.mk3 0 0 0) c
          ≤ magOf exactMachine framePair (Position.mk3 0 0 0) i) ∧
      (∀ i, i < framePair.NumParticles → c < i →
        magOf exactMachine framePair (Position.mk3 0 0 0) c
          < magOf exactMachine framePair (Position.mk3 0 0 0) i) :=
  ⟨by decide!,
    (C32_cost_nearest exactMachine 2 framePair framePair (Position.mk3 0 0 0) default
      default).2.1 (by decide!)⟩

/-- Counterexample to C32 as stated: with `max_disp = 2000` the particle at
`x = 1500` is within `max_disp` of the estimate at the origin (squared distance
`2250000`, at most `max_disp * max_disp = 4000000`), and the index `-1` is
returned. -/
theorem C32_counterexample :
    ComputeCost exactMachine 2000 frameFar frameFar (Position.mk3 0 0 0) default default true
        = (-1, 1000000) ∧
    frameFar.NumParticles = 1 ∧
    Distance (Position.mk3 0 0 0) (frameFar.pos.getD 0 default) = 2250000 ∧
    (2250000 : ℚ) ≤ 2000 * 2000 ∧ (0 : ℚ) ≤ 2000 := by
  decide!

/-- Witness of C33 (as amended): in the frame with particles at `x = 1` and
`x = 3`, both within `max_disp = 2` of the estimate at `x = 2`, the second
estimates for a track that was at `x = 0` with zero velocity are `x = 5/2` and
`x = 15/2`; the particle of the frame after it, at `x = 2`, is at squared
distance `1/4` of the first and too far from the second, so the costs are `1/4`
and `1e6`, and the first particle is returned. -/
theorem C33_cost_lookahead_witness :
    ComputeCost exactMachine 2 framePair frameAhead (Position.mk3 2 0 0) (Position.mk3 0 0 0)
        (Position.mk3 0 0 0) false = (0, 1 / 4) ∧
    lookCost exactMachine 2 frameAhead (Position.mk3 0 0 0) (Position.mk3 0 0 0)
        (framePair.pos.getD 1 default) = 1000000 ∧
    ∃ c, c < framePair.NumParticles ∧
      ComputeCost exactMachine 2 framePair frameAhead (Position.mk3 2 0 0) (Position.mk3 0 0 0)
          (Position.mk3 0 0 0) false
        = ((c : Int), lookCost exactMachine 2 frameAhead (Position.mk3 0 0 0)
            (Position.mk3 0 0 0) (framePair.pos.getD c default)) ∧
      magOf exactMachine framePair (Position.mk3 2 0 0) c ≤ 2 * 2 ∧
      (∀ i, i < framePair.NumParticles →
        magOf exactMachine framePair (Position.mk3 2 0 0) i ≤ 2 * 2 →
        lookCost exactMachine 2 frameAhead (Position.mk3 0 0 0) (Position.mk3 0 0 0)
            (framePair.pos.getD c default)
          ≤ lookCost exactMachine 2 frameAhead (Position.mk3 0 0 0) (Position.mk3 0 0 0)
            (framePair.pos.getD i default)) ∧
      (∀ i, i < framePair.NumParticles → c < i →
        magOf exactMachine framePair (Position.mk3 2 0 0) i ≤ 2 * 2 →
        lookCost exactMachine 2 frameAhead (Position.mk3 0 0 0) (Position.mk3 0 0 0)
            (framePair.pos.getD c default)
          < lookCost exactMachine 2 frameAhead (Position.mk3 0 0 0) (Position.mk3 0 0 0)
            (framePair.pos.getD i default)) :=
  ⟨by decide!, by decide!,
    (C33_cost_lookahead exactMachine 2 framePair frameAhead (Position.mk3 2 0 0)
      (Position.mk3 0 0 0) (Position.mk3 0 0 0)).2.1 (by decide!)⟩

/-- Counterexample to C33 as stated: the frame after the next one is empty, so
no candidate has a particle of it within `max_disp` of its second estimate; the
call returns the last candidate, the particle at `x = 3`, with the cost `1e6`,
not the index `-1`. -/
theorem C33_counterexample :
    ComputeCost exactMachine 2 framePair ⟨[]⟩ (Position.mk3 2 0 0) (Position.mk3 0 0 0)
        (Position.mk3 0 0 0) false = (1, 1000000) ∧
    (⟨[]⟩ : Frame ℚ).NumParticles = 0 := by
  decide!

end CostEvaluations

section KeepLemmas

variable {F : Type} [LinearOrderedField F]

/-- Three properties of the state, of which the first holds when an iteration
of the loop over the frames starts, the second after the linking stage and the
third after `PadTracks`, on frames that satisfy `G`: the states of the loop
satisfy the second or the third, and the state at the exit satisfies the
first. -/
theorem frameLoop_stages (mch : Machine F) (tk : Tracker F) (last : Int)
    (Pre Mid Post : TState F → Prop)
    (G : Frame F → Prop)
    (hlink : ∀ fr1 fr2 s s1, G fr1 → Pre s →
      linkStage mch tk fr1 fr2 s = Except.ok s1 → Mid s1)
    (hskip : ∀ s, Pre s → Mid s)
    (hpad : ∀ s s1, Mid s → PadTracks tk s = Except.ok s1 → Post s1)
    (hfn : ∀ s : TState F, Post s → Pre { s with framenum := s.framenum + 1 })
    (fs : List (Frame F)) (st : TState F)
    (hreal : ∀ fr ∈ fs, G fr) (h0 : Pre st) :
    (∀ s ∈ (frameLoop mch tk last fs st).1, Mid s ∨ Post s) ∧
      ∀ r, (frameLoop mch tk last fs st).2 = Except.ok r → Pre r := by
  induction fs generalizing st with
  | nil =>
    simp only [frameLoop]
    refine ⟨by simp, ?_⟩
    intro r hr
    split at hr
    · rw [← Except.ok.inj hr]; exact h0
    · exact Except.noConfusion hr
  | cons fr0 rest ih =>
    have hrest : ∀ fr ∈ rest, G fr :=
      fun fr hfr => hreal fr (List.mem_cons_of_mem _ hfr)
    unfold frameLoop
    split
    · refine ⟨by simp, ?_⟩
      intro r hr
      rw [← Except.ok.inj hr]; exact h0
    · split
      · refine ⟨by simp, ?_⟩
        intro r hr
        exact Except.noConfusion hr
      · rename_i fr1 rest2
        have hfr1 : G fr1 := hreal fr1 (by simp)
        split
        · split
          · refine ⟨by simp, ?_⟩
            intro r hr
            exact Except.noConfusion hr
          · rename_i st2 hst2
            have h2 := hpad st st2 (hskip st h0) hst2
            obtain ⟨i1, i2⟩ := ih _ hrest (hfn st2 h2)
            refine ⟨?_, i2⟩
            intro s hs
            simp only [List.mem_cons] at hs
            rcases hs with rfl | hs
            · exact Or.inr h2
            · exact i1 s hs
        · split
          · refine ⟨by simp, ?_⟩
            intro r hr
            exact Except.noConfusion hr
          · rename_i st1 hst1
            have h1 := hlink fr1 _ st st1 hfr1 h0 hst1
            split
            · refine ⟨?_, ?_⟩
              · intro s hs
                simp only [List.mem_singleton] at hs
                rw [hs]; exact Or.inl h1
              · intro r hr
                exact Except.noConfusion hr
            · rename_i st2 hst2
              have h2 := hpad st1 st2 h1 hst2
              obtain ⟨i1, i2⟩ := ih _ hrest (hfn st2 h2)
              refine ⟨?_, i2⟩
              intro s hs
              simp only [List.mem_cons] at hs
              rcases hs with rfl | rfl | hs
              · exact Or.inl h1
              · exact Or.inr h2
              · exact i1 s hs

/-- A property of the state that the linking stage and `PadTracks` keep, and
that does not depend on the frame number, holds in every state of the loop over
the frames and at its exit. -/
theorem frameLoop_keeps (mch : Machine F) (tk : Tracker F) (last : Int) (Inv : TState F → Prop)
    (G : Frame F → Prop)
    (hlink : ∀ fr1 fr2 s s1, G fr1 → Inv s →
      linkStage mch tk fr1 fr2 s = Except.ok s1 → Inv s1)
    (hpad : ∀ s s1, Inv s → PadTracks tk s = Except.ok s1 → Inv s1)
    (hfn : ∀ s : TState F, Inv s → Inv { s with framenum := s.framenum + 1 })
    (fs : List (Frame F)) (st : TState F) (hreal : ∀ fr ∈ fs, G fr) (h0 : Inv st) :
    (∀ s ∈ (frameLoop mch tk last fs st).1, Inv s) ∧
      ∀ r, (frameLoop mch tk last fs st).2 = Except.ok r → Inv r := by
  obtain ⟨h1, h2⟩ := frameLoop_stages mch tk last Inv Inv Inv G hlink (fun _ h => h) hpad hfn
    fs st hreal h0
  exact ⟨fun s hs => (h1 s hs).elim id id, h2⟩

/-- The same for a whole run of `MakeTracks`: the property holds in every state
of the run and, when the final loop keeps it, in the state the run ends in. -/
theorem run_keeps (mch : Machine F) (tk : Tracker F) (Inv : TState F → Prop)
    (G : Frame F → Prop)
    (hlink : ∀ fr1 fr2 s s1, G fr1 → Inv s →
      linkStage mch tk fr1 fr2 s = Except.ok s1 → Inv s1)
    (hpad : ∀ s s1, Inv s → PadTracks tk s = Except.ok s1 → Inv s1)
    (hfn : ∀ s : TState F, Inv s → Inv { s with framenum := s.framenum + 1 })
    (hflush : ∀ s s1, Inv s → forEach flushOne s.activelist s = Except.ok s1 → Inv s1)
    (f : List (Frame F)) (hreal : ∀ fr ∈ f, G fr)
    (h0 : ∀ f0 rest, f = f0 :: rest → Inv (initState f0)) :
    (∀ st ∈ MakeTracksTrace mch tk f, Inv st) ∧
      ∀ st, MakeTracks mch tk f = Except.ok st → Inv st := by
  cases f with
  | nil =>
    refine ⟨by simp [MakeTracksTrace], ?_⟩
    intro st hst
    exact Except.noConfusion hst
  | cons f0 rest =>
    obtain ⟨l1, l2⟩ := frameLoop_keeps mch tk (lastIndex tk.mode (f0 :: rest).length) Inv G
      hlink hpad hfn (f0 :: rest) (initState f0) hreal (h0 f0 rest rfl)
    constructor
    · intro st hst
      simp only [MakeTracksTrace, List.mem_cons] at hst
      rcases hst with rfl | hst
      · exact h0 f0 rest rfl
      · exact l1 st hst
    · intro st hst
      simp only [MakeTracks] at hst
      split at hst
      · exact Except.noConfusion hst
      · rename_i st0 hst0
        exact hflush st0 st (l2 st0 hst0) hst

/-- The linking stage keeps a property of the tracks that holds for a new
track of one real position and is kept when a real position is added. -/
theorem linkStage_tracks (mch : Machine F) (tk : Tracker F) (Q : Track F → Prop)
    (hsingle : ∀ (p : Position F) (m : Int), p.fake = false → Q (Track.single p m))
    (hadd : ∀ (t : Track F) (p : Position F) (m : Int), Q t → p.fake = false →
      Q ((t.Add p m).ResetCounter))
    (fr1 : Frame F) (fr2 : Option (Frame F)) (s s1 : TState F)
    (hreal : ∀ p ∈ fr1.pos, p.fake = false)
    (h0 : (∀ id t, s.tracks id = some t → Q t) ∧ ∀ w ∈ s.written, Q w.2)
    (h : linkStage mch tk fr1 fr2 s = Except.ok s1) :
    (∀ id t, s1.tracks id = some t → Q t) ∧ ∀ w ∈ s1.written, Q w.2 := by
  unfold linkStage at h
  split at h
  · exact Except.noConfusion h
  · rename_i cl _
    refine forEach_inv (addLinked fr1 cl.2) (List.range fr1.NumParticles)
      (fun _ a => (∀ id t, a.tracks id = some t → Q t) ∧ ∀ w ∈ a.written, Q w.2)
      ?_ (List.range fr1.NumParticles) [] s s1 rfl h0 h
    intro done x rest a a1 hsplit ha hstep
    obtain ⟨_, hxn⟩ := range_split _ _ _ _ hsplit
    have hp : (fr1.pos.getD x default).fake = false := hreal _ (getD_mem_of_lt _ _ _ hxn)
    rcases addLinked_cases fr1 cl.2 a a1 x hstep with ⟨_, rfl⟩ | ⟨_, t, ht, rfl⟩
    · refine ⟨?_, ha.2⟩
      intro id t2 ht2
      simp only [set_apply] at ht2
      split at ht2
      · rw [← Option.some.inj ht2]; exact hsingle _ _ hp
      · exact ha.1 id t2 ht2
    · refine ⟨?_, ha.2⟩
      intro id t2 ht2
      simp only [set_apply] at ht2
      split at ht2
      · rw [← Option.some.inj ht2]; exact hadd t _ _ (ha.1 _ t ht) hp
      · exact ha.1 id t2 ht2

/-- The call of `PadTracks` keeps a property of the tracks that is kept when an
estimated position is added to a track whose occlusion counter is below `memory`
and whose length is above 2. -/
theorem PadTracks_tracks (tk : Tracker F) (Q : Track F → Prop)
    (hpadq : ∀ (t : Track F) (last pen ante : Position F) (m : Int), Q t →
      ¬ (t.OcclusionCount ≥ tk.memory) → ¬ (t.Length ≤ 2) → t.Last = Except.ok last →
      t.Penultimate = Except.ok pen → t.Antepenultimate = Except.ok ante →
      Q ((t.Add (padEstimate tk last pen ante) m).Occluded))
    (s s1 : TState F)
    (h0 : (∀ id t, s.tracks id = some t → Q t) ∧ ∀ w ∈ s.written, Q w.2)
    (h : PadTracks tk s = Except.ok s1) :
    (∀ id t, s1.tracks id = some t → Q t) ∧ ∀ w ∈ s1.written, Q w.2 := by
  unfold PadTracks at h
  split at h
  · exact Except.noConfusion h
  · rename_i acc hacc
    split at h
    · exact Except.noConfusion h
    · rename_i st2 hst2
      have h1 : (∀ id t, acc.st.tracks id = some t → Q t) ∧ ∀ w ∈ acc.st.written, Q w.2 := by
        refine forEach_inv (padOne tk) s.activelist
          (fun _ a => (∀ id t, a.st.tracks id = some t → Q t) ∧ ∀ w ∈ a.st.written, Q w.2)
          ?_ s.activelist [] _ acc rfl h0 hacc
        intro done x rest a a1 _ ha hstep
        obtain ⟨t, tm, ht, _, hcase⟩ := padOne_cases tk a a1 x hstep
        rcases hcase with ⟨_, rfl⟩ | ⟨_, _, _, rfl⟩ | ⟨_, _, _, rfl⟩ | ⟨_, _, _, rfl⟩ |
          ⟨_, hocc, hlen, last, pen, ante, hl, hp, han, rfl⟩
        · exact ha
        · refine ⟨?_, ha.2⟩
          intro id t2 ht2
          simp only [erase_apply] at ht2
          split at ht2
          · exact Option.noConfusion ht2
          · exact ha.1 id t2 ht2
        · exact ha
        · refine ⟨?_, ha.2⟩
          intro id t2 ht2
          simp only [erase_apply] at ht2
          split at ht2
          · exact Option.noConfusion ht2
          · exact ha.1 id t2 ht2
        · refine ⟨?_, ha.2⟩
          intro id t2 ht2
          simp only [set_apply] at ht2
          split at ht2
          · rw [← Option.some.inj ht2]
            exact hpadq t last pen ante _ (ha.1 _ t ht) hocc hlen hl hp han
          · exact ha.1 id t2 ht2
      have h2 : (∀ id t, st2.tracks id = some t → Q t) ∧ ∀ w ∈ st2.written, Q w.2 := by
        refine forEach_inv writeOne acc.writelist
          (fun _ a => (∀ id t, a.tracks id = some t → Q t) ∧ ∀ w ∈ a.written, Q w.2)
          ?_ acc.writelist [] acc.st st2 rfl h1 hst2
        intro done x rest a a1 _ ha hstep
        obtain ⟨t, ht, rfl⟩ := writeOne_cases a a1 x hstep
        refine ⟨?_, ?_⟩
        · intro id t2 ht2
          simp only [erase_apply] at ht2
          split at ht2
          · exact Option.noConfusion ht2
          · exact ha.1 id t2 ht2
        · intro w hw
          simp only [List.mem_append, List.mem_singleton] at hw
          rcases hw with hw | rfl
          · exact ha.2 w hw
          · exact ha.1 x t ht
      rw [← Except.ok.inj h]
      exact h2

/-- The final loop of `MakeTracks` keeps every property of the tracks. -/
theorem flush_tracks (Q : Track F → Prop) (L : List Int) (s s1 : TState F)
    (h0 : (∀ id t, s.tracks id = some t → Q t) ∧ ∀ w ∈ s.written, Q w.2)
    (h : forEach flushOne L s = Except.ok s1) :
    (∀ id t, s1.tracks id = some t → Q t) ∧ ∀ w ∈ s1.written, Q w.2 := by
  refine forEach_inv flushOne L
    (fun _ a => (∀ id t, a.tracks id = some t → Q t) ∧ ∀ w ∈ a.written, Q w.2)
    ?_ L [] s s1 rfl h0 h
  intro done x rest a a1 _ ha hstep
  obtain ⟨t, ht, hcase⟩ := flushOne_cases a a1 x hstep
  rcases hcase with ⟨_, rfl⟩ | ⟨_, rfl⟩
  · refine ⟨ha.1, ?_⟩
    intro w hw
    simp only [List.mem_append, List.mem_singleton] at hw
    rcases hw with hw | rfl
    · exact ha.2 w hw
    · exact ha.1 x t ht
  · exact ha

/-- A property of the tracks that holds for a new track of one real position,
and is kept when a real position is added and when `PadTracks` adds an
estimated position, holds for every track of the map and every written track in
every state of a run on real positions. -/
theorem run_tracks (mch : Machine F) (tk : Tracker F) (Q : Track F → Prop)
    (hsingle : ∀ (p : Position F) (m : Int), p.fake = false → Q (Track.single p m))
    (hadd : ∀ (t : Track F) (p : Position F) (m : Int), Q t → p.fake = false →
      Q ((t.Add p m).ResetCounter))
    (hpadq : ∀ (t : Track F) (last pen ante : Position F) (m : Int), Q t →
      ¬ (t.OcclusionCount ≥ tk.memory) → ¬ (t.Length ≤ 2) → t.Last = Except.ok last →
      t.Penultimate = Except.ok pen → t.Antepenultimate = Except.ok ante →
      Q ((t.Add (padEstimate tk last pen ante) m).Occluded))
    (f : List (Frame F)) (hreal : ∀ fr ∈ f, ∀ p ∈ fr.pos, p.fake = false) :
    (∀ st ∈ MakeTracksTrace mch tk f,
      (∀ id t, st.tracks id = some t → Q t) ∧ ∀ w ∈ st.written, Q w.2) ∧
    ∀ st, MakeTracks mch tk f = Except.ok st →
      (∀ id t, st.tracks id = some t → Q t) ∧ ∀ w ∈ st.written, Q w.2 := by
  refine run_keeps mch tk
    (fun st => (∀ id t, st.tracks id = some t → Q t) ∧ ∀ w ∈ st.written, Q w.2)
    (fun fr => ∀ p ∈ fr.pos, p.fake = false)
    (fun fr1 fr2 s s1 hr h0 h => linkStage_tracks mch tk Q hsingle hadd fr1 fr2 s s1 hr h0 h)
    (fun s s1 h0 h => PadTracks_tracks tk Q hpadq s s1 h0 h)
    (fun s h => h)
    (fun s s1 h0 h => flush_tracks Q _ s s1 h0 h)
    f hreal ?_
  intro f0 rest hf
  obtain ⟨_, _, _, h4, h5⟩ := initState_fields f0
  refine ⟨?_, by rw [h4]; simp⟩
  intro id t ht
  obtain ⟨i, hi, rfl⟩ := h5 id t ht
  apply hsingle
  apply hreal f0 (by rw [hf]; simp)
  exact getD_mem_of_lt _ _ _ hi

end KeepLemmas

section LinkShapeLemmas

variable {F : Type} [LinearOrderedField F]

theorem filter_range_snoc (p : Nat → Bool) (done : List Nat) (x : Nat) :
    (done ++ [x]).filter p = if p x then done.filter p ++ [x] else done.filter p := by
  rw [List.filter_append]
  by_cases h : p x = true
  · simp [h]
  · simp [h]

/-- The loop of lines 134-147 along an array `links` that is injective on its
linked slots and holds ids below `trackindex` there. -/
theorem addLoop_shape (fr1 : Frame F) (links : List Int) (st st1 : TState F)
    (hids : ∀ c, c < fr1.NumParticles → links.getD c UNLINKED ≠ UNLINKED →
      links.getD c UNLINKED < st.trackindex)
    (hinj : ∀ c d, c < fr1.NumParticles → d < fr1.NumParticles →
      links.getD c UNLINKED ≠ UNLINKED →
      links.getD c UNLINKED = links.getD d UNLINKED → c = d)
    (h : forEach (addLinked fr1 links) (List.range fr1.NumParticles) st = Except.ok st1) :
    LinkShape fr1 links st st1 := by
  have key := forEach_inv (addLinked fr1 links) (List.range fr1.NumParticles)
    (fun done a =>
      a.framenum = st.framenum ∧ a.written = st.written ∧ a.ntracks = st.ntracks ∧
      a.ntotalpoints = st.ntotalpoints ∧ a.too_short = st.too_short ∧
      a.trackindex = st.trackindex
        + (((done.filter fun c => decide (links.getD c UNLINKED = UNLINKED)).length : Nat)
            : Int) ∧
      a.activelist = st.activelist ++
        (List.range (done.filter fun c => decide (links.getD c UNLINKED = UNLINKED)).length).map
          (fun (k : Nat) => st.trackindex + (k : Int)) ∧
      (∀ id, id < st.trackindex →
        (∀ c ∈ done, links.getD c UNLINKED ≠ UNLINKED → links.getD c UNLINKED ≠ id) →
        a.tracks id = st.tracks id) ∧
      (∀ c ∈ done, links.getD c UNLINKED ≠ UNLINKED →
        ∃ t, st.tracks (links.getD c UNLINKED) = some t ∧
          a.tracks (links.getD c UNLINKED)
            = some ((t.Add (fr1.pos.getD c default) st.framenum).ResetCounter)) ∧
      (∀ k, k < (done.filter fun c => decide (links.getD c UNLINKED = UNLINKED)).length →
        a.tracks (st.trackindex + (k : Int))
          = some (Track.single (fr1.pos.getD
              ((done.filter fun c => decide (links.getD c UNLINKED = UNLINKED)).getD k 0)
              default) st.framenum)) ∧
      (∀ id, st.trackindex
          + (((done.filter fun c => decide (links.getD c UNLINKED = UNLINKED)).length : Nat)
              : Int) ≤ id →
        a.tracks id = st.tracks id))
    ?_ (List.range fr1.NumParticles) [] st st1 rfl
    ⟨rfl, rfl, rfl, rfl, rfl, by simp, by simp, fun _ _ _ => rfl, by simp, by simp,
      fun _ _ => rfl⟩ h
  · obtain ⟨k1, k2, k3, k4, k5, k6, k7, k8, k9, k10, k11⟩ := key
    exact ⟨k1, k2, k3, k4, k5, k6, k7,
      fun id hid hno => k8 id hid (fun c hc hl => hno c (List.mem_range.1 hc) hl),
      fun c hc hl => k9 c (List.mem_range.2 hc) hl, k10, k11⟩
  intro done x rest a a1 hsplit ha hstep
  obtain ⟨k1, k2, k3, k4, k5, k6, k7, k8, k9, k10, k11⟩ := ha
  obtain ⟨_, hxn⟩ := range_split _ _ _ _ hsplit
  have hxnot : x ∉ done := not_mem_done _ _ _ _ (List.nodup_range _) hsplit
  have hdone : ∀ i ∈ done, i < fr1.NumParticles := by
    intro i hi
    have : i ∈ List.range fr1.NumParticles := by rw [hsplit]; simp [hi]
    exact List.mem_range.1 this
  rcases addLinked_cases fr1 links a a1 x hstep with ⟨hu, rfl⟩ | ⟨hl, t, ht, rfl⟩
  · -- a new track is started
    have hf : (done ++ [x]).filter (fun c => decide (links.getD c UNLINKED = UNLINKED))
        = done.filter (fun c => decide (links.getD c UNLINKED = UNLINKED)) ++ [x] := by
      rw [filter_range_snoc, if_pos (decide_eq_true hu)]
    rw [hf]
    simp only [List.length_append, List.length_singleton]
    refine ⟨k1, k2, k3, k4, k5, ?_, ?_, ?_, ?_, ?_, ?_⟩
    · rw [k6]; push_cast; ring
    · rw [k7, k6, List.range_succ, List.map_append, List.append_assoc]
      rfl
    · intro id hid hno
      rw [set_apply, if_neg (by rw [k6]; omega)]
      exact k8 id hid (fun c hc hlc => hno c (by simp [hc]) hlc)
    · intro c hc hlc
      simp only [List.mem_append, List.mem_singleton] at hc
      rcases hc with hc | rfl
      · obtain ⟨t, h1, h2⟩ := k9 c hc hlc
        refine ⟨t, h1, ?_⟩
        rw [set_apply, if_neg, h2]
        have := hids c (hdone c hc) hlc
        rw [k6]; omega
      · exact absurd hu hlc
    · intro k hk
      by_cases hkl : k < (done.filter fun c => decide (links.getD c UNLINKED = UNLINKED)).length
      · rw [set_apply, if_neg (by rw [k6]; omega), k10 k hkl, getD_snoc_left _ _ _ _ hkl]
      · have hke : k = (done.filter fun c =>
            decide (links.getD c UNLINKED = UNLINKED)).length := by omega
        rw [hke, getD_snoc_last, set_apply, if_pos (by rw [k6]), k1]
    · intro id hid
      rw [set_apply, if_neg (by rw [k6]; push_cast at hid; omega)]
      exact k11 id (by push_cast at hid; omega)
  · -- the particle is added to its track
    have hf : (done ++ [x]).filter (fun c => decide (links.getD c UNLINKED = UNLINKED))
        = done.filter (fun c => decide (links.getD c UNLINKED = UNLINKED)) := by
      rw [filter_range_snoc, if_neg (by simpa using hl)]
    rw [hf]
    have hlt := hids x hxn hl
    have hfresh : ∀ c ∈ done, links.getD c UNLINKED ≠ links.getD x UNLINKED := by
      intro c hc he
      have hcx : c = x := hinj c x (hdone c hc) hxn (by rw [he]; exact hl) he
      exact hxnot (hcx ▸ hc)
    have hold : st.tracks (links.getD x UNLINKED) = some t := by
      rw [← k8 _ hlt (fun c hc _ => hfresh c hc)]; exact ht
    dsimp only
    refine ⟨k1, k2, k3, k4, k5, k6, k7, ?_, ?_, ?_, ?_⟩
    · intro id hid hno
      have hne : id ≠ links.getD x UNLINKED := fun he => hno x (by simp) hl he.symm
      rw [set_apply, if_neg hne]
      exact k8 id hid (fun c hc hlc => hno c (by simp [hc]) hlc)
    · intro c hc hlc
      simp only [List.mem_append, List.mem_singleton] at hc
      rcases hc with hc | rfl
      · obtain ⟨t2, h1, h2⟩ := k9 c hc hlc
        refine ⟨t2, h1, ?_⟩
        rw [set_apply, if_neg (hfresh c hc), h2]
      · refine ⟨t, hold, ?_⟩
        rw [set_apply, if_pos rfl, k1]
    · intro k hk
      rw [set_apply, if_neg (by omega)]
      exact k10 k hk
    · intro id hid
      rw [set_apply, if_neg (by omega)]
      exact k11 id hid

/-- The linking stage of a frame step, from a state whose active ids are
distinct and below `trackindex`: the array `links` made by `MakeLinks` is
injective on its linked slots, which hold active tracks, and the state after
the stage is the state before it with the particles added along `links`. -/
theorem linkStage_shape (mch : Machine F) (tk : Tracker F) (fr1 : Frame F)
    (fr2 : Option (Frame F)) (st st1 : TState F) (hok : st.IdsOK)
    (h : linkStage mch tk fr1 fr2 st = Except.ok st1) :
    ∃ costs links,
      MakeLinks mch tk st.tracks st.activelist fr1 fr2
        (List.replicate fr1.NumParticles 0) (List.replicate fr1.NumParticles UNLINKED)
        = Except.ok (costs, links) ∧
      (∀ c d, c < fr1.NumParticles → d < fr1.NumParticles →
        links.getD c UNLINKED ≠ UNLINKED →
        links.getD c UNLINKED = links.getD d UNLINKED → c = d) ∧
      (∀ c, c < fr1.NumParticles → links.getD c UNLINKED ≠ UNLINKED →
        links.getD c UNLINKED ∈ st.activelist) ∧
      LinkShape fr1 links st st1 := by
  unfold linkStage at h
  split at h
  · exact Except.noConfusion h
  · rename_i cl hcl
    have hid : ∀ tr ∈ st.activelist, tr ≠ UNLINKED := by
      intro tr htr
      have := (hok.2.2.1 tr htr).1
      unfold UNLINKED
      omega
    have hinv := MakeLinks_inv mch tk st.tracks st.activelist fr1 fr2 _ cl hid (by simp) hcl
    have hact : ∀ c, c < fr1.NumParticles → cl.2.getD c UNLINKED ≠ UNLINKED →
        cl.2.getD c UNLINKED ∈ st.activelist :=
      fun c hc hl => (LinkInv_linked _ _ _ _ hinv c hc hl).1
    have hinj : ∀ c d, c < fr1.NumParticles → d < fr1.NumParticles →
        cl.2.getD c UNLINKED ≠ UNLINKED →
        cl.2.getD c UNLINKED = cl.2.getD d UNLINKED → c = d :=
      fun c d hc hd hl he => LinkInv_injective _ _ _ _ hinv c d hc hd hl he
    refine ⟨cl.1, cl.2, hcl, hinj, hact, ?_⟩
    exact addLoop_shape fr1 cl.2 st st1
      (fun c hc hl => (hok.2.2.1 _ (hact c hc hl)).2) hinj h

/-- Every track of the map after the linking stage is a track of the map before
it, unchanged or with one real particle of the frame added, or a new track of
one particle of the frame. -/
theorem LinkShape_back (fr1 : Frame F) (links : List Int) (st st1 : TState F)
    (hs : LinkShape fr1 links st st1) (id : Int) (t1 : Track F)
    (h : st1.tracks id = some t1) :
    st.tracks id = some t1 ∨
    (∃ t c, c < fr1.NumParticles ∧ st.tracks id = some t ∧
      t1 = (t.Add (fr1.pos.getD c default) st.framenum).ResetCounter) ∨
    (∃ c, c < fr1.NumParticles ∧ st.trackindex ≤ id ∧
      t1 = Track.single (fr1.pos.getD c default) st.framenum) := by
  obtain ⟨_, _, _, _, _, _, _, k8, k9, k10, k11⟩ := hs
  by_cases hlow : id < st.trackindex
  · by_cases hex : ∃ c, c < fr1.NumParticles ∧ links.getD c UNLINKED ≠ UNLINKED ∧
        links.getD c UNLINKED = id
    · obtain ⟨c, hc, hu, hl⟩ := hex
      obtain ⟨t, h1, h2⟩ := k9 c hc hu
      rw [hl] at h1 h2
      right; left
      exact ⟨t, c, hc, h1, Option.some.inj (h.symm.trans h2)⟩
    · left
      rw [← k8 id hlow (fun c hc hu he => hex ⟨c, hc, hu, he⟩)]
      exact h
  · by_cases hhigh : st.trackindex + ((unlinkedSlots fr1 links).length : Int) ≤ id
    · left
      rw [← k11 id hhigh]; exact h
    · right; right
      have h0 : 0 ≤ id - st.trackindex := by omega
      obtain ⟨k, hk⟩ := Int.eq_ofNat_of_zero_le h0
      have hkl : k < (unlinkedSlots fr1 links).length := by omega
      have hidk : id = st.trackindex + (k : Int) := by omega
      have := k10 k hkl
      rw [← hidk] at this
      refine ⟨(unlinkedSlots fr1 links).getD k 0, ?_, by omega,
        Option.some.inj (h.symm.trans this)⟩
      have hmem : (unlinkedSlots fr1 links).getD k 0 ∈ unlinkedSlots fr1 links :=
        getD_mem_of_lt _ _ _ hkl
      unfold unlinkedSlots at hmem
      exact List.mem_range.1 (List.mem_filter.1 hmem).1

end LinkShapeLemmas

section PadShapeLemmas

variable {F : Type} [LinearOrderedField F]

theorem filter_snoc {α : Type} (p : α → Bool) (done : List α) (x : α) :
    (done ++ [x]).filter p = if p x then done.filter p ++ [x] else done.filter p := by
  rw [List.filter_append]
  by_cases h : p x = true
  · simp [h]
  · simp [h]

theorem padOutcome_of (tk : Tracker F) (fn tm : Int) (t : Track F)
    (h : t.GetTime (t.Length - 1) = Except.ok tm) :
    padOutcome tk fn t = some (padBranch tk fn tm t) := by
  unfold padOutcome
  rw [h]

theorem outcomeOf_of (tk : Tracker F) (st : TState F) (id : Int) (t : Track F)
    (h : st.tracks id = some t) : outcomeOf tk st id = padOutcome tk st.framenum t := by
  unfold outcomeOf
  rw [h]

/-- The first loop of `PadTracks` over an active list without repetitions. -/
theorem padLoop_shape (tk : Tracker F) (st : TState F) (acc : PadAcc F)
    (hnd : st.activelist.Nodup)
    (h : forEach (padOne tk) st.activelist { st := st, writelist := [], stillactive := [] }
      = Except.ok acc) :
    acc.st.framenum = st.framenum ∧ acc.st.trackindex = st.trackindex ∧
      acc.st.written = st.written ∧ acc.st.ntracks = st.ntracks ∧
      acc.st.ntotalpoints = st.ntotalpoints ∧
      acc.stillactive = stillIds tk st ∧ acc.writelist = writeIds tk st ∧
      (∀ id, id ∉ st.activelist → acc.st.tracks id = st.tracks id) ∧
      ∀ id ∈ st.activelist, ∃ t o, st.tracks id = some t ∧
        padOutcome tk st.framenum t = some o ∧
        (o = PadOutcome.kept → acc.st.tracks id = some t) ∧
        (o = PadOutcome.written → acc.st.tracks id = some t) ∧
        (o = PadOutcome.erased → acc.st.tracks id = none) ∧
        (o = PadOutcome.padded → ∃ last pen ante, t.Last = Except.ok last ∧
          t.Penultimate = Except.ok pen ∧ t.Antepenultimate = Except.ok ante ∧
          acc.st.tracks id
            = some ((t.Add (padEstimate tk last pen ante) st.framenum).Occluded)) := by
  have key := forEach_inv (padOne tk) st.activelist
    (fun done a =>
      a.st.framenum = st.framenum ∧ a.st.trackindex = st.trackindex ∧
      a.st.written = st.written ∧ a.st.ntracks = st.ntracks ∧
      a.st.ntotalpoints = st.ntotalpoints ∧
      a.stillactive = done.filter (fun id =>
        outcomeOf tk st id == some PadOutcome.kept
          || outcomeOf tk st id == some PadOutcome.padded) ∧
      a.writelist = done.filter (fun id => outcomeOf tk st id == some PadOutcome.written) ∧
      (∀ id, id ∉ done → a.st.tracks id = st.tracks id) ∧
      ∀ id ∈ done, ∃ t o, st.tracks id = some t ∧
        padOutcome tk st.framenum t = some o ∧
        (o = PadOutcome.kept → a.st.tracks id = some t) ∧
        (o = PadOutcome.written → a.st.tracks id = some t) ∧
        (o = PadOutcome.erased → a.st.tracks id = none) ∧
        (o = PadOutcome.padded → ∃ last pen ante, t.Last = Except.ok last ∧
          t.Penultimate = Except.ok pen ∧ t.Antepenultimate = Except.ok ante ∧
          a.st.tracks id
            = some ((t.Add (padEstimate tk last pen ante) st.framenum).Occluded)))
    ?_ st.activelist [] _ acc rfl
    ⟨rfl, rfl, rfl, rfl, rfl, rfl, rfl, fun _ _ => rfl, by simp⟩ h
  · obtain ⟨k1, k2, k3, k4, k5, k6, k7, k8, k9⟩ := key
    exact ⟨k1, k2, k3, k4, k5, k6, k7, k8, k9⟩
  intro done x rest a a1 hsplit ha hstep
  obtain ⟨k1, k2, k3, k4, k5, k6, k7, k8, k9⟩ := ha
  have hx : x ∉ done := not_mem_done _ _ _ _ hnd hsplit
  obtain ⟨t, tm, ht, htm, hcase⟩ := padOne_cases tk a a1 x hstep
  have hst : st.tracks x = some t := by rw [← k8 x hx]; exact ht
  have hout : outcomeOf tk st x = some (padBranch tk st.framenum tm t) := by
    rw [outcomeOf_of tk st x t hst, padOutcome_of tk _ tm t htm]
  have hpo := padOutcome_of tk st.framenum tm t htm
  -- what the other ids keep
  have hother : ∀ (m2 : TrackMap F), (∀ j, j ≠ x → m2 j = a.st.tracks j) →
      (∀ id, id ∉ done ++ [x] → m2 id = st.tracks id) ∧
      ∀ id ∈ done, ∃ t o, st.tracks id = some t ∧
        padOutcome tk st.framenum t = some o ∧
        (o = PadOutcome.kept → m2 id = some t) ∧
        (o = PadOutcome.written → m2 id = some t) ∧
        (o = PadOutcome.erased → m2 id = none) ∧
        (o = PadOutcome.padded → ∃ last pen ante, t.Last = Except.ok last ∧
          t.Penultimate = Except.ok pen ∧ t.Antepenultimate = Except.ok ante ∧
          m2 id = some ((t.Add (padEstimate tk last pen ante) st.framenum).Occluded)) := by
    intro m2 hm
    constructor
    · intro id hid
      simp only [List.mem_append, List.mem_singleton, not_or] at hid
      rw [hm id hid.2]
      exact k8 id hid.1
    · intro id hid
      have hne : id ≠ x := fun he => hx (he ▸ hid)
      rw [hm id hne]
      exact k9 id hid
  have hjoin : ∀ (m2 : TrackMap F) (P : Int → Prop), (∀ id ∈ done, P id) → P x →
      ∀ id ∈ done ++ [x], P id := by
    intro m2 P h1 h2 id hid
    simp only [List.mem_append, List.mem_singleton] at hid
    rcases hid with hid | rfl
    · exact h1 id hid
    · exact h2
  rw [k1] at hcase
  rcases hcase with ⟨h1, rfl⟩ | ⟨h1, h2, h3, rfl⟩ | ⟨h1, h2, h3, rfl⟩ | ⟨h1, h2, h3, rfl⟩ |
    ⟨h1, h2, h3, last, pen, ante, hl, hp, han, rfl⟩
  · have hb : padBranch tk st.framenum tm t = PadOutcome.kept := by
      unfold padBranch; rw [if_pos h1]
    rw [hb] at hout hpo
    obtain ⟨o1, o2⟩ := hother a.st.tracks (fun _ _ => rfl)
    refine ⟨k1, k2, k3, k4, k5, ?_, ?_, o1, ?_⟩
    · rw [filter_snoc, if_pos (by rw [hout]; rfl), ← k6]
    · rw [filter_snoc, if_neg (by rw [hout]; decide), ← k7]
    · apply hjoin a.st.tracks _ o2
      exact ⟨t, _, hst, hpo, fun _ => ht, fun hc => PadOutcome.noConfusion hc, fun hc => PadOutcome.noConfusion hc,
        fun hc => PadOutcome.noConfusion hc⟩
  · have hb : padBranch tk st.framenum tm t = PadOutcome.erased := by
      unfold padBranch; rw [if_neg h1, if_pos h2, if_pos h3]
    rw [hb] at hout hpo
    obtain ⟨o1, o2⟩ := hother (a.st.tracks.erase x)
      (fun j hj => by rw [erase_apply, if_neg hj])
    refine ⟨k1, k2, k3, k4, k5, ?_, ?_, o1, ?_⟩
    · rw [filter_snoc, if_neg (by rw [hout]; decide), ← k6]
    · rw [filter_snoc, if_neg (by rw [hout]; decide), ← k7]
    · apply hjoin a.st.tracks _ o2
      exact ⟨t, _, hst, hpo, fun hc => PadOutcome.noConfusion hc, fun hc => PadOutcome.noConfusion hc,
        fun _ => by rw [erase_apply, if_pos rfl], fun hc => PadOutcome.noConfusion hc⟩
  · have hb : padBranch tk st.framenum tm t = PadOutcome.written := by
      unfold padBranch; rw [if_neg h1, if_pos h2, if_neg h3]
    rw [hb] at hout hpo
    obtain ⟨o1, o2⟩ := hother a.st.tracks (fun _ _ => rfl)
    refine ⟨k1, k2, k3, k4, k5, ?_, ?_, o1, ?_⟩
    · rw [filter_snoc, if_neg (by rw [hout]; decide), ← k6]
    · rw [filter_snoc, if_pos (by rw [hout]; rfl), ← k7]
    · apply hjoin a.st.tracks _ o2
      exact ⟨t, _, hst, hpo, fun hc => PadOutcome.noConfusion hc, fun _ => ht, fun hc => PadOutcome.noConfusion hc,
        fun hc => PadOutcome.noConfusion hc⟩
  · have hb : padBranch tk st.framenum tm t = PadOutcome.erased := by
      unfold padBranch; rw [if_neg h1, if_neg h2, if_pos h3]
    rw [hb] at hout hpo
    obtain ⟨o1, o2⟩ := hother (a.st.tracks.erase x)
      (fun j hj => by rw [erase_apply, if_neg hj])
    refine ⟨k1, k2, k3, k4, k5, ?_, ?_, o1, ?_⟩
    · rw [filter_snoc, if_neg (by rw [hout]; decide), ← k6]
    · rw [filter_snoc, if_neg (by rw [hout]; decide), ← k7]
    · apply hjoin a.st.tracks _ o2
      exact ⟨t, _, hst, hpo, fun hc => PadOutcome.noConfusion hc, fun hc => PadOutcome.noConfusion hc,
        fun _ => by rw [erase_apply, if_pos rfl], fun hc => PadOutcome.noConfusion hc⟩
  · have hb : padBranch tk st.framenum tm t = PadOutcome.padded := by
      unfold padBranch; rw [if_neg h1, if_neg h2, if_neg h3]
    rw [hb] at hout hpo
    obtain ⟨o1, o2⟩ := hother (a.st.tracks.set x
        ((t.Add (padEstimate tk last pen ante) st.framenum).Occluded))
      (fun j hj => by rw [set_apply, if_neg hj])
    refine ⟨k1, k2, k3, k4, k5, ?_, ?_, o1, ?_⟩
    · rw [filter_snoc, if_pos (by rw [hout]; rfl), ← k6]
    · rw [filter_snoc, if_neg (by rw [hout]; decide), ← k7]
    · apply hjoin a.st.tracks _ o2
      exact ⟨t, _, hst, hpo, fun hc => PadOutcome.noConfusion hc, fun hc => PadOutcome.noConfusion hc,
        fun hc => PadOutcome.noConfusion hc,
        fun _ => ⟨last, pen, ante, hl, hp, han, by rw [set_apply, if_pos rfl]⟩⟩

/-- The second loop of `PadTracks` over a write list without repetitions whose
tracks are in the map. -/
theorem writeLoop_shape (L : List Int) (m : TrackMap F) (s s1 : TState F) (hnd : L.Nodup)
    (hL : ∀ id ∈ L, s.tracks id = m id)
    (h : forEach writeOne L s = Except.ok s1) :
    s1.framenum = s.framenum ∧ s1.trackindex = s.trackindex ∧
      s1.activelist = s.activelist ∧
      s1.written = s.written ++ (L.filterMap m).enumFrom s.ntracks ∧
      s1.ntracks = s.ntracks + (L.filterMap m).length ∧
      s1.ntotalpoints = s.ntotalpoints + ((L.filterMap m).map fun t => t.Length).sum ∧
      (∀ id ∈ L, s1.tracks id = none) ∧ ∀ id, id ∉ L → s1.tracks id = s.tracks id := by
  have key := forEach_inv writeOne L
    (fun done a =>
      a.framenum = s.framenum ∧ a.trackindex = s.trackindex ∧ a.activelist = s.activelist ∧
      a.written = s.written ++ (done.filterMap m).enumFrom s.ntracks ∧
      a.ntracks = s.ntracks + (done.filterMap m).length ∧
      a.ntotalpoints = s.ntotalpoints + ((done.filterMap m).map fun t => t.Length).sum ∧
      (∀ id ∈ done, a.tracks id = none) ∧ ∀ id, id ∉ done → a.tracks id = s.tracks id)
    ?_ L [] s s1 rfl ⟨rfl, rfl, rfl, by simp, by simp, by simp, by simp, fun _ _ => rfl⟩ h
  · exact key
  intro done x rest a a1 hsplit ha hstep
  obtain ⟨k1, k2, k3, k4, k5, k6, k7, k8⟩ := ha
  have hx : x ∉ done := not_mem_done _ _ _ _ hnd hsplit
  obtain ⟨t, ht, rfl⟩ := writeOne_cases a a1 x hstep
  have hm : m x = some t := by
    rw [← hL x (mem_of_split _ _ _ _ hsplit), ← k8 x hx]; exact ht
  have hf : (done ++ [x]).filterMap m = done.filterMap m ++ [t] := by
    rw [List.filterMap_append]
    simp [hm]
  rw [hf]
  dsimp only
  refine ⟨k1, k2, k3, ?_, ?_, ?_, ?_, ?_⟩
  · rw [k4, List.enumFrom_append, List.append_assoc, k5]
    rfl
  · rw [k5, List.length_append, List.length_singleton]; omega
  · rw [k6, List.map_append, List.sum_append]
    simp only [List.map_cons, List.map_nil, List.sum_cons, List.sum_nil]
    ring
  · intro id hid
    simp only [List.mem_append, List.mem_singleton] at hid
    rw [erase_apply]
    split
    · rfl
    · rcases hid with hid | hid
      · exact k7 id hid
      · rename_i hne; exact absurd hid hne
  · intro id hid
    simp only [List.mem_append, List.mem_singleton, not_or] at hid
    rw [erase_apply, if_neg hid.2]
    exact k8 id hid.1

/-- A call of `PadTracks` on an active list without repetitions that ends
normally has the effect described by `PadShape`. -/
theorem PadTracks_shape (tk : Tracker F) (st st2 : TState F) (hnd : st.activelist.Nodup)
    (h : PadTracks tk st = Except.ok st2) : PadShape tk st st2 := by
  unfold PadTracks at h
  split at h
  · exact Except.noConfusion h
  · rename_i acc hacc
    split at h
    · exact Except.noConfusion h
    · rename_i s2 hs2
      obtain ⟨a1, a2, a3, a4, a5, a6, a7, a8, a9⟩ := padLoop_shape tk st acc hnd hacc
      have hwsub : (writeIds tk st).Sublist st.activelist := List.filter_sublist _
      have hwnd : acc.writelist.Nodup := by rw [a7]; exact hwsub.nodup hnd
      have hwout : ∀ id ∈ writeIds tk st, ∃ t, st.tracks id = some t ∧
          padOutcome tk st.framenum t = some PadOutcome.written := by
        intro id hid
        unfold writeIds at hid
        obtain ⟨hact, hb⟩ := List.mem_filter.1 hid
        obtain ⟨t, o, h1, h2, _⟩ := a9 id hact
        rw [outcomeOf_of tk st id t h1] at hb
        exact ⟨t, h1, by simpa using hb⟩
      have hL : ∀ id ∈ acc.writelist, acc.st.tracks id = st.tracks id := by
        intro id hid
        rw [a7] at hid
        obtain ⟨t, h1, h2⟩ := hwout id hid
        obtain ⟨t', o, h3, h4, _, h6, _⟩ := a9 id (hwsub.subset hid)
        have htt : t' = t := Option.some.inj (h3.symm.trans h1)
        subst htt
        have ho : o = PadOutcome.written := Option.some.inj (h4.symm.trans h2)
        rw [h6 ho, h1]
      obtain ⟨w1, w2, w3, w4, w5, w6, w7, w8⟩ :=
        writeLoop_shape acc.writelist st.tracks acc.st s2 hwnd hL hs2
      rw [← Except.ok.inj h]
      rw [a7] at w4 w5 w6 w7 w8
      refine ⟨by simp only; rw [w1, a1], by simp only; rw [w2, a2], a6,
        by simp only; rw [w4, a3, a4], by simp only; rw [w5, a4],
        by simp only; rw [w6, a5], ?_, ?_⟩
      · intro id hid
        simp only
        rw [w8 id (fun hc => hid (hwsub.subset hc))]
        exact a8 id hid
      · intro id hid
        obtain ⟨t, o, h1, h2, h3, h4, h5, h6⟩ := a9 id hid
        have hmem : id ∈ writeIds tk st ↔ o = PadOutcome.written := by
          unfold writeIds
          rw [List.mem_filter, outcomeOf_of tk st id t h1, h2]
          constructor
          · intro hc
            simpa using hc.2
          · intro hc
            exact ⟨hid, by rw [hc]; rfl⟩
        refine ⟨t, o, h1, h2, ?_, ?_, ?_, ?_⟩
        · intro ho
          simp only
          rw [w8 id (fun hc => by rw [hmem.1 hc] at ho; cases ho)]
          exact h3 ho
        · intro ho
          exact w7 id (hmem.2 ho)
        · intro ho
          simp only
          rw [w8 id (fun hc => by rw [hmem.1 hc] at ho; cases ho)]
          exact h5 ho
        · intro ho
          obtain ⟨last, pen, ante, hl, hp, han, ht⟩ := h6 ho
          refine ⟨last, pen, ante, hl, hp, han, ?_⟩
          simp only
          rw [w8 id (fun hc => by rw [hmem.1 hc] at ho; cases ho)]
          exact ht

end PadShapeLemmas

section LinkShapeTheorem

variable {F : Type} [LinearOrderedField F]

theorem unlinkedSlots_mem (fr1 : Frame F) (links : List Int) (c : Nat) :
    c ∈ unlinkedSlots fr1 links ↔ c < fr1.NumParticles ∧ links.getD c UNLINKED = UNLINKED := by
  unfold unlinkedSlots
  rw [List.mem_filter, List.mem_range]
  simp

theorem unlinkedSlots_nodup (fr1 : Frame F) (links : List Int) :
    (unlinkedSlots fr1 links).Nodup :=
  (List.nodup_range _).filter _

/-- C38. The linking stage of a frame step (lines 120-147), from a state whose
active ids are distinct and below `trackindex`.  The array `links` made by
`MakeLinks` is injective on its linked slots: no track id stands in two slots.
So every active track is unchanged after the stage, when it stands in no slot,
or has got exactly the particle of the one slot it stands in; and every
particle of the next frame is added to the one track of its slot, when the slot
is linked, or is the only position of exactly one new track, whose id is the
old `trackindex` plus the number of unlinked particles before it; as many
tracks are started as there are unlinked particles. -/
theorem C38_links_injective (mch : Machine F) (tk : Tracker F) (fr1 : Frame F)
    (fr2 : Option (Frame F)) (st st1 : TState F) (hok : st.IdsOK)
    (h : linkStage mch tk fr1 fr2 st = Except.ok st1) :
    ∃ costs links,
      MakeLinks mch tk st.tracks st.activelist fr1 fr2
        (List.replicate fr1.NumParticles 0) (List.replicate fr1.NumParticles UNLINKED)
        = Except.ok (costs, links) ∧
      (∀ c d, c < fr1.NumParticles → d < fr1.NumParticles →
        links.getD c UNLINKED ≠ UNLINKED →
        links.getD c UNLINKED = links.getD d UNLINKED → c = d) ∧
      (∀ id ∈ st.activelist, ∀ t, st.tracks id = some t →
        ((∀ c, c < fr1.NumParticles → links.getD c UNLINKED ≠ id) ∧
          st1.tracks id = some t) ∨
        ∃ c, c < fr1.NumParticles ∧ links.getD c UNLINKED = id ∧
          (∀ d, d < fr1.NumParticles → links.getD d UNLINKED = id → d = c) ∧
          st1.tracks id
            = some ((t.Add (fr1.pos.getD c default) st.framenum).ResetCounter)) ∧
      (∀ c, c < fr1.NumParticles →
        (links.getD c UNLINKED ≠ UNLINKED ∧ links.getD c UNLINKED ∈ st.activelist ∧
          ∃ t, st.tracks (links.getD c UNLINKED) = some t ∧
            st1.tracks (links.getD c UNLINKED)
              = some ((t.Add (fr1.pos.getD c default) st.framenum).ResetCounter)) ∨
        (links.getD c UNLINKED = UNLINKED ∧
          ∃ k, k < (unlinkedSlots fr1 links).length ∧
            (unlinkedSlots fr1 links).getD k 0 = c ∧
            (∀ j, j < (unlinkedSlots fr1 links).length →
              (unlinkedSlots fr1 links).getD j 0 = c → j = k) ∧
            k = ((List.range c).filter fun d =>
              decide (links.getD d UNLINKED = UNLINKED)).length ∧
            st1.tracks (st.trackindex + (k : Int))
              = some (Track.single (fr1.pos.getD c default) st.framenum) ∧
            st.trackindex + (k : Int) ∈ st1.activelist)) ∧
      st1.trackindex = st.trackindex + ((unlinkedSlots fr1 links).length : Int) ∧
      st1.activelist.length = st.activelist.length + (unlinkedSlots fr1 links).length := by
  obtain ⟨costs, links, hml, hinj, hact, hs⟩ := linkStage_shape mch tk fr1 fr2 st st1 hok h
  obtain ⟨_, _, _, _, _, k6, k7, k8, k9, k10, _⟩ := hs
  refine ⟨costs, links, hml, hinj, ?_, ?_, k6, ?_⟩
  · intro id hid t ht
    have hid0 := hok.2.2.1 id hid
    by_cases hex : ∃ c, c < fr1.NumParticles ∧ links.getD c UNLINKED = id
    · right
      obtain ⟨c, hc, hl⟩ := hex
      have hu : links.getD c UNLINKED ≠ UNLINKED := by
        rw [hl]; unfold UNLINKED; omega
      obtain ⟨t2, h1, h2⟩ := k9 c hc hu
      rw [hl] at h1 h2
      have htt : t2 = t := Option.some.inj (h1.symm.trans ht)
      subst htt
      refine ⟨c, hc, hl, ?_, h2⟩
      intro d hd hld
      exact (hinj c d hc hd hu (hl.trans hld.symm)).symm
    · left
      have hno : ∀ c, c < fr1.NumParticles → links.getD c UNLINKED ≠ id :=
        fun c hc he => hex ⟨c, hc, he⟩
      refine ⟨hno, ?_⟩
      rw [k8 id hid0.2 (fun c hc _ => hno c hc)]
      exact ht
  · intro c hc
    by_cases hu : links.getD c UNLINKED = UNLINKED
    · right
      refine ⟨hu, ?_⟩
      have hmem : c ∈ unlinkedSlots fr1 links := (unlinkedSlots_mem fr1 links c).2 ⟨hc, hu⟩
      obtain ⟨k, hk, hkc⟩ := List.getElem_of_mem hmem
      have hget : (unlinkedSlots fr1 links).getD k 0 = c := by
        rw [List.getD_eq_getElem _ _ hk]; exact hkc
      have huniq : ∀ j, j < (unlinkedSlots fr1 links).length →
          (unlinkedSlots fr1 links).getD j 0 = c → j = k := by
        intro j hj hjc
        rw [List.getD_eq_getElem _ _ hj] at hjc
        exact (List.Nodup.getElem_inj_iff (unlinkedSlots_nodup fr1 links)).1
          (hjc.trans hkc.symm)
      refine ⟨k, hk, hget, huniq, ?_, ?_, ?_⟩
      · -- the unlinked slots before `c` come first in the list, then `c`
        have hsplit : List.range fr1.NumParticles
            = List.range c ++ c :: List.range' (c + 1) (fr1.NumParticles - c - 1) := by
          rw [List.range_eq_range', List.range_eq_range']
          have h1 := List.range'_append 0 c (fr1.NumParticles - c) 1
          simp only [Nat.zero_add, Nat.one_mul] at h1
          have h2 : fr1.NumParticles - c + c = fr1.NumParticles := by omega
          rw [h2] at h1
          rw [← h1]
          congr 1
          obtain ⟨m, hm⟩ : ∃ m, fr1.NumParticles - c = m + 1 :=
            ⟨fr1.NumParticles - c - 1, by omega⟩
          rw [hm, List.range'_succ]
          simp
        have hU : unlinkedSlots fr1 links
            = (List.range c).filter (fun d => decide (links.getD d UNLINKED = UNLINKED))
              ++ c :: (List.range' (c + 1) (fr1.NumParticles - c - 1)).filter
                (fun d => decide (links.getD d UNLINKED = UNLINKED)) := by
          unfold unlinkedSlots
          rw [hsplit, List.filter_append, List.filter_cons, if_pos (decide_eq_true hu)]
        have hlen : ((List.range c).filter fun d =>
            decide (links.getD d UNLINKED = UNLINKED)).length
              < (unlinkedSlots fr1 links).length := by
          rw [hU, List.length_append, List.length_cons]
          omega
        have hat : (unlinkedSlots fr1 links).getD ((List.range c).filter fun d =>
            decide (links.getD d UNLINKED = UNLINKED)).length 0 = c := by
          rw [hU, List.getD_append_right _ _ _ _ (le_refl _)]
          simp
        exact (huniq _ hlen hat).symm
      · rw [k10 k hk, hget]
      · rw [k7]
        apply List.mem_append_right
        exact List.mem_map.2 ⟨k, List.mem_range.2 hk, rfl⟩
    · left
      obtain ⟨t, h1, h2⟩ := k9 c hc hu
      exact ⟨hu, hact c hc hu, t, h1, h2⟩
  · rw [k7]
    simp

end LinkShapeTheorem

section LinkShapeEvaluations

theorem stTwo_IdsOK : stTwo.IdsOK :=
  ⟨by decide, by decide, by decide, by simp [stTwo]⟩

theorem stTwo_Live : stTwo.Live := by
  constructor
  · intro id hid
    have : id = 0 ∨ id = 1 := by simpa [stTwo] using hid
    rcases this with rfl | rfl
    · exact ⟨_, rfl⟩
    · exact ⟨_, rfl⟩
  · intro id t ht
    simp only [stTwo, tracksTwo] at ht
    split at ht
    · rw [← Option.some.inj ht]; exact Track.Usable_single _ _ rfl
    · split at ht
      · rw [← Option.some.inj ht]; exact Track.Usable_single _ _ rfl
      · exact Option.noConfusion ht

/-- Witness of C38: from the state with the tracks 0 (at `x = 0`) and 1 (at
`x = 1`), the frame with particles at `x = 3/4` and `x = 10` is linked with
`max_disp = 2`.  Both tracks have particle 0 as best continuation; it goes to
track 1, and track 0 stays unchanged; particle 1 is unlinked and starts the
track 2. -/
theorem C38_links_injective_witness :
    stTwo.IdsOK ∧
    ∃ st1, linkStage exactMachine tkLine frameSplit none stTwo = Except.ok st1 ∧
      MakeLinks exactMachine tkLine stTwo.tracks stTwo.activelist frameSplit none
        (List.replicate frameSplit.NumParticles 0)
        (List.replicate frameSplit.NumParticles UNLINKED) = Except.ok ([1 / 16, 0], [1, -1]) ∧
    ∃ costs links,
      MakeLinks exactMachine tkLine stTwo.tracks stTwo.activelist frameSplit none
        (List.replicate frameSplit.NumParticles 0)
        (List.replicate frameSplit.NumParticles UNLINKED) = Except.ok (costs, links) ∧
      (∀ c d, c < frameSplit.NumParticles → d < frameSplit.NumParticles →
        links.getD c UNLINKED ≠ UNLINKED →
        links.getD c UNLINKED = links.getD d UNLINKED → c = d) ∧
      st1.trackindex = stTwo.trackindex + ((unlinkedSlots frameSplit links).length : Int) := by
  obtain ⟨st1, h, _⟩ := linkStage_ok exactMachine tkLine frameSplit none stTwo stTwo_Live
    stTwo_IdsOK (by decide) (by decide)
  obtain ⟨costs, links, h1, h2, _, _, h5, _⟩ :=
    C38_links_injective exactMachine tkLine frameSplit none stTwo st1 stTwo_IdsOK h
  exact ⟨stTwo_IdsOK, st1, h, ok_of_toOption _ _ (by decide!), costs, links, h1, h2, h5⟩

end LinkShapeEvaluations

section RetireTheorem

variable {F : Type} [LinearOrderedField F]

/-- On a well-formed usable track that was added to in this frame, or whose
times are all before it, the branch that `PadTracks` takes is the one the
retirement rule names. -/
theorem padOutcome_eq_rule (tk : Tracker F) (fn : Int) (t : Track F) (hu : t.Usable)
    (hmid : t.Below fn ∨ t.JustAdded fn) :
    padOutcome tk fn t = some (retireRule tk (t.addedAt fn) t) := by
  rcases hmid with hb | hj
  · obtain ⟨tm, htm⟩ := Track.GetTime_ok t hu
    have hlt : tm < fn := hb tm (Track.GetTime_mem t _ tm htm)
    have hadd : t.addedAt fn = false := by
      unfold Track.addedAt
      split
      · rename_i p m _ hm
        have hmem : m ∈ t.time := List.mem_of_getLast?_eq_some hm
        have := hb m hmem
        have hne : ¬ (m = fn) := by omega
        simp [hne]
      · rfl
    rw [padOutcome_of tk fn tm t htm, hadd]
    unfold padBranch retireRule
    rw [if_neg (by omega)]
    simp only [Bool.false_eq_true, if_false]
    by_cases h1 : t.OcclusionCount ≥ tk.memory
    · rw [if_pos h1, if_pos h1]
      by_cases h2 : t.Length < MINTRACK
      · rw [if_pos h2, if_neg (by omega)]
      · rw [if_neg h2, if_pos (by omega)]
    · rw [if_neg h1, if_neg h1]
  · have htm := Track.GetTime_JustAdded t fn hu.1 hj
    obtain ⟨ps, p, ts, h1, h2, h3, _⟩ := hj
    have hadd : t.addedAt fn = true := by
      unfold Track.addedAt
      rw [h1, h3]
      simp [h2]
    rw [padOutcome_of tk fn fn t htm, hadd]
    unfold padBranch retireRule
    simp

/-- C35. `PadTracks` on a state whose active ids are distinct and name usable
tracks of the map, each of which was added to in this frame or has all its
times before it (as after the linking stage).  The call returns, and the
retirement rule describes its effect: the new active list is the old one
restricted, in the old order, to the tracks that the rule keeps or pads; the
tracks that the rule writes are written in the order of the active list with
the indices `ntracks, ntracks + 1, ...`; a kept track is unchanged in the map; a
written or erased track has left the map; a padded track has got exactly one
position more, which is fake and has the frame number, and its counter is
incremented by one. -/
theorem C35_retirement (tk : Tracker F) (st : TState F) (hnd : st.activelist.Nodup)
    (hlive : st.Live)
    (hmid : ∀ id ∈ st.activelist, ∀ t, st.tracks id = some t →
      t.Below st.framenum ∨ t.JustAdded st.framenum) :
    ∃ st2, PadTracks tk st = Except.ok st2 ∧
      st2.activelist = st.activelist.filter (fun id =>
        ruleOf tk st id == some PadOutcome.kept || ruleOf tk st id == some PadOutcome.padded) ∧
      st2.written = st.written ++
        ((st.activelist.filter fun id => ruleOf tk st id == some PadOutcome.written).filterMap
          st.tracks).enumFrom st.ntracks ∧
      (∀ id, id ∉ st.activelist → st2.tracks id = st.tracks id) ∧
      ∀ id ∈ st.activelist, ∃ t, st.tracks id = some t ∧
        (retireRule tk (t.addedAt st.framenum) t = PadOutcome.kept →
          st2.tracks id = some t ∧ id ∈ st2.activelist) ∧
        (retireRule tk (t.addedAt st.framenum) t = PadOutcome.written →
          st2.tracks id = none ∧ id ∉ st2.activelist ∧
          ∃ j, (st.ntracks + j, t) ∈ st2.written) ∧
        (retireRule tk (t.addedAt st.framenum) t = PadOutcome.erased →
          st2.tracks id = none ∧ id ∉ st2.activelist) ∧
        (retireRule tk (t.addedAt st.framenum) t = PadOutcome.padded →
          id ∈ st2.activelist ∧
          ∃ e : Position F, e.fake = true ∧
            st2.tracks id = some
              { pos := t.pos ++ [e], time := t.time ++ [st.framenum],
                occluded := t.occluded + 1, npoints := t.npoints + 1 }) := by
  obtain ⟨st2, h, _⟩ := PadTracks_ok tk st hlive hnd
  obtain ⟨_, _, s3, s4, _, _, s7, s8⟩ := PadTracks_shape tk st st2 hnd h
  have hrule : ∀ id ∈ st.activelist, outcomeOf tk st id = ruleOf tk st id := by
    intro id hid
    obtain ⟨t, ht⟩ := hlive.1 id hid
    rw [outcomeOf_of tk st id t ht]
    unfold ruleOf
    rw [ht, Option.map_some']
    exact padOutcome_eq_rule tk st.framenum t (hlive.2 id t ht) (hmid id hid t ht)
  have hstill : stillIds tk st = st.activelist.filter (fun id =>
      ruleOf tk st id == some PadOutcome.kept || ruleOf tk st id == some PadOutcome.padded) := by
    unfold stillIds
    apply List.filter_congr
    intro id hid
    rw [hrule id hid]
  have hwrite : writeIds tk st
      = st.activelist.filter fun id => ruleOf tk st id == some PadOutcome.written := by
    unfold writeIds
    apply List.filter_congr
    intro id hid
    rw [hrule id hid]
  refine ⟨st2, h, by rw [s3, hstill], by rw [s4, hwrite], s7, ?_⟩
  intro id hid
  obtain ⟨t, o, h1, h2, h3, h4, h5, h6⟩ := s8 id hid
  have ho : o = retireRule tk (t.addedAt st.framenum) t := by
    have := padOutcome_eq_rule tk st.framenum t (hlive.2 id t h1) (hmid id hid t h1)
    exact Option.some.inj (h2.symm.trans this)
  have hout : outcomeOf tk st id = some o := by rw [outcomeOf_of tk st id t h1, h2]
  have hin : (id ∈ st2.activelist) ↔ (o = PadOutcome.kept ∨ o = PadOutcome.padded) := by
    rw [s3]
    unfold stillIds
    rw [List.mem_filter, hout]
    constructor
    · intro hc
      have := hc.2
      simp only [Bool.or_eq_true, beq_iff_eq, Option.some.injEq] at this
      exact this
    · intro hc
      refine ⟨hid, ?_⟩
      simp only [Bool.or_eq_true, beq_iff_eq, Option.some.injEq]
      exact hc
  refine ⟨t, h1, ?_, ?_, ?_, ?_⟩
  · intro hr
    rw [← ho] at hr
    exact ⟨h3 hr, hin.2 (Or.inl hr)⟩
  · intro hr
    rw [← ho] at hr
    refine ⟨h4 hr, ?_, ?_⟩
    · intro hc
      rcases hin.1 hc with hc | hc
      · rw [hr] at hc; exact PadOutcome.noConfusion hc
      · rw [hr] at hc; exact PadOutcome.noConfusion hc
    · have hmemw : id ∈ writeIds tk st := by
        unfold writeIds
        rw [List.mem_filter, hout, hr]
        exact ⟨hid, rfl⟩
      have hmemt : t ∈ (writeIds tk st).filterMap st.tracks :=
        List.mem_filterMap.2 ⟨id, hmemw, h1⟩
      obtain ⟨j, hj, hjt⟩ := List.getElem_of_mem hmemt
      have hpair : (st.ntracks + j, t) ∈
          ((writeIds tk st).filterMap st.tracks).enumFrom st.ntracks := by
        rw [List.mk_mem_enumFrom_iff_le_and_getElem?_sub]
        refine ⟨by omega, ?_⟩
        rw [Nat.add_sub_cancel_left, List.getElem?_eq_getElem hj, hjt]
      refine ⟨j, ?_⟩
      rw [s4]
      exact List.mem_append_right _ hpair
  · intro hr
    rw [← ho] at hr
    refine ⟨h5 hr, ?_⟩
    intro hc
    rcases hin.1 hc with hc | hc
    · rw [hr] at hc; exact PadOutcome.noConfusion hc
    · rw [hr] at hc; exact PadOutcome.noConfusion hc
  · intro hr
    rw [← ho] at hr
    obtain ⟨last, pen, ante, _, _, _, ht⟩ := h6 hr
    exact ⟨hin.2 (Or.inr hr), padEstimate tk last pen ante, rfl, ht⟩

end RetireTheorem

section RetireEvaluations

theorem stFour_Live : stFour.Live := by
  constructor
  · intro id hid
    have : id = 0 ∨ id = 1 ∨ id = 2 ∨ id = 3 := by simpa [stFour] using hid
    rcases this with rfl | rfl | rfl | rfl
    · exact ⟨_, rfl⟩
    · exact ⟨_, rfl⟩
    · exact ⟨_, rfl⟩
    · exact ⟨_, rfl⟩
  · intro id t ht
    simp only [stFour] at ht
    split at ht
    · rw [← Option.some.inj ht]; exact Track.Usable_single _ _ rfl
    · split at ht
      · rw [← Option.some.inj ht]
        exact ⟨lineTrack_WF qUnit 9, by decide, by decide⟩
      · split at ht
        · rw [← Option.some.inj ht]; exact Track.Usable_single _ _ rfl
        · split at ht
          · rw [← Option.some.inj ht]
            exact ⟨lineTrack_WF qUnit 9, by decide, by decide⟩
          · exact Option.noConfusion ht

theorem stFour_mid : ∀ id ∈ stFour.activelist, ∀ t, stFour.tracks id = some t →
    t.Below stFour.framenum ∨ t.JustAdded stFour.framenum := by
  intro id hid t ht
  have : id = 0 ∨ id = 1 ∨ id = 2 ∨ id = 3 := by simpa [stFour] using hid
  rcases this with rfl | rfl | rfl | rfl
  · rw [← Option.some.inj ht]
    exact Or.inr ⟨[], qUnit 12, [], rfl, rfl, rfl, by simp⟩
  · rw [← Option.some.inj ht]
    exact Or.inl (by unfold Track.Below; decide)
  · rw [← Option.some.inj ht]
    exact Or.inl (by unfold Track.Below; decide)
  · rw [← Option.some.inj ht]
    exact Or.inl (by unfold Track.Below; decide)

/-- Witness of C35 with `memory = 1`: of the four active tracks of `stFour`,
track 0 was added to in frame 12 and is kept; track 1 (counter 1, length 10) is
written with the index 5; track 2 (counter 0, length 1) is erased; track 3
(counter 0, length 10) is padded.  The active list becomes `[0, 3]`. -/
theorem C35_retirement_witness :
    ∃ st2, PadTracks tkGap stFour = Except.ok st2 ∧
      st2.activelist = [0, 3] ∧
      st2.written = [(5, (lineTrack qUnit 9).Occluded)] ∧
      st2.tracks 0 = some (Track.single (qUnit 12) 12) ∧
      st2.tracks 1 = none ∧ st2.tracks 2 = none ∧
      ∃ e : Position ℚ, e.fake = true ∧
        st2.tracks 3 = some
          { pos := (lineTrack qUnit 9).pos ++ [e], time := (lineTrack qUnit 9).time ++ [12],
            occluded := 1, npoints := 11 } := by
  obtain ⟨st2, h, h1, h2, _, h4⟩ :=
    C35_retirement tkGap stFour (by decide) stFour_Live stFour_mid
  obtain ⟨t0, e0, k0, _, _, _⟩ := h4 0 (by decide)
  obtain ⟨t1, e1, _, w1, _, _⟩ := h4 1 (by decide)
  obtain ⟨t2, e2, _, _, r2, _⟩ := h4 2 (by decide)
  obtain ⟨t3, e3, _, _, _, p3⟩ := h4 3 (by decide)
  have i0 : t0 = Track.single (qUnit 12) 12 := Option.some.inj (e0.symm.trans rfl)
  have i1 : t1 = (lineTrack qUnit 9).Occluded := Option.some.inj (e1.symm.trans rfl)
  have i2 : t2 = Track.single (qUnit 11) 11 := Option.some.inj (e2.symm.trans rfl)
  have i3 : t3 = lineTrack qUnit 9 := Option.some.inj (e3.symm.trans rfl)
  subst i0 i1 i2 i3
  obtain ⟨_, e, he, ht3⟩ := p3 (by decide!)
  refine ⟨st2, h, h1.trans (by decide!), h2.trans ?_, (k0 (by decide!)).1,
    (w1 (by decide!)).1, (r2 (by decide!)).1, e, he, ht3⟩
  have hw : (stFour.activelist.filter fun id =>
      ruleOf tkGap stFour id == some PadOutcome.written) = [1] := by decide!
  rw [hw]
  rfl

end RetireEvaluations

section StageLemmas

variable {F : Type} [LinearOrderedField F]

theorem rtakeWhile_snoc_real (l : List (Position F)) (p : Position F) (hp : p.fake = false) :
    (l ++ [p]).rtakeWhile (fun q => q.fake) = [] := by
  rw [List.rtakeWhile_concat_neg]
  simp [hp]

theorem rtakeWhile_snoc_fake (l : List (Position F)) (p : Position F) (hp : p.fake = true) :
    (l ++ [p]).rtakeWhile (fun q => q.fake) = l.rtakeWhile (fun q => q.fake) ++ [p] := by
  rw [List.rtakeWhile_concat_pos]
  exact hp

theorem Track.OccOK_single (tk : Tracker F) (p : Position F) (m : Int) (hp : p.fake = false) :
    (Track.single p m).OccOK tk m := by
  refine ⟨Track.WF_single _ _, ?_, ?_, ?_, ?_⟩
  · have := rtakeWhile_snoc_real [] p hp
    simp only [List.nil_append] at this
    simp only [Track.single, this]
    rfl
  · have := rtakeWhile_snoc_real [] p hp
    simp only [List.nil_append] at this
    simp only [Track.single, this]
    exact Nat.zero_lt_one
  · exact le_max_right _ _
  · simp [Track.single, List.range_succ]

theorem times_snoc (n : Nat) (m : Int) :
    (List.range (n + 1)).map (fun (i : Nat) => m + 1 - ((n + 1 : Nat) : Int) + 1 + (i : Int))
      = (List.range n).map (fun (i : Nat) => m - (n : Int) + 1 + (i : Int)) ++ [m + 1] := by
  rw [List.range_succ, List.map_append]
  congr 1
  · apply List.map_congr_left
    intro i _
    push_cast
    ring
  · simp only [List.map_cons, List.map_nil]
    congr 1
    push_cast
    ring

theorem Track.OccOK_Add_real (tk : Tracker F) (t : Track F) (p : Position F) (m : Int)
    (h : t.OccOK tk m) (hp : p.fake = false) :
    ((t.Add p (m + 1)).ResetCounter).OccOK tk (m + 1) ∧
      ((t.Add p (m + 1)).ResetCounter).occluded = 0 := by
  obtain ⟨h1, h2, h3, h4, h5⟩ := h
  refine ⟨⟨Track.WF_ResetCounter _ (Track.WF_Add t h1 p _), ?_, ?_, ?_, ?_⟩, rfl⟩
  · simp only [Track.ResetCounter, Track.Add, rtakeWhile_snoc_real t.pos p hp]
    rfl
  · simp only [Track.ResetCounter, Track.Add, rtakeWhile_snoc_real t.pos p hp]
    simp
  · exact le_max_right _ _
  · simp only [Track.ResetCounter, Track.Add, List.length_append, List.length_singleton]
    rw [times_snoc, ← h5]

theorem Track.OccOK_Add_fake (tk : Tracker F) (t : Track F) (e : Position F) (m : Int)
    (h : t.OccOK tk m) (he : e.fake = true) (hocc : ¬ (t.OcclusionCount ≥ tk.memory)) :
    ((t.Add e (m + 1)).Occluded).OccOK tk (m + 1) := by
  obtain ⟨h1, h2, h3, h4, h5⟩ := h
  refine ⟨Track.WF_Occluded _ (Track.WF_Add t h1 e _), ?_, ?_, ?_, ?_⟩
  · simp only [Track.Occluded, Track.Add, rtakeWhile_snoc_fake t.pos e he,
      List.length_append, List.length_singleton]
    rw [h2]; push_cast; ring
  · simp only [Track.Occluded, Track.Add, rtakeWhile_snoc_fake t.pos e he,
      List.length_append, List.length_singleton]
    omega
  · simp only [Track.Occluded, Track.Add]
    unfold Track.OcclusionCount at hocc
    have : t.occluded + 1 ≤ tk.memory := by omega
    exact le_trans this (le_max_left _ _)
  · simp only [Track.Occluded, Track.Add, List.length_append, List.length_singleton]
    rw [times_snoc, ← h5]

/-- The time of the last counted position of a track with consistent
bookkeeping: the time of its last stored position less the counter. -/
theorem Track.OccOK_GetTime (tk : Tracker F) (t : Track F) (m : Int) (h : t.OccOK tk m) :
    t.Length = (t.pos.length : Int) - t.occluded ∧
      t.GetTime (t.Length - 1) = Except.ok (m - t.occluded) ∧
      t.time.getLast? = some m := by
  obtain ⟨h1, h2, h3, h4, h5⟩ := h
  have hlen : t.Length = (t.pos.length : Int) - t.occluded := by
    rw [Track.Length_eq t h1.1, h2]
  refine ⟨hlen, ?_, ?_⟩
  · unfold Track.GetTime
    have h0 : 0 ≤ t.Length - 1 := by rw [hlen, h2]; omega
    rw [if_pos h0]
    have hidx : (t.Length - 1).toNat < t.pos.length := by rw [hlen, h2]; omega
    have hget : t.time[(t.Length - 1).toNat]? = some (m - t.occluded) := by
      rw [h5, List.getElem?_map, List.getElem?_range hidx]
      simp only [Option.map_some']
      congr 1
      rw [Int.toNat_of_nonneg h0, hlen]
      ring
    rw [hget]
  · rw [h5]
    obtain ⟨n, hn⟩ : ∃ n, t.pos.length = n + 1 := ⟨t.pos.length - 1, by omega⟩
    rw [hn, List.range_succ, List.map_append]
    simp only [List.map_cons, List.map_nil, List.getLast?_append, List.getLast?_singleton,
      Option.or_some]
    congr 1
    push_cast
    ring

theorem padOutcome_kept (tk : Tracker F) (fn : Int) (t : Track F)
    (h : padOutcome tk fn t = some PadOutcome.kept) :
    t.GetTime (t.Length - 1) = Except.ok fn := by
  unfold padOutcome at h
  split at h
  · rename_i tm htm
    have hb := Option.some.inj h
    unfold padBranch at hb
    split at hb
    · rename_i he; rw [htm, he]
    · split at hb
      · split at hb <;> exact PadOutcome.noConfusion hb
      · split at hb <;> exact PadOutcome.noConfusion hb
  · exact Option.noConfusion h

theorem padOutcome_padded (tk : Tracker F) (fn : Int) (t : Track F)
    (h : padOutcome tk fn t = some PadOutcome.padded) :
    ∃ tm, t.GetTime (t.Length - 1) = Except.ok tm ∧ tm ≠ fn ∧
      ¬ (t.OcclusionCount ≥ tk.memory) ∧ ¬ (t.Length ≤ 2) := by
  unfold padOutcome at h
  split at h
  · rename_i tm htm
    have hb := Option.some.inj h
    unfold padBranch at hb
    split at hb
    · exact PadOutcome.noConfusion hb
    · rename_i hne
      split at hb
      · split at hb <;> exact PadOutcome.noConfusion hb
      · rename_i hocc
        split at hb
        · exact PadOutcome.noConfusion hb
        · rename_i hlen
          exact ⟨tm, htm, hne, hocc, hlen⟩
  · exact Option.noConfusion h

/-- The linking stage on the bookkeeping: an active track after it either is
as before, with its last time in the frame before, or has just got a real
position with the frame number, and its counter is 0. -/
theorem linkStage_occ (mch : Machine F) (tk : Tracker F) (fr1 : Frame F)
    (fr2 : Option (Frame F)) (s s1 : TState F) (hreal : ∀ p ∈ fr1.pos, p.fake = false)
    (h0 : s.ActiveOK fun t => t.OccOK tk (s.framenum - 1))
    (h : linkStage mch tk fr1 fr2 s = Except.ok s1) :
    s1.ActiveOK fun t => t.OccOK tk (s1.framenum - 1) ∨
      (t.OccOK tk s1.framenum ∧ t.occluded = 0) := by
  obtain ⟨hok, hact⟩ := h0
  obtain ⟨costs, links, _, _, _, hs⟩ := linkStage_shape mch tk fr1 fr2 s s1 hok h
  obtain ⟨k1, _, _, _, _, _, k7, k8, k9, k10, _⟩ := hs
  refine ⟨(linkStage_IdsOK mch tk fr1 fr2 s s1 hok h).1, ?_⟩
  intro id hid
  rw [k1]
  rw [k7] at hid
  rcases List.mem_append.1 hid with hid | hid
  · obtain ⟨t, ht, hq⟩ := hact id hid
    have hid0 := hok.2.2.1 id hid
    by_cases hex : ∃ c, c < fr1.NumParticles ∧ links.getD c UNLINKED = id
    · obtain ⟨c, hc, hl⟩ := hex
      have hu : links.getD c UNLINKED ≠ UNLINKED := by
        rw [hl]; unfold UNLINKED; omega
      obtain ⟨t2, h1, h2⟩ := k9 c hc hu
      rw [hl] at h1 h2
      have htt : t2 = t := Option.some.inj (h1.symm.trans ht)
      subst htt
      have hp : (fr1.pos.getD c default).fake = false := hreal _ (getD_mem_of_lt _ _ _ hc)
      have := Track.OccOK_Add_real tk t2 (fr1.pos.getD c default) (s.framenum - 1) hq hp
      rw [sub_add_cancel] at this
      exact ⟨_, h2, Or.inr this⟩
    · refine ⟨t, ?_, Or.inl hq⟩
      rw [k8 id hid0.2 (fun c hc _ he => hex ⟨c, hc, he⟩)]
      exact ht
  · obtain ⟨k, hk, rfl⟩ := List.mem_map.1 hid
    have hkl := List.mem_range.1 hk
    refine ⟨_, k10 k hkl, Or.inr ⟨Track.OccOK_single tk _ _ ?_, rfl⟩⟩
    apply hreal
    apply getD_mem_of_lt
    have hmem : (unlinkedSlots fr1 links).getD k 0 ∈ unlinkedSlots fr1 links :=
      getD_mem_of_lt _ _ _ hkl
    unfold unlinkedSlots at hmem
    exact List.mem_range.1 (List.mem_filter.1 hmem).1

/-- The call of `PadTracks` on the bookkeeping: every track that stays active
has its last time in the frame. -/
theorem PadTracks_occ (tk : Tracker F) (s s1 : TState F)
    (h0 : s.ActiveOK fun t => t.OccOK tk (s.framenum - 1) ∨
      (t.OccOK tk s.framenum ∧ t.occluded = 0))
    (h : PadTracks tk s = Except.ok s1) :
    s1.ActiveOK fun t => t.OccOK tk s1.framenum := by
  obtain ⟨hok, hact⟩ := h0
  obtain ⟨s1f, _, s3, _, _, _, _, s8⟩ := PadTracks_shape tk s s1 hok.1 h
  refine ⟨(PadTracks_IdsOK tk s s1 hok h).1, ?_⟩
  intro id hid
  rw [s1f]
  rw [s3] at hid
  unfold stillIds at hid
  obtain ⟨hida, hb⟩ := List.mem_filter.1 hid
  obtain ⟨t, o, h1, h2, h3, _, _, h6⟩ := s8 id hida
  obtain ⟨t', ht', hq⟩ := hact id hida
  have htt : t' = t := Option.some.inj (ht'.symm.trans h1)
  subst htt
  rw [outcomeOf_of tk s id t' h1, h2] at hb
  simp only [Bool.or_eq_true, beq_iff_eq, Option.some.injEq] at hb
  rcases hb with ho | ho
  · -- kept: the track was added to in this frame
    refine ⟨t', h3 ho, ?_⟩
    rw [ho] at h2
    have hk := padOutcome_kept tk s.framenum t' h2
    rcases hq with hq | hq
    · exfalso
      have hg := (Track.OccOK_GetTime tk t' _ hq).2.1
      rw [hk] at hg
      have := Except.ok.inj hg
      have hnn : 0 ≤ t'.occluded := by rw [hq.2.1]; exact Int.natCast_nonneg _
      omega
    · exact hq.1
  · -- padded
    rw [ho] at h2
    obtain ⟨tm, htm, hne, hocc, _⟩ := padOutcome_padded tk s.framenum t' h2
    obtain ⟨last, pen, ante, _, _, _, ht2⟩ := h6 ho
    refine ⟨_, ht2, ?_⟩
    rcases hq with hq | hq
    · have := Track.OccOK_Add_fake tk t' (padEstimate tk last pen ante) (s.framenum - 1) hq
        rfl hocc
      rw [sub_add_cancel] at this
      exact this
    · exfalso
      have hg := (Track.OccOK_GetTime tk t' _ hq.1).2.1
      rw [htm, hq.2] at hg
      have := Except.ok.inj hg
      omega

theorem initState_occ (tk : Tracker F) (f0 : Frame F) (hreal : ∀ p ∈ f0.pos, p.fake = false) :
    (initState f0).ActiveOK fun t => t.OccOK tk ((initState f0).framenum - 1) := by
  refine ⟨initState_IdsOK f0, ?_⟩
  obtain ⟨_, _, h3, _, h5⟩ := initState_fields f0
  intro id hid
  obtain ⟨t, ht⟩ := (initState_Live f0 hreal).1 id hid
  obtain ⟨i, hi, rfl⟩ := h5 id t ht
  refine ⟨_, ht, ?_⟩
  rw [h3]
  exact Track.OccOK_single tk _ _ (hreal _ (getD_mem_of_lt _ _ _ hi))

end StageLemmas

section OcclusionCounterTheorem

variable {F : Type} [LinearOrderedField F]

theorem flush_same (L : List Int) (s s1 : TState F)
    (h : forEach flushOne L s = Except.ok s1) :
    s1.activelist = s.activelist ∧ s1.tracks = s.tracks ∧ s1.framenum = s.framenum := by
  refine forEach_inv flushOne L
    (fun _ a => a.activelist = s.activelist ∧ a.tracks = s.tracks ∧ a.framenum = s.framenum)
    ?_ L [] s s1 rfl ⟨rfl, rfl, rfl⟩ h
  intro done x rest a a1 _ ha hstep
  obtain ⟨t, _, hcase⟩ := flushOne_cases a a1 x hstep
  rcases hcase with ⟨_, rfl⟩ | ⟨_, rfl⟩
  · exact ha
  · exact ha

/-- C34. For every sequence of frames whose positions are real and every mode:
in every state of a run of `MakeTracks` (after the initialisation, after the
linking of each frame and after each call of `PadTracks`) and in the state the
run ends in, every active track is in the map, and its occlusion counter is the
number of its trailing fake positions, which is the number of its stored
positions less `Length()`; the counter is not negative and at most
`max(memory, 0)`; and the counter is the number of frames from the frame of the
last counted (real) position to the frame `m` of the last stored position, where
`m` is the frame of the step or, for a track that has not been handled in the
step yet, the frame before. -/
theorem C34_occlusion_counter (mch : Machine F) (tk : Tracker F) (f : List (Frame F))
    (hreal : ∀ fr ∈ f, ∀ p ∈ fr.pos, p.fake = false) :
    (∀ st ∈ MakeTracksTrace mch tk f, ∀ id ∈ st.activelist, ∃ t m,
      st.tracks id = some t ∧
      t.OcclusionCount = ((t.pos.rtakeWhile fun p => p.fake).length : Int) ∧
      t.OcclusionCount = (t.pos.length : Int) - t.Length ∧
      0 ≤ t.OcclusionCount ∧ t.OcclusionCount ≤ max tk.memory 0 ∧
      t.time.getLast? = some m ∧ t.GetTime (t.Length - 1) = Except.ok (m - t.OcclusionCount) ∧
      (m = st.framenum ∨ m = st.framenum - 1)) ∧
    (∀ st, MakeTracks mch tk f = Except.ok st → ∀ id ∈ st.activelist, ∃ t m,
      st.tracks id = some t ∧
      t.OcclusionCount = ((t.pos.rtakeWhile fun p => p.fake).length : Int) ∧
      t.OcclusionCount = (t.pos.length : Int) - t.Length ∧
      0 ≤ t.OcclusionCount ∧ t.OcclusionCount ≤ max tk.memory 0 ∧
      t.time.getLast? = some m ∧ t.GetTime (t.Length - 1) = Except.ok (m - t.OcclusionCount) ∧
      m = st.framenum - 1) := by
  have facts : ∀ (t : Track F) (m : Int), t.OccOK tk m →
      t.OcclusionCount = ((t.pos.rtakeWhile fun p => p.fake).length : Int) ∧
      t.OcclusionCount = (t.pos.length : Int) - t.Length ∧
      0 ≤ t.OcclusionCount ∧ t.OcclusionCount ≤ max tk.memory 0 ∧
      t.time.getLast? = some m ∧
      t.GetTime (t.Length - 1) = Except.ok (m - t.OcclusionCount) := by
    intro t m h
    obtain ⟨g1, g2, g3⟩ := Track.OccOK_GetTime tk t m h
    obtain ⟨_, h2, _, h4, _⟩ := h
    refine ⟨h2, ?_, ?_, h4, g3, g2⟩
    · unfold Track.OcclusionCount; rw [g1]; ring
    · unfold Track.OcclusionCount; rw [h2]; exact Int.natCast_nonneg _
  cases f with
  | nil =>
    refine ⟨by simp [MakeTracksTrace], ?_⟩
    intro st hst
    exact Except.noConfusion hst
  | cons f0 rest =>
    have h0 := initState_occ tk f0 (hreal f0 (by simp))
    obtain ⟨l1, l2⟩ := frameLoop_stages mch tk (lastIndex tk.mode (f0 :: rest).length)
      (fun s => s.ActiveOK fun t => t.OccOK tk (s.framenum - 1))
      (fun s => s.ActiveOK fun t => t.OccOK tk (s.framenum - 1) ∨
        (t.OccOK tk s.framenum ∧ t.occluded = 0))
      (fun s => s.ActiveOK fun t => t.OccOK tk s.framenum)
      (fun fr => ∀ p ∈ fr.pos, p.fake = false)
      (fun fr1 fr2 s s1 hr hp h => linkStage_occ mch tk fr1 fr2 s s1 hr hp h)
      (fun s hp => ⟨hp.1, fun id hid => by
        obtain ⟨t, ht, hq⟩ := hp.2 id hid
        exact ⟨t, ht, Or.inl hq⟩⟩)
      (fun s s1 hm h => PadTracks_occ tk s s1 hm h)
      (fun s hp => ⟨hp.1, fun id hid => by
        obtain ⟨t, ht, hq⟩ := hp.2 id hid
        refine ⟨t, ht, ?_⟩
        show t.OccOK tk (s.framenum + 1 - 1)
        rw [add_sub_cancel_right]
        exact hq⟩)
      (f0 :: rest) (initState f0) hreal h0
    constructor
    · intro st hst id hid
      simp only [MakeTracksTrace, List.mem_cons] at hst
      rcases hst with rfl | hst
      · obtain ⟨t, ht, hq⟩ := h0.2 id hid
        obtain ⟨a, b, c, d, e, g⟩ := facts t _ hq
        exact ⟨t, _, ht, a, b, c, d, e, g, Or.inr rfl⟩
      · rcases l1 st hst with hm | hp
        · obtain ⟨t, ht, hq⟩ := hm.2 id hid
          rcases hq with hq | hq
          · obtain ⟨a, b, c, d, e, g⟩ := facts t _ hq
            exact ⟨t, _, ht, a, b, c, d, e, g, Or.inr rfl⟩
          · obtain ⟨a, b, c, d, e, g⟩ := facts t _ hq.1
            exact ⟨t, _, ht, a, b, c, d, e, g, Or.inl rfl⟩
        · obtain ⟨t, ht, hq⟩ := hp.2 id hid
          obtain ⟨a, b, c, d, e, g⟩ := facts t _ hq
          exact ⟨t, _, ht, a, b, c, d, e, g, Or.inl rfl⟩
    · intro st hst id hid
      simp only [MakeTracks] at hst
      split at hst
      · exact Except.noConfusion hst
      · rename_i st0 hst0
        obtain ⟨e1, e2, e3⟩ := flush_same _ st0 st hst
        rw [e1] at hid
        obtain ⟨t, ht, hq⟩ := (l2 st0 hst0).2 id hid
        obtain ⟨a, b, c, d, e, g⟩ := facts t _ hq
        exact ⟨t, _, by rw [e2]; exact ht, a, b, c, d, e, g, by rw [e3]⟩

end OcclusionCounterTheorem

section OcclusionCounterEvaluations

/-- Witness of C34 on `gapFrames` with `memory = 1`: the run visits 17 states,
listed with the frame number and, for the one active track, the counter, the
number of stored positions and `Length()`; the counter is 1 after the
`PadTracks` of the empty frames 3 and 7 and 0 in every other state. -/
theorem C34_occlusion_counter_witness :
    (∀ fr ∈ gapFrames, ∀ p ∈ fr.pos, p.fake = false) ∧
    (MakeTracksTrace exactMachine tkGap gapFrames).map
        (fun st => (st.framenum, st.activelist.map fun id =>
          (st.tracks id).map fun t => (t.occluded, t.pos.length, t.Length)))
      = [(1, [some (0, 1, 1)]), (1, [some (0, 2, 2)]), (1, [some (0, 2, 2)]),
          (2, [some (0, 3, 3)]), (2, [some (0, 3, 3)]), (3, [some (1, 4, 3)]),
          (4, [some (0, 5, 5)]), (4, [some (0, 5, 5)]), (5, [some (0, 6, 6)]),
          (5, [some (0, 6, 6)]), (6, [some (0, 7, 7)]), (6, [some (0, 7, 7)]),
          (7, [some (1, 8, 7)]), (8, [some (0, 9, 9)]), (8, [some (0, 9, 9)]),
          (9, [some (0, 10, 10)]), (9, [some (0, 10, 10)])] ∧
    ∀ st ∈ MakeTracksTrace exactMachine tkGap gapFrames, ∀ id ∈ st.activelist, ∃ t m,
      st.tracks id = some t ∧
      t.OcclusionCount = ((t.pos.rtakeWhile fun p => p.fake).length : Int) ∧
      t.OcclusionCount = (t.pos.length : Int) - t.Length ∧
      0 ≤ t.OcclusionCount ∧ t.OcclusionCount ≤ max tkGap.memory 0 ∧
      t.time.getLast? = some m ∧ t.GetTime (t.Length - 1) = Except.ok (m - t.OcclusionCount) ∧
      (m = st.framenum ∨ m = st.framenum - 1) :=
  ⟨by decide, by decide!,
    (C34_occlusion_counter exactMachine tkGap gapFrames (by decide)).1⟩

end OcclusionCounterEvaluations

section PadWithinLemmas

variable {F : Type} [LinearOrderedField F]

/-- The estimated position of `PadTracks` is within `max_disp` of the last
position. -/
theorem padEstimate_within (tk : Tracker F) (last pen ante : Position F) :
    Distance (padEstimate tk last pen ante) last ≤ tk.max_disp * tk.max_disp := by
  unfold padEstimate
  simp only
  split
  · have : Distance ((((last.add (last.sub pen)).add (Position.smulL (1 / 2)
        (Position.smulL (1 / 2) ((last.sub (Position.smulL 2 pen)).add ante)))).assign
          last).SetFake) last = 0 := by
      simp [Distance, Position.assign, Position.SetFake]
    rw [this]
    exact mul_self_nonneg _
  · rename_i h
    exact not_lt.1 h

/-- The last stored position of a well-formed track is what `Last` returns. -/
theorem Track.Last_getLast (t : Track F) (hwf : t.WF) (last : Position F)
    (h : t.Last = Except.ok last) : t.pos.getLast? = some last := by
  unfold Track.Last Track.posAt at h
  split at h
  · rename_i h0
    split at h
    · rename_i p hp
      rw [← Except.ok.inj h, List.getLast?_eq_getElem?, ← hp]
      congr 1
      rw [hwf.1]
      omega
    · exact Except.noConfusion h
  · exact Except.noConfusion h

/-- A chain of a list in terms of the entries at adjacent indices. -/
theorem chain_getD (R : Position F → Position F → Prop) (l : List (Position F))
    (h : l.Chain' R) (i : Nat) (hi : i + 1 < l.length) :
    R (l.getD i default) (l.getD (i + 1) default) := by
  have := (List.chain'_iff_get.1 h) i (by omega)
  rw [List.getD_eq_getElem _ _ (by omega), List.getD_eq_getElem _ _ hi]
  exact this

end PadWithinLemmas

section PadWithinTheorem

variable {F : Type} [LinearOrderedField F]

/-- C31. The position that `PadTracks` appends.  For all positions `L`, `P`,
`A`, the estimate made from them is flagged fake, its squared distance to `L` is
at most `max_disp * max_disp`, and when the extrapolated point is farther from
`L` than that, its coordinates are those of `L` exactly (the assignment copies
the three coordinates).  A pass of the first loop of `PadTracks` over a
well-formed track leaves the track as it is, erases it, or appends one such
position to it, made from its last stored positions, with the current frame
number.  So in every state of a run on frames of real positions, and in the state
the run ends in, every fake position of a track of the map or of a written
track is within `max_disp` of the position stored immediately before it. -/
theorem C31_pad_within (tk : Tracker F) :
    (∀ L P A : Position F,
      (padEstimate tk L P A).fake = true ∧
      Distance (padEstimate tk L P A) L ≤ tk.max_disp * tk.max_disp ∧
      (Distance ((L.add (L.sub P)).add (Position.smulL (1 / 2)
          (Position.smulL (1 / 2) ((L.sub (Position.smulL 2 P)).add A)))) L
            > tk.max_disp * tk.max_disp →
        (padEstimate tk L P A).x = L.x ∧ (padEstimate tk L P A).y = L.y ∧
          (padEstimate tk L P A).z = L.z ∧ Distance (padEstimate tk L P A) L = 0)) ∧
    (∀ (acc acc1 : PadAcc F) (tr : Int) (t : Track F),
      padOne tk acc tr = Except.ok acc1 → acc.st.tracks tr = some t → t.WF →
      acc1.st.tracks tr = some t ∨ acc1.st.tracks tr = none ∨
      ∃ prev e : Position F, t.pos.getLast? = some prev ∧ e.fake = true ∧
        Distance e prev ≤ tk.max_disp * tk.max_disp ∧
        acc1.st.tracks tr = some
          { pos := t.pos ++ [e], time := t.time ++ [acc.st.framenum],
            occluded := t.occluded + 1, npoints := t.npoints + 1 }) ∧
    (∀ (mch : Machine F) (f : List (Frame F)),
      (∀ fr ∈ f, ∀ p ∈ fr.pos, p.fake = false) →
      (∀ st ∈ MakeTracksTrace mch tk f,
        (∀ id t, st.tracks id = some t → ∀ i, i + 1 < t.pos.length →
          (t.pos.getD (i + 1) default).fake = true →
          Distance (t.pos.getD (i + 1) default) (t.pos.getD i default)
            ≤ tk.max_disp * tk.max_disp) ∧
        ∀ w ∈ st.written, ∀ i, i + 1 < w.2.pos.length →
          (w.2.pos.getD (i + 1) default).fake = true →
          Distance (w.2.pos.getD (i + 1) default) (w.2.pos.getD i default)
            ≤ tk.max_disp * tk.max_disp) ∧
      ∀ st, MakeTracks mch tk f = Except.ok st →
        ∀ w ∈ st.written, ∀ i, i + 1 < w.2.pos.length →
          (w.2.pos.getD (i + 1) default).fake = true →
          Distance (w.2.pos.getD (i + 1) default) (w.2.pos.getD i default)
            ≤ tk.max_disp * tk.max_disp) := by
  refine ⟨?_, ?_, ?_⟩
  · intro L P A
    refine ⟨rfl, padEstimate_within tk L P A, ?_⟩
    intro hgt
    unfold padEstimate
    simp only [if_pos hgt]
    simp [Distance, Position.assign, Position.SetFake]
  · intro acc acc1 tr t h ht hwf
    obtain ⟨t2, tm, ht2, _, hcase⟩ := padOne_cases tk acc acc1 tr h
    have htt : t2 = t := Option.some.inj (ht2.symm.trans ht)
    subst htt
    rcases hcase with ⟨_, rfl⟩ | ⟨_, _, _, rfl⟩ | ⟨_, _, _, rfl⟩ | ⟨_, _, _, rfl⟩ |
      ⟨_, _, _, last, pen, ante, hl, _, _, rfl⟩
    · exact Or.inl ht
    · right; left
      simp only [erase_apply, if_true]
    · exact Or.inl ht
    · right; left
      simp only [erase_apply, if_true]
    · right; right
      refine ⟨last, padEstimate tk last pen ante, Track.Last_getLast t2 hwf last hl, rfl,
        padEstimate_within tk last pen ante, ?_⟩
      simp only [set_apply, if_true]
      rfl
  · intro mch f hreal
    have key := run_tracks mch tk
      (fun t => t.WF ∧ t.pos.Chain' fun a b =>
        b.fake = true → Distance b a ≤ tk.max_disp * tk.max_disp)
      (fun p m _ => ⟨Track.WF_single p m, by simp [Track.single]⟩)
      (fun t p m hq hp => by
        refine ⟨Track.WF_ResetCounter _ (Track.WF_Add t hq.1 p m), ?_⟩
        show (t.pos ++ [p]).Chain' _
        rw [List.chain'_append]
        refine ⟨hq.2, List.chain'_singleton _, ?_⟩
        intro x _ y hy hfake
        simp only [List.head?_cons, Option.mem_def, Option.some.injEq] at hy
        rw [← hy, hp] at hfake
        exact Bool.noConfusion hfake)
      (fun t last pen ante m hq _ _ hl _ _ => by
        refine ⟨Track.WF_Occluded _ (Track.WF_Add t hq.1 _ m), ?_⟩
        show (t.pos ++ [padEstimate tk last pen ante]).Chain' _
        rw [List.chain'_append]
        refine ⟨hq.2, List.chain'_singleton _, ?_⟩
        intro x hx y hy _
        simp only [List.head?_cons, Option.mem_def, Option.some.injEq] at hy
        have hx2 : x = last := by
          have := Track.Last_getLast t hq.1 last hl
          rw [Option.mem_def, this] at hx
          exact (Option.some.inj hx).symm
        rw [← hy, hx2]
        exact padEstimate_within tk last pen ante)
      f hreal
    constructor
    · intro st hst
      obtain ⟨k1, k2⟩ := key.1 st hst
      exact ⟨fun id t ht i hi hf => chain_getD _ _ (k1 id t ht).2 i hi hf,
        fun w hw i hi hf => chain_getD _ _ (k2 w hw).2 i hi hf⟩
    · intro st hst w hw i hi hf
      exact chain_getD _ _ ((key.2 st hst).2 w hw).2 i hi hf

end PadWithinTheorem

section PadWithinEvaluations

/-- Witness of C31 on `gapFrames` with `max_disp = 1`: one track is written; its
positions of the frames 3 and 7 are fake, and every fake position is within
`max_disp` of the one before it. -/
theorem C31_pad_within_witness :
    (∀ fr ∈ gapFrames, ∀ p ∈ fr.pos, p.fake = false) ∧
    (writtenOf (MakeTracks exactMachine tkGap gapFrames)).map
        (fun w => w.2.pos.map fun p => p.fake)
      = [[false, false, false, true, false, false, false, true, false, false]] ∧
    ∀ st, MakeTracks exactMachine tkGap gapFrames = Except.ok st →
      ∀ w ∈ st.written, ∀ i, i + 1 < w.2.pos.length →
        (w.2.pos.getD (i + 1) default).fake = true →
        Distance (w.2.pos.getD (i + 1) default) (w.2.pos.getD i default)
          ≤ tkGap.max_disp * tkGap.max_disp :=
  ⟨by decide, by decide!,
    ((C31_pad_within tkGap).2.2 exactMachine gapFrames (by decide)).2⟩

end PadWithinEvaluations

section BookkeepingLemmas

variable {F : Type} [LinearOrderedField F]

/-- The bookkeeping of the output: the indices of the written tracks are
`0, 1, ..., ntracks - 1` in the order of writing, and `ntotalpoints` is the sum
of their lengths. -/
theorem written_snoc (W : List (Nat × Track F)) (n : Nat) (N : Int) (L : List (Track F))
    (h1 : W.map Prod.fst = List.range n)
    (h2 : N = (W.map fun w => w.2.Length).sum) :
    (W ++ L.enumFrom n).map Prod.fst = List.range (n + L.length) ∧
      N + (L.map fun t => t.Length).sum
        = ((W ++ L.enumFrom n).map fun w => w.2.Length).sum := by
  constructor
  · rw [List.map_append, h1, List.enumFrom_map_fst, List.range_add, List.range'_eq_map_range]
  · rw [List.map_append, List.sum_append, ← h2]
    congr 1
    have : (L.enumFrom n).map (fun w => w.2.Length)
        = ((L.enumFrom n).map Prod.snd).map fun t => t.Length := by
      rw [List.map_map]; rfl
    rw [this, List.enumFrom_map_snd]

theorem initState_counts (f0 : Frame F) :
    (initState f0).ntracks = 0 ∧ (initState f0).ntotalpoints = 0 := by
  have := foldl_inv
    (fun (st : TState F) (i : Nat) =>
      { st with
        tracks := st.tracks.set (i : Int) (Track.single (f0.pos.getD i default) 0),
        activelist := st.activelist ++ [(i : Int)],
        trackindex := st.trackindex + 1 })
    (List.range f0.NumParticles)
    (fun _ s => s.ntracks = 0 ∧ s.ntotalpoints = 0)
    (fun _ _ _ _ _ hs => hs) (List.range f0.NumParticles) [] TState.fresh rfl ⟨rfl, rfl⟩
  exact this

/-- The final loop of `MakeTracks` keeps the bookkeeping of the output. -/
theorem flush_counts (L : List Int) (s s1 : TState F)
    (h0 : s.IdsOK ∧ s.written.map Prod.fst = List.range s.ntracks ∧
      s.ntotalpoints = (s.written.map fun w => w.2.Length).sum)
    (h : forEach flushOne L s = Except.ok s1) :
    s1.IdsOK ∧ s1.written.map Prod.fst = List.range s1.ntracks ∧
      s1.ntotalpoints = (s1.written.map fun w => w.2.Length).sum := by
  refine forEach_inv flushOne L
    (fun _ a => a.IdsOK ∧ a.written.map Prod.fst = List.range a.ntracks ∧
      a.ntotalpoints = (a.written.map fun w => w.2.Length).sum)
    ?_ L [] s s1 rfl h0 h
  intro done x rest a a1 _ ha hstep
  obtain ⟨t, _, hcase⟩ := flushOne_cases a a1 x hstep
  rcases hcase with ⟨hlen, rfl⟩ | ⟨_, rfl⟩
  · obtain ⟨⟨i1, i2, i3, i4⟩, k2, k3⟩ := ha
    refine ⟨⟨i1, i2, i3, ?_⟩, ?_, ?_⟩
    · intro w hw
      simp only [List.mem_append, List.mem_singleton] at hw
      rcases hw with hw | rfl
      · exact i4 w hw
      · exact hlen
    · simp only [List.map_append, List.map_cons, List.map_nil, k2, List.range_succ]
    · simp only [List.map_append, List.map_cons, List.map_nil, List.sum_append, List.sum_cons,
        List.sum_nil, k3]
      ring
  · exact ha

theorem sum_toNat (W : List (Nat × Track F)) (h : ∀ w ∈ W, 0 ≤ w.2.Length) :
    Int.toNat (W.map fun (w : Nat × Track F) => w.2.Length).sum
        = (W.map fun (w : Nat × Track F) => w.2.Length.toNat).sum ∧
      0 ≤ (W.map fun (w : Nat × Track F) => w.2.Length).sum := by
  induction W with
  | nil => simp
  | cons a l ih =>
    obtain ⟨i1, i2⟩ := ih (fun w hw => h w (List.mem_cons_of_mem _ hw))
    have ha := h a (List.mem_cons_self _ _)
    simp only [List.map_cons, List.sum_cons]
    constructor
    · rw [Int.toNat_add ha i2, i1]
    · omega

theorem writtenRows_length (tk : Tracker F) (st : TState F) :
    (writtenRows tk st).length = (st.written.map fun w => w.2.Length.toNat).sum := by
  unfold writtenRows
  rw [List.length_flatMap]
  congr 1
  apply List.map_congr_left
  intro w _
  exact WriteGDF_length _ _ _

end BookkeepingLemmas

section BookkeepingTheorem

variable {F : Type} [LinearOrderedField F]

/-- C40. The bookkeeping of the track output, for every sequence of frames and
every mode.  In every state of a run of `MakeTracks` the indices passed to
`WriteGDF` so far are `0, 1, ..., ntracks - 1` in the order of the calls, and
`ntotalpoints` is the sum of `Length()` over the written tracks.  When the run
ends normally, each written track has one index, which is the first column of
each of its rows; every row has 19 columns; the tracks have the indices
`0, 1, 2, ...` in the order of writing; and the number of rows patched into the
header is the number of rows written, the sum of `Length()` over the written
tracks, the number of data fields being 19 times that number. -/
theorem C40_track_bookkeeping (mch : Machine F) (tk : Tracker F) (f : List (Frame F)) :
    (∀ st ∈ MakeTracksTrace mch tk f,
      st.written.map Prod.fst = List.range st.ntracks ∧
      st.ntotalpoints = (st.written.map fun w => w.2.Length).sum) ∧
    (∀ st, MakeTracks mch tk f = Except.ok st →
      st.written.map Prod.fst = List.range st.written.length ∧
      st.ntracks = st.written.length ∧
      st.ntotalpoints = (st.written.map fun w => w.2.Length).sum ∧
      headerRows st = ((writtenRows tk st).length : Int) ∧
      headerFields st = 19 * ((writtenRows tk st).length : Int) ∧
      (∀ r ∈ writtenRows tk st, r.length = 19) ∧
      ∀ w ∈ st.written,
        ((w.2.WriteGDF (w.1 : F) tk.fps).length : Int) = w.2.Length ∧
        ∀ r ∈ w.2.WriteGDF (w.1 : F) tk.fps, r.getD 0 0 = (w.1 : F)) := by
  have key := run_keeps mch tk
    (fun s => s.IdsOK ∧ s.written.map Prod.fst = List.range s.ntracks ∧
      s.ntotalpoints = (s.written.map fun w => w.2.Length).sum)
    (fun _ => True)
    (fun fr1 fr2 s s1 _ h0 h => by
      obtain ⟨_, _, _, _, _, k1, k2, k3, k4, _⟩ := linkStage_shape mch tk fr1 fr2 s s1 h0.1 h
      exact ⟨(linkStage_IdsOK mch tk fr1 fr2 s s1 h0.1 h).1, by rw [k2, k3]; exact h0.2.1,
        by rw [k4, k2]; exact h0.2.2⟩)
    (fun s s1 h0 h => by
      obtain ⟨_, _, _, s4, s5, s6, _⟩ := PadTracks_shape tk s s1 h0.1.1 h
      obtain ⟨w1, w2⟩ := written_snoc s.written s.ntracks s.ntotalpoints
        ((writeIds tk s).filterMap s.tracks) h0.2.1 h0.2.2
      exact ⟨(PadTracks_IdsOK tk s s1 h0.1 h).1, by rw [s4, s5]; exact w1,
        by rw [s6, s4]; exact w2⟩)
    (fun s h => h)
    (fun s s1 h0 h => flush_counts _ s s1 h0 h)
    f (fun _ _ => trivial)
    (fun f0 rest _ => by
      obtain ⟨c1, c2⟩ := initState_counts f0
      obtain ⟨_, _, _, h4, _⟩ := initState_fields f0
      exact ⟨initState_IdsOK f0, by rw [h4, c1]; rfl, by rw [h4, c2]; rfl⟩)
  refine ⟨fun st hst => (key.1 st hst).2, ?_⟩
  intro st hst
  obtain ⟨hok, k1, k2⟩ := key.2 st hst
  have hlen : st.ntracks = st.written.length := by
    have := congrArg List.length k1
    rw [List.length_map, List.length_range] at this
    exact this.symm
  have hnn : ∀ w ∈ st.written, 0 ≤ w.2.Length := by
    intro w hw
    have := hok.2.2.2 w hw
    unfold MINTRACK at this
    omega
  obtain ⟨t1, t2⟩ := sum_toNat st.written hnn
  have hrows : ((writtenRows tk st).length : Int) = st.ntotalpoints := by
    rw [writtenRows_length, ← t1, k2, Int.toNat_of_nonneg t2]
  refine ⟨by rw [← hlen]; exact k1, hlen, k2, ?_, ?_, ?_, ?_⟩
  · unfold headerRows; rw [hrows]
  · unfold headerFields; rw [hrows]
  · intro r hr
    unfold writtenRows at hr
    obtain ⟨w, _, hr⟩ := List.mem_flatMap.1 hr
    unfold Track.WriteGDF at hr
    obtain ⟨i, _, rfl⟩ := List.mem_map.1 hr
    rfl
  · intro w hw
    refine ⟨?_, ?_⟩
    · rw [WriteGDF_length, Int.toNat_of_nonneg (hnn w hw)]
    · intro r hr
      unfold Track.WriteGDF at hr
      obtain ⟨i, _, rfl⟩ := List.mem_map.1 hr
      rfl

end BookkeepingTheorem

section BookkeepingEvaluations

/-- Witness of C40 on `pairFrames`: the run ends normally with two written
tracks, of indices 0 and 1 and of lengths 10 and 11; the header holds 21 rows
and 399 fields, 21 rows are written, ten of them with the first column 0 and
eleven with the first column 1. -/
theorem C40_track_bookkeeping_witness :
    ((MakeTracks exactMachine tkGap pairFrames).toOption.map fun st =>
        (st.written.map fun w => (w.1, w.2.Length), st.ntracks, st.ntotalpoints))
      = some ([(0, 10), (1, 11)], 2, 21) ∧
    ((MakeTracks exactMachine tkGap pairFrames).toOption.map fun st =>
        (headerRows st, headerFields st, (writtenRows tkGap st).length,
          (writtenRows tkGap st).map fun r => r.getD 0 0))
      = some (21, 399, 21, [0, 0, 0, 0, 0, 0, 0, 0, 0, 0, 1, 1, 1, 1, 1, 1, 1, 1, 1, 1, 1]) ∧
    ∀ st, MakeTracks exactMachine tkGap pairFrames = Except.ok st →
      st.written.map Prod.fst = List.range st.written.length ∧
      st.ntracks = st.written.length ∧
      st.ntotalpoints = (st.written.map fun w => w.2.Length).sum ∧
      headerRows st = ((writtenRows tkGap st).length : Int) ∧
      headerFields st = 19 * ((writtenRows tkGap st).length : Int) ∧
      (∀ r ∈ writtenRows tkGap st, r.length = 19) ∧
      ∀ w ∈ st.written,
        ((w.2.WriteGDF (w.1 : ℚ) tkGap.fps).length : Int) = w.2.Length ∧
        ∀ r ∈ w.2.WriteGDF (w.1 : ℚ) tkGap.fps, r.getD 0 0 = (w.1 : ℚ) :=
  ⟨by decide!, by decide!, (C40_track_bookkeeping exactMachine tkGap pairFrames).2⟩

end BookkeepingEvaluations

section BestMatchTheorem

variable {F : Type} [LinearOrderedField F] [Arith F]

/-- A point whose residual is strictly below the residual of every other point
is not put on `bad` by the pruning loop. -/
theorem prune_keeps_best (flag : Nat → Nat → Bool) (ray : Nat → F) (n i : Nat)
    (hbest : ∀ j, j < n → j ≠ i → ray i < ray j) : i ∉ prune flag ray n := by
  intro hmem
  unfold prune at hmem
  rcases pruneFold_source flag ray n (List.range n) [] i hmem with h | ⟨t, ht, h⟩
  · simp at h
  · rcases h with ⟨rfl, j, ⟨h1, h2⟩, _, h3⟩ | ⟨⟨h1, _⟩, _, h3⟩
    · exact h3 (hbest j h2 (by omega))
    · exact lt_asymm h3 (hbest t (List.mem_range.1 ht) (by omega))

/-- C39. The pruning of the full pass never discards the best match.  Let the
accepted full tuples of a frame be the entries of `matchedPos` (those whose
residual is below `mindist_3D * mindist_3D`), and let entry `i` have a residual
strictly below the residual of every other entry.  Then `i` is not put on
`bad`, entry `i` is among the kept full matches, and `Stereomatch` returns
normally with the world point of entry `i` in its frame and the row of entry
`i` among its rows. -/
theorem C39_best_match_kept (sqrt : F → F) (cal : Calibration F) (iframes : List (Frame F))
    (framenumber : Int) (i : Nat) (hlen : iframes.length = cal.cams.length)
    (hi : i < (matchedPos sqrt cal (corrframes cal iframes)).length)
    (hbest : ∀ j, j < (matchedPos sqrt cal (corrframes cal iframes)).length → j ≠ i →
      rayAt (matchedPos sqrt cal (corrframes cal iframes)) i
        < rayAt (matchedPos sqrt cal (corrframes cal iframes)) j) :
    i ∉ bad cal (matchedPos sqrt cal (corrframes cal iframes)) ∧
    (matchedPos sqrt cal (corrframes cal iframes)).getD i default ∈ goodFull sqrt cal iframes ∧
    ∃ r, Stereomatch sqrt cal iframes framenumber = Except.ok r ∧
      ((matchedPos sqrt cal (corrframes cal iframes)).getD i default).pos ∈ r.frame.pos ∧
      row cal framenumber ((matchedPos sqrt cal (corrframes cal iframes)).getD i default)
        (rayAt (matchedPos sqrt cal (corrframes cal iframes)) i) ∈ r.rows := by
  have hbad : i ∉ bad cal (matchedPos sqrt cal (corrframes cal iframes)) :=
    prune_keeps_best _ _ _ i hbest
  have hget : (matchedPos sqrt cal (corrframes cal iframes))[i]?
      = some ((matchedPos sqrt cal (corrframes cal iframes)).getD i default) := by
    rw [List.getD_eq_getElem?_getD, List.getElem?_eq_getElem hi]
    rfl
  have hgood : (matchedPos sqrt cal (corrframes cal iframes)).getD i default
      ∈ goodFull sqrt cal iframes := by
    unfold goodFull
    exact (mem_keepGood _ _ _).2 ⟨i, hget, hbad⟩
  refine ⟨hbad, hgood, ?_⟩
  unfold Stereomatch
  rw [if_neg (by simpa using hlen)]
  refine ⟨_, rfl, ?_, ?_⟩
  · exact List.mem_append_left _ (List.mem_map.2 ⟨_, hgood, rfl⟩)
  · exact List.mem_append_left _ (List.mem_map.2 ⟨_, hgood, rfl⟩)

end BestMatchTheorem

section BestMatchEvaluations

/-- Witness of C39 on `framesPlane`: three full tuples are accepted, with the
residuals 0, 113570/2886051 and 1419625/9288042; the second one is pruned, and
the first one, whose residual is the least, is kept and emitted. -/
theorem C39_best_match_kept_witness :
    okScene calPlane framesPlane = true ∧
    (matchedPos sqrtQ calPlane (corrframes calPlane framesPlane)).map
        (fun m => (m.indices, m.raydist))
      = [([0, 0, 0, 0], 0), ([0, 1, 1, 1], 113570 / 2886051),
          ([1, 1, 1, 1], 1419625 / 9288042)] ∧
    bad calPlane (matchedPos sqrtQ calPlane (corrframes calPlane framesPlane)) = [1] ∧
    (0 ∉ bad calPlane (matchedPos sqrtQ calPlane (corrframes calPlane framesPlane)) ∧
    (matchedPos sqrtQ calPlane (corrframes calPlane framesPlane)).getD 0 default
      ∈ goodFull sqrtQ calPlane framesPlane ∧
    ∃ r, Stereomatch sqrtQ calPlane framesPlane 7 = Except.ok r ∧
      ((matchedPos sqrtQ calPlane (corrframes calPlane framesPlane)).getD 0 default).pos
        ∈ r.frame.pos ∧
      row calPlane 7 ((matchedPos sqrtQ calPlane (corrframes calPlane framesPlane)).getD 0 default)
        (rayAt (matchedPos sqrtQ calPlane (corrframes calPlane framesPlane)) 0) ∈ r.rows) :=
  ⟨by decide!, by decide!, by decide!,
    C39_best_match_kept sqrtQ calPlane framesPlane 7 0 (by decide) (by decide!) (by decide!)⟩

end BestMatchEvaluations

section CrossCheckTheorem

variable {F : Type} [LinearOrderedField F] [Arith F]

theorem sharesCoordFull_of_eq (ncams : Nat) (m3 g : Match F)
    (h : (∃ k, k < ncams ∧ (m3.touse.getD k default).x = (g.touse.getD k default).x) ∨
      (∃ k, k < ncams ∧ (m3.touse.getD k default).y = (g.touse.getD k default).y)) :
    sharesCoordFull ncams m3 g = true := by
  simp only [sharesCoordFull, Bool.or_eq_true, List.any_eq_true, List.mem_range,
    decide_eq_true_eq]
  exact h

/-- C36. The comparison of the degraded candidates with the kept full matches
(lines 655-677), for every pass `mcam`.  Let candidate `i` of the pass have, on
some camera slot `k < ncams`, the same undistorted `X` as a kept full match
`g`, or, on some camera slot, possibly another one, the same undistorted `Y`.
Then `i` is on `bad3`, so the copy loop does not copy candidate `i`.  The slot
of the skipped camera takes part in the comparison: there every candidate holds
`UnDistort(m_pos())`.  Consequently every degraded match that is emitted differs
from every kept full match in `X` and in `Y` on every camera slot. -/
theorem C36_cross_check (sqrt : F → F) (cal : Calibration F) (iframes : List (Frame F))
    (mcam i : Nat) (g : Match F)
    (hi : i < (matchedPos3 sqrt cal (corrframes cal iframes)
      (goodFull sqrt cal iframes) mcam).length)
    (hg : g ∈ goodFull sqrt cal iframes)
    (hxy :
      (∃ k, k < cal.ncams ∧
        (((matchedPos3 sqrt cal (corrframes cal iframes)
          (goodFull sqrt cal iframes) mcam).getD i default).touse.getD k default).x
          = (g.touse.getD k default).x) ∨
      (∃ k, k < cal.ncams ∧
        (((matchedPos3 sqrt cal (corrframes cal iframes)
          (goodFull sqrt cal iframes) mcam).getD i default).touse.getD k default).y
          = (g.touse.getD k default).y)) :
    i ∈ bad3 cal (matchedPos3 sqrt cal (corrframes cal iframes) (goodFull sqrt cal iframes) mcam)
        (goodFull sqrt cal iframes) ∧
    (∀ m, (i, m) ∉ (matchedPos3 sqrt cal (corrframes cal iframes)
        (goodFull sqrt cal iframes) mcam).enum.filter fun e =>
          !decide (e.1 ∈ bad3 cal (matchedPos3 sqrt cal (corrframes cal iframes)
            (goodFull sqrt cal iframes) mcam) (goodFull sqrt cal iframes))) ∧
    (mcam < cal.ncams →
      ∀ m ∈ matchedPos3 sqrt cal (corrframes cal iframes) (goodFull sqrt cal iframes) mcam,
        m.touse.getD mcam default
          = (cal.cams.getD mcam default).UnDistort (m_pos (mcam : Int))) ∧
    ∀ e ∈ emittedDegraded sqrt cal iframes, ∀ g0 ∈ goodFull sqrt cal iframes,
      ∀ k, k < cal.ncams →
        (e.1.touse.getD k default).x ≠ (g0.touse.getD k default).x ∧
        (e.1.touse.getD k default).y ≠ (g0.touse.getD k default).y := by
  have hbad : i ∈ bad3 cal
      (matchedPos3 sqrt cal (corrframes cal iframes) (goodFull sqrt cal iframes) mcam)
      (goodFull sqrt cal iframes) := by
    unfold bad3
    exact crossLoop_flagged cal.ncams _ _ _ _ i (List.mem_range.2 hi)
      ⟨g, hg, sharesCoordFull_of_eq _ _ _ hxy⟩
  refine ⟨hbad, ?_, ?_, ?_⟩
  · intro m hm
    have := (List.mem_filter.1 hm).2
    simp only [Bool.not_eq_true', decide_eq_false_iff_not] at this
    exact this hbad
  · intro hm m hmem
    obtain ⟨tm, htm⟩ := mem_matchedPos3 sqrt cal _ _ mcam m hmem
    exact (mem_matchDegraded sqrt cal _ mcam tm m htm).2.2.2 hm
  · intro e he g0 hg0 k hk
    obtain ⟨hmem, _⟩ := mem_emittedDegraded sqrt cal iframes e he
    obtain ⟨mc, _, hkeep⟩ := mem_goodPos3 sqrt cal _ _ e.1 hmem
    obtain ⟨i0, hi0, hb⟩ := (mem_keepGood _ _ _).1 hkeep
    have hlt : i0 < (matchedPos3 sqrt cal (corrframes cal iframes)
        (goodFull sqrt cal iframes) mc).length := by
      by_contra hcon
      rw [List.getElem?_eq_none (by omega)] at hi0
      simp at hi0
    have hnf := not_flagged_of_not_mem_bad3 cal _ _ i0 hlt hb g0 hg0
    rw [getD_of_getElem? _ i0 e.1 hi0] at hnf
    exact sharesCoordFull_eq_false cal.ncams e.1 g0 hnf k hk

end CrossCheckTheorem

section CrossCheckEvaluations

/-- Witness of C36 on `framesCross`, pass `mcam = 0`: the one full match uses
detection 0 of every camera; the one degraded candidate uses detection 1 of the
cameras 1, 2, 3, a different detection on each of them, with residual 0.  Its
`Y` on camera 1 is 0, as is the `Y` of the full match there, so the candidate
is put on `bad3` and nothing is emitted from the degraded pass. -/
theorem C36_cross_check_witness :
    okScene calPlane framesCross = true ∧
    (goodFull sqrtQ calPlane framesCross).map
        (fun m => (m.indices, m.raydist, m.touse.map fun p => (p.x, p.y)))
      = [([0, 0, 0, 0], 0, [(0, 0), (3 / 4, 0), (8 / 15, 0), (5 / 12, 0)])] ∧
    (matchedPos3 sqrtQ calPlane (corrframes calPlane framesCross)
        (goodFull sqrtQ calPlane framesCross) 0).map
        (fun m => (m.indices, m.raydist, m.touse.map fun p => (p.x, p.y)))
      = [([1, 1, 1], 0, [(0, 0), (12 / 5, 0), (4 / 3, 0), (15 / 8, 0)])] ∧
    bad3 calPlane (matchedPos3 sqrtQ calPlane (corrframes calPlane framesCross)
        (goodFull sqrtQ calPlane framesCross) 0) (goodFull sqrtQ calPlane framesCross) = [0] ∧
    (emittedDegraded sqrtQ calPlane framesCross).length = 0 ∧
    0 ∈ bad3 calPlane (matchedPos3 sqrtQ calPlane (corrframes calPlane framesCross)
        (goodFull sqrtQ calPlane framesCross) 0) (goodFull sqrtQ calPlane framesCross) :=
  ⟨by decide!, by decide!, by decide!, by decide!, by decide!,
    (C36_cross_check sqrtQ calPlane framesCross 0 0
      ((goodFull sqrtQ calPlane framesCross).getD 0 default) (by decide!)
      (by
        rw [List.getD_eq_getElem _ _
          (by decide! : 0 < (goodFull sqrtQ calPlane framesCross).length)]
        exact List.getElem_mem _)
      (Or.inr ⟨1, by decide, by decide!⟩)).1⟩

end CrossCheckEvaluations

section SourcePixelLemmas

variable {F : Type} [LinearOrderedField F] [Arith F]

/-- Re-distorting an undistorted point keeps its orientation in every
arithmetic; in exact arithmetic with a non-zero pitch it gives back the pixel
coordinates. -/
theorem distort_undistort (c : Camera F) (p : Position F) :
    (c.Distort (c.UnDistort p)).ori = p.ori ∧ (c.UnDistort p).ori = p.ori ∧
      (Arith.IsExact F → c.wpix ≠ 0 → (c.Distort (c.UnDistort p)).x = p.x) ∧
      (Arith.IsExact F → c.hpix ≠ 0 → (c.Distort (c.UnDistort p)).y = p.y) := by
  refine ⟨?_, ?_, ?_, ?_⟩
  · simp only [Camera.Distort, Camera.UnDistort, Position.mk4, Position.mulEq]
  · simp only [Camera.UnDistort, Position.mk4, Position.mulEq]
  · intro hex hw
    simp only [Camera.Distort, Camera.UnDistort, Position.mk4, Position.mulEq, hex _,
      if_neg hw]
    field_simp
  · intro hex hh
    simp only [Camera.Distort, Camera.UnDistort, Position.mk4, Position.mulEq, hex _,
      if_neg hh]
    field_simp

/-- A detection of the undistorted frames is the undistorted detection of the
input frames with the same where-index, on a camera of the calibration. -/
theorem detAt_corrframes (cal : Calibration F) (iframes : List (Frame F)) (k a : Nat)
    (ha : a < ((corrframes cal iframes).getD k default).NumParticles) :
    k < cal.cams.length ∧ a < (iframes.getD k default).NumParticles ∧
      detAt (corrframes cal iframes) k a
        = (cal.cams.getD k default).UnDistort (detAt iframes k a) := by
  unfold detAt
  unfold corrframes at ha ⊢
  simp only [List.getD_eq_getElem?_getD, List.getElem?_zipWith] at ha ⊢
  cases hc : cal.cams[k]? with
  | none =>
    rw [hc] at ha
    simp [Frame.NumParticles] at ha
    exact absurd ha (Nat.not_lt_zero a)
  | some c =>
    cases hf : iframes[k]? with
    | none =>
      rw [hc, hf] at ha
      simp [Frame.NumParticles] at ha
      exact absurd ha (Nat.not_lt_zero a)
    | some f =>
      rw [hc, hf] at ha
      simp only [Option.getD_some, Frame.NumParticles, List.length_map] at ha ⊢
      refine ⟨?_, ha, ?_⟩
      · by_contra hcon
        rw [List.getElem?_eq_none (by omega)] at hc
        cases hc
      · rw [List.getElem?_map, List.getElem?_eq_getElem ha]
        rfl

/-- An accepted full tuple comes from a point set that reached the call of
`WorldPosition` for an anchor of camera 0. -/
theorem mem_matchedPos_tuple (sqrt : F → F) (cal : Calibration F) (corr : List (Frame F))
    (m : Match F) (h : m ∈ matchedPos sqrt cal corr) :
    ∃ p0 tm, p0 < (corr.getD 0 default).NumParticles ∧
      tm ∈ submitted (pairlists sqrt cal corr) corr cal.ncams p0 ∧
      m ∈ matchFull sqrt cal corr tm := by
  simp only [matchedPos, List.mem_flatMap, List.mem_range] at h
  obtain ⟨p0, hp0, tm, htm, h⟩ := h
  exact ⟨p0, tm, hp0, htm, h⟩

/-- The slots of a kept full match: slot `k` of `frame_indices` is a
where-index of camera `k`, and slot `k` of `PosTouse` is the undistorted
detection of the input with that index. -/
theorem goodFull_slots (sqrt : F → F) (cal : Calibration F) (iframes : List (Frame F))
    (m : Match F) (hm : m ∈ goodFull sqrt cal iframes) (k : Nat) (hk : k < cal.ncams) :
    m.indices.getD k 0 < (iframes.getD k default).NumParticles ∧
      m.touse.getD k default
        = (cal.cams.getD k default).UnDistort (detAt iframes k (m.indices.getD k 0)) ∧
      m.pos = (WorldPositionBody sqrt cal (-1) m.touse).2 := by
  unfold goodFull at hm
  have hmem := mem_of_mem_keepGood _ _ m hm
  obtain ⟨p0, tm, hp0, htm, hfull⟩ := mem_matchedPos_tuple sqrt cal _ m hmem
  obtain ⟨hlen, _, _, hrange⟩ := submitted_sound _ _ cal.ncams p0 (by omega) tm htm
  have hin := hrange hp0 k (by omega)
  obtain ⟨_, d2, d3⟩ := detAt_corrframes cal iframes k (tm.getD k 0) hin
  unfold matchFull at hfull
  simp only at hfull
  split at hfull
  · simp only [List.mem_singleton] at hfull
    subst hfull
    simp only
    rw [getD_map_range _ _ _ _ hk, getD_map_range _ _ _ _ hk]
    exact ⟨d2, d3, trivial⟩
  · simp at hfull

/-- The source detection of camera `k` stored by `WorldPosition` (lines
923-924): the re-distorted coordinates and the orientation of position `k`. -/
theorem WorldPositionBody_source (sqrt : F → F) (cal : Calibration F) (mcam : Int)
    (ipos : List (Position F)) (k : Nat) (hk : k < 4) :
    (WorldPositionBody sqrt cal mcam ipos).2.source k
      = (((cal.cams.getD k default).Distort (ipos.getD k default)).x,
          ((cal.cams.getD k default).Distort (ipos.getD k default)).y,
          (ipos.getD k default).ori) := by
  interval_cases k <;> rfl

end SourcePixelLemmas

section SourcePixelTheorem

variable {F : Type} [LinearOrderedField F] [Arith F]

/-- C37 (as amended). Source detections are recorded re-distorted to pixels,
in every arithmetic.  Let `m` be a kept full match of a frame.  For every
camera `k < ncams`, slot `k` of its tuple is the where-index of a detection `d`
of camera `k` in the input.  For `k` among the cameras 0..3, the source
detection `k` stored in the world point, and the columns `5 + 3k`, `6 + 3k`,
`7 + 3k` of its row, are the `x` and the `y` of `Distort_k(UnDistort_k(d))` and
the orientation of `d`.  When the arithmetic is exact and no camera has a zero
`wpix` or `hpix`, these coordinates are the pixel `x` and `y` of `d`.  When the
number of frames is the number of cameras, `Stereomatch` returns normally with
this world point and this row. -/
theorem C37_source_pixels (sqrt : F → F) (cal : Calibration F) (iframes : List (Frame F))
    (framenumber : Int) (m : Match F) (hm : m ∈ goodFull sqrt cal iframes) :
    (∀ k, k < cal.ncams → m.indices.getD k 0 < (iframes.getD k default).NumParticles) ∧
    (∀ k, k < cal.ncams → k < 4 →
      m.pos.source k
        = (((cal.cams.getD k default).Distort ((cal.cams.getD k default).UnDistort
              (detAt iframes k (m.indices.getD k 0)))).x,
            ((cal.cams.getD k default).Distort ((cal.cams.getD k default).UnDistort
              (detAt iframes k (m.indices.getD k 0)))).y,
            (detAt iframes k (m.indices.getD k 0)).ori) ∧
      (row cal framenumber m m.raydist).getD (5 + 3 * k) 0
        = ((cal.cams.getD k default).Distort ((cal.cams.getD k default).UnDistort
            (detAt iframes k (m.indices.getD k 0)))).x ∧
      (row cal framenumber m m.raydist).getD (6 + 3 * k) 0
        = ((cal.cams.getD k default).Distort ((cal.cams.getD k default).UnDistort
            (detAt iframes k (m.indices.getD k 0)))).y ∧
      (row cal framenumber m m.raydist).getD (7 + 3 * k) 0
        = (detAt iframes k (m.indices.getD k 0)).ori) ∧
    (Arith.IsExact F → (∀ c ∈ cal.cams, c.wpix ≠ 0 ∧ c.hpix ≠ 0) →
      ∀ k, k < cal.ncams → k < 4 →
        m.pos.source k
          = ((detAt iframes k (m.indices.getD k 0)).x,
              (detAt iframes k (m.indices.getD k 0)).y,
              (detAt iframes k (m.indices.getD k 0)).ori) ∧
        (row cal framenumber m m.raydist).getD (5 + 3 * k) 0
          = (detAt iframes k (m.indices.getD k 0)).x ∧
        (row cal framenumber m m.raydist).getD (6 + 3 * k) 0
          = (detAt iframes k (m.indices.getD k 0)).y ∧
        (row cal framenumber m m.raydist).getD (7 + 3 * k) 0
          = (detAt iframes k (m.indices.getD k 0)).ori) ∧
    (iframes.length = cal.cams.length →
      ∃ r, Stereomatch sqrt cal iframes framenumber = Except.ok r ∧
        m.pos ∈ r.frame.pos ∧ row cal framenumber m m.raydist ∈ r.rows) := by
  have key : ∀ k, k < cal.ncams → k < 4 →
      m.pos.source k
        = (((cal.cams.getD k default).Distort ((cal.cams.getD k default).UnDistort
              (detAt iframes k (m.indices.getD k 0)))).x,
            ((cal.cams.getD k default).Distort ((cal.cams.getD k default).UnDistort
              (detAt iframes k (m.indices.getD k 0)))).y,
            (detAt iframes k (m.indices.getD k 0)).ori) ∧
      (row cal framenumber m m.raydist).getD (5 + 3 * k) 0
        = ((cal.cams.getD k default).Distort ((cal.cams.getD k default).UnDistort
            (detAt iframes k (m.indices.getD k 0)))).x ∧
      (row cal framenumber m m.raydist).getD (6 + 3 * k) 0
        = ((cal.cams.getD k default).Distort ((cal.cams.getD k default).UnDistort
            (detAt iframes k (m.indices.getD k 0)))).y ∧
      (row cal framenumber m m.raydist).getD (7 + 3 * k) 0
        = (detAt iframes k (m.indices.getD k 0)).ori := by
    intro k hk h4
    obtain ⟨_, h2, h3⟩ := goodFull_slots sqrt cal iframes m hm k hk
    obtain ⟨r1, r2, r3⟩ := row_slot cal framenumber m m.raydist k h4
    obtain ⟨o1, o2, _, _⟩ := distort_undistort (cal.cams.getD k default)
      (detAt iframes k (m.indices.getD k 0))
    refine ⟨?_, ?_, ?_, ?_⟩
    · rw [h3, WorldPositionBody_source sqrt cal (-1) m.touse k h4, h2, o2]
    · rw [r1, h2]
    · rw [r2, h2]
    · rw [r3, h2, o1]
  refine ⟨fun k hk => (goodFull_slots sqrt cal iframes m hm k hk).1, key, ?_, ?_⟩
  · intro hex hpix k hk h4
    obtain ⟨k1, k2, k3, k4⟩ := key k hk h4
    have hc : cal.cams.getD k default ∈ cal.cams := by
      rw [List.getD_eq_getElem _ _ hk]
      exact List.getElem_mem _
    obtain ⟨hw, hh⟩ := hpix _ hc
    obtain ⟨_, _, ex, ey⟩ := distort_undistort (cal.cams.getD k default)
      (detAt iframes k (m.indices.getD k 0))
    rw [ex hex hw, ey hex hh] at k1
    rw [ex hex hw] at k2
    rw [ey hex hh] at k3
    exact ⟨k1, k2, k3, k4⟩
  · intro hlen
    unfold Stereomatch
    rw [if_neg (by simpa using hlen)]
    refine ⟨_, rfl, ?_, ?_⟩
    · exact List.mem_append_left _ (List.mem_map.2 ⟨_, hm, rfl⟩)
    · exact List.mem_append_left _ (List.mem_map.2 ⟨_, hm, rfl⟩)

end SourcePixelTheorem

section SourcePixelEvaluations

/-- Witness of C37 (as amended) on `framesPixel`, in exact arithmetic: the
cameras have 3 by 5 pixels of pitch `1/2` by `1/4`; the one full match is
written with the pixel coordinates and the orientations of its four input
detections in the columns 5 to 16. -/
theorem C37_source_pixels_witness :
    okScene calPixel framesPixel = true ∧
    (∀ c ∈ calPixel.cams, c.wpix ≠ 0 ∧ c.hpix ≠ 0) ∧
    (corrframes calPixel framesPixel).map (fun f => f.pos.map fun p => (p.x, p.y, p.ori))
      = [[(36 / 25, -48 / 25, 10)], [(4 / 5, -16 / 15, 20)], [(9 / 20, -3 / 5, 30)],
          [(36 / 175, -48 / 175, 40)]] ∧
    (Stereomatch sqrtQ calPixel framesPixel 7).toOption.map (fun r => r.rows)
      = some [[7, 36 / 5, -48 / 5, 0, 0, 97 / 25, 242 / 25, 10, 13 / 5, 94 / 15, 20,
          19 / 10, 22 / 5, 30, 247 / 175, 542 / 175, 40]] ∧
    ∀ k, k < calPixel.ncams → k < 4 →
      ((goodFull sqrtQ calPixel framesPixel).getD 0 default).pos.source k
        = ((detAt framesPixel k
              (((goodFull sqrtQ calPixel framesPixel).getD 0 default).indices.getD k 0)).x,
            (detAt framesPixel k
              (((goodFull sqrtQ calPixel framesPixel).getD 0 default).indices.getD k 0)).y,
            (detAt framesPixel k
              (((goodFull sqrtQ calPixel framesPixel).getD 0 default).indices.getD k 0)).ori) ∧
      (row calPixel 7 ((goodFull sqrtQ calPixel framesPixel).getD 0 default)
          ((goodFull sqrtQ calPixel framesPixel).getD 0 default).raydist).getD (5 + 3 * k) 0
        = (detAt framesPixel k
            (((goodFull sqrtQ calPixel framesPixel).getD 0 default).indices.getD k 0)).x ∧
      (row calPixel 7 ((goodFull sqrtQ calPixel framesPixel).getD 0 default)
          ((goodFull sqrtQ calPixel framesPixel).getD 0 default).raydist).getD (6 + 3 * k) 0
        = (detAt framesPixel k
            (((goodFull sqrtQ calPixel framesPixel).getD 0 default).indices.getD k 0)).y ∧
      (row calPixel 7 ((goodFull sqrtQ calPixel framesPixel).getD 0 default)
          ((goodFull sqrtQ calPixel framesPixel).getD 0 default).raydist).getD (7 + 3 * k) 0
        = (detAt framesPixel k
            (((goodFull sqrtQ calPixel framesPixel).getD 0 default).indices.getD k 0)).ori :=
  ⟨by decide!, by decide!, by decide!, by decide!,
    (C37_source_pixels sqrtQ calPixel framesPixel 7
      ((goodFull sqrtQ calPixel framesPixel).getD 0 default)
      (by
        rw [List.getD_eq_getElem _ _
          (by decide! : 0 < (goodFull sqrtQ calPixel framesPixel).length)]
        exact List.getElem_mem _)).2.2.1 isExact_exact (by decide!)⟩

/-- Counterexample to C37 as stated, in the arithmetic of `double`.  Every
number of the scene `framesRound` is a `double` and no pitch is zero.  Camera 0
has four pixel columns; its detection is at the column `1/8 + 2^-55`.
`UnDistort` subtracts `Npixw / 2 = 2` and rounds the difference to `-15/8`, as
it does for the column `1/8`: the undistorted frames are those of the regular
scene `framesEighth`.  The one full match uses this detection; the column `x1`
stored in its world point and written in its row is `1/8`, not the input
column. -/
theorem C37_counterexample :
    allDoubles calRound framesRound = true ∧
    (∀ c ∈ calRound.cams, c.wpix ≠ 0 ∧ c.hpix ≠ 0) ∧
    okScene calRound framesEighth = true ∧
    (@corrframes ℚ _ ieee calRound framesRound).map (fun f => f.pos)
      = (corrframes calRound framesEighth).map (fun f => f.pos) ∧
    (@goodFull ℚ _ ieee sqrtQ calRound framesRound).map
        (fun m => (m.indices, (m.pos.source 0).1))
      = [([0, 0, 0, 0], 1 / 8)] ∧
    (rowsOf (@Stereomatch ℚ _ ieee sqrtQ calRound framesRound 7)).map (fun rw => rw.getD 5 0)
      = [1 / 8] ∧
    (detAt framesRound 0 0).x = 1 / 8 + 1 / 2 ^ 55 ∧
    (1 / 8 : ℚ) ≠ 1 / 8 + 1 / 2 ^ 55 := by
  decide!

end SourcePixelEvaluations

end PTV
